import Mathlib

/-! # charls: the JPEG-LS bit reader `DecoderStrategy` (src/decoderstrategy.h)

A shallow embedding of the bit reader of the charls JPEG-LS decoder and a
verification of its contract.

Conventions of the embedding

* `sz` is `sizeof(bufType)` (`bufType = std::size_t`), so the cache has
  `bufType_bit_count sz = sz * 8` bits; the 64-bit build is `sz = 8`.
* the cache `_readCache` is a natural number below `2 ^ (sz * 8)`; every
  operation that can overflow it reduces modulo `2 ^ (sz * 8)`.
* `_validBits` and the values returned to the caller are `int32_t`: they are
  integers, and the conversions of the source are explicit (`toInt32`, `sizeT`).
* pointers are offsets from the start of the memory they point into.
* a C++ exception is `Except.error`; a shift by an amount outside the width of
  its operand and a signed overflow are reported as `Fault.UndefinedBehaviour`.
* the only loop of the reader without an evident bound, the `for (;;)` of
  `ReadHighbits`, takes a fuel argument and reports `Fault.OutOfFuel` when it
  is used up; so does the outer loop of `read_pnm_header`.
* the PNM helpers of the test program (test/main.cpp) read from an `IStream`,
  a finite sequence of character codes with the flags `eofbit` and `failbit`.
-/

namespace charls

/-! ## The program: `DecoderStrategy` -/

/-- Modelled from the spec: the error codes `invalid_compressed_data` and
`too_much_compressed_data` of `charls::ApiResult` (declared in a header that is not
part of the sources at hand), thrown inside a `charls_error`.  The two further
constructors are not errors of the program: `UndefinedBehaviour` marks an execution
that leaves the defined behaviour of C++, `OutOfFuel` an evaluation of the model
that was given too little fuel. -/
inductive Fault where
  | InvalidCompressedData
  | TooMuchCompressedData
  | UndefinedBehaviour
  | OutOfFuel
deriving DecidableEq, Repr

/-- Modelled from the spec: `JpegMarkerCode::Start`, "the marker escape byte 0xFF"
(jpegmarkercode.h is not part of the sources at hand). -/
def JpegMarkerCode_Start : Nat := 0xFF

/-- The number of bits of `bufType`: `sizeof(bufType) * 8`. -/
def bufType_bit_count (sz : Nat) : Nat := sz * 8

/-- Conversion of an integer to `std::size_t` (of `sz` bytes). -/
def sizeT (sz : Nat) (x : Int) : Int := x % 2 ^ bufType_bit_count sz

/-- Conversion of an integer to `int32_t` (two's complement). -/
def toInt32 (x : Int) : Int := (x + 2 ^ 31) % 2 ^ 32 - 2 ^ 31

/-- The operator `x << n` on `bufType`: undefined unless `0 <= n < width`. -/
def shiftLeft (sz : Nat) (x : Nat) (n : Int) : Except Fault Nat :=
  if 0 ≤ n ∧ n < bufType_bit_count sz then
    .ok ((x <<< n.toNat) % 2 ^ bufType_bit_count sz)
  else .error .UndefinedBehaviour

/-- The operator `x >> n` on `bufType`: undefined unless `0 <= n < width`. -/
def shiftRight (sz : Nat) (x : Nat) (n : Int) : Except Fault Nat :=
  if 0 ≤ n ∧ n < bufType_bit_count sz then .ok (x >>> n.toNat)
  else .error .UndefinedBehaviour

/-- The argument of `Init`: either a stream (`rawStream`, the bytes it will still
deliver) or a raw byte range (`rawData`, with `count = rawData.length`).  The raw
range is borrowed from a buffer of the caller; `around` gives the bytes of that
buffer at the offsets outside the range. -/
structure ByteStreamInfo where
  rawStream : Option (List Nat)
  rawData : List Nat
  around : Int → Nat

/-- The fields of `DecoderStrategy` that the bit reader uses.  `rawData`/`around`
is the memory the pointers refer to when `_byteStream` is null, `buffer` (the
vector `_buffer`) when it is not. -/
structure DecoderStrategy where
  buffer : List Nat
  byteStream : Option (List Nat)
  rawData : List Nat
  around : Int → Nat
  readCache : Nat
  validBits : Int
  position : Nat
  nextFFPosition : Int
  endPosition : Nat

/-- The bytes the pointers `_position`, `_endPosition`, `_nextFFPosition` index. -/
def memory (s : DecoderStrategy) : List Nat :=
  match s.byteStream with
  | none => s.rawData
  | some _ => s.buffer

/-- The byte `p[0]` for a pointer `p` (an offset into `memory`). -/
def byteAt (s : DecoderStrategy) (p : Int) : Nat :=
  if 0 ≤ p ∧ p < (memory s).length then (memory s).getD p.toNat 0 else s.around p

/-- Modelled from the spec: `FromBigEndian<sizeof(bufType)>::Read` (util.h is not part
of the sources at hand): "bytes may be loaded directly into the cache in big-endian
order". -/
def FromBigEndianRead (sz : Nat) (s : DecoderStrategy) (p : Nat) : Nat :=
  (List.range sz).foldl (fun acc i => acc * 256 + byteAt s ((p + i : Nat) : Int)) 0

/-- Loop of `FindNextFF`; the fuel is the distance to `_endPosition`. -/
def FindNextFFLoop (s : DecoderStrategy) : Nat → Nat → Nat
  | 0, positionNextFF => positionNextFF
  | fuel + 1, positionNextFF =>
    if positionNextFF < s.endPosition then
      if byteAt s positionNextFF = JpegMarkerCode_Start then positionNextFF
      else FindNextFFLoop s fuel (positionNextFF + 1)
    else positionNextFF

/-- Function `FindNextFF`: the first `0xFF` at or after `_position`, or `_endPosition`. -/
def FindNextFF (s : DecoderStrategy) : Nat :=
  FindNextFFLoop s (s.endPosition - s.position) s.position

/-- Function `AddBytesFromStream`: nothing without a stream or at its end, or when more than
64 unread bytes are left; else the unread bytes slide to the front of the buffer and
the stream fills the rest (`sgetn` delivers what it has, at most what is asked). -/
def AddBytesFromStream (s : DecoderStrategy) : DecoderStrategy :=
  match s.byteStream with
  | none => s
  | some [] => s
  | some (c :: cs) =>
    let count : Int := (s.endPosition : Int) - s.position
    if count < 0 ∨ count > 64 then s
    else
      let n := count.toNat
      let kept := (List.range n).map (fun i => byteAt s ((s.position + i : Nat) : Int))
      let room := s.buffer.length - n
      let readbytes := min room (c :: cs).length
      { s with
        buffer := kept ++ (c :: cs).take readbytes ++ s.buffer.drop (n + readbytes)
        byteStream := some ((c :: cs).drop readbytes)
        position := 0
        endPosition := n + readbytes
        nextFFPosition := s.nextFFPosition - s.position }

/-- Function `Skip`: drop `length` bits from the top of the cache. -/
def Skip (sz : Nat) (s : DecoderStrategy) (length : Int) : Except Fault DecoderStrategy :=
  match shiftLeft sz s.readCache length with
  | .error e => .error e
  | .ok c => .ok { s with validBits := s.validBits - length, readCache := c }

/-- Function `OptimizedRead`: if no `0xFF` is in sight, load whole bytes without looking at
them.  `bytesToRead` is computed in `size_t`; after the shift by `_validBits` was
defined, `bufType_bit_count - _validBits` is in `(0, bufType_bit_count]`. -/
def OptimizedRead (sz : Nat) (s : DecoderStrategy) : Except Fault (Bool × DecoderStrategy) :=
  if (s.position : Int) < s.nextFFPosition - ((sz : Int) - 1) then
    match shiftRight sz (FromBigEndianRead sz s s.position) s.validBits with
    | .error e => .error e
    | .ok w =>
      let bytesToRead : Int := sizeT sz ((bufType_bit_count sz : Int) - s.validBits) / 8
      .ok (true, { s with
        readCache := s.readCache ||| w
        position := s.position + bytesToRead.toNat
        validBits := s.validBits + bytesToRead * 8 })
  else .ok (false, s)

/-- The `do ... while` loop of `MakeValid`.  The result `(false, s)` is a `return`
from inside the loop, `(true, s)` the exit through the loop condition (which compares
in `size_t`).  Every iteration advances `_position`, and the loop returns when it
reaches `_endPosition`: the fuel is their distance plus one. -/
def MakeValidLoop (sz : Nat) : Nat → DecoderStrategy → Except Fault (Bool × DecoderStrategy)
  | 0, _ => .error .OutOfFuel
  | fuel + 1, s =>
    if s.position ≥ s.endPosition then
      if s.validBits ≤ 0 then .error .InvalidCompressedData else .ok (false, s)
    else
      let valnew := byteAt s s.position
      if valnew = JpegMarkerCode_Start ∧
          ((s.position : Int) = (s.endPosition : Int) - 1 ∨
            (byteAt s ((s.position : Int) + 1)) &&& 0x80 ≠ 0) then
        if s.validBits ≤ 0 then .error .InvalidCompressedData else .ok (false, s)
      else
        match shiftLeft sz valnew (sizeT sz ((bufType_bit_count sz : Int) - 8 - s.validBits)) with
        | .error e => .error e
        | .ok w =>
          let s1 := { s with
            readCache := s.readCache ||| w
            position := s.position + 1
            validBits := s.validBits + 8 }
          let s2 := if valnew = JpegMarkerCode_Start then
            { s1 with validBits := s1.validBits - 1 } else s1
          if sizeT sz s2.validBits < (bufType_bit_count sz : Int) - 8 then
            MakeValidLoop sz fuel s2
          else .ok (true, s2)

/-- Function `MakeValid`: refill the cache. -/
def MakeValid (sz : Nat) (s : DecoderStrategy) : Except Fault DecoderStrategy :=
  match OptimizedRead sz s with
  | .error e => .error e
  | .ok (true, s1) => .ok s1
  | .ok (false, s1) =>
    let s2 := AddBytesFromStream s1
    match MakeValidLoop sz (s2.endPosition - s2.position + 1) s2 with
    | .error e => .error e
    | .ok (false, s3) => .ok s3
    | .ok (true, s3) => .ok { s3 with nextFFPosition := FindNextFF s3 }

/-- Function `Init`: reset the cache, point the reader at the input and fill the cache. -/
def Init (sz : Nat) (s : DecoderStrategy) (compressedStream : ByteStreamInfo) :
    Except Fault DecoderStrategy :=
  let s0 := { s with validBits := 0, readCache := 0 }
  let s1 :=
    match compressedStream.rawStream with
    | some stream =>
      AddBytesFromStream { s0 with
        buffer := (s0.buffer ++ List.replicate (40000 - s0.buffer.length) 0).take 40000
        position := 0
        endPosition := 0
        byteStream := some stream }
    | none =>
      { s0 with
        byteStream := none
        rawData := compressedStream.rawData
        around := compressedStream.around
        position := 0
        endPosition := compressedStream.rawData.length }
  MakeValid sz { s1 with nextFFPosition := FindNextFF s1 }

/-- Loop of `GetCurBytePos`; every iteration lowers `validBits` by at least 7, so
`validBits + 1` iterations of fuel are never used up. -/
def GetCurBytePosLoop (s : DecoderStrategy) : Nat → Int → Int → Int
  | 0, _, compressedBytes => compressedBytes
  | fuel + 1, validBits, compressedBytes =>
    let cbitLast : Int := if byteAt s (compressedBytes - 1) = JpegMarkerCode_Start then 7 else 8
    if validBits < cbitLast then compressedBytes
    else GetCurBytePosLoop s fuel (validBits - cbitLast) (compressedBytes - 1)

/-- Function `GetCurBytePos`: the pointer to the byte of the next unconsumed bit. -/
def GetCurBytePos (s : DecoderStrategy) : Int :=
  GetCurBytePosLoop s (s.validBits.toNat + 1) s.validBits s.position

/-- Function `ReadValue`: consume `length` bits. -/
def ReadValue (sz : Nat) (s : DecoderStrategy) (length : Int) :
    Except Fault (Int × DecoderStrategy) :=
  let filled : Except Fault DecoderStrategy :=
    if s.validBits < length then
      match MakeValid sz s with
      | .error e => .error e
      | .ok s1 => if s1.validBits < length then .error .InvalidCompressedData else .ok s1
    else .ok s
  match filled with
  | .error e => .error e
  | .ok s1 =>
    match shiftRight sz s1.readCache (sizeT sz ((bufType_bit_count sz : Int) - length)) with
    | .error e => .error e
    | .ok result =>
      match Skip sz s1 length with
      | .error e => .error e
      | .ok s2 => .ok (toInt32 result, s2)

/-- Function `PeekByte`: the next 8 bits, not consumed. -/
def PeekByte (sz : Nat) (s : DecoderStrategy) : Except Fault (Int × DecoderStrategy) :=
  let filled : Except Fault DecoderStrategy :=
    if s.validBits < 8 then MakeValid sz s else .ok s
  match filled with
  | .error e => .error e
  | .ok s1 =>
    match shiftRight sz s1.readCache (sizeT sz ((bufType_bit_count sz : Int) - 8)) with
    | .error e => .error e
    | .ok result => .ok (toInt32 result, s1)

/-- Function `ReadBit`: consume one bit. -/
def ReadBit (sz : Nat) (s : DecoderStrategy) : Except Fault (Bool × DecoderStrategy) :=
  let filled : Except Fault DecoderStrategy :=
    if s.validBits ≤ 0 then MakeValid sz s else .ok s
  match filled with
  | .error e => .error e
  | .ok s1 =>
    match shiftLeft sz 1 ((bufType_bit_count sz : Int) - 1) with
    | .error e => .error e
    | .ok mask =>
      let bSet := decide (s1.readCache &&& mask ≠ 0)
      match Skip sz s1 1 with
      | .error e => .error e
      | .ok s2 => .ok (bSet, s2)

/-- The `for` loop of `Peek0Bits`: `fuel` is the number of iterations left of 16. -/
def Peek0BitsLoop (sz : Nat) : Nat → Nat → Int → Int
  | 0, _, _ => -1
  | fuel + 1, valTest, count =>
    if valTest &&& 2 ^ (bufType_bit_count sz - 1) ≠ 0 then count
    else Peek0BitsLoop sz fuel ((valTest <<< 1) % 2 ^ bufType_bit_count sz) (count + 1)

/-- Function `Peek0Bits`: the number of leading zero bits of the cache, `-1` if above 15. -/
def Peek0Bits (sz : Nat) (s : DecoderStrategy) : Except Fault (Int × DecoderStrategy) :=
  let filled : Except Fault DecoderStrategy :=
    if s.validBits < 16 then MakeValid sz s else .ok s
  match filled with
  | .error e => .error e
  | .ok s1 => .ok (Peek0BitsLoop sz 16 s1.readCache 0, s1)

/-- The `for (;;)` loop of `ReadHighbits`; `highbits++` on an `int32_t` is undefined
at `INT32_MAX`. -/
def ReadHighbitsLoop (sz : Nat) : Nat → DecoderStrategy → Int →
    Except Fault (Int × DecoderStrategy)
  | 0, _, _ => .error .OutOfFuel
  | fuel + 1, s, highbits =>
    match ReadBit sz s with
    | .error e => .error e
    | .ok (true, s1) => .ok (highbits, s1)
    | .ok (false, s1) =>
      if highbits + 1 < 2 ^ 31 then ReadHighbitsLoop sz fuel s1 (highbits + 1)
      else .error .UndefinedBehaviour

/-- Function `ReadHighbits`: consume a unary prefix (zeros up to and including the next 1). -/
def ReadHighbits (sz : Nat) (fuel : Nat) (s : DecoderStrategy) :
    Except Fault (Int × DecoderStrategy) :=
  match Peek0Bits sz s with
  | .error e => .error e
  | .ok (count, s1) =>
    if count ≥ 0 then
      match Skip sz s1 (count + 1) with
      | .error e => .error e
      | .ok s2 => .ok (count, s2)
    else
      match Skip sz s1 15 with
      | .error e => .error e
      | .ok s2 => ReadHighbitsLoop sz fuel s2 15

/-- Function `ReadLongValue`: consume up to 32 bits, as `(length - 24, 24)` above 24.  The
operands of `+` are evaluated left to right; `x << 24` on `int32_t` wraps into the
sign bit, after which adding a value below `2 ^ 24` cannot overflow. -/
def ReadLongValue (sz : Nat) (s : DecoderStrategy) (length : Int) :
    Except Fault (Int × DecoderStrategy) :=
  if length ≤ 24 then ReadValue sz s length
  else
    match ReadValue sz s (length - 24) with
    | .error e => .error e
    | .ok (hi, s1) =>
      match ReadValue sz s1 24 with
      | .error e => .error e
      | .ok (lo, s2) => .ok (toInt32 (hi * 2 ^ 24) + lo, s2)

/-- Function `EndScan`: the scan must end just before a marker with nothing left to read. -/
def EndScan (sz : Nat) (s : DecoderStrategy) : Except Fault DecoderStrategy :=
  let checked : Except Fault DecoderStrategy :=
    if byteAt s s.position ≠ JpegMarkerCode_Start then
      match ReadBit sz s with
      | .error e => .error e
      | .ok (_, s1) =>
        if byteAt s1 s1.position ≠ JpegMarkerCode_Start then .error .TooMuchCompressedData
        else .ok s1
    else .ok s
  match checked with
  | .error e => .error e
  | .ok s1 => if s1.readCache ≠ 0 then .error .TooMuchCompressedData else .ok s1

/-- A decoder before its first `Init`: all members value-initialised. -/
def fresh : DecoderStrategy :=
  { buffer := [], byteStream := none, rawData := [], around := fun _ => 0,
    readCache := 0, validBits := 0, position := 0, nextFFPosition := 0, endPosition := 0 }

/-- A raw byte range lying in memory that is zero elsewhere. -/
def rawInput (data : List Nat) : ByteStreamInfo :=
  { rawStream := none, rawData := data, around := fun _ => 0 }

/-! ## Bit strings, the de-stuffed input and the abstraction of the reader state -/

/-- The `n` most significant bits, the highest first, of the `W`-bit word `x`. -/
def topBits (W x n : Nat) : List Bool := (List.range n).map (fun i => x.testBit (W - 1 - i))

/-- The unsigned integer written by a list of bits, most significant bit first. -/
def bitsValue (l : List Bool) : Nat := l.foldl (fun acc b => 2 * acc + b.toNat) 0

/-- The bits that the bytes `l` still have to deliver to the cache, up to the next marker, in
the accounting of `MakeValid`: a stuffed `0xFF` adds its 7 upper bits, and the byte after it adds
8 bits, the first of which is the lowest bit of the `0xFF` (a 1; the stuffing bit of the byte
itself is 0 and is or-ed onto it).  `pf` tells whether the byte before `l` is a `0xFF`. -/
def upcomingBits : Bool → List Nat → List Bool
  | _, [] => []
  | pf, b :: rest =>
    if b = 0xFF then
      match rest with
      | [] => []
      | c :: _ => if c &&& 0x80 ≠ 0 then [] else List.replicate 7 true ++ upcomingBits true rest
    else topBits 8 (if pf then b ||| 0x80 else b) 8 ++ upcomingBits false rest

/-- The de-stuffed input, as the specification describes it: the bits of the bytes up to the
first marker (a `0xFF` that is the last byte or is followed by a byte with bit 7 set), every
byte giving its 8 bits, most significant first, except that a byte following a `0xFF` gives
only its low 7 bits. -/
def destuffed : List Nat → List Bool
  | [] => []
  | [b] => if b = 0xFF then [] else topBits 8 b 8
  | b :: c :: rest =>
    if b = 0xFF then
      if c &&& 0x80 ≠ 0 then [] else topBits 8 0xFF 8 ++ topBits 7 c 7 ++ destuffed rest
    else topBits 8 b 8 ++ destuffed (c :: rest)

/-- Whether the byte before `_position` is a `0xFF`. -/
def prevFF (s : DecoderStrategy) : Bool :=
  decide (0 < s.position ∧ s.rawData.getD (s.position - 1) 0 = 0xFF)

/-- The bits that the bytes from `_position` on still have to deliver to the cache. -/
def upcoming (s : DecoderStrategy) : List Bool :=
  upcomingBits (prevFF s) (s.rawData.drop s.position)

/-- The unconsumed bits of a reader state: the valid bits of the cache, then the bits still
to be loaded. -/
def remaining (s : DecoderStrategy) : List Bool :=
  topBits 64 s.readCache s.validBits.toNat ++ upcoming s

/-- A marker at index `i` of the input: a `0xFF` that is the last byte or is followed by
a byte with bit 7 set. -/
def markerAt (data : List Nat) (i : Nat) : Prop :=
  i < data.length ∧ data.getD i 0 = 0xFF ∧
    (i + 1 = data.length ∨ data.getD (i + 1) 0 &&& 0x80 ≠ 0)

/-- The part of the invariant that does not concern `_nextFFPosition`: the reader is on a raw
range of bytes, has passed no marker, the cache is a 64-bit word with `0 ≤ validBits ≤ 64`, and
the bits of the cache below the valid ones are bits that the next bytes will deliver again
(`garbage`: the fast path leaves such bits), the lowest bit of a preceding stuffed `0xFF` being
one of them (`prev`). -/
structure Core (s : DecoderStrategy) : Prop where
  raw : s.byteStream = none
  bytes : ∀ b ∈ s.rawData, b < 256
  endp : s.endPosition = s.rawData.length
  pos_le : s.position ≤ s.rawData.length
  nomark : ∀ i, i < s.position → ¬ markerAt s.rawData i
  vlo : 0 ≤ s.validBits
  vhi : s.validBits ≤ 64
  cache_lt : s.readCache < 2 ^ 64
  prev : prevFF s = true → s.position < s.rawData.length ∧ s.rawData.getD s.position 0 < 128 ∧
    s.validBits < 64 ∧ s.readCache.testBit (63 - s.validBits.toNat) = true
  garbage : ∀ j, s.validBits.toNat + j < 64 →
    s.readCache.testBit (63 - (s.validBits.toNat + j)) = true → (upcoming s).getD j false = true

/-- The test of `MakeValid` that ends the refill: the end of the input or a marker. -/
def stopped (s : DecoderStrategy) : Prop :=
  s.position ≥ s.endPosition ∨
    (byteAt s s.position = JpegMarkerCode_Start ∧
      ((s.position : Int) = (s.endPosition : Int) - 1 ∨ (byteAt s ((s.position : Int) + 1)) &&& 0x80 ≠ 0))

/-- The test `stopped` is decidable. -/
instance (s : DecoderStrategy) : Decidable (stopped s) := by unfold stopped; infer_instance

/-- The state after one byte was loaded by the loop of `MakeValid`. -/
def loadByte (s : DecoderStrategy) : DecoderStrategy :=
  { s with
    readCache := s.readCache ||| ((byteAt s s.position <<< (56 - s.validBits.toNat)) % 2 ^ 64)
    position := s.position + 1
    validBits := s.validBits + (if byteAt s s.position = 0xFF then 7 else 8) }

/-- What a successful refill from `s` to `s'` achieves. -/
structure Refilled (s s' : DecoderStrategy) : Prop where
  core : Core s'
  rem : remaining s' = remaining s
  pos : 1 ≤ s'.validBits
  full : 56 ≤ s'.validBits ∨ upcoming s' = []
  data : s'.rawData = s.rawData
  around : s'.around = s.around
  buffer : s'.buffer = s.buffer
  posle : s.position ≤ s'.position

/-- The invariant of the reader on a raw byte range (64-bit cache). -/
structure Inv (s : DecoderStrategy) : Prop where
  core : Core s
  nff_le : s.nextFFPosition ≤ s.rawData.length
  nff : ∀ i : Nat, s.position ≤ i → (i : Int) < s.nextFFPosition → s.rawData.getD i 0 ≠ 0xFF

/-- The number whose base-256 digits, most significant first, are the bytes. -/
def bigEndian (bs : List Nat) : Nat := bs.foldl (fun acc b => acc * 256 + b) 0

/-- The state after `k` bytes were loaded one after the other by the loop of `MakeValid`. -/
def loadBytes : Nat → DecoderStrategy → DecoderStrategy
  | 0, s => s
  | k + 1, s => loadBytes k (loadByte s)

/-- What an operation from `s` to `s'` that consumes `k` bits achieves. -/
structure Consumed (k : Nat) (s s' : DecoderStrategy) : Prop where
  inv : Inv s'
  rem : remaining s' = (remaining s).drop k
  data : s'.rawData = s.rawData
  around : s'.around = s.around
  buffer : s'.buffer = s.buffer
  posle : s.position ≤ s'.position

/-- The reader as `Init` leaves it on a raw byte range before `FindNextFF` and the first refill. -/
def initState (s0 : DecoderStrategy) (info : ByteStreamInfo) : DecoderStrategy :=
  { s0 with
    validBits := 0
    readCache := 0
    byteStream := none
    rawData := info.rawData
    around := info.around
    position := 0
    endPosition := info.rawData.length }

/-- The number of bits that `EndScan` consumes. -/
def endScanBits (s : DecoderStrategy) : Nat :=
  if byteAt s s.position = JpegMarkerCode_Start then 0 else 1

/-- The states of the reader (64-bit cache) that the operations of `DecoderStrategy` reach after
`Init` on the input `info`, with the number of bits consumed so far. -/
inductive Reach (info : ByteStreamInfo) : Nat → DecoderStrategy → Prop where
  | init (s0 s : DecoderStrategy) : Init 8 s0 info = .ok s → Reach info 0 s
  | makeValid (n : Nat) (s s' : DecoderStrategy) : Reach info n s → MakeValid 8 s = .ok s' →
      Reach info n s'
  | readValue (n : Nat) (s s' : DecoderStrategy) (k : Nat) (x : Int) : Reach info n s →
      1 ≤ k → k ≤ 31 → ReadValue 8 s k = .ok (x, s') → Reach info (n + k) s'
  | peekByte (n : Nat) (s s' : DecoderStrategy) (x : Int) : Reach info n s →
      PeekByte 8 s = .ok (x, s') → Reach info n s'
  | readBit (n : Nat) (s s' : DecoderStrategy) (b : Bool) : Reach info n s →
      ReadBit 8 s = .ok (b, s') → Reach info (n + 1) s'
  | readHighbits (n : Nat) (s s' : DecoderStrategy) (fuel : Nat) (x : Int) : Reach info n s →
      ReadHighbits 8 fuel s = .ok (x, s') → Reach info (n + (x.toNat + 1)) s'
  | readLongValue (n : Nat) (s s' : DecoderStrategy) (k : Nat) (x : Int) : Reach info n s →
      1 ≤ k → k ≤ 32 → ReadLongValue 8 s k = .ok (x, s') → Reach info (n + k) s'
  | endScan (n : Nat) (s s' : DecoderStrategy) : Reach info n s → EndScan 8 s = .ok s' →
      Reach info (n + endScanBits s) s'

/-- The input is a raw byte range (no stream) of bytes (values below 256). -/
def RawInput (info : ByteStreamInfo) : Prop :=
  info.rawStream = none ∧ ∀ b ∈ info.rawData, b < 256

/-- What holds in every state reached after `n` bits were consumed: the invariant, and the
unconsumed bits are the de-stuffed input from bit `n` on. -/
structure Tracks (info : ByteStreamInfo) (n : Nat) (s : DecoderStrategy) : Prop where
  inv : Inv s
  rem : remaining s = (destuffed info.rawData).drop n
  le : n ≤ (destuffed info.rawData).length
  data : s.rawData = info.rawData
  around : s.around = info.around

/-- The calls `ReadValue(k_1)`, ..., `ReadValue(k_m)` one after the other: the values they
return and the final state, or the first fault. -/
def readValues (sz : Nat) : DecoderStrategy → List Nat → Except Fault (List Int × DecoderStrategy)
  | s, [] => .ok ([], s)
  | s, k :: ks =>
    match ReadValue sz s (k : Int) with
    | .error e => .error e
    | .ok (x, s1) =>
      match readValues sz s1 ks with
      | .error e => .error e
      | .ok (xs, s2) => .ok (x :: xs, s2)

/-- The values of the successive fields of lengths `ks` of a bit list. -/
def chunkValues : List Bool → List Nat → List Int
  | _, [] => []
  | bits, k :: ks => (bitsValue (bits.take k) : Int) :: chunkValues (bits.drop k) ks

/-- Bits `[a, a + k)` of the input read as one big-endian bit string, as a number. -/
def bitField (data : List Nat) (a k : Nat) : Nat :=
  (bigEndian data / 2 ^ (8 * data.length - (a + k))) % 2 ^ k

/-- The values of the successive fields of lengths `ks` of the input, from bit `a` on. -/
def fieldValues (data : List Nat) : Nat → List Nat → List Int
  | _, [] => []
  | a, k :: ks => (bitField data a k : Int) :: fieldValues data (a + k) ks

/-- The data bits of the input bytes from a position up to (not including) the next marker or
the end of the input: 8 for a byte, 7 for a byte that follows a `0xFF`.  `afterFF` tells
whether the byte before the first one is a `0xFF`. -/
def dataBitsToMarker : Bool → List Nat → Nat
  | _, [] => 0
  | afterFF, b :: rest =>
    if b = 0xFF then
      match rest with
      | [] => 0
      | c :: _ =>
        if c &&& 0x80 ≠ 0 then 0
        else (if afterFF then 7 else 8) + dataBitsToMarker true rest
    else (if afterFF then 7 else 8) + dataBitsToMarker false rest

/-- The remaining bits as the specification counts them: the valid cached bits plus the data
bits of the input bytes from `_position` up to the next marker or the end of the input. -/
def countedRemaining (s : DecoderStrategy) : Nat :=
  s.validBits.toNat + dataBitsToMarker (prevFF s) (s.rawData.drop s.position)

/-- The number of bits that a byte adds to `_validBits` when `MakeValid` loads it, which is
also what `GetCurBytePos` takes back for it: 7 for a `0xFF`, 8 for any other byte. -/
def loadedUnit (b : Nat) : Nat := if b = 0xFF then 7 else 8

/-- The number of bits that `MakeValid` counts for a list of loaded bytes. -/
def loadedBits (l : List Nat) : Nat := (l.map loadedUnit).sum

/-- The byte position after `n` consumed bits in the accounting of the cache: the number of
leading bytes of which a bit has been consumed, when a `0xFF` counts for 7 bits and every
other byte for 8 (so that the lowest bit of a stuffed `0xFF` goes with the byte after it). -/
def cachePos : List Nat → Nat → Nat
  | [], _ => 0
  | b :: rest, n => if n = 0 then 0 else 1 + cachePos rest (n - loadedUnit b)

/-- The byte position after `n` consumed bits as the specification describes it: the index of
the first input byte none of whose data bits has been consumed, when the byte after a `0xFF`
carries 7 data bits and every other byte 8.  `afterFF` tells whether the byte before the list
is a `0xFF`. -/
def firstUntouched : Bool → List Nat → Nat → Nat
  | _, [], _ => 0
  | afterFF, b :: rest, n =>
    if n = 0 then 0
    else 1 + firstUntouched (decide (b = 0xFF)) rest (n - (if afterFF then 7 else 8))

/-- The reader with another content of the vector `_buffer` (which is not used on a raw byte
range). -/
def setBuffer (b : List Nat) (s : DecoderStrategy) : DecoderStrategy := { s with buffer := b }

/-- A result with another content of `_buffer` in its state. -/
def resBuffer {α : Type} (b : List Nat) (r : Except Fault (α × DecoderStrategy)) :
    Except Fault (α × DecoderStrategy) :=
  match r with
  | .error e => .error e
  | .ok (x, s) => .ok (x, setBuffer b s)

/-- A call of an operation of the reader, with its argument. -/
inductive ReaderOp where
  | makeValid
  | readValue (length : Int)
  | peekByte
  | readBit
  | readHighbits (fuel : Nat)
  | readLongValue (length : Int)
  | endScan
  | getCurBytePos

/-- The value that a call returns (a `bool` as 0 or 1, nothing as 0) and the state it
leaves. -/
def runOp (sz : Nat) (s : DecoderStrategy) : ReaderOp → Except Fault (Int × DecoderStrategy)
  | .makeValid =>
    match MakeValid sz s with
    | .error e => .error e
    | .ok s1 => .ok (0, s1)
  | .readValue length => ReadValue sz s length
  | .peekByte => PeekByte sz s
  | .readBit =>
    match ReadBit sz s with
    | .error e => .error e
    | .ok (b, s1) => .ok ((if b then 1 else 0), s1)
  | .readHighbits fuel => ReadHighbits sz fuel s
  | .readLongValue length => ReadLongValue sz s length
  | .endScan =>
    match EndScan sz s with
    | .error e => .error e
    | .ok s1 => .ok (0, s1)
  | .getCurBytePos => .ok (GetCurBytePos s, s)

/-- A sequence of calls, one after the other: the values they return and the final state, or
the first fault. -/
def runOps (sz : Nat) : DecoderStrategy → List ReaderOp →
    Except Fault (List Int × DecoderStrategy)
  | s, [] => .ok ([], s)
  | s, op :: ops =>
    match runOp sz s op with
    | .error e => .error e
    | .ok (x, s1) =>
      match runOps sz s1 ops with
      | .error e => .error e
      | .ok (xs, s2) => .ok (x :: xs, s2)

/-! ## The abstraction and the invariant of the reader with a 32-bit cache (`sz = 4`) -/

/-- The unconsumed bits of a reader state with a 32-bit cache: the valid bits of the cache,
then the bits still to be loaded. -/
def remaining32 (s : DecoderStrategy) : List Bool :=
  topBits 32 s.readCache s.validBits.toNat ++ upcoming s

/-- The part of the invariant that does not concern `_nextFFPosition`: the reader is on a raw
range of bytes, has passed no marker, the cache is a 32-bit word with `0 ≤ validBits ≤ 32`, and
the bits of the cache below the valid ones are bits that the next bytes will deliver again
(`garbage`: the fast path leaves such bits), the lowest bit of a preceding stuffed `0xFF` being
one of them (`prev`). -/
structure Core32 (s : DecoderStrategy) : Prop where
  raw : s.byteStream = none
  bytes : ∀ b ∈ s.rawData, b < 256
  endp : s.endPosition = s.rawData.length
  pos_le : s.position ≤ s.rawData.length
  nomark : ∀ i, i < s.position → ¬ markerAt s.rawData i
  vlo : 0 ≤ s.validBits
  vhi : s.validBits ≤ 32
  cache_lt : s.readCache < 2 ^ 32
  prev : prevFF s = true → s.position < s.rawData.length ∧ s.rawData.getD s.position 0 < 128 ∧
    s.validBits < 32 ∧ s.readCache.testBit (31 - s.validBits.toNat) = true
  garbage : ∀ j, s.validBits.toNat + j < 32 →
    s.readCache.testBit (31 - (s.validBits.toNat + j)) = true → (upcoming s).getD j false = true

/-- The state after one byte was loaded by the loop of `MakeValid` (32-bit cache). -/
def loadByte32 (s : DecoderStrategy) : DecoderStrategy :=
  { s with
    readCache := s.readCache ||| ((byteAt s s.position <<< (24 - s.validBits.toNat)) % 2 ^ 32)
    position := s.position + 1
    validBits := s.validBits + (if byteAt s s.position = 0xFF then 7 else 8) }

/-- What a successful refill from `s` to `s'` achieves (32-bit cache). -/
structure Refilled32 (s s' : DecoderStrategy) : Prop where
  core : Core32 s'
  rem : remaining32 s' = remaining32 s
  pos : 1 ≤ s'.validBits
  full : 24 ≤ s'.validBits ∨ upcoming s' = []
  data : s'.rawData = s.rawData
  around : s'.around = s.around
  buffer : s'.buffer = s.buffer
  posle : s.position ≤ s'.position

/-- The invariant of the reader on a raw byte range (32-bit cache). -/
structure Inv32 (s : DecoderStrategy) : Prop where
  core : Core32 s
  nff_le : s.nextFFPosition ≤ s.rawData.length
  nff : ∀ i : Nat, s.position ≤ i → (i : Int) < s.nextFFPosition → s.rawData.getD i 0 ≠ 0xFF

/-- The state after `k` bytes were loaded one after the other by the loop of `MakeValid`
(32-bit cache). -/
def loadBytes32 : Nat → DecoderStrategy → DecoderStrategy
  | 0, s => s
  | k + 1, s => loadBytes32 k (loadByte32 s)

/-- What an operation from `s` to `s'` that consumes `k` bits achieves (32-bit cache). -/
structure Consumed32 (k : Nat) (s s' : DecoderStrategy) : Prop where
  inv : Inv32 s'
  rem : remaining32 s' = (remaining32 s).drop k
  data : s'.rawData = s.rawData
  around : s'.around = s.around
  buffer : s'.buffer = s.buffer
  posle : s.position ≤ s'.position

/-- The states of the reader (32-bit cache) that the operations of `DecoderStrategy` reach after
`Init` on the input `info`, with the number of bits consumed so far. -/
inductive Reach32 (info : ByteStreamInfo) : Nat → DecoderStrategy → Prop where
  | init (s0 s : DecoderStrategy) : Init 4 s0 info = .ok s → Reach32 info 0 s
  | makeValid (n : Nat) (s s' : DecoderStrategy) : Reach32 info n s → MakeValid 4 s = .ok s' →
      Reach32 info n s'
  | readValue (n : Nat) (s s' : DecoderStrategy) (k : Nat) (x : Int) : Reach32 info n s →
      1 ≤ k → k ≤ 31 → ReadValue 4 s k = .ok (x, s') → Reach32 info (n + k) s'
  | peekByte (n : Nat) (s s' : DecoderStrategy) (x : Int) : Reach32 info n s →
      PeekByte 4 s = .ok (x, s') → Reach32 info n s'
  | readBit (n : Nat) (s s' : DecoderStrategy) (b : Bool) : Reach32 info n s →
      ReadBit 4 s = .ok (b, s') → Reach32 info (n + 1) s'
  | readHighbits (n : Nat) (s s' : DecoderStrategy) (fuel : Nat) (x : Int) : Reach32 info n s →
      ReadHighbits 4 fuel s = .ok (x, s') → Reach32 info (n + (x.toNat + 1)) s'
  | readLongValue (n : Nat) (s s' : DecoderStrategy) (k : Nat) (x : Int) : Reach32 info n s →
      1 ≤ k → k ≤ 32 → ReadLongValue 4 s k = .ok (x, s') → Reach32 info (n + k) s'
  | endScan (n : Nat) (s s' : DecoderStrategy) : Reach32 info n s → EndScan 4 s = .ok s' →
      Reach32 info (n + endScanBits s) s'

/-- What holds in every state reached with a 32-bit cache after `n` bits were consumed: the
invariant, and the unconsumed bits are the de-stuffed input from bit `n` on. -/
structure Tracks32 (info : ByteStreamInfo) (n : Nat) (s : DecoderStrategy) : Prop where
  inv : Inv32 s
  rem : remaining32 s = (destuffed info.rawData).drop n
  le : n ≤ (destuffed info.rawData).length
  data : s.rawData = info.rawData
  around : s.around = info.around

/-- The byte-at-a-time part of `MakeValid`: what follows the call of `OptimizedRead`
(`AddBytesFromStream`, the `do ... while` loop and the update of `_nextFFPosition`). -/
def MakeValidBytewise (sz : Nat) (s : DecoderStrategy) : Except Fault DecoderStrategy :=
  let s2 := AddBytesFromStream s
  match MakeValidLoop sz (s2.endPosition - s2.position + 1) s2 with
  | .error e => .error e
  | .ok (false, s3) => .ok s3
  | .ok (true, s3) => .ok { s3 with nextFFPosition := FindNextFF s3 }

/-- The longest `ReadValue` that every refill serves: a refill leaves at least `W - 8` valid
bits when the input has that many, and `ReadValue` takes at most 31 bits. -/
def maxReadLength (sz : Nat) : Int := min 31 ((bufType_bit_count sz : Int) - 8)

/-- The reading calls, with a length in range: `ReadValue`, `PeekByte`, `ReadBit`,
`ReadHighbits` and `ReadLongValue`. -/
def isRead (sz : Nat) : ReaderOp → Bool
  | .readValue length => decide (1 ≤ length ∧ length ≤ maxReadLength sz)
  | .peekByte => true
  | .readBit => true
  | .readHighbits _ => true
  | .readLongValue length => decide (1 ≤ length ∧ length ≤ 32)
  | _ => false

/-- Two reader states (64-bit cache) that satisfy the invariant and hold the same unconsumed
bits. -/
def SameStream (s t : DecoderStrategy) : Prop := Inv s ∧ Inv t ∧ remaining s = remaining t

/-- Two results agree: the same error, or the same value with states that hold the same
unconsumed bits. -/
def Agree {α : Type} (R : DecoderStrategy → DecoderStrategy → Prop)
    (r1 r2 : Except Fault (α × DecoderStrategy)) : Prop :=
  match r1, r2 with
  | .error e1, .error e2 => e1 = e2
  | .ok (x, s), .ok (y, t) => x = y ∧ R s t
  | _, _ => False

/-- Two reader states (32-bit cache) that satisfy the invariant and hold the same unconsumed
bits. -/
def SameStream32 (s t : DecoderStrategy) : Prop := Inv32 s ∧ Inv32 t ∧ remaining32 s = remaining32 t

/-- The invariant of the reader for a cache of `sz` bytes, 8 or 4. -/
def InvOf (sz : Nat) (s : DecoderStrategy) : Prop := (sz = 8 ∧ Inv s) ∨ (sz = 4 ∧ Inv32 s)

/-- The number of zero bits at the head of a bit list. -/
def leadingZeros : List Bool → Nat
  | false :: l => leadingZeros l + 1
  | _ => 0

/-- What `Peek0Bits` returns on a cache that holds the bits `R` followed by zeros: the number
of zero bits before the first 1 among the first 16 bits, `-1` if these are all zero. -/
def peek0Padded (R : List Bool) : Int :=
  if leadingZeros ((R ++ List.replicate 16 false).take 16) < 16 then
    (leadingZeros ((R ++ List.replicate 16 false).take 16) : Int)
  else -1

/-- The states that the operations of a reader with a cache of `sz` bytes, 8 or 4, reach after
`Init` on the input `info`, with the number of bits consumed so far. -/
def ReachOf (sz : Nat) (info : ByteStreamInfo) (n : Nat) (s : DecoderStrategy) : Prop :=
  (sz = 8 ∧ Reach info n s) ∨ (sz = 4 ∧ Reach32 info n s)

/-! ## The PNM helpers of the test program (test/main.cpp) -/

/-- A `std::istream` that reads from a finite sequence of characters (given by their codes):
the characters not yet extracted, and the state flags `eofbit` and `failbit` (`badbit` is not
set by any of the calls below). -/
structure IStream where
  chars : List Nat
  eofbit : Bool
  failbit : Bool

/-- The state test `good()` of a stream: no flag is set. -/
def IStream.good (f : IStream) : Bool := !f.eofbit && !f.failbit

/-- A stream freshly opened on the characters `cs`. -/
def streamOf (cs : List Nat) : IStream := { chars := cs, eofbit := false, failbit := false }

/-- The standard library's `isspace` in the "C" locale. -/
def isspace (c : Nat) : Bool := c = 32 || (9 ≤ c && c ≤ 13)

/-- The standard library's `isdigit`. -/
def isdigit (c : Nat) : Bool := 48 ≤ c && c ≤ 57

/-- The standard library's `istream::get()`: the next character, or `EOF` (`-1`) with
`failbit` set when the stream is not good, and with `eofbit` too when it is at its end. -/
def istream_get (f : IStream) : Int × IStream :=
  if f.good then
    match f.chars with
    | [] => (-1, { f with eofbit := true, failbit := true })
    | c :: cs => ((c : Int), { f with chars := cs })
  else (-1, { f with failbit := true })

/-- The standard library's `getline(is, str)` into an empty string: the characters up to the
next newline, which is extracted and dropped, or up to the end of the stream, which sets
`eofbit`; `failbit` is set when the stream is not good, or when no character at all is
extracted. -/
def getline (f : IStream) : List Nat × IStream :=
  if f.good then
    match f.chars.dropWhile (fun c => c ≠ 10) with
    | [] => (f.chars, { chars := [], eofbit := true, failbit := f.chars.isEmpty })
    | _ :: rest => (f.chars.takeWhile (fun c => c ≠ 10), { f with chars := rest })
  else ([], { f with failbit := true })

/-- The standard library's `is >> value` for an `int` (C++11): when the stream is not good, or
ends within the leading white space, `failbit` is set and `value` is left as it is; else an
optional sign and the decimal digits that follow are extracted, `value` becomes the number
they write, clamped to the range of `int` with `failbit` set when it is outside, or 0 with
`failbit` set when there is no digit; `eofbit` is set when the end of the stream is reached. -/
def extract_int (f : IStream) (value : Int) : Int × IStream :=
  if f.good then
    match f.chars.dropWhile isspace with
    | [] => (value, { chars := [], eofbit := true, failbit := true })
    | c :: cs =>
      let body := if c = 45 ∨ c = 43 then cs else c :: cs
      let digits := body.takeWhile isdigit
      let rest := body.dropWhile isdigit
      if digits.isEmpty then (0, { chars := rest, eofbit := rest.isEmpty, failbit := true })
      else
        let magnitude : Int := digits.foldl (fun acc d => acc * 10 + ((d : Int) - 48)) 0
        let v : Int := if c = 45 then -magnitude else magnitude
        if v > 2 ^ 31 - 1 then
          (2 ^ 31 - 1, { chars := rest, eofbit := rest.isEmpty, failbit := true })
        else if v < -(2 ^ 31) then
          (-(2 ^ 31), { chars := rest, eofbit := rest.isEmpty, failbit := true })
        else (v, { chars := rest, eofbit := rest.isEmpty, failbit := false })
  else (value, { f with failbit := true })

/-- The inner `while` loop of `read_pnm_header`, on the stream `line` of one line.  Every
iteration that stays in the loop adds a value to `read_values`, so that the loop is left after
at most 4 iterations: 4 is the fuel. -/
def read_line_values : Nat → IStream → List Int → List Int
  | 0, _, read_values => read_values
  | fuel + 1, line, read_values =>
    if read_values.length < 4 then
      match extract_int line (-1) with
      | (value, line1) =>
        if value ≤ 0 then read_values
        else read_line_values fuel line1 (read_values ++ [value])
    else read_values

/-- The outer `while` loop of `read_pnm_header`: a line is taken from the file and its values
are added, until there are 4 values.  Nothing bounds the number of iterations: the loop takes
fuel. -/
def read_pnm_header_loop : Nat → IStream → List Int → Except Fault (List Int × IStream)
  | 0, _, _ => .error .OutOfFuel
  | fuel + 1, pnm_file, read_values =>
    if read_values.length < 4 then
      match getline pnm_file with
      | (bytes, pnm_file1) =>
        read_pnm_header_loop fuel pnm_file1 (read_line_values 4 (streamOf bytes) read_values)
    else .ok (read_values, pnm_file)

/-- Function `read_pnm_header`: the values of the header of a PNM file, and the stream after
it.  The first character, converted to `char`, is compared with `'P'` (code 80). -/
def read_pnm_header (fuel : Nat) (pnm_file : IStream) : Except Fault (List Int × IStream) :=
  match istream_get pnm_file with
  | (first, pnm_file1) =>
    if first % 256 ≠ 80 then .ok ([], pnm_file1)
    else read_pnm_header_loop fuel pnm_file1 []

/-- The standard library's `istream::read(s, n)` into the buffer `s` (of at least `n` bytes):
`n` characters, or those that are left, with `eofbit` and `failbit` set; nothing when the
stream is not good. -/
def istream_read (f : IStream) (s : List Nat) (n : Nat) : List Nat × IStream :=
  if f.good then
    if n ≤ f.chars.length then (f.chars.take n ++ s.drop n, { f with chars := f.chars.drop n })
    else (f.chars ++ s.drop f.chars.length, { chars := [], eofbit := true, failbit := true })
  else (s, { f with failbit := true })

/-- The inner `for` loop of `compare_pnm` (over `y`, in steps of `bytes_per_sample`) for the
row `x`: `false` is the `return false` at the first difference.  Every iteration advances `y`,
so that `width` iterations are enough. -/
def compare_pnm_row (width bytes_per_sample x : Nat) (bytes1 bytes2 : List Nat) :
    Nat → Nat → Bool
  | 0, _ => true
  | fuel + 1, y =>
    if y < width then
      if bytes_per_sample = 1 then
        if bytes1.getD (x * width + y) 0 ≠ bytes2.getD (x * width + y) 0 then false
        else compare_pnm_row width bytes_per_sample x bytes1 bytes2 fuel (y + bytes_per_sample)
      else
        if bytes1.getD (x * width + y) 0 ≠ bytes2.getD (x * width + y) 0 ∨
            bytes1.getD (x * width + (y + 1)) 0 ≠ bytes2.getD (x * width + (y + 1)) 0 then false
        else compare_pnm_row width bytes_per_sample x bytes1 bytes2 fuel (y + bytes_per_sample)
    else true

/-- The outer `for` loop of `compare_pnm` (over `x`); `height` iterations are enough. -/
def compare_pnm_rows (width height bytes_per_sample : Nat) (bytes1 bytes2 : List Nat) :
    Nat → Nat → Bool
  | 0, _ => true
  | fuel + 1, x =>
    if x < height then
      if compare_pnm_row width bytes_per_sample x bytes1 bytes2 width 0 then
        compare_pnm_rows width height bytes_per_sample bytes1 bytes2 fuel (x + 1)
      else false
    else true

/-- Function `compare_pnm`: whether two PNM files are equal (what it writes to `cout` is left
out).  The sizes are `size_t` (64 bits); the two vectors are zero-initialised, and what
`read` cannot deliver stays zero. -/
def compare_pnm (fuel : Nat) (pnm_file1 pnm_file2 : IStream) : Except Fault Bool :=
  match read_pnm_header fuel pnm_file1 with
  | .error e => .error e
  | .ok (header1, pnm_file1a) =>
    if header1.length ≠ 4 then .ok false
    else
      match read_pnm_header fuel pnm_file2 with
      | .error e => .error e
      | .ok (header2, pnm_file2a) =>
        if header2.length ≠ 4 then .ok false
        else if header1.getD 0 0 ≠ header2.getD 0 0 then .ok false
        else
          let width : Nat := (sizeT 8 (header1.getD 1 0)).toNat
          if (width : Int) ≠ sizeT 8 (header2.getD 1 0) then .ok false
          else
            let height : Nat := (sizeT 8 (header1.getD 2 0)).toNat
            if (height : Int) ≠ sizeT 8 (header2.getD 2 0) then .ok false
            else if header1.getD 3 0 ≠ header2.getD 3 0 then .ok false
            else
              let bytes_per_sample : Nat := if header1.getD 3 0 > 255 then 2 else 1
              let byte_count : Nat := width * height * bytes_per_sample % 2 ^ 64
              let bytes1 := (istream_read pnm_file1a (List.replicate byte_count 0) byte_count).1
              let bytes2 := (istream_read pnm_file2a (List.replicate byte_count 0) byte_count).1
              .ok (compare_pnm_rows width height bytes_per_sample bytes1 bytes2 height 0)

/-! ## Properties -/

theorem topBits_length (W x n : Nat) : (topBits W x n).length = n := by simp [topBits]

theorem topBits_add (W x n m : Nat) :
    topBits W x (n + m) = topBits W x n ++ (List.range m).map (fun j => x.testBit (W - 1 - (n + j))) := by
  simp [topBits, List.range_add, List.map_map, Function.comp_def]

theorem range_map_congr {α : Type} (f g : Nat → α) (n : Nat) (h : ∀ i, i < n → f i = g i) :
    (List.range n).map f = (List.range n).map g := by
  apply List.map_congr_left
  intro i hi
  exact h i (List.mem_range.mp hi)

/-- The bits of the cache after a byte was or-ed into it. -/
theorem testBit_or_byte (c b v i : Nat) (hb : b < 256) (hv : v ≤ 56) (hi : i < 64) :
    (c ||| ((b <<< (56 - v)) % 2 ^ 64)).testBit (63 - i) =
      (c.testBit (63 - i) || (decide (v ≤ i ∧ i < v + 8) && b.testBit (7 - (i - v)))) := by
  have hlt : b <<< (56 - v) < 2 ^ 64 := by
    rw [Nat.shiftLeft_eq]
    calc b * 2 ^ (56 - v) < 2 ^ 8 * 2 ^ (56 - v) := by
          apply Nat.mul_lt_mul_of_pos_right (by simpa using hb) (Nat.two_pow_pos _)
      _ = 2 ^ (8 + (56 - v)) := by rw [Nat.pow_add]
      _ ≤ 2 ^ 64 := Nat.pow_le_pow_right (by norm_num) (by omega)
  rw [Nat.mod_eq_of_lt hlt, Nat.testBit_lor, Nat.testBit_shiftLeft]
  congr 1
  by_cases h1 : v ≤ i
  · by_cases h2 : i < v + 8
    · have e : 63 - i - (56 - v) = 7 - (i - v) := by omega
      have : 63 - i ≥ 56 - v := by omega
      simp [h1, h2, this, e]
    · have : ¬ (63 - i ≥ 56 - v) := by omega
      simp [h2, this]
  · have h3 : 63 - i ≥ 56 - v := by omega
    have : b.testBit (63 - i - (56 - v)) = false := by
      apply Nat.testBit_lt_two_pow
      calc b < 2 ^ 8 := by simpa using hb
        _ ≤ 2 ^ (63 - i - (56 - v)) := Nat.pow_le_pow_right (by norm_num) (by omega)
    simp [h1, this]

theorem or_byte_lt (c b v : Nat) (hc : c < 2 ^ 64) : c ||| ((b <<< (56 - v)) % 2 ^ 64) < 2 ^ 64 :=
  Nat.or_lt_two_pow hc (Nat.mod_lt _ (Nat.two_pow_pos _))

theorem topBits_succ (W x n : Nat) : topBits W x (n + 1) = topBits W x n ++ [x.testBit (W - 1 - n)] := by
  simp [topBits, List.range_succ]

theorem bitsValue_append_one (l : List Bool) (b : Bool) : bitsValue (l ++ [b]) = 2 * bitsValue l + b.toNat := by
  simp [bitsValue]

theorem bitsValue_topBits (W x n : Nat) (hn : n ≤ W) (hx : x < 2 ^ W) :
    bitsValue (topBits W x n) = x >>> (W - n) := by
  induction n with
  | zero =>
    simp [topBits, bitsValue, Nat.shiftRight_eq_div_pow]
    exact (Nat.div_eq_of_lt hx).symm
  | succ n ih =>
    rw [topBits_succ, bitsValue_append_one, ih (by omega)]
    have h1 : W - n = (W - (n + 1)) + 1 := by omega
    rw [h1, Nat.shiftRight_succ, Nat.testBit]
    have : W - 1 - n = W - (n+1) := by omega
    rw [this]
    generalize x >>> (W - (n+1)) = y
    simp only [Nat.one_and_eq_mod_two, Nat.mod_two_bne_zero]
    rcases Nat.mod_two_eq_zero_or_one y with h | h <;> simp [h] <;> omega

theorem byteAt_raw (s : DecoderStrategy) (h : s.byteStream = none) (p : Nat)
    (hp : p < s.rawData.length) : byteAt s (p : Int) = s.rawData.getD p 0 := by
  unfold byteAt memory
  rw [h]
  simp only [Int.toNat_ofNat]
  rw [if_pos]
  constructor
  · exact Int.ofNat_nonneg p
  · exact_mod_cast hp

theorem MakeValidLoop_succ (fuel : Nat) (s : DecoderStrategy) (hlo : 0 ≤ s.validBits)
    (hhi : s.validBits ≤ 56) :
    MakeValidLoop 8 (fuel + 1) s =
      if stopped s then
        (if s.validBits ≤ 0 then .error .InvalidCompressedData else .ok (false, s))
      else if (loadByte s).validBits < 56 then MakeValidLoop 8 fuel (loadByte s)
      else .ok (true, loadByte s) := by
  obtain ⟨v, hv⟩ := Int.eq_ofNat_of_zero_le hlo
  have hv56 : v ≤ 56 := by omega
  have hsz : sizeT 8 ((bufType_bit_count 8 : Int) - 8 - s.validBits) = ((56 - v : Nat) : Int) := by
    simp only [sizeT, bufType_bit_count, hv]
    norm_num
    rw [Int.emod_eq_of_lt] <;> omega
  rw [MakeValidLoop]
  unfold stopped
  by_cases h1 : s.position ≥ s.endPosition
  · simp [h1]
  · simp only [h1, if_false, false_or]
    by_cases h2 : (byteAt s s.position = JpegMarkerCode_Start ∧
      ((s.position : Int) = (s.endPosition : Int) - 1 ∨ (byteAt s ((s.position : Int) + 1)) &&& 0x80 ≠ 0))
    · rw [if_pos h2, if_pos h2]
    · rw [if_neg h2, if_neg h2, hsz]
      have hsh : shiftLeft 8 (byteAt s s.position) ((56 - v : Nat) : Int) =
          .ok ((byteAt s s.position <<< (56 - v)) % 2 ^ 64) := by
        unfold shiftLeft bufType_bit_count
        rw [if_pos]
        · simp
        · constructor <;> omega
      rw [hsh]
      simp only [loadByte, JpegMarkerCode_Start, bufType_bit_count, hv, Int.toNat_ofNat]
      by_cases h3 : byteAt s s.position = 255
      · have e : sizeT 8 ((v : Int) + 8 - 1) = (v : Int) + 7 := by
          simp only [sizeT, bufType_bit_count]; rw [Int.emod_eq_of_lt] <;> omega
        have e2 : (v : Int) + 8 - 1 = (v : Int) + 7 := by omega
        rw [e2] at e
        simp only [h3, if_true, e, e2]
        norm_num
      · have e : sizeT 8 ((v : Int) + 8) = (v : Int) + 8 := by
          simp only [sizeT, bufType_bit_count]; rw [Int.emod_eq_of_lt] <;> omega
        simp only [h3, if_false, e]
        norm_num

theorem drop_eq_getD_cons (l : List Nat) (p : Nat) (hp : p < l.length) :
    l.drop p = l.getD p 0 :: l.drop (p + 1) := by
  rw [List.getD_eq_getElem l 0 hp]
  exact List.drop_eq_getElem_cons hp

theorem getD_mem_lt (l : List Nat) (h : ∀ b ∈ l, b < 256) (p : Nat) (hp : p < l.length) :
    l.getD p 0 < 256 := by
  rw [List.getD_eq_getElem l 0 hp]
  exact h _ (List.getElem_mem hp)

theorem byteAt_raw_succ (s : DecoderStrategy) (h : s.byteStream = none) (p : Nat)
    (hp : p + 1 < s.rawData.length) : byteAt s ((p : Int) + 1) = s.rawData.getD (p + 1) 0 := by
  have := byteAt_raw s h (p + 1) hp
  rw [← this]
  norm_cast

theorem upcomingBits_nil (pf : Bool) : upcomingBits pf [] = [] := by
  rw [upcomingBits.eq_def]

theorem upcomingBits_ff_last (pf : Bool) : upcomingBits pf [0xFF] = [] := by
  rw [upcomingBits.eq_def]; simp

theorem upcomingBits_ff_cons (pf : Bool) (c : Nat) (rest : List Nat) :
    upcomingBits pf (0xFF :: c :: rest) =
      if c &&& 0x80 ≠ 0 then [] else List.replicate 7 true ++ upcomingBits true (c :: rest) := by
  rw [upcomingBits.eq_def]; simp

theorem upcomingBits_cons (pf : Bool) (b : Nat) (rest : List Nat) (hb : b ≠ 0xFF) :
    upcomingBits pf (b :: rest) =
      topBits 8 (if pf then b ||| 0x80 else b) 8 ++ upcomingBits false rest := by
  rw [upcomingBits.eq_def]; simp [hb]

theorem upcomingBits_cons_ne_nil (pf : Bool) (b : Nat) (rest : List Nat) (hb : b ≠ 0xFF) :
    upcomingBits pf (b :: rest) ≠ [] := by
  rw [upcomingBits_cons pf b rest hb]
  intro h
  have := congrArg List.length h
  simp [topBits_length] at this

theorem stopped_iff (s : DecoderStrategy) (h : Core s) : stopped s ↔ upcoming s = [] := by
  unfold stopped upcoming
  rw [h.endp]
  by_cases hp : s.position ≥ s.rawData.length
  · simp [hp, List.drop_eq_nil_of_le hp, upcomingBits_nil]
  · have hp' : s.position < s.rawData.length := by omega
    rw [drop_eq_getD_cons _ _ hp', byteAt_raw s h.raw _ hp']
    simp only [hp, false_or, JpegMarkerCode_Start]
    by_cases hb : s.rawData.getD s.position 0 = 255
    · rw [hb]
      by_cases hlast : s.position + 1 < s.rawData.length
      · rw [byteAt_raw_succ s h.raw _ hlast, drop_eq_getD_cons _ _ hlast, upcomingBits_ff_cons]
        have hne : ¬ ((s.position : Int) = (s.rawData.length : Int) - 1) := by omega
        simp only [true_and, hne, false_or]
        by_cases hc : s.rawData.getD (s.position + 1) 0 &&& 128 ≠ 0
        · rw [if_pos hc]
          exact ⟨fun _ => rfl, fun _ => hc⟩
        · rw [if_neg hc]
          constructor
          · intro h'; exact absurd h' hc
          · intro h'; simp at h'
      · have he : (s.position : Int) = (s.rawData.length : Int) - 1 := by omega
        have hd : s.rawData.drop (s.position + 1) = [] := List.drop_eq_nil_of_le (by omega)
        rw [hd, upcomingBits_ff_last]
        simp [he]
    · simp only [hb, false_and, false_iff]
      exact upcomingBits_cons_ne_nil _ _ _ hb

theorem topBits_or_byte (c b v k : Nat) (X : Nat → Bool) (hb : b < 256) (hv : v ≤ 56)
    (hk : k ≤ 8)
    (hX : ∀ j, j < k → (c.testBit (63 - (v + j)) || b.testBit (7 - j)) = X j) :
    topBits 64 (c ||| ((b <<< (56 - v)) % 2 ^ 64)) (v + k) =
      topBits 64 c v ++ (List.range k).map X := by
  rw [topBits_add]
  congr 1
  · apply range_map_congr
    intro i hi
    rw [show 64 - 1 - i = 63 - i by omega, testBit_or_byte c b v i hb hv (by omega)]
    have : ¬ (v ≤ i ∧ i < v + 8) := by omega
    simp [this]
  · apply range_map_congr
    intro j hj
    rw [show 64 - 1 - (v + j) = 63 - (v + j) by omega,
      testBit_or_byte c b v (v + j) hb hv (by omega), ← hX j hj]
    have : (v ≤ v + j ∧ v + j < v + 8) := by omega
    simp [this]

theorem prevFF_loadByte (s : DecoderStrategy) :
    prevFF (loadByte s) = decide (s.rawData.getD s.position 0 = 0xFF) := by
  simp [prevFF, loadByte, -List.getD_eq_getElem?_getD]

theorem upcoming_loadByte (s : DecoderStrategy) :
    upcoming (loadByte s) =
      upcomingBits (decide (s.rawData.getD s.position 0 = 0xFF)) (s.rawData.drop (s.position + 1)) := by
  rw [upcoming, prevFF_loadByte]
  rfl

theorem upcoming_plain (s : DecoderStrategy) (hp : s.position < s.rawData.length)
    (hb : s.rawData.getD s.position 0 ≠ 0xFF) :
    upcoming s = topBits 8 (if prevFF s then s.rawData.getD s.position 0 ||| 0x80
        else s.rawData.getD s.position 0) 8 ++ upcoming (loadByte s) := by
  rw [upcoming_loadByte, upcoming, drop_eq_getD_cons _ _ hp, upcomingBits_cons _ _ _ hb]
  simp [hb, -List.getD_eq_getElem?_getD]

set_option maxRecDepth 100000 in
theorem and_128_eq_zero_iff : ∀ c, c < 256 → (c &&& 128 = 0 ↔ c < 128) := by decide

theorem getD_topBits (W x n j : Nat) (hj : j < n) :
    (topBits W x n).getD j false = x.testBit (W - 1 - j) := by
  rw [List.getD_eq_getElem _ _ (by simpa [topBits_length] using hj)]
  simp [topBits]

theorem testBit_7_or_128 (c : Nat) : (c ||| 128).testBit 7 = true := by
  rw [Nat.testBit_lor]
  have : Nat.testBit 128 7 = true := by decide
  simp [this]

theorem upcoming_stuffed (s : DecoderStrategy) (h : Core s) (hns : ¬ stopped s)
    (hb : s.rawData.getD s.position 0 = 0xFF) :
    s.position + 1 < s.rawData.length ∧ s.rawData.getD (s.position + 1) 0 < 128 ∧
    upcoming s = List.replicate 7 true ++ upcoming (loadByte s) ∧
    (upcoming (loadByte s)).getD 0 false = true := by
  have hp : s.position < s.rawData.length := by
    by_contra hp
    exact hns (Or.inl (by rw [h.endp]; omega))
  have hst : ¬ (byteAt s s.position = JpegMarkerCode_Start ∧
      ((s.position : Int) = (s.endPosition : Int) - 1 ∨
        (byteAt s ((s.position : Int) + 1)) &&& 0x80 ≠ 0)) := fun hh => hns (Or.inr hh)
  rw [byteAt_raw s h.raw _ hp, h.endp] at hst
  have hst2 : ¬ ((s.position : Int) = (s.rawData.length : Int) - 1 ∨
        (byteAt s ((s.position : Int) + 1)) &&& 0x80 ≠ 0) := fun hh => hst ⟨hb, hh⟩
  have hlast : s.position + 1 < s.rawData.length := by
    by_contra hl
    exact hst2 (Or.inl (by omega))
  have hc : ¬ (s.rawData.getD (s.position + 1) 0 &&& 0x80 ≠ 0) := by
    intro hc
    apply hst2
    right
    rw [byteAt_raw_succ s h.raw _ hlast]
    exact hc
  have hc256 := getD_mem_lt _ h.bytes _ hlast
  have hc128 : s.rawData.getD (s.position + 1) 0 < 128 := by
    by_contra hge
    apply hc
    exact fun h0 => hge ((and_128_eq_zero_iff _ hc256).mp h0)
  have hcne : s.rawData.getD (s.position + 1) 0 ≠ 0xFF := by omega
  refine ⟨hlast, hc128, ?_, ?_⟩
  · rw [upcoming_loadByte, upcoming, drop_eq_getD_cons _ _ hp, hb, drop_eq_getD_cons _ _ hlast,
      upcomingBits_ff_cons, if_neg hc]
    simp
  · rw [upcoming_loadByte, drop_eq_getD_cons _ _ hlast, upcomingBits_cons _ _ _ hcne]
    rw [List.getD_append _ _ _ _ (by simp [topBits_length])]
    rw [getD_topBits _ _ _ _ (by norm_num), hb]
    simp only [decide_True, if_true]
    exact testBit_7_or_128 _

theorem testBit_255 (j : Nat) (hj : j < 8) : Nat.testBit 255 j = true := by
  rw [show (255 : Nat) = 2 ^ 8 - 1 by norm_num, Nat.testBit_two_pow_sub_one]
  simpa using hj

theorem testBit_128 (j : Nat) : Nat.testBit 128 j = decide (j = 7) := by
  rw [show (128 : Nat) = 2 ^ 7 by norm_num, Nat.testBit_two_pow]
  by_cases h : j = 7 <;> simp [h, eq_comm]

theorem stopped_of_markerAt (s : DecoderStrategy) (hraw : s.byteStream = none)
    (hend : s.endPosition = s.rawData.length) (hm : markerAt s.rawData s.position) :
    stopped s := by
  obtain ⟨h1, h2, h3⟩ := hm
  right
  rw [byteAt_raw s hraw _ h1, hend]
  refine ⟨h2, ?_⟩
  by_cases hl : s.position + 1 = s.rawData.length
  · left; omega
  · right
    rcases h3 with h3 | h3
    · exact absurd h3 hl
    · rw [byteAt_raw_succ s hraw _ (by omega)]
      exact h3

theorem loadByte_nomark (s : DecoderStrategy) (h : Core s) (hns : ¬ stopped s) :
    ∀ i, i < (loadByte s).position → ¬ markerAt (loadByte s).rawData i := by
  intro i hi hm
  have hi' : i < s.position + 1 := hi
  by_cases hip : i = s.position
  · subst hip
    exact hns (stopped_of_markerAt s h.raw h.endp hm)
  · exact h.nomark i (by omega) hm

theorem loadByte_core (s : DecoderStrategy) (h : Core s) (hns : ¬ stopped s)
    (hv56 : s.validBits ≤ 56) :
    Core (loadByte s) ∧ remaining (loadByte s) = remaining s := by
  have hp : s.position < s.rawData.length := by
    by_contra hp
    exact hns (Or.inl (by rw [h.endp]; omega))
  obtain ⟨v, hv⟩ := Int.eq_ofNat_of_zero_le h.vlo
  have hvle : v ≤ 56 := by omega
  have hbyte := byteAt_raw s h.raw _ hp
  have hb256 := getD_mem_lt _ h.bytes _ hp
  have hg := h.garbage
  have hprev := h.prev
  rw [hv] at hg hprev
  simp only [Int.toNat_ofNat] at hg hprev
  by_cases hb : s.rawData.getD s.position 0 = 0xFF
  · -- a stuffed 0xFF
    obtain ⟨hlast, hc128, hup, hup0⟩ := upcoming_stuffed s h hns hb
    have hvb : (loadByte s).validBits = ((v + 7 : Nat) : Int) := by
      simp [loadByte, hbyte, hb, hv, -List.getD_eq_getElem?_getD]
    have hcache : (loadByte s).readCache = s.readCache ||| ((255 <<< (56 - v)) % 2 ^ 64) := by
      simp [loadByte, hbyte, hb, hv, -List.getD_eq_getElem?_getD]
    constructor
    · refine ⟨h.raw, h.bytes, h.endp, ?_, loadByte_nomark s h hns, ?_, ?_, ?_, ?_, ?_⟩
      · show s.position + 1 ≤ s.rawData.length
        omega
      · rw [hvb]; omega
      · rw [hvb]; omega
      · rw [hcache]; exact or_byte_lt _ _ _ h.cache_lt
      · intro _
        rw [hvb, hcache]
        refine ⟨hlast, hc128, by omega, ?_⟩
        simp only [Int.toNat_ofNat]
        rw [testBit_or_byte _ 255 v (v + 7) (by norm_num) hvle (by omega)]
        have : (v ≤ v + 7 ∧ v + 7 < v + 8) := by omega
        simp [this, testBit_255]
      · intro j hj
        rw [hvb, hcache] at *
        simp only [Int.toNat_ofNat] at *
        intro hbit
        by_cases hj0 : j = 0
        · subst hj0; exact hup0
        · rw [testBit_or_byte _ 255 v (v + 7 + j) (by norm_num) hvle (by omega)] at hbit
          have hn : ¬ (v ≤ v + 7 + j ∧ v + 7 + j < v + 8) := by omega
          simp only [hn, decide_False, Bool.false_and, Bool.or_false] at hbit
          have := hg (7 + j) (by omega) (by rw [← hbit]; congr 2; omega)
          rw [hup, List.getD_append_right _ _ _ _ (by simp)] at this
          simpa using this
    · unfold remaining
      rw [hup, hvb, hcache, hv]
      simp only [Int.toNat_ofNat]
      rw [topBits_or_byte _ 255 v 7 (fun _ => true) (by norm_num) hvle (by norm_num)]
      · rw [List.append_assoc]
        congr 2
      · intro j hj
        rw [testBit_255 _ (by omega)]
        simp
  · -- an ordinary byte
    have hup := upcoming_plain s hp hb
    have hvb : (loadByte s).validBits = ((v + 8 : Nat) : Int) := by
      simp [loadByte, hbyte, hb, hv, -List.getD_eq_getElem?_getD]
    have hcache : (loadByte s).readCache =
        s.readCache ||| ((s.rawData.getD s.position 0 <<< (56 - v)) % 2 ^ 64) := by
      simp [loadByte, hbyte, hv, -List.getD_eq_getElem?_getD]
    have hpf : prevFF (loadByte s) = false := by
      rw [prevFF_loadByte]; simpa using hb
    constructor
    · refine ⟨h.raw, h.bytes, h.endp, ?_, loadByte_nomark s h hns, ?_, ?_, ?_, ?_, ?_⟩
      · show s.position + 1 ≤ s.rawData.length
        omega
      · rw [hvb]; omega
      · rw [hvb]; omega
      · rw [hcache]; exact or_byte_lt _ _ _ h.cache_lt
      · intro hpf'
        rw [hpf] at hpf'
        exact absurd hpf' (by simp)
      · intro j hj
        rw [hvb, hcache] at *
        simp only [Int.toNat_ofNat] at *
        intro hbit
        rw [testBit_or_byte _ _ v (v + 8 + j) hb256 hvle (by omega)] at hbit
        have hn : ¬ (v ≤ v + 8 + j ∧ v + 8 + j < v + 8) := by omega
        simp only [hn, decide_False, Bool.false_and, Bool.or_false] at hbit
        have := hg (8 + j) (by omega) (by rw [← hbit]; congr 2; omega)
        rw [hup, List.getD_append_right _ _ _ _ (by simp [topBits_length])] at this
        simpa [topBits_length] using this
    · unfold remaining
      rw [hup, hvb, hcache, hv]
      simp only [Int.toNat_ofNat]
      rw [topBits_or_byte _ _ v 8 (fun j => (if prevFF s then s.rawData.getD s.position 0 ||| 0x80
        else s.rawData.getD s.position 0).testBit (8 - 1 - j)) hb256 hvle (by norm_num)]
      · rw [List.append_assoc]
        rfl
      · intro j hj
        by_cases hcb : s.readCache.testBit (63 - (v + j)) = true
        · have := hg j (by omega) hcb
          rw [hup, List.getD_append _ _ _ _ (by simpa [topBits_length] using hj),
            getD_topBits _ _ _ _ hj] at this
          rw [hcb, this]
          simp
        · have hcb' : s.readCache.testBit (63 - (v + j)) = false := by simpa using hcb
          rw [hcb']
          by_cases hpfs : prevFF s = true
          · have hj0 : j ≠ 0 := by
              intro hj0
              subst hj0
              have := (hprev hpfs).2.2.2
              simp only [Nat.add_zero] at hcb'
              rw [this] at hcb'
              exact absurd hcb' (by simp)
            simp only [hpfs, if_true, Bool.false_or, Nat.testBit_lor, testBit_128]
            have : ¬ (8 - 1 - j = 7) := by omega
            simp only [this, decide_False, Bool.or_false]
          · simp only [hpfs, Bool.false_or]
            simp

theorem loadByte_validBits_ge (s : DecoderStrategy) : s.validBits + 7 ≤ (loadByte s).validBits := by
  unfold loadByte
  simp only
  split <;> omega

theorem MakeValidLoop_spec (fuel : Nat) : ∀ (s : DecoderStrategy), Core s → s.validBits ≤ 56 →
    s.rawData.length - s.position + 1 ≤ fuel →
    (upcoming s = [] ∧ s.validBits = 0 → MakeValidLoop 8 fuel s = .error .InvalidCompressedData) ∧
    (¬ (upcoming s = [] ∧ s.validBits = 0) → ∃ fin s', MakeValidLoop 8 fuel s = .ok (fin, s') ∧
      Refilled s s' ∧ s'.nextFFPosition = s.nextFFPosition ∧ (fin = true → 56 ≤ s'.validBits) ∧
      (fin = false → upcoming s' = [])) := by
  induction fuel with
  | zero => intro s _ _ hf; omega
  | succ fuel ih =>
    intro s h hv hf
    rw [MakeValidLoop_succ fuel s h.vlo hv]
    by_cases hst : stopped s
    · have hup := (stopped_iff s h).mp hst
      rw [if_pos hst]
      constructor
      · intro ⟨_, h0⟩
        rw [if_pos (by omega)]
      · intro hn
        have hv0 : ¬ s.validBits ≤ 0 := by
          intro h0
          exact hn ⟨hup, by have := h.vlo; omega⟩
        rw [if_neg hv0]
        exact ⟨false, s, rfl, ⟨h, rfl, by omega, Or.inr hup, rfl, rfl, rfl, le_refl _⟩, rfl,
          by simp, fun _ => hup⟩
    · have hup : upcoming s ≠ [] := fun hh => hst ((stopped_iff s h).mpr hh)
      rw [if_neg hst]
      obtain ⟨hc, hr⟩ := loadByte_core s h hst hv
      have hge := loadByte_validBits_ge s
      have hvlo := h.vlo
      constructor
      · intro ⟨h1, _⟩; exact absurd h1 hup
      · intro _
        by_cases hlt : (loadByte s).validBits < 56
        · rw [if_pos hlt]
          have hp : s.position < s.rawData.length := by
            by_contra hp
            exact hst (Or.inl (by rw [h.endp]; omega))
          obtain ⟨fin, s', he, hR, hnf, hfin, hfin'⟩ :=
            (ih (loadByte s) hc (by omega) (by
              show s.rawData.length - (s.position + 1) + 1 ≤ fuel
              omega)).2 (by intro ⟨_, h0⟩; omega)
          refine ⟨fin, s', he, ⟨hR.core, hR.rem.trans hr, hR.pos, hR.full, hR.data, hR.around,
            hR.buffer, ?_⟩, hnf, hfin, hfin'⟩
          have := hR.posle
          have e : (loadByte s).position = s.position + 1 := rfl
          omega
        · rw [if_neg hlt]
          exact ⟨true, loadByte s, rfl, ⟨hc, hr, by omega, Or.inl (by omega), rfl, rfl, rfl,
            Nat.le_succ _⟩, rfl, fun _ => by omega, by simp⟩

theorem FindNextFFLoop_spec (s : DecoderStrategy) (hraw : s.byteStream = none)
    (hend : s.endPosition = s.rawData.length) (fuel : Nat) : ∀ q : Nat, q ≤ s.rawData.length →
    s.rawData.length - q ≤ fuel →
    q ≤ FindNextFFLoop s fuel q ∧ FindNextFFLoop s fuel q ≤ s.rawData.length ∧
    ∀ i : Nat, q ≤ i → i < FindNextFFLoop s fuel q → s.rawData.getD i 0 ≠ 0xFF := by
  induction fuel with
  | zero =>
    intro q hq hf
    simp only [FindNextFFLoop]
    exact ⟨le_refl _, hq, fun i h1 h2 => by omega⟩
  | succ fuel ih =>
    intro q hq hf
    rw [FindNextFFLoop, hend]
    by_cases h1 : q < s.rawData.length
    · rw [if_pos h1, byteAt_raw s hraw q h1]
      by_cases h2 : s.rawData.getD q 0 = JpegMarkerCode_Start
      · rw [if_pos h2]
        exact ⟨le_refl _, hq, fun i h1 h2 => by omega⟩
      · rw [if_neg h2]
        obtain ⟨a, b, c⟩ := ih (q + 1) h1 (by omega)
        refine ⟨by omega, b, ?_⟩
        intro i hi1 hi2
        by_cases hiq : i = q
        · subst hiq; exact h2
        · exact c i (by omega) hi2
    · rw [if_neg h1]
      exact ⟨le_refl _, hq, fun i h1 h2 => by omega⟩

theorem FindNextFF_spec (s : DecoderStrategy) (hraw : s.byteStream = none)
    (hend : s.endPosition = s.rawData.length) (hp : s.position ≤ s.rawData.length) :
    s.position ≤ FindNextFF s ∧ FindNextFF s ≤ s.rawData.length ∧
    ∀ i : Nat, s.position ≤ i → i < FindNextFF s → s.rawData.getD i 0 ≠ 0xFF := by
  unfold FindNextFF
  rw [hend]
  exact FindNextFFLoop_spec s hraw hend _ _ hp (le_refl _)

theorem bigEndian_append_one (bs : List Nat) (b : Nat) :
    bigEndian (bs ++ [b]) = bigEndian bs * 256 + b := by
  simp [bigEndian]

theorem bigEndian_lt (bs : List Nat) (h : ∀ b ∈ bs, b < 256) :
    bigEndian bs < 2 ^ (8 * bs.length) := by
  induction bs using List.reverseRecOn with
  | nil => simp [bigEndian]
  | append_singleton bs b ih =>
    rw [bigEndian_append_one]
    have h1 := ih (fun x hx => h x (List.mem_append_left _ hx))
    have h2 : b < 256 := h b (by simp)
    have e : 2 ^ (8 * (bs ++ [b]).length) = 2 ^ (8 * bs.length) * 256 := by
      rw [List.length_append, List.length_singleton, Nat.mul_add, Nat.pow_add]
    rw [e]
    have : bigEndian bs + 1 ≤ 2 ^ (8 * bs.length) := h1
    calc bigEndian bs * 256 + b < (bigEndian bs + 1) * 256 := by omega
      _ ≤ 2 ^ (8 * bs.length) * 256 := Nat.mul_le_mul_right _ this

theorem testBit_bigEndian (bs : List Nat) (h : ∀ b ∈ bs, b < 256) :
    ∀ i, i < 8 * bs.length →
      (bigEndian bs).testBit (8 * bs.length - 1 - i) = (bs.getD (i / 8) 0).testBit (7 - i % 8) := by
  induction bs using List.reverseRecOn with
  | nil => intro i hi; simp at hi
  | append_singleton bs b ih =>
    intro i hi
    have h1 := ih (fun x hx => h x (List.mem_append_left _ hx))
    have h2 : b < 2 ^ 8 := h b (by simp)
    rw [List.length_append, List.length_singleton] at hi ⊢
    rw [bigEndian_append_one, Nat.mul_comm _ 256, show (256 : Nat) = 2 ^ 8 by norm_num,
      Nat.testBit_mul_pow_two_add _ h2]
    by_cases hlt : i < 8 * bs.length
    · rw [if_neg (by omega), List.getD_append _ _ _ _ (by omega)]
      rw [← h1 i hlt]
      congr 1
      omega
    · rw [if_pos (by omega), List.getD_append_right _ _ _ _ (by omega)]
      have e1 : i / 8 - bs.length = 0 := by omega
      rw [e1]
      simp only [List.getD_cons_zero]
      congr 1
      omega

theorem FromBigEndianRead_eq (s : DecoderStrategy) (p : Nat) :
    FromBigEndianRead 8 s p =
      bigEndian ((List.range 8).map (fun i => byteAt s ((p + i : Nat) : Int))) := by
  simp [FromBigEndianRead, bigEndian, List.foldl_map]

theorem testBit_FromBigEndianRead (s : DecoderStrategy) (hraw : s.byteStream = none)
    (hb : ∀ b ∈ s.rawData, b < 256) (p : Nat) (hp : p + 8 ≤ s.rawData.length) (i : Nat)
    (hi : i < 64) :
    (FromBigEndianRead 8 s p).testBit (63 - i) =
      (s.rawData.getD (p + i / 8) 0).testBit (7 - i % 8) := by
  rw [FromBigEndianRead_eq]
  have hmem : ∀ b ∈ (List.range 8).map (fun i => byteAt s ((p + i : Nat) : Int)), b < 256 := by
    intro b hb'
    rw [List.mem_map] at hb'
    obtain ⟨j, hj, rfl⟩ := hb'
    rw [List.mem_range] at hj
    rw [byteAt_raw s hraw _ (by omega)]
    exact getD_mem_lt _ hb _ (by omega)
  have := testBit_bigEndian _ hmem i (by simpa using hi)
  rw [List.length_map, List.length_range] at this
  rw [show 63 - i = 8 * 8 - 1 - i by omega, this]
  rw [List.getD_eq_getElem _ _ (by simp; omega)]
  simp only [List.getElem_map, List.getElem_range]
  rw [byteAt_raw s hraw _ (by omega)]

theorem FromBigEndianRead_lt (s : DecoderStrategy) (hraw : s.byteStream = none)
    (hb : ∀ b ∈ s.rawData, b < 256) (p : Nat) (hp : p + 8 ≤ s.rawData.length) :
    FromBigEndianRead 8 s p < 2 ^ 64 := by
  rw [FromBigEndianRead_eq]
  have hmem : ∀ b ∈ (List.range 8).map (fun i => byteAt s ((p + i : Nat) : Int)), b < 256 := by
    intro b hb'
    rw [List.mem_map] at hb'
    obtain ⟨j, hj, rfl⟩ := hb'
    rw [List.mem_range] at hj
    rw [byteAt_raw s hraw _ (by omega)]
    exact getD_mem_lt _ hb _ (by omega)
  have := bigEndian_lt _ hmem
  simpa using this

theorem prevFF_congr (s t : DecoderStrategy) (e2 : s.rawData = t.rawData)
    (e4 : s.position = t.position) : prevFF s = prevFF t := by
  unfold prevFF; rw [e2, e4]

theorem upcoming_congr (s t : DecoderStrategy) (e2 : s.rawData = t.rawData)
    (e4 : s.position = t.position) : upcoming s = upcoming t := by
  unfold upcoming; rw [prevFF_congr s t e2 e4, e2, e4]

theorem topBits_congr (W x y n : Nat)
    (h : ∀ i, i < n → x.testBit (W - 1 - i) = y.testBit (W - 1 - i)) :
    topBits W x n = topBits W y n :=
  range_map_congr _ _ n h

theorem Core_transfer (t s' : DecoderStrategy) (ht : Core t)
    (e1 : s'.byteStream = t.byteStream) (e2 : s'.rawData = t.rawData)
    (e3 : s'.endPosition = t.endPosition) (e4 : s'.position = t.position)
    (e5 : s'.validBits = t.validBits) (hc : s'.readCache < 2 ^ 64)
    (hsame : ∀ i, i < t.validBits.toNat →
      s'.readCache.testBit (63 - i) = t.readCache.testBit (63 - i))
    (hg : ∀ j, t.validBits.toNat + j < 64 →
      s'.readCache.testBit (63 - (t.validBits.toNat + j)) = true →
      (upcoming t).getD j false = true)
    (hprev : prevFF t = true → s'.readCache.testBit (63 - t.validBits.toNat) = true) :
    Core s' ∧ remaining s' = remaining t := by
  have hup := upcoming_congr s' t e2 e4
  have hpf := prevFF_congr s' t e2 e4
  constructor
  · refine ⟨e1 ▸ ht.raw, e2 ▸ ht.bytes, by rw [e3, e2]; exact ht.endp, by rw [e4, e2]; exact ht.pos_le,
      by rw [e4, e2]; exact ht.nomark, e5 ▸ ht.vlo, e5 ▸ ht.vhi, hc, ?_, ?_⟩
    · intro hp
      rw [hpf] at hp
      obtain ⟨a, b, c, _⟩ := ht.prev hp
      rw [e4, e2, e5]
      exact ⟨a, b, c, hprev hp⟩
    · rw [e5, hup]; exact hg
  · unfold remaining
    rw [hup, e5]
    congr 1
    apply topBits_congr
    intro i hi
    exact hsame i hi

theorem not_stopped_of_plain (s : DecoderStrategy) (h : Core s)
    (hp : s.position < s.rawData.length) (hb : s.rawData.getD s.position 0 ≠ 0xFF) :
    ¬ stopped s := by
  intro hst
  rcases hst with h1 | ⟨h2, _⟩
  · rw [h.endp] at h1; omega
  · rw [byteAt_raw s h.raw _ hp] at h2
    exact hb h2

theorem loadBytes_spec (k : Nat) : ∀ (s : DecoderStrategy) (v : Nat), Core s →
    s.validBits = (v : Int) → v + 8 * k ≤ 64 → s.position + k ≤ s.rawData.length →
    (∀ i, s.position ≤ i → i < s.position + k → s.rawData.getD i 0 ≠ 0xFF) →
    Core (loadBytes k s) ∧ remaining (loadBytes k s) = remaining s ∧
    (loadBytes k s).validBits = ((v + 8 * k : Nat) : Int) ∧
    (loadBytes k s).position = s.position + k ∧
    (loadBytes k s).rawData = s.rawData ∧
    (loadBytes k s).byteStream = s.byteStream ∧
    (loadBytes k s).endPosition = s.endPosition ∧
    (1 ≤ k → prevFF (loadBytes k s) = false) ∧
    ∀ i, i < 64 → (loadBytes k s).readCache.testBit (63 - i) =
      (s.readCache.testBit (63 - i) || (decide (v ≤ i ∧ i < v + 8 * k) &&
        (s.rawData.getD (s.position + (i - v) / 8) 0).testBit (7 - (i - v) % 8))) := by
  induction k with
  | zero =>
    intro s v h hv _ _ _
    refine ⟨h, rfl, by simpa using hv, rfl, rfl, rfl, rfl, by omega, ?_⟩
    intro i _
    have : ¬ (v ≤ i ∧ i < v + 8 * 0) := by omega
    simp [loadBytes, this]
  | succ k ih =>
    intro s v h hv hk hp hff
    have hp0 : s.position < s.rawData.length := by omega
    have hb0 := hff s.position (le_refl _) (by omega)
    have hns := not_stopped_of_plain s h hp0 hb0
    obtain ⟨hc1, hr1⟩ := loadByte_core s h hns (by omega)
    have hbyte := byteAt_raw s h.raw _ hp0
    have hv1 : (loadByte s).validBits = ((v + 8 : Nat) : Int) := by
      simp [loadByte, hbyte, hb0, hv, -List.getD_eq_getElem?_getD]
    have hp1 : (loadByte s).position = s.position + 1 := rfl
    have hd1 : (loadByte s).rawData = s.rawData := rfl
    obtain ⟨a1, a2, a3, a4, a5, a6, a7, a8, a9⟩ := ih (loadByte s) (v + 8) hc1 hv1 (by omega)
      (by rw [hp1, hd1]; omega)
      (by intro i hi1 hi2; rw [hd1]; rw [hp1] at hi1 hi2; exact hff i (by omega) (by omega))
    refine ⟨a1, a2.trans hr1, ?_, ?_, a5.trans hd1, a6, a7, ?_, ?_⟩
    · rw [loadBytes, a3]; congr 1; omega
    · rw [loadBytes, a4, hp1]; omega
    · intro _
      rw [loadBytes]
      by_cases hk1 : 1 ≤ k
      · exact a8 hk1
      · have : k = 0 := by omega
        subst this
        rw [loadBytes, prevFF_loadByte]
        simpa using hb0
    · intro i hi
      rw [loadBytes, a9 i hi]
      have hcache : (loadByte s).readCache =
          s.readCache ||| ((s.rawData.getD s.position 0 <<< (56 - v)) % 2 ^ 64) := by
        simp [loadByte, hbyte, hv, -List.getD_eq_getElem?_getD]
      rw [hcache, testBit_or_byte _ _ v i (getD_mem_lt _ h.bytes _ hp0) (by omega) hi, hd1, hp1]
      by_cases c1 : v ≤ i ∧ i < v + 8
      · have c2 : ¬ (v + 8 ≤ i ∧ i < v + 8 + 8 * k) := by omega
        have c3 : v ≤ i ∧ i < v + 8 * (k + 1) := by omega
        have e1 : (i - v) / 8 = 0 := by omega
        have e2 : (i - v) % 8 = i - v := by omega
        simp [c1, c2, c3, e1, e2, -List.getD_eq_getElem?_getD]
      · by_cases c2 : v + 8 ≤ i ∧ i < v + 8 + 8 * k
        · have c3 : v ≤ i ∧ i < v + 8 * (k + 1) := by omega
          have e1 : s.position + 1 + (i - (v + 8)) / 8 = s.position + (i - v) / 8 := by omega
          have e2 : (i - (v + 8)) % 8 = (i - v) % 8 := by omega
          have c4 : ¬ i < v + 8 := by omega
          simp [c2, c3, c4, e1, e2, -List.getD_eq_getElem?_getD]
        · have c3 : ¬ (v ≤ i ∧ i < v + 8 * (k + 1)) := by omega
          simp [c1, c2, c3, -List.getD_eq_getElem?_getD]

theorem Inv_of_refilled (s s' : DecoderStrategy) (h : Inv s) (hr : Refilled s s')
    (hn : s'.nextFFPosition = s.nextFFPosition) : Inv s' := by
  refine ⟨hr.core, by rw [hn, hr.data]; exact h.nff_le, ?_⟩
  intro i hi1 hi2
  rw [hr.data]
  rw [hn] at hi2
  exact h.nff i (le_trans hr.posle hi1) hi2

theorem OptimizedRead_slow (s : DecoderStrategy)
    (hslow : ¬ (s.position : Int) < s.nextFFPosition - 7) :
    OptimizedRead 8 s = .ok (false, s) := by
  unfold OptimizedRead
  rw [if_neg]
  simpa using hslow

theorem OptimizedRead_fast (s : DecoderStrategy) (h : Inv s) (hv56 : s.validBits ≤ 56)
    (hfast : (s.position : Int) < s.nextFFPosition - 7) :
    ∃ s', OptimizedRead 8 s = .ok (true, s') ∧ Refilled s s' ∧
      s'.nextFFPosition = s.nextFFPosition ∧ 57 ≤ s'.validBits := by
  obtain ⟨v, hv⟩ := Int.eq_ofNat_of_zero_le h.core.vlo
  have hvle : v ≤ 56 := by omega
  have hnle := h.nff_le
  have hp8 : s.position + 8 ≤ s.rawData.length := by omega
  have hff : ∀ i, s.position ≤ i → i < s.position + 8 → s.rawData.getD i 0 ≠ 0xFF :=
    fun i h1 h2 => h.nff i h1 (by omega)
  have hk1 : 1 ≤ (64 - v) / 8 := by omega
  have hk8 : (64 - v) / 8 ≤ 8 := by omega
  obtain ⟨a1, a2, a3, a4, a5, a6, a7, a8, a9⟩ := loadBytes_spec ((64 - v) / 8) s v h.core hv
    (by omega) (by omega) (fun i h1 h2 => hff i h1 (by omega))
  have hB := FromBigEndianRead_lt s h.core.raw h.core.bytes s.position hp8
  have hsize : sizeT 8 ((bufType_bit_count 8 : Int) - s.validBits) / 8 = (((64 - v) / 8 : Nat) : Int) := by
    simp only [sizeT, bufType_bit_count, hv]
    norm_num
    rw [Int.emod_eq_of_lt (by omega) (by omega)]
    omega
  have hOR : OptimizedRead 8 s = .ok (true, { s with
      readCache := s.readCache ||| (FromBigEndianRead 8 s s.position >>> v)
      position := s.position + (64 - v) / 8
      validBits := ((v + 8 * ((64 - v) / 8) : Nat) : Int) }) := by
    unfold OptimizedRead
    rw [if_pos (by simpa using hfast)]
    have hsh : shiftRight 8 (FromBigEndianRead 8 s s.position) s.validBits =
        .ok (FromBigEndianRead 8 s s.position >>> v) := by
      unfold shiftRight bufType_bit_count
      rw [if_pos (by constructor <;> omega), hv]
      simp
    rw [hsh]
    simp only [hsize, Int.toNat_ofNat]
    congr 3
    rw [hv]
    push_cast
    ring
  refine ⟨_, hOR, ?_, rfl, ?_⟩
  swap
  · show (57 : Int) ≤ ((v + 8 * ((64 - v) / 8) : Nat) : Int)
    omega
  have hbit : ∀ i, i < 64 →
      (s.readCache ||| (FromBigEndianRead 8 s s.position >>> v)).testBit (63 - i) =
      (s.readCache.testBit (63 - i) || (decide (v ≤ i) &&
        (s.rawData.getD (s.position + (i - v) / 8) 0).testBit (7 - (i - v) % 8))) := by
    intro i hi
    rw [Nat.testBit_lor, Nat.testBit_shiftRight]
    congr 1
    by_cases hvi : v ≤ i
    · rw [show v + (63 - i) = 63 - (i - v) by omega,
        testBit_FromBigEndianRead s h.core.raw h.core.bytes _ hp8 _ (by omega)]
      simp [hvi]
    · rw [Nat.testBit_lt_two_pow (lt_of_lt_of_le hB (Nat.pow_le_pow_right (by norm_num) (by omega)))]
      simp [hvi]
  have ht := Core_transfer (loadBytes ((64 - v) / 8) s) { s with
      readCache := s.readCache ||| (FromBigEndianRead 8 s s.position >>> v)
      position := s.position + (64 - v) / 8
      validBits := ((v + 8 * ((64 - v) / 8) : Nat) : Int) } a1 a6.symm a5.symm a7.symm a4.symm a3.symm
    (Nat.or_lt_two_pow h.core.cache_lt (lt_of_le_of_lt (by rw [Nat.shiftRight_eq_div_pow]; exact Nat.div_le_self _ _) hB))
    (by
      intro i hi
      rw [a3] at hi
      simp only [Int.toNat_ofNat] at hi
      show (s.readCache ||| (FromBigEndianRead 8 s s.position >>> v)).testBit (63 - i) = _
      rw [hbit i (by omega), a9 i (by omega)]
      by_cases hvi : v ≤ i
      · have : v ≤ i ∧ i < v + 8 * ((64 - v) / 8) := ⟨hvi, hi⟩
        simp [hvi, this, -List.getD_eq_getElem?_getD]
      · have : ¬ (v ≤ i ∧ i < v + 8 * ((64 - v) / 8)) := fun hh => hvi hh.1
        simp [hvi, this, -List.getD_eq_getElem?_getD])
    (by
      intro j hj
      rw [a3] at hj ⊢
      simp only [Int.toNat_ofNat] at hj ⊢
      show (s.readCache ||| (FromBigEndianRead 8 s s.position >>> v)).testBit _ = true → _
      rw [hbit _ (by omega)]
      intro hb
      have hi9 := a9 (v + 8 * ((64 - v) / 8) + j) hj
      have hn : ¬ (v ≤ v + 8 * ((64 - v) / 8) + j ∧
          v + 8 * ((64 - v) / 8) + j < v + 8 * ((64 - v) / 8)) := by omega
      simp only [hn, decide_False, Bool.false_and, Bool.or_false] at hi9
      by_cases hcb : s.readCache.testBit (63 - (v + 8 * ((64 - v) / 8) + j)) = true
      · have hg := a1.garbage j (by rw [a3]; simpa using hj)
        rw [a3] at hg
        simp only [Int.toNat_ofNat] at hg
        exact hg (by rw [hi9]; exact hcb)
      · have hcb' : s.readCache.testBit (63 - (v + 8 * ((64 - v) / 8) + j)) = false := by
          simpa using hcb
        rw [hcb'] at hb
        have hvi : v ≤ v + 8 * ((64 - v) / 8) + j := by omega
        simp only [hvi, decide_True, Bool.true_and, Bool.false_or] at hb
        have e1 : (v + 8 * ((64 - v) / 8) + j - v) / 8 = (64 - v) / 8 := by omega
        have e2 : (v + 8 * ((64 - v) / 8) + j - v) % 8 = j := by omega
        rw [e1, e2] at hb
        have hpt : (loadBytes ((64 - v) / 8) s).position < (loadBytes ((64 - v) / 8) s).rawData.length := by
          rw [a4, a5]; omega
        have hbt : (loadBytes ((64 - v) / 8) s).rawData.getD (loadBytes ((64 - v) / 8) s).position 0 ≠ 0xFF := by
          rw [a4, a5]; exact hff _ (by omega) (by omega)
        rw [upcoming_plain _ hpt hbt, a8 hk1,
          List.getD_append _ _ _ _ (by simp [topBits_length]; omega),
          getD_topBits _ _ _ _ (by omega)]
        simp only [Bool.false_eq_true, if_false]
        rw [a4, a5]
        exact hb)
    (by
      intro hpf
      rw [a8 hk1] at hpf
      exact absurd hpf (by simp))
  exact ⟨ht.1, ht.2.trans a2, by show (1 : Int) ≤ ((v + 8 * ((64 - v) / 8) : Nat) : Int); omega,
    Or.inl (by show (56 : Int) ≤ ((v + 8 * ((64 - v) / 8) : Nat) : Int); omega), rfl, rfl, rfl,
    Nat.le_add_right _ _⟩

theorem Core_set_nextFF (s : DecoderStrategy) (h : Core s) (x : Int) :
    Core { s with nextFFPosition := x } :=
  ⟨h.raw, h.bytes, h.endp, h.pos_le, h.nomark, h.vlo, h.vhi, h.cache_lt, h.prev, h.garbage⟩

theorem remaining_eq_nil (s : DecoderStrategy) (h : Core s) :
    remaining s = [] ↔ upcoming s = [] ∧ s.validBits = 0 := by
  unfold remaining
  rw [List.append_eq_nil]
  constructor
  · intro ⟨h1, h2⟩
    have := congrArg List.length h1
    rw [topBits_length] at this
    have := h.vlo
    exact ⟨h2, by simp at *; omega⟩
  · intro ⟨h1, h2⟩
    exact ⟨by rw [h2]; rfl, h1⟩

theorem AddBytesFromStream_raw (s : DecoderStrategy) (h : s.byteStream = none) :
    AddBytesFromStream s = s := by
  unfold AddBytesFromStream
  rw [h]

theorem MakeValid_spec (s : DecoderStrategy) (h : Inv s) (hv : s.validBits ≤ 56) :
    (remaining s = [] → MakeValid 8 s = .error .InvalidCompressedData) ∧
    (remaining s ≠ [] → ∃ s', MakeValid 8 s = .ok s' ∧ Refilled s s' ∧ Inv s') := by
  rw [remaining_eq_nil s h.core]
  by_cases hfast : (s.position : Int) < s.nextFFPosition - 7
  · obtain ⟨s', h1, h2, h3, _⟩ := OptimizedRead_fast s h hv hfast
    have hne : ¬ (upcoming s = [] ∧ s.validBits = 0) := by
      intro ⟨hu, _⟩
      have hst := (stopped_iff s h.core).mpr hu
      have hnle := h.nff_le
      have hp : s.position < s.rawData.length := by omega
      have := h.nff s.position (le_refl _) (by omega)
      exact not_stopped_of_plain s h.core hp this hst
    constructor
    · intro hh; exact absurd hh hne
    · intro _
      refine ⟨s', ?_, h2, Inv_of_refilled s s' h h2 h3⟩
      unfold MakeValid
      rw [h1]
  · have hOR := OptimizedRead_slow s hfast
    have hloop := MakeValidLoop_spec (s.endPosition - s.position + 1) s h.core hv
      (by rw [h.core.endp])
    constructor
    · intro hh
      unfold MakeValid
      rw [hOR]
      simp only [AddBytesFromStream_raw s h.core.raw]
      rw [hloop.1 hh]
    · intro hh
      obtain ⟨fin, s', h1, h2, h3, h4, h5⟩ :=
        hloop.2 (fun x => hh ((remaining_eq_nil s h.core).mpr x))
      unfold MakeValid
      rw [hOR]
      simp only [AddBytesFromStream_raw s h.core.raw]
      rw [h1]
      cases fin with
      | false => exact ⟨s', rfl, h2, Inv_of_refilled s s' h h2 h3⟩
      | true =>
        refine ⟨_, rfl, ⟨Core_set_nextFF s' h2.core _, h2.rem, h2.pos, h2.full, h2.data, h2.around,
          h2.buffer, h2.posle⟩, Core_set_nextFF s' h2.core _, ?_, ?_⟩
        · have := (FindNextFF_spec s' h2.core.raw h2.core.endp h2.core.pos_le).2.1
          show ((FindNextFF s' : Nat) : Int) ≤ (s'.rawData.length : Int)
          exact_mod_cast this
        · intro i hi1 hi2
          have := (FindNextFF_spec s' h2.core.raw h2.core.endp h2.core.pos_le).2.2
          have hi3 : (i : Int) < ((FindNextFF s' : Nat) : Int) := hi2
          exact this i hi1 (by exact_mod_cast hi3)

theorem topBits_take (W x n k : Nat) (hk : k ≤ n) : (topBits W x n).take k = topBits W x k := by
  have e : n = k + (n - k) := by omega
  rw [e, topBits_add]
  exact List.take_left' (topBits_length _ _ _)

theorem topBits_drop (W x n k : Nat) (hk : k ≤ n) :
    (topBits W x n).drop k = (List.range (n - k)).map (fun j => x.testBit (W - 1 - (k + j))) := by
  have e : n = k + (n - k) := by omega
  rw [e, topBits_add]
  rw [List.drop_left' (topBits_length _ _ _)]
  simp

theorem remaining_length (s : DecoderStrategy) :
    (remaining s).length = s.validBits.toNat + (upcoming s).length := by
  simp [remaining, topBits_length]

theorem Skip_eq (s : DecoderStrategy) (k : Nat) (hk : k < 64) :
    Skip 8 s (k : Int) = .ok { s with
      validBits := s.validBits - k
      readCache := (s.readCache <<< k) % 2 ^ 64 } := by
  unfold Skip shiftLeft bufType_bit_count
  rw [if_pos (by constructor <;> omega)]
  simp

theorem testBit_skip (c k i : Nat) (hi : i < 64) :
    ((c <<< k) % 2 ^ 64).testBit (63 - i) = (decide (i + k < 64) && c.testBit (63 - (i + k))) := by
  rw [Nat.testBit_mod_two_pow, Nat.testBit_shiftLeft]
  have h1 : 63 - i < 64 := by omega
  by_cases h2 : i + k < 64
  · have h3 : 63 - i ≥ k := by omega
    have e : 63 - i - k = 63 - (i + k) := by omega
    simp [h1, h2, h3, e]
  · have h3 : ¬ (63 - i ≥ k) := by omega
    simp [h1, h2, h3]

theorem Skip_spec (s : DecoderStrategy) (h : Inv s) (k : Nat) (hk : (k : Int) ≤ s.validBits)
    (hk64 : k < 64) :
    ∃ s', Skip 8 s (k : Int) = .ok s' ∧ Consumed k s s' ∧ s'.validBits = s.validBits - k ∧
      s'.position = s.position ∧ s'.nextFFPosition = s.nextFFPosition := by
  obtain ⟨v, hv⟩ := Int.eq_ofNat_of_zero_le h.core.vlo
  have hkv : k ≤ v := by omega
  have hv64 : v ≤ 64 := by have := h.core.vhi; omega
  refine ⟨_, Skip_eq s k hk64, ?_, rfl, rfl, rfl⟩
  have hvb : s.validBits - (k : Int) = ((v - k : Nat) : Int) := by omega
  have hg := h.core.garbage
  have hprev := h.core.prev
  rw [hv] at hg hprev
  simp only [Int.toNat_ofNat] at hg hprev
  have hcore : Core { s with
      validBits := s.validBits - k
      readCache := (s.readCache <<< k) % 2 ^ 64 } := by
    refine ⟨h.core.raw, h.core.bytes, h.core.endp, h.core.pos_le, h.core.nomark, ?_, ?_,
      Nat.mod_lt _ (Nat.two_pow_pos _), ?_, ?_⟩
    · show 0 ≤ s.validBits - (k : Int); omega
    · show s.validBits - (k : Int) ≤ 64
      have := h.core.vhi; omega
    · intro hp
      obtain ⟨a, b, c, d⟩ := hprev hp
      refine ⟨a, b, ?_, ?_⟩
      · show s.validBits - (k : Int) < 64; omega
      · show ((s.readCache <<< k) % 2 ^ 64).testBit (63 - (s.validBits - (k : Int)).toNat) = true
        rw [hvb]
        simp only [Int.toNat_ofNat]
        rw [testBit_skip _ _ _ (by omega)]
        have : v - k + k < 64 := by omega
        simp only [this, decide_True, Bool.true_and]
        rw [show v - k + k = v by omega]
        exact d
    · intro j
      show (s.validBits - (k : Int)).toNat + j < 64 →
        ((s.readCache <<< k) % 2 ^ 64).testBit (63 - ((s.validBits - (k : Int)).toNat + j)) = true →
        (upcoming s).getD j false = true
      rw [hvb]
      simp only [Int.toNat_ofNat]
      intro hj hbit
      rw [testBit_skip _ _ _ hj] at hbit
      simp only [Bool.and_eq_true, decide_eq_true_eq] at hbit
      apply hg j (by omega)
      rw [← hbit.2]
      congr 2
      omega
  refine ⟨⟨hcore, h.nff_le, h.nff⟩, ?_, rfl, rfl, rfl, le_refl _⟩
  show topBits 64 ((s.readCache <<< k) % 2 ^ 64) (s.validBits - (k : Int)).toNat ++ upcoming s = _
  unfold remaining
  rw [List.drop_append_of_le_length (by rw [topBits_length, hv]; simpa using hkv), hvb, hv]
  simp only [Int.toNat_ofNat]
  rw [topBits_drop _ _ _ _ hkv]
  congr 1
  apply range_map_congr
  intro i hi
  rw [show 64 - 1 - i = 63 - i by omega, testBit_skip _ _ _ (by omega)]
  have : i + k < 64 := by omega
  simp only [this, decide_True, Bool.true_and]
  congr 1
  omega

theorem refill_spec (s : DecoderStrategy) (h : Inv s) (n : Nat) (hn : n ≤ 56)
    (hlt : s.validBits < n) :
    (remaining s = [] → MakeValid 8 s = .error .InvalidCompressedData) ∧
    (remaining s ≠ [] → ∃ s', MakeValid 8 s = .ok s' ∧ Refilled s s' ∧ Inv s' ∧
      ((n : Int) ≤ s'.validBits ↔ n ≤ (remaining s).length) ∧
      (s'.validBits < n → upcoming s' = [])) := by
  obtain ⟨h1, h2⟩ := MakeValid_spec s h (by omega)
  refine ⟨h1, fun hne => ?_⟩
  obtain ⟨s', a, b, c⟩ := h2 hne
  refine ⟨s', a, b, c, ?_, ?_⟩
  · rw [← b.rem, remaining_length]
    have hvlo := b.core.vlo
    rcases b.full with hf | hf
    · constructor
      · intro _; omega
      · intro _; omega
    · rw [hf]
      simp only [List.length_nil, Nat.add_zero]
      omega
  · intro hlt'
    rcases b.full with hf | hf
    · omega
    · exact hf

theorem toInt32_of_lt (x : Nat) (h : x < 2 ^ 31) : toInt32 (x : Int) = (x : Int) := by
  unfold toInt32
  have h' : (x : Int) < 2 ^ 31 := by exact_mod_cast h
  rw [Int.emod_eq_of_lt (by omega) (by omega)]
  omega

theorem shiftRight_lt (c k : Nat) (hc : c < 2 ^ 64) (hk : k ≤ 64) : c >>> (64 - k) < 2 ^ k := by
  rw [Nat.shiftRight_eq_div_pow, Nat.div_lt_iff_lt_mul (Nat.two_pow_pos _), ← Nat.pow_add]
  rw [show k + (64 - k) = 64 by omega]
  exact hc

/-- Function `ReadValue` when the cache holds enough bits. -/
theorem ReadValue_tail (s1 : DecoderStrategy) (h : Inv s1) (k : Nat) (hk1 : 1 ≤ k) (hk : k ≤ 31)
    (hkv : (k : Int) ≤ s1.validBits) :
    ∃ s2, ReadValue 8 s1 k = .ok ((bitsValue ((remaining s1).take k) : Int), s2) ∧
      Consumed k s1 s2 ∧ s2.validBits = s1.validBits - k ∧ s2.position = s1.position ∧
        s2.nextFFPosition = s1.nextFFPosition := by
  obtain ⟨s2, e1, e2, e3⟩ := Skip_spec s1 h k hkv (by omega)
  refine ⟨s2, ?_, e2, e3⟩
  have hsz : sizeT 8 ((bufType_bit_count 8 : Int) - (k : Int)) = ((64 - k : Nat) : Int) := by
    simp only [sizeT, bufType_bit_count]
    norm_num
    rw [Int.emod_eq_of_lt (by omega) (by omega)]
    omega
  have hsh : shiftRight 8 s1.readCache ((64 - k : Nat) : Int) = .ok (s1.readCache >>> (64 - k)) := by
    unfold shiftRight bufType_bit_count
    rw [if_pos (by constructor <;> omega)]
    simp
  unfold ReadValue
  simp only [if_neg (not_lt.mpr hkv)]
  rw [hsz, hsh, e1]
  simp only
  have hlt := shiftRight_lt s1.readCache k h.core.cache_lt (by omega)
  rw [toInt32_of_lt _ (lt_of_lt_of_le hlt (Nat.pow_le_pow_right (by norm_num) hk))]
  obtain ⟨v, hv⟩ := Int.eq_ofNat_of_zero_le h.core.vlo
  unfold remaining
  rw [List.take_append_of_le_length (by rw [topBits_length, hv]; simp; omega), hv]
  simp only [Int.toNat_ofNat]
  rw [topBits_take _ _ _ _ (by omega), bitsValue_topBits _ _ _ (by omega) h.core.cache_lt]

theorem ReadValue_refill (s s1 : DecoderStrategy) (k : Int) (hlt : s.validBits < k)
    (hMV : MakeValid 8 s = .ok s1) (hkv : k ≤ s1.validBits) :
    ReadValue 8 s k = ReadValue 8 s1 k := by
  unfold ReadValue
  simp only [hlt, if_true, hMV, if_neg (not_lt.mpr hkv)]

theorem Consumed_of_refilled (k : Nat) (s s1 s2 : DecoderStrategy) (hr : Refilled s s1)
    (hc : Consumed k s1 s2) : Consumed k s s2 :=
  ⟨hc.inv, by rw [hc.rem, hr.rem], hc.data.trans hr.data, hc.around.trans hr.around,
    hc.buffer.trans hr.buffer, le_trans hr.posle hc.posle⟩

theorem ReadValue_spec (s : DecoderStrategy) (h : Inv s) (k : Nat) (hk1 : 1 ≤ k) (hk : k ≤ 31) :
    (k ≤ (remaining s).length → ∃ s', ReadValue 8 s k =
      .ok ((bitsValue ((remaining s).take k) : Int), s') ∧ Consumed k s s') ∧
    ((remaining s).length < k → ReadValue 8 s k = .error .InvalidCompressedData) := by
  by_cases hlt : s.validBits < (k : Int)
  · obtain ⟨r1, r2⟩ := refill_spec s h k (by omega) hlt
    by_cases hnil : remaining s = []
    · have hMV := r1 hnil
      constructor
      · intro hle; rw [hnil] at hle; simp at hle; omega
      · intro _
        unfold ReadValue
        simp only [hlt, if_true, hMV]
    · obtain ⟨s1, hMV, hR, hI, hiff, _⟩ := r2 hnil
      constructor
      · intro hle
        have hkv := hiff.mpr hle
        obtain ⟨s2, e1, e2, _⟩ := ReadValue_tail s1 hI k hk1 hk hkv
        refine ⟨s2, ?_, Consumed_of_refilled k s s1 s2 hR e2⟩
        rw [ReadValue_refill s s1 k hlt hMV hkv, e1, hR.rem]
      · intro hgt
        have hkv : s1.validBits < (k : Int) := by
          by_contra hh
          have := hiff.mp (not_lt.mp hh)
          omega
        unfold ReadValue
        simp only [hlt, if_true, hMV, if_pos hkv]
  · have hkv : (k : Int) ≤ s.validBits := not_lt.mp hlt
    obtain ⟨s2, e1, e2, _⟩ := ReadValue_tail s h k hk1 hk hkv
    have hlen : k ≤ (remaining s).length := by
      rw [remaining_length]; omega
    constructor
    · intro _
      exact ⟨s2, e1, e2⟩
    · intro hgt; omega

theorem and_top_ne_zero (c : Nat) : decide (c &&& 2 ^ 63 ≠ 0) = c.testBit 63 := by
  rw [Nat.and_two_pow]
  cases c.testBit 63 <;> simp

theorem shiftLeft_one_top : shiftLeft 8 1 ((bufType_bit_count 8 : Int) - 1) = .ok (2 ^ 63) := by
  unfold shiftLeft bufType_bit_count
  rw [if_pos (by constructor <;> norm_num)]
  rfl

theorem remaining_head (s : DecoderStrategy) (h : 1 ≤ s.validBits) :
    ∃ rest, remaining s = s.readCache.testBit 63 :: rest := by
  obtain ⟨v, hv⟩ := Int.eq_ofNat_of_zero_le (show 0 ≤ s.validBits by omega)
  unfold remaining
  rw [hv]
  simp only [Int.toNat_ofNat]
  have e : v = 1 + (v - 1) := by omega
  rw [e, topBits_add]
  refine ⟨(List.range (v - 1)).map (fun j => s.readCache.testBit (64 - 1 - (1 + j))) ++ upcoming s, ?_⟩
  simp [topBits, List.range_succ]

theorem ReadBit_tail (s1 : DecoderStrategy) (h : Inv s1) (hv : 1 ≤ s1.validBits) :
    ∃ s2, ReadBit 8 s1 = .ok (s1.readCache.testBit 63, s2) ∧ Consumed 1 s1 s2 ∧
      s2.validBits = s1.validBits - 1 ∧ s2.position = s1.position ∧
      s2.nextFFPosition = s1.nextFFPosition := by
  obtain ⟨s2, e1, e2, e3⟩ := Skip_spec s1 h 1 (by simpa using hv) (by norm_num)
  refine ⟨s2, ?_, e2, e3⟩
  unfold ReadBit
  simp only [if_neg (show ¬ s1.validBits ≤ 0 by omega), shiftLeft_one_top]
  simp only [Nat.cast_one] at e1
  rw [e1]
  simp only [and_top_ne_zero]

theorem ReadBit_refill (s s1 : DecoderStrategy) (hlt : s.validBits ≤ 0)
    (hMV : MakeValid 8 s = .ok s1) (hkv : 1 ≤ s1.validBits) :
    ReadBit 8 s = ReadBit 8 s1 := by
  unfold ReadBit
  simp only [hlt, if_true, hMV, if_neg (show ¬ s1.validBits ≤ 0 by omega)]

theorem ReadBit_spec (s : DecoderStrategy) (h : Inv s) :
    (remaining s = [] → ReadBit 8 s = .error .InvalidCompressedData) ∧
    (∀ b rest, remaining s = b :: rest →
      ∃ s', ReadBit 8 s = .ok (b, s') ∧ Consumed 1 s s' ∧ remaining s' = rest) := by
  by_cases hlt : s.validBits ≤ 0
  · obtain ⟨r1, r2⟩ := refill_spec s h 1 (by omega) (by simpa using (show s.validBits < 1 by omega))
    constructor
    · intro hnil
      unfold ReadBit
      simp only [hlt, if_true, r1 hnil]
    · intro b rest hrem
      obtain ⟨s1, hMV, hR, hI, _, _⟩ := r2 (by rw [hrem]; simp)
      obtain ⟨s2, e1, e2, _⟩ := ReadBit_tail s1 hI hR.pos
      obtain ⟨rest', hrest'⟩ := remaining_head s1 hR.pos
      rw [hR.rem, hrem] at hrest'
      have hb : s1.readCache.testBit 63 = b := by
        injection hrest' with a _
        exact a.symm
      refine ⟨s2, ?_, Consumed_of_refilled 1 s s1 s2 hR e2, ?_⟩
      · rw [ReadBit_refill s s1 hlt hMV hR.pos, e1, hb]
      · rw [e2.rem, hR.rem, hrem]
        rfl
  · have hv : 1 ≤ s.validBits := by omega
    obtain ⟨s2, e1, e2, _⟩ := ReadBit_tail s h hv
    obtain ⟨rest', hrest'⟩ := remaining_head s hv
    constructor
    · intro hnil
      rw [hnil] at hrest'
      exact absurd hrest' (by simp)
    · intro b rest hrem
      rw [hrem] at hrest'
      have hb : s.readCache.testBit 63 = b := by
        injection hrest' with a _
        exact a.symm
      refine ⟨s2, by rw [e1, hb], e2, ?_⟩
      rw [e2.rem, hrem]
      rfl

theorem PeekByte_spec (s : DecoderStrategy) (h : Inv s) :
    (remaining s = [] → PeekByte 8 s = .error .InvalidCompressedData) ∧
    (remaining s ≠ [] → ∃ x s', PeekByte 8 s = .ok (x, s') ∧ Consumed 0 s s' ∧
      (8 ≤ (remaining s).length → x = (bitsValue ((remaining s).take 8) : Int))) := by
  have hsz : sizeT 8 ((bufType_bit_count 8 : Int) - 8) = ((56 : Nat) : Int) := by
    simp only [sizeT, bufType_bit_count]
    norm_num
  have hsh : ∀ c, shiftRight 8 c ((56 : Nat) : Int) = .ok (c >>> 56) := by
    intro c
    unfold shiftRight bufType_bit_count
    rw [if_pos (by constructor <;> norm_num)]
    simp
  have hval : ∀ s1 : DecoderStrategy, Inv s1 → (8 : Int) ≤ s1.validBits →
      toInt32 ((s1.readCache >>> 56 : Nat) : Int) = (bitsValue ((remaining s1).take 8) : Int) := by
    intro s1 h1 h8
    have hlt := shiftRight_lt s1.readCache 8 h1.core.cache_lt (by omega)
    rw [toInt32_of_lt _ (lt_of_lt_of_le hlt (Nat.pow_le_pow_right (by norm_num) (by norm_num)))]
    obtain ⟨v, hv⟩ := Int.eq_ofNat_of_zero_le h1.core.vlo
    unfold remaining
    rw [List.take_append_of_le_length (by rw [topBits_length, hv]; simp; omega), hv]
    simp only [Int.toNat_ofNat]
    rw [topBits_take _ _ _ _ (by omega), bitsValue_topBits _ _ _ (by omega) h1.core.cache_lt]
  by_cases hlt : s.validBits < 8
  · obtain ⟨r1, r2⟩ := refill_spec s h 8 (by omega) (by simpa using hlt)
    constructor
    · intro hnil
      unfold PeekByte
      simp only [hlt, if_true, r1 hnil]
    · intro hne
      obtain ⟨s1, hMV, hR, hI, hiff, _⟩ := r2 hne
      refine ⟨toInt32 ((s1.readCache >>> 56 : Nat) : Int), s1, ?_,
        ⟨hI, by rw [hR.rem]; rfl, hR.data, hR.around, hR.buffer, hR.posle⟩, ?_⟩
      · unfold PeekByte
        simp only [hlt, if_true, hMV, hsz, hsh]
      · intro h8
        rw [hval s1 hI (by simpa using hiff.mpr h8), hR.rem]
  · constructor
    · intro hnil
      have := remaining_length s
      rw [hnil] at this
      simp at this
      omega
    · intro _
      refine ⟨toInt32 ((s.readCache >>> 56 : Nat) : Int), s, ?_,
        ⟨h, rfl, rfl, rfl, rfl, le_refl _⟩, ?_⟩
      · unfold PeekByte
        simp only [hlt, if_false, hsz, hsh]
      · intro _
        exact hval s h (by omega)

theorem topBits_255 : topBits 8 0xFF 8 = List.replicate 8 true := by decide

theorem topBits_or_128 (c : Nat) :
    topBits 8 (c ||| 0x80) 8 = true :: topBits 7 c 7 := by
  rw [show (8 : Nat) = 1 + 7 by norm_num, topBits_add]
  have h1 : topBits (1 + 7) (c ||| 0x80) 1 = [true] := by
    simp [topBits, List.range_succ]
    exact Or.inr (by decide)
  rw [h1]
  simp only [List.singleton_append, List.cons.injEq, true_and]
  apply range_map_congr
  intro j hj
  rw [Nat.testBit_lor, testBit_128]
  have : ¬ (1 + 7 - 1 - (1 + j) = 7) := by omega
  simp only [this, decide_False, Bool.or_false]
  congr 1
  omega

theorem upcomingBits_eq_destuffed (data : List Nat) (hb : ∀ b ∈ data, b < 256) :
    upcomingBits false data = destuffed data := by
  induction data using destuffed.induct with
  | case1 => rw [upcomingBits_nil]; rfl
  | case2 => rw [upcomingBits_ff_last]; rfl
  | case3 b h =>
    rw [upcomingBits_cons _ _ _ h, upcomingBits_nil]
    simp [destuffed, h]
  | case4 c rest hc =>
    rw [upcomingBits_ff_cons, destuffed]
    simp [hc]
  | case5 c rest hc ih =>
    have hc' : c &&& 0x80 = 0 := by simpa using hc
    have hc256 : c < 256 := hb c (by simp)
    have hc128 : c < 128 := (and_128_eq_zero_iff c hc256).mp hc'
    have hcne : c ≠ 0xFF := by omega
    rw [upcomingBits_ff_cons, if_neg hc, upcomingBits_cons _ _ _ hcne, destuffed]
    simp only [if_true, if_neg hc]
    rw [ih (fun b hb' => hb b (by simp [hb']))]
    simp only [if_true, topBits_or_128 c, topBits_255]
    simp
  | case6 b c rest hbne ih =>
    rw [upcomingBits_cons _ _ _ hbne, destuffed]
    simp only [if_neg hbne]
    rw [ih (fun x hx => hb x (List.mem_cons_of_mem _ hx))]
    simp

theorem Inv_findNextFF (t : DecoderStrategy) (h : Core t) :
    Inv { t with nextFFPosition := (FindNextFF t : Nat) } := by
  have hI := FindNextFF_spec t h.raw h.endp h.pos_le
  refine ⟨Core_set_nextFF t h _, Int.ofNat_le.mpr hI.2.1, ?_⟩
  intro i hi1 hi2
  exact hI.2.2 i hi1 (Int.ofNat_lt.mp hi2)

theorem Init_raw (s0 : DecoderStrategy) (info : ByteStreamInfo) (hraw : info.rawStream = none) :
    Init 8 s0 info = MakeValid 8 { initState s0 info with
      nextFFPosition := (FindNextFF (initState s0 info) : Nat) } := by
  unfold Init initState
  simp only [hraw]

theorem initState_core (s0 : DecoderStrategy) (info : ByteStreamInfo)
    (hb : ∀ b ∈ info.rawData, b < 256) : Core (initState s0 info) := by
  refine ⟨rfl, hb, rfl, Nat.zero_le _, fun i hi => absurd hi (Nat.not_lt_zero i), le_refl _,
    by norm_num [initState], by norm_num [initState],
    ?_, ?_⟩
  · intro hp
    simp [prevFF, initState] at hp
  · intro j _ hbit
    simp [initState] at hbit

theorem Init_spec (s0 : DecoderStrategy) (info : ByteStreamInfo) (hraw : info.rawStream = none)
    (hb : ∀ b ∈ info.rawData, b < 256) :
    (destuffed info.rawData = [] → Init 8 s0 info = .error .InvalidCompressedData) ∧
    (destuffed info.rawData ≠ [] → ∃ s, Init 8 s0 info = .ok s ∧ Inv s ∧
      remaining s = destuffed info.rawData ∧ s.rawData = info.rawData ∧
      s.around = info.around ∧ s.buffer = s0.buffer) := by
  have hinv := Inv_findNextFF _ (initState_core s0 info hb)
  have hrem : remaining { initState s0 info with
      nextFFPosition := (FindNextFF (initState s0 info) : Nat) } = destuffed info.rawData := by
    rw [← upcomingBits_eq_destuffed _ hb]
    simp [remaining, upcoming, prevFF, topBits, initState]
  obtain ⟨h1, h2⟩ := MakeValid_spec _ hinv (by norm_num [initState])
  rw [hrem] at h1 h2
  rw [Init_raw s0 info hraw]
  refine ⟨h1, fun hne => ?_⟩
  obtain ⟨s, a, b, c⟩ := h2 hne
  exact ⟨s, a, c, b.rem.trans hrem, b.data, b.around, b.buffer⟩

theorem bitsValue_foldl (l : List Bool) : ∀ a : Nat,
    l.foldl (fun acc b => 2 * acc + b.toNat) a = a * 2 ^ l.length + bitsValue l := by
  induction l with
  | nil => intro a; simp [bitsValue]
  | cons b l ih =>
    intro a
    have e : bitsValue (b :: l) = b.toNat * 2 ^ l.length + bitsValue l := by
      unfold bitsValue
      rw [List.foldl_cons, ih]
      simp [bitsValue]
    rw [List.foldl_cons, ih, e, List.length_cons, Nat.pow_succ]
    ring

theorem bitsValue_append (l1 l2 : List Bool) :
    bitsValue (l1 ++ l2) = bitsValue l1 * 2 ^ l2.length + bitsValue l2 := by
  rw [bitsValue, List.foldl_append, bitsValue_foldl]
  rfl

theorem bitsValue_lt (l : List Bool) : bitsValue l < 2 ^ l.length := by
  induction l using List.reverseRecOn with
  | nil => simp [bitsValue]
  | append_singleton l b ih =>
    rw [bitsValue_append_one, List.length_append, List.length_singleton, Nat.pow_succ]
    have : b.toNat ≤ 1 := by cases b <;> simp
    omega

theorem Consumed_trans (a b : Nat) (s s1 s2 : DecoderStrategy) (h1 : Consumed a s s1)
    (h2 : Consumed b s1 s2) : Consumed (a + b) s s2 :=
  ⟨h2.inv, by rw [h2.rem, h1.rem, List.drop_drop], h2.data.trans h1.data,
    h2.around.trans h1.around, h2.buffer.trans h1.buffer, le_trans h1.posle h2.posle⟩

theorem toInt32_shift_add (hi lo : Nat) (hhi : hi < 2 ^ 8) (hlo : lo < 2 ^ 24) :
    toInt32 ((hi : Int) * 2 ^ 24) + (lo : Int) = toInt32 ((hi * 2 ^ 24 + lo : Nat) : Int) := by
  unfold toInt32
  push_cast
  have h1 : (hi : Int) < 256 := by exact_mod_cast hhi
  have h2 : (lo : Int) < 16777216 := by exact_mod_cast hlo
  have h3 : (0 : Int) ≤ hi := Int.ofNat_nonneg _
  have h4 : (0 : Int) ≤ lo := Int.ofNat_nonneg _
  omega

theorem ReadLongValue_spec (s : DecoderStrategy) (h : Inv s) (k : Nat) (hk1 : 1 ≤ k)
    (hk : k ≤ 32) :
    (k ≤ (remaining s).length → ∃ s', ReadLongValue 8 s k =
      .ok (toInt32 (bitsValue ((remaining s).take k) : Int), s') ∧ Consumed k s s') ∧
    ((remaining s).length < k → ReadLongValue 8 s k = .error .InvalidCompressedData) := by
  by_cases h24 : k ≤ 24
  · have e : ReadLongValue 8 s k = ReadValue 8 s k := by
      unfold ReadLongValue
      rw [if_pos (by exact_mod_cast h24)]
    rw [e]
    obtain ⟨r1, r2⟩ := ReadValue_spec s h k hk1 (by omega)
    refine ⟨fun hle => ?_, r2⟩
    obtain ⟨s', a, b⟩ := r1 hle
    refine ⟨s', ?_, b⟩
    rw [a, toInt32_of_lt]
    have := bitsValue_lt ((remaining s).take k)
    rw [List.length_take, Nat.min_eq_left hle] at this
    exact lt_of_lt_of_le this (Nat.pow_le_pow_right (by norm_num) (by omega))
  · have hcast : (k : Int) - 24 = ((k - 24 : Nat) : Int) := by omega
    obtain ⟨r1, r2⟩ := ReadValue_spec s h (k - 24) (by omega) (by omega)
    constructor
    · intro hle
      obtain ⟨s1, a1, b1⟩ := r1 (by omega)
      obtain ⟨q1, _⟩ := ReadValue_spec s1 b1.inv 24 (by norm_num) (by norm_num)
      have hlen1 : 24 ≤ (remaining s1).length := by
        rw [b1.rem, List.length_drop]; omega
      obtain ⟨s2, a2, b2⟩ := q1 hlen1
      refine ⟨s2, ?_, ?_⟩
      · unfold ReadLongValue
        rw [if_neg (by omega), hcast, a1]
        simp only [Nat.cast_ofNat] at a2
        simp only [a2]
        have hhi := bitsValue_lt ((remaining s).take (k - 24))
        rw [List.length_take, Nat.min_eq_left (by omega)] at hhi
        have hlo := bitsValue_lt ((remaining s1).take 24)
        rw [List.length_take, Nat.min_eq_left hlen1] at hlo
        have e : (remaining s).take k =
            (remaining s).take (k - 24) ++ ((remaining s).drop (k - 24)).take 24 := by
          rw [← List.take_add]; congr 1; omega
        have e2 : bitsValue ((remaining s).take k) =
            bitsValue ((remaining s).take (k - 24)) * 2 ^ 24 + bitsValue ((remaining s1).take 24) := by
          rw [e, bitsValue_append, b1.rem, List.length_take, List.length_drop,
            Nat.min_eq_left (by omega)]
        rw [toInt32_shift_add _ _ (lt_of_lt_of_le hhi (Nat.pow_le_pow_right (by norm_num) (by omega))) hlo,
          e2]
      · have := Consumed_trans _ _ s s1 s2 b1 b2
        rwa [show k - 24 + 24 = k by omega] at this
    · intro hlt
      unfold ReadLongValue
      rw [if_neg (by omega), hcast]
      by_cases hlt1 : (remaining s).length < k - 24
      · rw [r2 hlt1]
      · obtain ⟨s1, a1, b1⟩ := r1 (by omega)
        obtain ⟨_, q2⟩ := ReadValue_spec s1 b1.inv 24 (by norm_num) (by norm_num)
        have hlen1 : (remaining s1).length < 24 := by
          rw [b1.rem, List.length_drop]; omega
        have := q2 hlen1
        simp only [Nat.cast_ofNat] at this
        rw [a1]
        simp only [this]

theorem MakeValidLoop_stopped (fuel : Nat) (s : DecoderStrategy) (hst : stopped s) :
    MakeValidLoop 8 (fuel + 1) s =
      if s.validBits ≤ 0 then .error .InvalidCompressedData else .ok (false, s) := by
  rw [MakeValidLoop]
  rcases hst with h1 | h2
  · rw [if_pos h1]
  · by_cases h1 : s.position ≥ s.endPosition
    · rw [if_pos h1]
    · rw [if_neg h1]
      simp only
      rw [if_pos h2]

theorem MakeValidLoop_overfull (fuel : Nat) (s : DecoderStrategy) (hns : ¬ stopped s)
    (hv : 56 < s.validBits) (hv64 : s.validBits ≤ 64) :
    MakeValidLoop 8 (fuel + 1) s = .error .UndefinedBehaviour := by
  rw [MakeValidLoop]
  have h1 : ¬ s.position ≥ s.endPosition := fun h => hns (Or.inl h)
  have h2 : ¬ (byteAt s s.position = JpegMarkerCode_Start ∧
      ((s.position : Int) = (s.endPosition : Int) - 1 ∨
        (byteAt s ((s.position : Int) + 1)) &&& 0x80 ≠ 0)) := fun h => hns (Or.inr h)
  rw [if_neg h1]
  simp only
  rw [if_neg h2]
  have hsh : shiftLeft 8 (byteAt s s.position)
      (sizeT 8 ((bufType_bit_count 8 : Int) - 8 - s.validBits)) = .error .UndefinedBehaviour := by
    unfold shiftLeft
    rw [if_neg]
    intro ⟨_, hh⟩
    simp only [sizeT, bufType_bit_count] at hh
    norm_num at hh
    omega
  rw [hsh]

theorem stopped_not_fast (s : DecoderStrategy) (h : Inv s) (hst : stopped s) :
    ¬ (s.position : Int) < s.nextFFPosition - 7 := by
  intro hfast
  have hnle := h.nff_le
  have hp : s.position < s.rawData.length := by omega
  have := h.nff s.position (le_refl _) (by omega)
  exact not_stopped_of_plain s h.core hp this hst

theorem MakeValid_stopped_empty (s : DecoderStrategy) (hraw : s.byteStream = none)
    (hst : stopped s) (hslow : ¬ (s.position : Int) < s.nextFFPosition - 7)
    (hv : s.validBits ≤ 0) : MakeValid 8 s = .error .InvalidCompressedData := by
  unfold MakeValid
  rw [OptimizedRead_slow s hslow]
  simp only [AddBytesFromStream_raw s hraw]
  rw [MakeValidLoop_stopped _ s hst, if_pos hv]

theorem testBit_or_read (s : DecoderStrategy) (hraw : s.byteStream = none)
    (hb : ∀ b ∈ s.rawData, b < 256) (hp8 : s.position + 8 ≤ s.rawData.length) (v i : Nat)
    (hi : i < 64) :
    (s.readCache ||| (FromBigEndianRead 8 s s.position >>> v)).testBit (63 - i) =
      (s.readCache.testBit (63 - i) || (decide (v ≤ i) &&
        (s.rawData.getD (s.position + (i - v) / 8) 0).testBit (7 - (i - v) % 8))) := by
  have hB := FromBigEndianRead_lt s hraw hb s.position hp8
  rw [Nat.testBit_lor, Nat.testBit_shiftRight]
  congr 1
  by_cases hvi : v ≤ i
  · rw [show v + (63 - i) = 63 - (i - v) by omega,
      testBit_FromBigEndianRead s hraw hb _ hp8 _ (by omega)]
    simp [hvi]
  · rw [Nat.testBit_lt_two_pow (lt_of_lt_of_le hB (Nat.pow_le_pow_right (by norm_num) (by omega)))]
    simp [hvi]

theorem MakeValid_overfull (s s' : DecoderStrategy) (h : Inv s) (hv : 56 < s.validBits)
    (hok : MakeValid 8 s = .ok s') : Consumed 0 s s' := by
  have hv64 := h.core.vhi
  obtain ⟨v, hv'⟩ := Int.eq_ofNat_of_zero_le h.core.vlo
  by_cases hfast : (s.position : Int) < s.nextFFPosition - 7
  · have hnle := h.nff_le
    have hp8 : s.position + 8 ≤ s.rawData.length := by omega
    by_cases h64 : s.validBits = 64
    · exfalso
      unfold MakeValid OptimizedRead at hok
      rw [if_pos (by simpa using hfast)] at hok
      have : shiftRight 8 (FromBigEndianRead 8 s s.position) s.validBits =
          .error .UndefinedBehaviour := by
        unfold shiftRight bufType_bit_count
        rw [if_neg (by omega)]
      rw [this] at hok
      simp at hok
    · have hsize : sizeT 8 ((bufType_bit_count 8 : Int) - s.validBits) / 8 = 0 := by
        simp only [sizeT, bufType_bit_count, hv']
        norm_num
        rw [Int.emod_eq_of_lt (by omega) (by omega)]
        omega
      have hOR : OptimizedRead 8 s = .ok (true, { s with
          readCache := s.readCache ||| (FromBigEndianRead 8 s s.position >>> v) }) := by
        unfold OptimizedRead
        rw [if_pos (by simpa using hfast)]
        have hsh : shiftRight 8 (FromBigEndianRead 8 s s.position) s.validBits =
            .ok (FromBigEndianRead 8 s s.position >>> v) := by
          unfold shiftRight bufType_bit_count
          rw [if_pos (by constructor <;> omega), hv']
          simp
        rw [hsh]
        simp only [hsize]
        simp
      unfold MakeValid at hok
      rw [hOR] at hok
      simp only [Except.ok.injEq] at hok
      subst hok
      have hB := FromBigEndianRead_lt s h.core.raw h.core.bytes s.position hp8
      have ht := Core_transfer s { s with
          readCache := s.readCache ||| (FromBigEndianRead 8 s s.position >>> v) } h.core
        rfl rfl rfl rfl rfl
        (Nat.or_lt_two_pow h.core.cache_lt (lt_of_le_of_lt
          (by rw [Nat.shiftRight_eq_div_pow]; exact Nat.div_le_self _ _) hB))
        (by
          intro i hi
          rw [hv'] at hi
          simp only [Int.toNat_ofNat] at hi
          show (s.readCache ||| (FromBigEndianRead 8 s s.position >>> v)).testBit (63 - i) = _
          rw [testBit_or_read s h.core.raw h.core.bytes hp8 v i (by omega)]
          have : ¬ v ≤ i := by omega
          simp [this])
        (by
          intro j hj
          rw [hv'] at hj ⊢
          simp only [Int.toNat_ofNat] at hj ⊢
          show (s.readCache ||| (FromBigEndianRead 8 s s.position >>> v)).testBit _ = true → _
          rw [testBit_or_read s h.core.raw h.core.bytes hp8 v _ hj]
          intro hbit
          by_cases hcb : s.readCache.testBit (63 - (v + j)) = true
          · have hg := h.core.garbage j (by rw [hv']; simpa using hj)
            rw [hv'] at hg
            exact hg hcb
          · have hcb' : s.readCache.testBit (63 - (v + j)) = false := by simpa using hcb
            rw [hcb'] at hbit
            have hvi : v ≤ v + j := by omega
            simp only [hvi, decide_True, Bool.true_and, Bool.false_or] at hbit
            have e1 : (v + j - v) / 8 = 0 := by omega
            have e2 : (v + j - v) % 8 = j := by omega
            rw [e1, e2, Nat.add_zero] at hbit
            have hp : s.position < s.rawData.length := by omega
            have hne := h.nff s.position (le_refl _) (by omega)
            rw [upcoming_plain s hp hne, List.getD_append _ _ _ _ (by simp [topBits_length]; omega),
              getD_topBits _ _ _ _ (by omega)]
            by_cases hpf : prevFF s = true
            · simp only [hpf, if_true, Nat.testBit_lor]
              rw [show 8 - 1 - j = 7 - j by omega, hbit]
              simp
            · simp only [hpf]
              rw [show 8 - 1 - j = 7 - j by omega]
              simpa using hbit)
        (by
          intro hpf
          show (s.readCache ||| (FromBigEndianRead 8 s s.position >>> v)).testBit _ = true
          rw [Nat.testBit_lor, (h.core.prev hpf).2.2.2]
          simp)
      exact ⟨⟨ht.1, h.nff_le, h.nff⟩, ht.2, rfl, rfl, rfl, le_refl _⟩
  · unfold MakeValid at hok
    rw [OptimizedRead_slow s hfast] at hok
    simp only [AddBytesFromStream_raw s h.core.raw] at hok
    by_cases hst : stopped s
    · rw [MakeValidLoop_stopped _ s hst, if_neg (by omega)] at hok
      simp only [Except.ok.injEq] at hok
      subst hok
      exact ⟨h, rfl, rfl, rfl, rfl, le_refl _⟩
    · rw [MakeValidLoop_overfull _ s hst hv hv64] at hok
      simp at hok

theorem MakeValid_ok (s s' : DecoderStrategy) (h : Inv s) (hok : MakeValid 8 s = .ok s') :
    Consumed 0 s s' := by
  by_cases hv : s.validBits ≤ 56
  · obtain ⟨h1, h2⟩ := MakeValid_spec s h hv
    by_cases hnil : remaining s = []
    · rw [h1 hnil] at hok
      simp at hok
    · obtain ⟨s'', a, b, c⟩ := h2 hnil
      rw [a] at hok
      simp only [Except.ok.injEq] at hok
      subst hok
      exact ⟨c, by rw [b.rem]; rfl, b.data, b.around, b.buffer, b.posle⟩
  · exact MakeValid_overfull s s' h (by omega) hok

theorem ReadBit_ok (s s' : DecoderStrategy) (b : Bool) (h : Inv s)
    (hok : ReadBit 8 s = .ok (b, s')) : remaining s = b :: remaining s' ∧ Consumed 1 s s' := by
  obtain ⟨r1, r2⟩ := ReadBit_spec s h
  cases hrem : remaining s with
  | nil =>
    rw [r1 hrem] at hok
    simp at hok
  | cons b0 rest =>
    obtain ⟨s'', a, c, d⟩ := r2 b0 rest hrem
    rw [a] at hok
    simp only [Except.ok.injEq, Prod.mk.injEq] at hok
    obtain ⟨hb, hs⟩ := hok
    subst hb hs
    exact ⟨by rw [d], c⟩

theorem testBit_shl1 (c i : Nat) (hi : i + 1 < 64) :
    ((c <<< 1) % 2 ^ 64).testBit (63 - i) = c.testBit (63 - (i + 1)) := by
  rw [testBit_skip c 1 i (by omega)]
  simp [hi]

theorem and_top_eq_zero_iff (c : Nat) : c &&& 2 ^ 63 ≠ 0 ↔ c.testBit 63 = true := by
  have := and_top_ne_zero c
  rw [← this]
  simp

theorem Peek0BitsLoop_found (fuel : Nat) : ∀ (c : Nat) (count : Int) (j : Nat), j < fuel →
    fuel ≤ 64 → (∀ i, i < j → c.testBit (63 - i) = false) → c.testBit (63 - j) = true →
    Peek0BitsLoop 8 fuel c count = count + j := by
  induction fuel with
  | zero => intro c count j hj; omega
  | succ fuel ih =>
    intro c count j hj hf hz ht
    rw [Peek0BitsLoop]
    simp only [bufType_bit_count]
    cases j with
    | zero =>
      rw [if_pos ((and_top_eq_zero_iff c).mpr ht)]
      simp
    | succ j =>
      have h0 : c.testBit 63 = false := hz 0 (by omega)
      rw [if_neg (by rw [and_top_eq_zero_iff]; simp [h0])]
      rw [ih _ (count + 1) j (by omega) (by omega)]
      · push_cast; ring
      · intro i hi
        rw [testBit_shl1 c i (by omega)]
        exact hz (i + 1) (by omega)
      · rw [testBit_shl1 c j (by omega)]
        exact ht

theorem Peek0BitsLoop_none (fuel : Nat) : ∀ (c : Nat) (count : Int), fuel ≤ 64 →
    (∀ i, i < fuel → c.testBit (63 - i) = false) → Peek0BitsLoop 8 fuel c count = -1 := by
  induction fuel with
  | zero => intro c count _ _; rfl
  | succ fuel ih =>
    intro c count hf hz
    rw [Peek0BitsLoop]
    simp only [bufType_bit_count]
    have h0 : c.testBit 63 = false := hz 0 (by omega)
    rw [if_neg (by rw [and_top_eq_zero_iff]; simp [h0])]
    apply ih _ _ (by omega)
    intro i hi
    rw [testBit_shl1 c i (by omega)]
    exact hz (i + 1) (by omega)

/-- The result of the loop of `Peek0Bits` on the 16 top bits of the cache. -/
theorem Peek0BitsLoop_cases (c : Nat) :
    (Peek0BitsLoop 8 16 c 0 = -1 ∧ ∀ i, i < 16 → c.testBit (63 - i) = false) ∨
    ∃ j : Nat, j < 16 ∧ Peek0BitsLoop 8 16 c 0 = (j : Int) ∧
      (∀ i, i < j → c.testBit (63 - i) = false) ∧ c.testBit (63 - j) = true := by
  by_cases hall : ∀ i, i < 16 → c.testBit (63 - i) = false
  · exact Or.inl ⟨Peek0BitsLoop_none 16 c 0 (by norm_num) hall, hall⟩
  · right
    push_neg at hall
    have hex : ∃ i, i < 16 ∧ c.testBit (63 - i) = true := by
      obtain ⟨i, hi, hne⟩ := hall
      exact ⟨i, hi, by simpa using hne⟩
    classical
    refine ⟨Nat.find hex, (Nat.find_spec hex).1, ?_, ?_, (Nat.find_spec hex).2⟩
    · have := Peek0BitsLoop_found 16 c 0 (Nat.find hex) (Nat.find_spec hex).1 (by norm_num)
        (fun i hi => by
          have := Nat.find_min hex hi
          have hi16 : i < 16 := lt_trans hi (Nat.find_spec hex).1
          simpa [hi16] using this)
        (Nat.find_spec hex).2
      simpa using this
    · intro i hi
      have := Nat.find_min hex hi
      have hi16 : i < 16 := lt_trans hi (Nat.find_spec hex).1
      simpa [hi16] using this

theorem topBits_eq_replicate (W x n : Nat) (h : ∀ i, i < n → x.testBit (W - 1 - i) = false) :
    topBits W x n = List.replicate n false := by
  rw [List.eq_replicate_iff]
  refine ⟨topBits_length _ _ _, ?_⟩
  intro b hb
  simp only [topBits, List.mem_map, List.mem_range] at hb
  obtain ⟨i, hi, rfl⟩ := hb
  exact h i hi

theorem remaining_take (s : DecoderStrategy) (k : Nat) (hk : (k : Int) ≤ s.validBits) :
    (remaining s).take k = topBits 64 s.readCache k := by
  obtain ⟨v, hv⟩ := Int.eq_ofNat_of_zero_le (show 0 ≤ s.validBits by omega)
  unfold remaining
  rw [List.take_append_of_le_length (by rw [topBits_length, hv]; simp; omega), hv]
  simp only [Int.toNat_ofNat]
  rw [topBits_take _ _ _ _ (by omega)]

theorem zero_beyond (s : DecoderStrategy) (h : Core s) (hup : upcoming s = []) (i : Nat)
    (hv : s.validBits ≤ (i : Int)) (hi : i < 64) : s.readCache.testBit (63 - i) = false := by
  obtain ⟨v, hv'⟩ := Int.eq_ofNat_of_zero_le h.vlo
  by_contra hne
  have ht : s.readCache.testBit (63 - i) = true := by simpa using hne
  have := h.garbage (i - v) (by rw [hv']; simp; omega)
    (by rw [hv']; simp only [Int.toNat_ofNat]; rw [show v + (i - v) = i by omega]; exact ht)
  rw [hup] at this
  simp at this

theorem Peek0Bits_spec (s : DecoderStrategy) (h : Inv s) :
    (remaining s = [] → Peek0Bits 8 s = .error .InvalidCompressedData) ∧
    (remaining s ≠ [] → ∃ s1, Peek0Bits 8 s = .ok (Peek0BitsLoop 8 16 s1.readCache 0, s1) ∧
      Consumed 0 s s1 ∧ 1 ≤ s1.validBits ∧ (16 ≤ s1.validBits ∨ upcoming s1 = [])) := by
  by_cases hlt : s.validBits < 16
  · obtain ⟨r1, r2⟩ := refill_spec s h 16 (by omega) (by simpa using hlt)
    constructor
    · intro hnil
      unfold Peek0Bits
      simp only [hlt, if_true, r1 hnil]
    · intro hne
      obtain ⟨s1, hMV, hR, hI, _, hup⟩ := r2 hne
      refine ⟨s1, ?_, ⟨hI, by rw [hR.rem]; rfl, hR.data, hR.around, hR.buffer, hR.posle⟩, hR.pos, ?_⟩
      · unfold Peek0Bits
        simp only [hlt, if_true, hMV]
      · by_cases h16 : (16 : Int) ≤ s1.validBits
        · exact Or.inl h16
        · exact Or.inr (hup (by simpa using (not_le.mp h16)))
  · constructor
    · intro hnil
      have := remaining_length s
      rw [hnil] at this
      simp at this
      omega
    · intro _
      refine ⟨s, ?_, ⟨h, rfl, rfl, rfl, rfl, le_refl _⟩, by omega, Or.inl (by omega)⟩
      unfold Peek0Bits
      simp only [hlt, if_false]

theorem ReadHighbitsLoop_total (fuel : Nat) :
    ∀ (s : DecoderStrategy) (hb : Int) (m : Nat) (rest : List Bool), Inv s →
    remaining s = List.replicate m false ++ true :: rest → hb + m < 2 ^ 31 → m < fuel →
    ∃ s', ReadHighbitsLoop 8 fuel s hb = .ok (hb + m, s') ∧ Consumed (m + 1) s s' ∧
      remaining s' = rest := by
  induction fuel with
  | zero => intro s hb m rest _ _ _ hf; omega
  | succ fuel ih =>
    intro s hb m rest h hrem hlt hf
    rw [ReadHighbitsLoop]
    cases m with
    | zero =>
      simp only [List.replicate_zero, List.nil_append] at hrem
      obtain ⟨s', a, b, c⟩ := (ReadBit_spec s h).2 true rest hrem
      rw [a]
      exact ⟨s', by simp, b, c⟩
    | succ m =>
      rw [List.replicate_succ, List.cons_append] at hrem
      obtain ⟨s1, a, b, c⟩ := (ReadBit_spec s h).2 false _ hrem
      rw [a]
      simp only
      have hlt' : hb + 1 + (m : Int) < 2 ^ 31 := by push_cast at hlt; omega
      have hm0 : (0 : Int) ≤ m := Int.ofNat_nonneg _
      rw [if_pos (by omega)]
      obtain ⟨s', a', b', c'⟩ := ih s1 (hb + 1) m rest b.inv c hlt' (by omega)
      refine ⟨s', ?_, ?_, c'⟩
      · rw [a']; congr 2; push_cast; ring
      · have := Consumed_trans _ _ s s1 s' b b'
        rwa [show 1 + (m + 1) = m + 1 + 1 by ring] at this

theorem ReadHighbitsLoop_ok (fuel : Nat) :
    ∀ (s s' : DecoderStrategy) (hb r : Int), Inv s → hb < 2 ^ 31 →
    ReadHighbitsLoop 8 fuel s hb = .ok (r, s') →
    ∃ m : Nat, r = hb + m ∧ r < 2 ^ 31 ∧
      remaining s = List.replicate m false ++ true :: remaining s' ∧ Consumed (m + 1) s s' := by
  induction fuel with
  | zero =>
    intro s s' hb r _ _ hok
    simp [ReadHighbitsLoop] at hok
  | succ fuel ih =>
    intro s s' hb r h hhb hok
    rw [ReadHighbitsLoop] at hok
    cases hRB : ReadBit 8 s with
    | error e => rw [hRB] at hok; simp at hok
    | ok p =>
      obtain ⟨b, s1⟩ := p
      rw [hRB] at hok
      obtain ⟨hrem, hc⟩ := ReadBit_ok s s1 b h hRB
      cases b with
      | true =>
        simp only [Except.ok.injEq, Prod.mk.injEq] at hok
        obtain ⟨e1, e2⟩ := hok
        subst e1 e2
        exact ⟨0, by simp, hhb, by simpa using hrem, hc⟩
      | false =>
        simp only at hok
        by_cases hov : hb + 1 < 2 ^ 31
        · rw [if_pos hov] at hok
          obtain ⟨m, e1, e2, e3, e4⟩ := ih s1 s' (hb + 1) r hc.inv hov hok
          refine ⟨m + 1, by rw [e1]; push_cast; ring, e2, ?_, ?_⟩
          · rw [hrem, e3, List.replicate_succ, List.cons_append]
          · have := Consumed_trans _ _ s s1 s' hc e4
            rwa [show 1 + (m + 1) = m + 1 + 1 by ring] at this
        · rw [if_neg hov] at hok
          simp at hok

theorem lz_getD_lt (n : Nat) (rest : List Bool) (i : Nat) (hi : i < n) :
    (List.replicate n false ++ true :: rest).getD i false = false := by
  rw [List.getD_append _ _ _ _ (by simpa using hi)]
  rw [List.getD_eq_getElem _ _ (by simpa using hi)]
  simp

theorem lz_getD_eq (n : Nat) (rest : List Bool) :
    (List.replicate n false ++ true :: rest).getD n false = true := by
  rw [List.getD_append_right _ _ _ _ (by simp)]
  simp

theorem remaining_getD (s : DecoderStrategy) (i : Nat) (hi : (i : Int) < s.validBits) :
    (remaining s).getD i false = s.readCache.testBit (63 - i) := by
  obtain ⟨v, hv⟩ := Int.eq_ofNat_of_zero_le (show 0 ≤ s.validBits by omega)
  unfold remaining
  rw [hv]
  simp only [Int.toNat_ofNat]
  rw [List.getD_append _ _ _ _ (by rw [topBits_length]; omega), getD_topBits _ _ _ _ (by omega)]

theorem lz_unique (n j : Nat) (rest : List Bool) (R : List Bool)
    (hR : R = List.replicate n false ++ true :: rest) (hj : R.getD j false = true)
    (hz : ∀ i, i < j → R.getD i false = false) : j = n := by
  subst hR
  rcases Nat.lt_trichotomy j n with h | h | h
  · rw [lz_getD_lt n rest j h] at hj
    exact absurd hj (by simp)
  · exact h
  · have := hz n h
    rw [lz_getD_eq] at this
    exact absurd this (by simp)

theorem lz_split (R : List Bool) (n : Nat) (hlen : n < R.length)
    (hz : ∀ i, i < n → R.getD i false = false) (hn : R.getD n false = true) :
    R = List.replicate n false ++ true :: R.drop (n + 1) := by
  apply List.ext_getElem
  · simp; omega
  · intro i h1 h2
    rw [← List.getD_eq_getElem _ false h1, ← List.getD_eq_getElem _ false h2]
    rcases Nat.lt_trichotomy i n with h | h | h
    · rw [hz i h, lz_getD_lt n _ i h]
    · subst h; rw [hn, lz_getD_eq]
    · rw [List.getD_append_right _ _ _ _ (by simp; omega)]
      simp only [List.length_replicate]
      obtain ⟨d, hd⟩ : ∃ d, i - n = d + 1 := ⟨i - n - 1, by omega⟩
      rw [hd, List.getD_cons_succ]
      rw [List.getD_eq_getElem _ _ h1, List.getD_eq_getElem _ _ (by simp; omega)]
      simp only [List.getElem_drop]
      congr 1
      omega

theorem ReadHighbitsLoop_dead (s : DecoderStrategy) (hraw : s.byteStream = none)
    (hst : stopped s) (hslow : ¬ (s.position : Int) < s.nextFFPosition - 7)
    (hv : s.validBits ≤ 0) (fuel : Nat) (hb : Int) :
    ReadHighbitsLoop 8 fuel s hb = .error .OutOfFuel ∨
    ReadHighbitsLoop 8 fuel s hb = .error .InvalidCompressedData := by
  cases fuel with
  | zero => left; rfl
  | succ fuel =>
    right
    rw [ReadHighbitsLoop]
    have : ReadBit 8 s = .error .InvalidCompressedData := by
      unfold ReadBit
      simp only [hv, if_true, MakeValid_stopped_empty s hraw hst hslow hv]
    rw [this]

theorem peek_getD (s1 : DecoderStrategy) (h : Inv s1)
    (hfull : 16 ≤ s1.validBits ∨ upcoming s1 = []) (i : Nat) (hi : i < 16) :
    (remaining s1).getD i false = s1.readCache.testBit (63 - i) := by
  by_cases hiv : (i : Int) < s1.validBits
  · exact remaining_getD s1 i hiv
  · have hup : upcoming s1 = [] := by
      rcases hfull with h16 | hup
      · omega
      · exact hup
    rw [zero_beyond s1 h.core hup i (by omega) (by omega)]
    apply List.getD_eq_default
    rw [remaining_length, hup]
    have := h.core.vlo
    simp only [List.length_nil, Nat.add_zero]
    omega

theorem ReadHighbits_short (fuel : Nat) (s s1 s2 : DecoderStrategy) (count : Int)
    (hP : Peek0Bits 8 s = .ok (count, s1)) (hc : count ≥ 0)
    (hS : Skip 8 s1 (count + 1) = .ok s2) : ReadHighbits 8 fuel s = .ok (count, s2) := by
  unfold ReadHighbits
  rw [hP]
  simp only [hc, if_true, hS]

theorem ReadHighbits_long (fuel : Nat) (s s1 s2 : DecoderStrategy) (count : Int)
    (hP : Peek0Bits 8 s = .ok (count, s1)) (hc : ¬ count ≥ 0)
    (hS : Skip 8 s1 15 = .ok s2) : ReadHighbits 8 fuel s = ReadHighbitsLoop 8 fuel s2 15 := by
  unfold ReadHighbits
  rw [hP]
  simp only [hc, if_false, hS]

theorem ReadHighbits_total (fuel : Nat) (s : DecoderStrategy) (n : Nat) (rest : List Bool)
    (h : Inv s) (hrem : remaining s = List.replicate n false ++ true :: rest)
    (hn : n < 2 ^ 31) (hfuel : n < 16 ∨ n < fuel + 15) :
    ∃ s', ReadHighbits 8 fuel s = .ok ((n : Int), s') ∧ Consumed (n + 1) s s' ∧
      remaining s' = rest := by
  obtain ⟨s1, hP, hC, hv1, hfull⟩ := (Peek0Bits_spec s h).2 (by rw [hrem]; simp)
  have hR : remaining s1 = List.replicate n false ++ true :: rest := by
    rw [hC.rem, hrem]; rfl
  rcases Peek0BitsLoop_cases s1.readCache with ⟨hm1, hz⟩ | ⟨j, hj, hcnt, hz, ht⟩
  · -- more than 15 zeros: the loop
    have hn16 : 16 ≤ n := by
      by_contra hlt
      have := hz n (by omega)
      rw [← peek_getD s1 hC.inv hfull n (by omega), hR, lz_getD_eq] at this
      exact absurd this (by simp)
    have hv16 : (16 : Int) ≤ s1.validBits := by
      rcases hfull with h16 | hup
      · exact h16
      · have := remaining_length s1
        rw [hup, hR] at this
        simp at this
        have := hC.inv.core.vlo
        omega
    obtain ⟨s2, e1, e2, _⟩ := Skip_spec s1 hC.inv 15 (by simpa using (show (15 : Int) ≤ s1.validBits by omega))
      (by norm_num)
    simp only [Nat.cast_ofNat] at e1
    rw [hm1] at hP
    rw [ReadHighbits_long fuel s s1 s2 _ hP (by norm_num) e1]
    have hR2 : remaining s2 = List.replicate (n - 15) false ++ true :: rest := by
      rw [e2.rem, hR, List.drop_append_of_le_length (by simp; omega), List.drop_replicate]
    obtain ⟨s', a, b, c⟩ := ReadHighbitsLoop_total fuel s2 15 (n - 15) rest e2.inv hR2
      (by push_cast; omega) (by omega)
    refine ⟨s', ?_, ?_, c⟩
    · rw [a]; congr 2; omega
    · have := Consumed_trans _ _ s1 s2 s' e2 b
      rw [show 15 + (n - 15 + 1) = n + 1 by omega] at this
      exact ⟨this.inv, by rw [this.rem, hC.rem]; rfl, this.data.trans hC.data,
        this.around.trans hC.around, this.buffer.trans hC.buffer, le_trans hC.posle this.posle⟩
  · -- at most 15 zeros
    have hjn : j = n := by
      apply lz_unique n j rest (remaining s1) hR
      · rw [peek_getD s1 hC.inv hfull j hj]; exact ht
      · intro i hi
        rw [peek_getD s1 hC.inv hfull i (by omega)]; exact hz i hi
    subst hjn
    have hjv : (j : Int) < s1.validBits := by
      by_contra hge
      have hup : upcoming s1 = [] := by
        rcases hfull with h16 | hup
        · omega
        · exact hup
      rw [zero_beyond s1 hC.inv.core hup j (by omega) (by omega)] at ht
      exact absurd ht (by simp)
    obtain ⟨s2, e1, e2, _⟩ := Skip_spec s1 hC.inv (j + 1) (by push_cast; omega) (by omega)
    simp only [Nat.cast_add, Nat.cast_one] at e1
    rw [hcnt] at hP
    refine ⟨s2, ReadHighbits_short fuel s s1 s2 _ hP (Int.ofNat_nonneg _) e1, ?_, ?_⟩
    · exact ⟨e2.inv, by rw [e2.rem, hC.rem]; rfl, e2.data.trans hC.data,
        e2.around.trans hC.around, e2.buffer.trans hC.buffer, le_trans hC.posle e2.posle⟩
    · rw [e2.rem, hR]
      rw [show List.replicate j false ++ true :: rest = (List.replicate j false ++ [true]) ++ rest by simp]
      exact List.drop_left' (by simp)

theorem ReadHighbits_peek_error (fuel : Nat) (s : DecoderStrategy) (e : Fault)
    (hP : Peek0Bits 8 s = .error e) : ReadHighbits 8 fuel s = .error e := by
  unfold ReadHighbits
  rw [hP]

theorem remaining_split_zeros (s1 s2 : DecoderStrategy) (k : Nat)
    (hk : (k : Int) ≤ s1.validBits) (hz : ∀ i, i < k → s1.readCache.testBit (63 - i) = false)
    (hrem : remaining s2 = (remaining s1).drop k) :
    remaining s1 = List.replicate k false ++ remaining s2 := by
  rw [hrem, ← topBits_eq_replicate 64 s1.readCache k (fun i hi => by
    rw [show 64 - 1 - i = 63 - i by omega]; exact hz i hi), ← remaining_take s1 k hk,
    List.take_append_drop]

theorem Skip_fields (s : DecoderStrategy) (k : Nat) (hk : k < 64) :
    ∃ s2, Skip 8 s (k : Int) = .ok s2 ∧ s2.validBits = s.validBits - k ∧
      s2.position = s.position ∧ s2.nextFFPosition = s.nextFFPosition ∧
      s2.byteStream = s.byteStream ∧ s2.rawData = s.rawData ∧ s2.endPosition = s.endPosition ∧
      s2.around = s.around ∧ s2.buffer = s.buffer :=
  ⟨_, Skip_eq s k hk, rfl, rfl, rfl, rfl, rfl, rfl, rfl, rfl⟩

theorem stopped_congr (s t : DecoderStrategy) (e1 : t.byteStream = s.byteStream)
    (e2 : t.rawData = s.rawData) (e3 : t.endPosition = s.endPosition)
    (e4 : t.position = s.position) (e5 : t.around = s.around) (e6 : t.buffer = s.buffer)
    (h : stopped s) : stopped t := by
  unfold stopped byteAt memory at *
  rw [e1, e2, e3, e4, e5, e6]
  exact h

theorem ReadHighbits_ok (fuel : Nat) (s s' : DecoderStrategy) (r : Int) (h : Inv s)
    (hok : ReadHighbits 8 fuel s = .ok (r, s')) :
    ∃ n : Nat, r = n ∧ n < 2 ^ 31 ∧
      remaining s = List.replicate n false ++ true :: remaining s' ∧ Consumed (n + 1) s s' := by
  by_cases hnil : remaining s = []
  · rw [ReadHighbits_peek_error fuel s _ ((Peek0Bits_spec s h).1 hnil)] at hok
    simp at hok
  obtain ⟨s1, hP, hC, hv1, hfull⟩ := (Peek0Bits_spec s h).2 hnil
  have hrem1 : remaining s1 = remaining s := by rw [hC.rem]; rfl
  rcases Peek0BitsLoop_cases s1.readCache with ⟨hm1, hz⟩ | ⟨j, hj, hcnt, hz, ht⟩
  · rw [hm1] at hP
    by_cases h15 : (15 : Int) ≤ s1.validBits
    · obtain ⟨s2, e1, e2, _⟩ := Skip_spec s1 hC.inv 15 (by simpa using h15) (by norm_num)
      simp only [Nat.cast_ofNat] at e1
      rw [ReadHighbits_long fuel s s1 s2 _ hP (by norm_num) e1] at hok
      obtain ⟨m, a1, a2, a3, a4⟩ := ReadHighbitsLoop_ok fuel s2 s' 15 r e2.inv (by norm_num) hok
      refine ⟨15 + m, by rw [a1]; push_cast; ring, ?_, ?_, ?_⟩
      · have : (0 : Int) ≤ m := Int.ofNat_nonneg _
        have h2 : ((15 + m : Nat) : Int) < 2 ^ 31 := by push_cast; omega
        exact_mod_cast h2
      · rw [← hrem1, remaining_split_zeros s1 s2 15 (by simpa using h15)
          (fun i hi => hz i (by omega)) e2.rem, a3, ← List.append_assoc, ← List.replicate_add]
      · have := Consumed_trans _ _ s1 s2 s' e2 a4
        rw [show 15 + (m + 1) = 15 + m + 1 by ring] at this
        exact ⟨this.inv, by rw [this.rem, hC.rem]; rfl, this.data.trans hC.data,
          this.around.trans hC.around, this.buffer.trans hC.buffer, le_trans hC.posle this.posle⟩
    · exfalso
      have hup : upcoming s1 = [] := by
        rcases hfull with h16 | hup
        · omega
        · exact hup
      have hst : stopped s1 := (stopped_iff s1 hC.inv.core).mpr hup
      have hslow := stopped_not_fast s1 hC.inv hst
      obtain ⟨s2, e1, f1, f2, f3, f4, f5, f6, f7, f8⟩ := Skip_fields s1 15 (by norm_num)
      simp only [Nat.cast_ofNat] at e1 f1
      rw [ReadHighbits_long fuel s s1 s2 _ hP (by norm_num) e1] at hok
      rcases ReadHighbitsLoop_dead s2 (f4.trans hC.inv.core.raw)
          (stopped_congr s1 s2 f4 f5 f6 f2 f7 f8 hst) (by rw [f2, f3]; exact hslow)
          (by rw [f1]; omega) fuel 15 with hd | hd
      · rw [hd] at hok; simp at hok
      · rw [hd] at hok; simp at hok
  · rw [hcnt] at hP
    have hjv : (j : Int) < s1.validBits := by
      by_contra hge
      have hup : upcoming s1 = [] := by
        rcases hfull with h16 | hup
        · omega
        · exact hup
      rw [zero_beyond s1 hC.inv.core hup j (by omega) (by omega)] at ht
      exact absurd ht (by simp)
    obtain ⟨s2, e1, e2, _⟩ := Skip_spec s1 hC.inv (j + 1) (by push_cast; omega) (by omega)
    simp only [Nat.cast_add, Nat.cast_one] at e1
    rw [ReadHighbits_short fuel s s1 s2 _ hP (Int.ofNat_nonneg _) e1] at hok
    simp only [Except.ok.injEq, Prod.mk.injEq] at hok
    obtain ⟨hr, hs⟩ := hok
    subst hs
    refine ⟨j, hr.symm, by omega, ?_, ?_⟩
    · rw [← hrem1, ← List.take_append_drop (j + 1) (remaining s1), ← e2.rem,
        remaining_take s1 (j + 1) (by push_cast; omega), topBits_succ,
        topBits_eq_replicate 64 _ j (fun i hi => by
          rw [show 64 - 1 - i = 63 - i by omega]; exact hz i hi),
        show 64 - 1 - j = 63 - j by omega, ht]
      simp
    · exact ⟨e2.inv, by rw [e2.rem, hC.rem]; rfl, e2.data.trans hC.data,
        e2.around.trans hC.around, e2.buffer.trans hC.buffer, le_trans hC.posle e2.posle⟩

theorem EndScan_at_marker (s : DecoderStrategy)
    (h : byteAt s s.position = JpegMarkerCode_Start) :
    EndScan 8 s = if s.readCache ≠ 0 then .error .TooMuchCompressedData else .ok s := by
  unfold EndScan
  simp only [h, ne_eq, not_true_eq_false, if_false]

theorem EndScan_readBit_error (s : DecoderStrategy) (e : Fault)
    (h : byteAt s s.position ≠ JpegMarkerCode_Start) (hRB : ReadBit 8 s = .error e) :
    EndScan 8 s = .error e := by
  unfold EndScan
  simp only [h, ne_eq, not_false_eq_true, if_true, hRB]

theorem EndScan_readBit_ok (s s1 : DecoderStrategy) (b : Bool)
    (h : byteAt s s.position ≠ JpegMarkerCode_Start) (hRB : ReadBit 8 s = .ok (b, s1)) :
    EndScan 8 s =
      if byteAt s1 s1.position ≠ JpegMarkerCode_Start then .error .TooMuchCompressedData
      else if s1.readCache ≠ 0 then .error .TooMuchCompressedData else .ok s1 := by
  unfold EndScan
  simp only [h, ne_eq, not_false_eq_true, if_true, hRB]
  by_cases h1 : byteAt s1 s1.position = JpegMarkerCode_Start
  · simp only [h1, not_true_eq_false, if_false]
  · simp only [h1, not_false_eq_true, if_true]

theorem EndScan_ok (s s' : DecoderStrategy) (h : Inv s) (hok : EndScan 8 s = .ok s') :
    Consumed (endScanBits s) s s' := by
  unfold endScanBits
  by_cases hm : byteAt s s.position = JpegMarkerCode_Start
  · rw [EndScan_at_marker s hm] at hok
    rw [if_pos hm]
    by_cases hc : s.readCache ≠ 0
    · rw [if_pos hc] at hok; simp at hok
    · rw [if_neg hc] at hok
      simp only [Except.ok.injEq] at hok
      subst hok
      exact ⟨h, rfl, rfl, rfl, rfl, le_refl _⟩
  · rw [if_neg hm]
    cases hRB : ReadBit 8 s with
    | error e => rw [EndScan_readBit_error s e hm hRB] at hok; simp at hok
    | ok p =>
      obtain ⟨b, s1⟩ := p
      rw [EndScan_readBit_ok s s1 b hm hRB] at hok
      by_cases h1 : byteAt s1 s1.position ≠ JpegMarkerCode_Start
      · rw [if_pos h1] at hok; simp at hok
      · rw [if_neg h1] at hok
        by_cases hc : s1.readCache ≠ 0
        · rw [if_pos hc] at hok; simp at hok
        · rw [if_neg hc] at hok
          simp only [Except.ok.injEq] at hok
          subst hok
          exact (ReadBit_ok s s1 b h hRB).2

theorem ReadValue_ok (s s' : DecoderStrategy) (k : Nat) (x : Int) (h : Inv s) (hk1 : 1 ≤ k)
    (hk : k ≤ 31) (hok : ReadValue 8 s k = .ok (x, s')) :
    k ≤ (remaining s).length ∧ x = (bitsValue ((remaining s).take k) : Int) ∧
      Consumed k s s' := by
  obtain ⟨r1, r2⟩ := ReadValue_spec s h k hk1 hk
  by_cases hle : k ≤ (remaining s).length
  · obtain ⟨s'', a, b⟩ := r1 hle
    rw [a] at hok
    simp only [Except.ok.injEq, Prod.mk.injEq] at hok
    obtain ⟨e1, e2⟩ := hok
    subst e1 e2
    exact ⟨hle, rfl, b⟩
  · rw [r2 (by omega)] at hok
    simp at hok

theorem ReadLongValue_ok (s s' : DecoderStrategy) (k : Nat) (x : Int) (h : Inv s) (hk1 : 1 ≤ k)
    (hk : k ≤ 32) (hok : ReadLongValue 8 s k = .ok (x, s')) :
    k ≤ (remaining s).length ∧ x = toInt32 (bitsValue ((remaining s).take k) : Int) ∧
      Consumed k s s' := by
  obtain ⟨r1, r2⟩ := ReadLongValue_spec s h k hk1 hk
  by_cases hle : k ≤ (remaining s).length
  · obtain ⟨s'', a, b⟩ := r1 hle
    rw [a] at hok
    simp only [Except.ok.injEq, Prod.mk.injEq] at hok
    obtain ⟨e1, e2⟩ := hok
    subst e1 e2
    exact ⟨hle, rfl, b⟩
  · rw [r2 (by omega)] at hok
    simp at hok

theorem PeekByte_ok (s s' : DecoderStrategy) (x : Int) (h : Inv s)
    (hok : PeekByte 8 s = .ok (x, s')) : Consumed 0 s s' := by
  obtain ⟨r1, r2⟩ := PeekByte_spec s h
  by_cases hnil : remaining s = []
  · rw [r1 hnil] at hok; simp at hok
  · obtain ⟨x', s'', a, b, _⟩ := r2 hnil
    rw [a] at hok
    simp only [Except.ok.injEq, Prod.mk.injEq] at hok
    obtain ⟨_, e2⟩ := hok
    subst e2
    exact b

theorem Tracks_step (info : ByteStreamInfo) (n k : Nat) (s s' : DecoderStrategy)
    (h : Tracks info n s) (hc : Consumed k s s') (hk : k ≤ (remaining s).length) :
    Tracks info (n + k) s' := by
  refine ⟨hc.inv, by rw [hc.rem, h.rem, List.drop_drop], ?_, hc.data.trans h.data,
    hc.around.trans h.around⟩
  have := h.rem ▸ hk
  rw [List.length_drop] at this
  have := h.le
  omega

theorem Reach_tracks (info : ByteStreamInfo) (hraw : RawInput info) (n : Nat)
    (s : DecoderStrategy) (hr : Reach info n s) : Tracks info n s := by
  induction hr with
  | init s0 s hInit =>
    obtain ⟨r1, r2⟩ := Init_spec s0 info hraw.1 hraw.2
    by_cases hnil : destuffed info.rawData = []
    · rw [r1 hnil] at hInit; simp at hInit
    · obtain ⟨s', a, b, c, d, e, _⟩ := r2 hnil
      rw [a] at hInit
      simp only [Except.ok.injEq] at hInit
      subst hInit
      exact ⟨b, by rw [c]; rfl, Nat.zero_le _, d, e⟩
  | makeValid n s s' _ hok ih =>
    exact Tracks_step info n 0 s s' ih (MakeValid_ok s s' ih.inv hok) (Nat.zero_le _)
  | readValue n s s' k x _ hk1 hk hok ih =>
    obtain ⟨a, _, c⟩ := ReadValue_ok s s' k x ih.inv hk1 hk hok
    exact Tracks_step info n k s s' ih c a
  | peekByte n s s' x _ hok ih =>
    exact Tracks_step info n 0 s s' ih (PeekByte_ok s s' x ih.inv hok) (Nat.zero_le _)
  | readBit n s s' b _ hok ih =>
    obtain ⟨a, c⟩ := ReadBit_ok s s' b ih.inv hok
    exact Tracks_step info n 1 s s' ih c (by rw [a]; simp)
  | readHighbits n s s' fuel x _ hok ih =>
    obtain ⟨m, a, _, c, d⟩ := ReadHighbits_ok fuel s s' x ih.inv hok
    subst a
    simp only [Int.toNat_ofNat]
    exact Tracks_step info n (m + 1) s s' ih d (by rw [c]; simp)
  | readLongValue n s s' k x _ hk1 hk hok ih =>
    obtain ⟨a, _, c⟩ := ReadLongValue_ok s s' k x ih.inv hk1 hk hok
    exact Tracks_step info n k s s' ih c a
  | endScan n s s' _ hok ih =>
    have hc := EndScan_ok s s' ih.inv hok
    refine Tracks_step info n _ s s' ih hc ?_
    unfold endScanBits at *
    by_cases hm : byteAt s s.position = JpegMarkerCode_Start
    · rw [if_pos hm]; exact Nat.zero_le _
    · rw [if_neg hm]
      rw [if_neg hm] at hc
      cases hRB : ReadBit 8 s with
      | error e => rw [EndScan_readBit_error s e hm hRB] at hok; simp at hok
      | ok p =>
        obtain ⟨b, s1⟩ := p
        rw [(ReadBit_ok s s1 b ih.inv hRB).1]
        simp

theorem readValues_spec (ks : List Nat) : ∀ (s : DecoderStrategy), Inv s →
    (∀ k ∈ ks, 1 ≤ k ∧ k ≤ 31) → ks.sum ≤ (remaining s).length →
    ∃ s', readValues 8 s ks = .ok (chunkValues (remaining s) ks, s') ∧
      Consumed ks.sum s s' := by
  induction ks with
  | nil =>
    intro s h _ _
    exact ⟨s, rfl, ⟨h, rfl, rfl, rfl, rfl, le_refl _⟩⟩
  | cons k ks ih =>
    intro s h hk hsum
    rw [List.sum_cons] at hsum
    obtain ⟨hk1, hk31⟩ := hk k (List.mem_cons_self _ _)
    obtain ⟨s1, a, b⟩ := (ReadValue_spec s h k hk1 hk31).1 (by omega)
    obtain ⟨s2, a2, b2⟩ := ih s1 b.inv (fun x hx => hk x (List.mem_cons_of_mem _ hx))
      (by rw [b.rem, List.length_drop]; omega)
    refine ⟨s2, ?_, ?_⟩
    · rw [readValues, a]
      simp only [a2]
      rw [chunkValues, b.rem]
    · rw [List.sum_cons]
      exact Consumed_trans _ _ s s1 s2 b b2

theorem mod_pow_div (x m k : Nat) : (x % 2 ^ (m + k)) / 2 ^ m = (x / 2 ^ m) % 2 ^ k := by
  rw [Nat.pow_add, Nat.mod_mul_right_div_self]

theorem bitsValue_field (W x a k : Nat) (hak : a + k ≤ W) :
    bitsValue (((topBits W x W).drop a).take k) = (x / 2 ^ (W - (a + k))) % 2 ^ k := by
  rw [topBits_drop W x W a (by omega)]
  have e1 : ((List.range (W - a)).map (fun j => x.testBit (W - 1 - (a + j)))).take k =
      topBits (W - a) (x % 2 ^ (W - a)) k := by
    rw [← List.map_take, List.take_range, Nat.min_eq_left (by omega)]
    apply range_map_congr
    intro i hi
    rw [Nat.testBit_mod_two_pow]
    have : W - a - 1 - i < W - a := by omega
    simp only [this, decide_True, Bool.true_and]
    congr 1
    omega
  rw [e1, bitsValue_topBits _ _ _ (by omega) (Nat.mod_lt _ (Nat.two_pow_pos _)),
    Nat.shiftRight_eq_div_pow]
  obtain ⟨m, hm⟩ : ∃ m, W - a = m + k := ⟨W - a - k, by omega⟩
  rw [hm, Nat.add_sub_cancel, mod_pow_div, show W - (a + k) = m by omega]

theorem destuffed_cons_plain (b : Nat) (rest : List Nat) (hb : b ≠ 0xFF) :
    destuffed (b :: rest) = topBits 8 b 8 ++ destuffed rest := by
  cases rest with
  | nil => simp [destuffed, hb]
  | cons c rest => rw [destuffed, if_neg hb]

theorem topBits_bigEndian (l : List Nat) (h : ∀ b ∈ l, b < 256) :
    topBits (8 * l.length) (bigEndian l) (8 * l.length) =
      (List.range (8 * l.length)).map (fun i => (l.getD (i / 8) 0).testBit (7 - i % 8)) := by
  apply range_map_congr
  intro i hi
  exact testBit_bigEndian l h i hi

theorem destuffed_plain (data : List Nat) (h : ∀ b ∈ data, b < 256)
    (hff : ∀ b ∈ data, b ≠ 0xFF) :
    destuffed data = topBits (8 * data.length) (bigEndian data) (8 * data.length) := by
  rw [topBits_bigEndian data h]
  induction data with
  | nil => rfl
  | cons b rest ih =>
    rw [destuffed_cons_plain b rest (hff b (List.mem_cons_self _ _)),
      ih (fun x hx => h x (List.mem_cons_of_mem _ hx))
        (fun x hx => hff x (List.mem_cons_of_mem _ hx))]
    rw [List.length_cons, show 8 * (rest.length + 1) = 8 + 8 * rest.length by ring,
      List.range_add, List.map_append, List.map_map]
    have A : topBits 8 b 8 =
        (List.range 8).map (fun i => ((b :: rest).getD (i / 8) 0).testBit (7 - i % 8)) := by
      apply range_map_congr
      intro i hi
      have e1 : i / 8 = 0 := by omega
      have e2 : i % 8 = i := by omega
      rw [e1, e2, List.getD_cons_zero]
    have B : (List.range (8 * rest.length)).map
          (fun i => (rest.getD (i / 8) 0).testBit (7 - i % 8)) =
        (List.range (8 * rest.length)).map
          ((fun i => ((b :: rest).getD (i / 8) 0).testBit (7 - i % 8)) ∘ fun x => 8 + x) := by
      apply range_map_congr
      intro j _
      simp only [Function.comp]
      have e1 : (8 + j) / 8 = j / 8 + 1 := by omega
      have e2 : (8 + j) % 8 = j % 8 := by omega
      rw [e1, e2, List.getD_cons_succ]
    rw [A, B]

theorem chunkValues_field (data : List Nat) (h : ∀ b ∈ data, b < 256)
    (hff : ∀ b ∈ data, b ≠ 0xFF) (ks : List Nat) : ∀ a : Nat, a + ks.sum ≤ 8 * data.length →
    chunkValues ((destuffed data).drop a) ks = fieldValues data a ks := by
  induction ks with
  | nil => intro a _; rfl
  | cons k ks ih =>
    intro a ha
    rw [List.sum_cons] at ha
    rw [chunkValues, fieldValues, List.drop_drop, ih (a + k) (by omega)]
    congr 2
    rw [destuffed_plain data h hff, bitField]
    exact bitsValue_field _ _ a k (by omega)

/-- C1: with a 64-bit cache and an input without `0xFF`, after `Init` every sequence of calls
`ReadValue(k_1)`, ..., `ReadValue(k_m)` with `1 ≤ k_i ≤ 31` and `k_1 + ... + k_m ≤ 8 * length`
succeeds, and the i-th call returns bits `[k_1 + ... + k_(i-1), k_1 + ... + k_i)` of the input
read as one big-endian bit string (`Init` itself succeeds on every non-empty such input). -/
theorem C1_readValue_sequence (s0 : DecoderStrategy) (data : List Nat) (around : Int → Nat)
    (ks : List Nat) (hbytes : ∀ b ∈ data, b < 256) (hff : ∀ b ∈ data, b ≠ 0xFF)
    (hks : ∀ k ∈ ks, 1 ≤ k ∧ k ≤ 31) (hsum : ks.sum ≤ 8 * data.length) :
    (data ≠ [] → ∃ s, Init 8 s0 ⟨none, data, around⟩ = .ok s) ∧
    ∀ s, Init 8 s0 ⟨none, data, around⟩ = .ok s →
      ∃ s', readValues 8 s ks = .ok (fieldValues data 0 ks, s') := by
  have hlen : (destuffed data).length = 8 * data.length := by
    rw [destuffed_plain data hbytes hff, topBits_length]
  obtain ⟨r1, r2⟩ := Init_spec s0 ⟨none, data, around⟩ rfl hbytes
  constructor
  · intro hne
    have hd : destuffed data ≠ [] := by
      intro h0
      rw [h0] at hlen
      cases data with
      | nil => exact hne rfl
      | cons b rest => simp at hlen
    obtain ⟨s, a, _⟩ := r2 hd
    exact ⟨s, a⟩
  · intro s hs
    have ht := Reach_tracks ⟨none, data, around⟩ ⟨rfl, hbytes⟩ 0 s (Reach.init s0 s hs)
    have hrem : remaining s = destuffed data := by rw [ht.rem]; rfl
    obtain ⟨s', a, _⟩ := readValues_spec ks s ht.inv hks (by rw [hrem, hlen]; exact hsum)
    refine ⟨s', ?_⟩
    rw [a, hrem]
    have := chunkValues_field data hbytes hff ks 0 (by omega)
    rw [List.drop_zero] at this
    rw [this]

theorem C1_readValue_sequence_witness :
    ∃ s s', Init 8 fresh (rawInput [0x12, 0x34, 0x56, 0x78, 0x9A, 0xBC, 0xDE, 0xF0, 0x0F, 0x1E]) = .ok s ∧
      readValues 8 s [7, 31, 26, 16] = .ok ([9, 219520550, 45932272, 3870], s') := by
  have h := C1_readValue_sequence fresh [0x12, 0x34, 0x56, 0x78, 0x9A, 0xBC, 0xDE, 0xF0, 0x0F, 0x1E]
    (fun _ => 0) [7, 31, 26, 16] (by decide) (by decide) (by decide) (by decide)
  obtain ⟨s, hs⟩ := h.1 (by decide)
  obtain ⟨s', hs'⟩ := h.2 s hs
  have e : fieldValues [0x12, 0x34, 0x56, 0x78, 0x9A, 0xBC, 0xDE, 0xF0, 0x0F, 0x1E] 0 [7, 31, 26, 16] =
      [9, 219520550, 45932272, 3870] := by decide
  exact ⟨s, s', hs, by rw [hs', e]⟩

theorem destuffed_append_plain (pre l : List Nat) (hff : ∀ b ∈ pre, b ≠ 0xFF) :
    destuffed (pre ++ l) = destuffed pre ++ destuffed l := by
  induction pre with
  | nil => rfl
  | cons x pre ih =>
    have hx : x ≠ 0xFF := hff x (List.mem_cons_self _ _)
    rw [List.cons_append, destuffed_cons_plain x _ hx, destuffed_cons_plain x _ hx,
      ih (fun b hb => hff b (List.mem_cons_of_mem _ hb)), List.append_assoc]

theorem destuffed_stuffed (b : Nat) (rest : List Nat) (hb : b < 0x80) :
    destuffed (0xFF :: b :: rest) = topBits 8 0xFF 8 ++ topBits 7 b 7 ++ destuffed rest := by
  have hb0 : b &&& 0x80 = 0 := (and_128_eq_zero_iff b (by omega)).mpr hb
  rw [destuffed]
  simp [hb0]

/-- C2: bit-stuffing removal.  For an input in which a `0xFF` (the first one, after the
`0xFF`-free bytes `pre`) is followed by a byte `b < 0x80`, successive reads deliver the bits
of `pre`, then all 8 bits of the `0xFF`, then only the low 7 bits of `b`, then the bits of the
subsequent bytes; and for an input beginning `FF 7F 00` the first `ReadValue(15)` after `Init`
returns `0x7FFF` and the next `ReadValue(8)` returns 0. -/
theorem C2_bit_stuffing (s0 : DecoderStrategy) (pre rest : List Nat) (b : Nat)
    (around : Int → Nat) (ks : List Nat)
    (hpre : ∀ x ∈ pre, x < 256 ∧ x ≠ 0xFF) (hb : b < 0x80) (hrest : ∀ x ∈ rest, x < 256)
    (hks : ∀ k ∈ ks, 1 ≤ k ∧ k ≤ 31)
    (hsum : ks.sum ≤ 8 * pre.length + 15 + (destuffed rest).length) :
    (∃ s s', Init 8 s0 ⟨none, pre ++ 0xFF :: b :: rest, around⟩ = .ok s ∧
      readValues 8 s ks =
        .ok (chunkValues (topBits (8 * pre.length) (bigEndian pre) (8 * pre.length) ++
          topBits 8 0xFF 8 ++ topBits 7 b 7 ++ destuffed rest) ks, s')) ∧
    (∃ s s1 s2, Init 8 s0 ⟨none, 0xFF :: 0x7F :: 0x00 :: rest, around⟩ = .ok s ∧
      ReadValue 8 s 15 = .ok (0x7FFF, s1) ∧ ReadValue 8 s1 8 = .ok (0, s2)) := by
  constructor
  · have hbytes : ∀ x ∈ pre ++ 0xFF :: b :: rest, x < 256 := by
      intro x hx
      rw [List.mem_append] at hx
      rcases hx with hx | hx
      · exact (hpre x hx).1
      · rw [List.mem_cons] at hx
        rcases hx with hx | hx
        · omega
        · rw [List.mem_cons] at hx
          rcases hx with hx | hx
          · omega
          · exact hrest x hx
    have hstream : destuffed (pre ++ 0xFF :: b :: rest) =
        topBits (8 * pre.length) (bigEndian pre) (8 * pre.length) ++
          topBits 8 0xFF 8 ++ topBits 7 b 7 ++ destuffed rest := by
      rw [destuffed_append_plain pre _ (fun x hx => (hpre x hx).2),
        destuffed_plain pre (fun x hx => (hpre x hx).1) (fun x hx => (hpre x hx).2),
        destuffed_stuffed b rest hb]
      simp only [List.append_assoc]
    obtain ⟨_, r2⟩ := Init_spec s0 ⟨none, pre ++ 0xFF :: b :: rest, around⟩ rfl hbytes
    obtain ⟨s, a, hinv, hrem, _⟩ := r2 (by
      intro h0
      have := congrArg List.length hstream
      rw [h0] at this
      simp [topBits_length] at this
      omega)
    obtain ⟨s', a', _⟩ := readValues_spec ks s hinv hks (by
      rw [hrem]
      show ks.sum ≤ (destuffed (pre ++ 0xFF :: b :: rest)).length
      rw [hstream]
      simp only [List.length_append, topBits_length]
      omega)
    refine ⟨s, s', a, ?_⟩
    rw [a', hrem]
    show Except.ok (chunkValues (destuffed (pre ++ 0xFF :: b :: rest)) ks, s') = _
    rw [hstream]
  · have hbytes : ∀ x ∈ 0xFF :: 0x7F :: 0x00 :: rest, x < 256 := by
      intro x hx
      simp only [List.mem_cons] at hx
      rcases hx with hx | hx | hx | hx
      · omega
      · omega
      · omega
      · exact hrest x hx
    have hstream : destuffed (0xFF :: 0x7F :: 0x00 :: rest) =
        List.replicate 15 true ++ (List.replicate 8 false ++ destuffed rest) := by
      rw [destuffed_stuffed 0x7F _ (by norm_num), destuffed_cons_plain 0 rest (by norm_num),
        List.append_assoc]
      have e1 : topBits 8 0xFF 8 ++ topBits 7 0x7F 7 = List.replicate 15 true := by decide
      have e2 : topBits 8 0 8 = List.replicate 8 false := by decide
      rw [← List.append_assoc, e1, e2]
    obtain ⟨_, r2⟩ := Init_spec s0 ⟨none, 0xFF :: 0x7F :: 0x00 :: rest, around⟩ rfl hbytes
    obtain ⟨s, a, hinv, hrem, _⟩ := r2 (by rw [hstream]; simp)
    have hrem' : remaining s = List.replicate 15 true ++ (List.replicate 8 false ++ destuffed rest) := by
      rw [hrem]; exact hstream
    obtain ⟨s1, a1, b1⟩ := (ReadValue_spec s hinv 15 (by norm_num) (by norm_num)).1
      (by rw [hrem']; simp)
    have hrem1 : remaining s1 = List.replicate 8 false ++ destuffed rest := by
      rw [b1.rem, hrem']
      exact List.drop_left' (by simp)
    obtain ⟨s2, a2, _⟩ := (ReadValue_spec s1 b1.inv 8 (by norm_num) (by norm_num)).1
      (by rw [hrem1]; simp)
    refine ⟨s, s1, s2, a, ?_, ?_⟩
    · have : (15 : Int) = ((15 : Nat) : Int) := rfl
      rw [this, a1, hrem', List.take_left' (by simp)]
      have : bitsValue (List.replicate 15 true) = 0x7FFF := by decide
      rw [this]
      rfl
    · have : (8 : Int) = ((8 : Nat) : Int) := rfl
      rw [this, a2, hrem1, List.take_left' (by simp)]
      have : bitsValue (List.replicate 8 false) = 0 := by decide
      rw [this]
      rfl

theorem C2_bit_stuffing_witness :
    (∃ s s', Init 8 fresh ⟨none, [0x12, 0x34] ++ 0xFF :: 0x55 :: [0xAB, 0xFF, 0xD9], fun _ => 0⟩ = .ok s ∧
      readValues 8 s [16, 8, 7, 8] = .ok ([0x1234, 0xFF, 0x55, 0xAB], s')) ∧
    (∃ s s1 s2, Init 8 fresh ⟨none, 0xFF :: 0x7F :: 0x00 :: [0xAB, 0xFF, 0xD9], fun _ => 0⟩ = .ok s ∧
      ReadValue 8 s 15 = .ok (0x7FFF, s1) ∧ ReadValue 8 s1 8 = .ok (0, s2)) := by
  have h := C2_bit_stuffing fresh [0x12, 0x34] [0xAB, 0xFF, 0xD9] 0x55 (fun _ => 0) [16, 8, 7, 8]
    (by decide) (by decide) (by decide) (by decide) (by decide)
  refine ⟨?_, h.2⟩
  obtain ⟨s, s', a, b⟩ := h.1
  have e : chunkValues (topBits (8 * [0x12, 0x34].length) (bigEndian [0x12, 0x34])
      (8 * [0x12, 0x34].length) ++ topBits 8 0xFF 8 ++ topBits 7 0x55 7 ++
      destuffed [0xAB, 0xFF, 0xD9]) [16, 8, 7, 8] = [0x1234, 0xFF, 0x55, 0xAB] := by decide
  exact ⟨s, s', a, by rw [b, e]⟩

theorem dataBitsToMarker_nil (pf : Bool) : dataBitsToMarker pf [] = 0 := by
  rw [dataBitsToMarker.eq_def]

theorem dataBitsToMarker_ff_last (pf : Bool) : dataBitsToMarker pf [0xFF] = 0 := by
  rw [dataBitsToMarker.eq_def]; simp

theorem dataBitsToMarker_ff_cons (pf : Bool) (c : Nat) (rest : List Nat) :
    dataBitsToMarker pf (0xFF :: c :: rest) =
      if c &&& 0x80 ≠ 0 then 0 else (if pf then 7 else 8) + dataBitsToMarker true (c :: rest) := by
  rw [dataBitsToMarker.eq_def]; simp

theorem dataBitsToMarker_cons (pf : Bool) (b : Nat) (rest : List Nat) (hb : b ≠ 0xFF) :
    dataBitsToMarker pf (b :: rest) = (if pf then 7 else 8) + dataBitsToMarker false rest := by
  rw [dataBitsToMarker.eq_def]; simp [hb]

theorem upcomingBits_length (l : List Nat) : ∀ pf : Bool,
    (pf = true → ∃ c r, l = c :: r ∧ c ≠ 0xFF) →
    (upcomingBits pf l).length = dataBitsToMarker pf l + (if pf then 1 else 0) := by
  induction l with
  | nil =>
    intro pf hpf
    cases pf with
    | false => rw [upcomingBits_nil, dataBitsToMarker_nil]; rfl
    | true =>
      obtain ⟨c, r, h, _⟩ := hpf rfl
      exact absurd h (by simp)
  | cons b rest ih =>
    intro pf hpf
    by_cases hb : b = 0xFF
    · subst hb
      have hpf' : pf = false := by
        cases pf with
        | false => rfl
        | true =>
          obtain ⟨c, r, h, hc⟩ := hpf rfl
          simp only [List.cons.injEq] at h
          exact absurd h.1.symm hc
      subst hpf'
      cases rest with
      | nil => rw [upcomingBits_ff_last, dataBitsToMarker_ff_last]; rfl
      | cons c r =>
        rw [upcomingBits_ff_cons, dataBitsToMarker_ff_cons]
        by_cases hc : c &&& 0x80 ≠ 0
        · rw [if_pos hc, if_pos hc]; rfl
        · rw [if_neg hc, if_neg hc, List.length_append, List.length_replicate,
            ih true (fun _ => ⟨c, r, rfl, by
              intro h255
              subst h255
              exact hc (by decide)⟩)]
          simp
          omega
    · rw [upcomingBits_cons _ _ _ hb, dataBitsToMarker_cons _ _ _ hb, List.length_append,
        topBits_length, ih false (fun h => absurd h (by simp))]
      cases pf
      · simp
      · simp
        omega

theorem remaining_length_counted (s : DecoderStrategy) (h : Core s) :
    (remaining s).length = countedRemaining s + (if prevFF s then 1 else 0) := by
  rw [remaining_length, countedRemaining, upcoming, upcomingBits_length _ _ (fun hpf => by
    obtain ⟨a, b, _, _⟩ := h.prev hpf
    exact ⟨_, _, drop_eq_getD_cons _ _ a, by omega⟩)]
  omega

/-- C3 (as amended): with a 64-bit cache, in every reader state reachable from `Init` on a raw
byte range and for `1 ≤ k ≤ 31`, `ReadValue(k)` raises `InvalidCompressedData` if fewer than
`k` bits remain and returns normally otherwise (so it raises no other error), where the
remaining bits are the `validBits` cached bits, plus the data bits of the input bytes from
`_position` up to the next marker or the end of the input, plus one when the byte before
`_position` is a `0xFF`: the lowest bit of a stuffed `0xFF` is in the cache before it is
counted in `validBits`.  This number is the length of the de-stuffed input minus the number
of bits consumed. -/
theorem C3_readValue_raises (info : ByteStreamInfo) (n : Nat) (s : DecoderStrategy) (k : Nat)
    (hraw : RawInput info) (hreach : Reach info n s) (hk1 : 1 ≤ k) (hk31 : k ≤ 31) :
    countedRemaining s + (if prevFF s then 1 else 0) = (destuffed info.rawData).length - n ∧
    (countedRemaining s + (if prevFF s then 1 else 0) < k →
      ReadValue 8 s k = .error .InvalidCompressedData) ∧
    (k ≤ countedRemaining s + (if prevFF s then 1 else 0) →
      ∃ x s', ReadValue 8 s k = .ok (x, s')) := by
  have ht := Reach_tracks info hraw n s hreach
  have hlen := remaining_length_counted s ht.inv.core
  obtain ⟨r1, r2⟩ := ReadValue_spec s ht.inv k hk1 hk31
  rw [← hlen]
  refine ⟨by rw [ht.rem, List.length_drop], r2, fun hle => ?_⟩
  obtain ⟨s', a, _⟩ := r1 hle
  exact ⟨_, s', a⟩

theorem C3_readValue_raises_witness :
    ∃ s, Reach (rawInput [0xFF, 0, 1, 2]) 0 s ∧
      (countedRemaining s + (if prevFF s then 1 else 0) =
          (destuffed (rawInput [0xFF, 0, 1, 2]).rawData).length - 0 ∧
        (countedRemaining s + (if prevFF s then 1 else 0) < 31 →
          ReadValue 8 s (31 : Nat) = .error .InvalidCompressedData) ∧
        (31 ≤ countedRemaining s + (if prevFF s then 1 else 0) →
          ∃ x s', ReadValue 8 s (31 : Nat) = .ok (x, s'))) :=
  ⟨_, Reach.init fresh _ rfl,
    C3_readValue_raises (rawInput [0xFF, 0, 1, 2]) 0 _ 31 ⟨rfl, by decide⟩
      (Reach.init fresh _ rfl) (by decide) (by decide)⟩

/-- C3 fails as stated: on the input `FF 00 01 02 03 04 05 FF 00`, after `Init` and two calls
`ReadValue(31)`, the cache holds no valid bit and the one byte left (after a `0xFF`) has 7
data bits, yet `ReadValue(8)` returns normally. -/
theorem C3_counterexample : ∃ s0 x1 s1 x2 s2 x3 s3,
      Init 8 fresh (rawInput [0xFF, 0, 1, 2, 3, 4, 5, 0xFF, 0]) = .ok s0 ∧
      ReadValue 8 s0 31 = .ok (x1, s1) ∧ ReadValue 8 s1 31 = .ok (x2, s2) ∧
      s2.validBits = 0 ∧ s2.position = 8 ∧ countedRemaining s2 = 7 ∧
      ReadValue 8 s2 8 = .ok (x3, s3) :=
  ⟨_, _, _, _, _, _, _, rfl, rfl, rfl, rfl, rfl, rfl, rfl⟩

theorem destuffed_zeros (N : Nat) : destuffed (List.replicate N 0) = List.replicate (8 * N) false := by
  induction N with
  | zero => rfl
  | succ N ih =>
    rw [List.replicate_succ, destuffed_cons_plain 0 _ (by norm_num), ih,
      show 8 * (N + 1) = 8 + 8 * N by ring, List.replicate_add]
    congr 1

theorem lz_inj (n m : Nat) (r1 r2 : List Bool)
    (h : List.replicate n false ++ true :: r1 = List.replicate m false ++ true :: r2) : n = m := by
  apply lz_unique m n r2 (List.replicate n false ++ true :: r1) h (lz_getD_eq n r1)
  intro i hi
  exact lz_getD_lt n r1 i hi

/-- C4 (as amended): with a 64-bit cache, for every `n` with `0 ≤ n < 2 ^ 31` (in particular for
`n ≥ 16`) and every reachable reader state in which the next `n` unconsumed bits of the stream
are 0 and the bit after them is 1, `ReadHighbits` returns `n` and consumes exactly `n + 1` bits,
so that the next read starts at the bit following that 1.  (The loop of `ReadHighbits` runs
`n - 14` times for `n ≥ 16`: that much fuel is enough.) -/
theorem C4_readHighbits (info : ByteStreamInfo) (n0 : Nat) (s : DecoderStrategy) (n : Nat)
    (rest : List Bool) (fuel : Nat) (hraw : RawInput info) (hreach : Reach info n0 s)
    (hbits : (destuffed info.rawData).drop n0 = List.replicate n false ++ true :: rest)
    (hn : n < 2 ^ 31) (hfuel : n < 16 ∨ n < fuel + 15) :
    ∃ s', ReadHighbits 8 fuel s = .ok ((n : Int), s') ∧ Reach info (n0 + (n + 1)) s' ∧
      remaining s' = rest ∧ (destuffed info.rawData).drop (n0 + (n + 1)) = rest := by
  have ht := Reach_tracks info hraw n0 s hreach
  obtain ⟨s', a, _, c⟩ := ReadHighbits_total fuel s n rest ht.inv (by rw [ht.rem, hbits]) hn hfuel
  have hr := Reach.readHighbits n0 s s' fuel n hreach a
  simp only [Int.toNat_ofNat] at hr
  refine ⟨s', a, hr, c, ?_⟩
  rw [← (Reach_tracks info hraw _ s' hr).rem, c]

theorem C4_readHighbits_witness :
    ∃ s, Reach (rawInput [0, 0, 0x40, 0xAB]) 0 s ∧
      ∃ s', ReadHighbits 8 3 s = .ok (((17 : Nat) : Int), s') ∧
        Reach (rawInput [0, 0, 0x40, 0xAB]) (0 + (17 + 1)) s' ∧
        remaining s' = [false, false, false, false, false, false, true, false, true, false, true,
          false, true, true] ∧
        (destuffed (rawInput [0, 0, 0x40, 0xAB]).rawData).drop (0 + (17 + 1)) =
          [false, false, false, false, false, false, true, false, true, false, true,
          false, true, true] :=
  ⟨_, Reach.init fresh _ rfl,
    C4_readHighbits (rawInput [0, 0, 0x40, 0xAB]) 0 _ 17 _ 3 ⟨rfl, by decide⟩
      (Reach.init fresh _ rfl) (by decide) (by norm_num) (by norm_num)⟩

theorem highbits_overflow (N : Nat) (hN : 2 ^ 31 ≤ 8 * N) :
    ∃ s, Init 8 fresh (rawInput (List.replicate N 0 ++ [0x80])) = .ok s ∧
      destuffed (List.replicate N 0 ++ [0x80]) =
        List.replicate (8 * N) false ++ true :: List.replicate 7 false ∧
      ∀ fuel x s', ReadHighbits 8 fuel s ≠ .ok (x, s') := by
  have hstream : destuffed (List.replicate N 0 ++ [0x80]) =
      List.replicate (8 * N) false ++ true :: List.replicate 7 false := by
    rw [destuffed_append_plain _ _ (by
      intro b hb
      rw [List.mem_replicate] at hb
      omega), destuffed_zeros]
    congr 1
  have hbytes : ∀ b ∈ (rawInput (List.replicate N 0 ++ [0x80])).rawData, b < 256 := by
    intro b hb
    have hb' : b ∈ List.replicate N 0 ++ [0x80] := hb
    rw [List.mem_append, List.mem_replicate, List.mem_singleton] at hb'
    omega
  obtain ⟨_, r2⟩ := Init_spec fresh (rawInput (List.replicate N 0 ++ [0x80])) rfl hbytes
  obtain ⟨s, a, hinv, hrem, _⟩ := r2 (by
    show destuffed (List.replicate N 0 ++ [0x80]) ≠ []
    rw [hstream]; simp)
  refine ⟨s, a, hstream, ?_⟩
  intro fuel x s' hok
  obtain ⟨m, _, hm, hshape, _⟩ := ReadHighbits_ok fuel s s' x hinv hok
  have hrem' : remaining s = List.replicate (8 * N) false ++ true :: List.replicate 7 false := by
    rw [hrem]; exact hstream
  rw [hrem'] at hshape
  have := lz_inj _ _ _ _ hshape
  omega

/-- C4 fails as stated for `n = 2 ^ 31`: on an input of `2 ^ 28` zero bytes followed by `0x80`
the stream is `2 ^ 31` zero bits, a 1 and 7 zero bits, and `ReadHighbits` after `Init` does not
return (the counter `highbits`, an `int32_t`, overflows). -/
theorem C4_counterexample :
    ∃ s, Init 8 fresh (rawInput (List.replicate (2 ^ 28) 0 ++ [0x80])) = .ok s ∧
      destuffed (List.replicate (2 ^ 28) 0 ++ [0x80]) =
        List.replicate (2 ^ 31) false ++ true :: List.replicate 7 false ∧
      ∀ fuel x s', ReadHighbits 8 fuel s ≠ .ok (x, s') := by
  have h := highbits_overflow (2 ^ 28) (by norm_num)
  rw [show 8 * 2 ^ 28 = 2 ^ 31 by norm_num] at h
  exact h

theorem ReadLongValue_short (s : DecoderStrategy) (k : Nat) (hk : k ≤ 24) :
    ReadLongValue 8 s k = ReadValue 8 s k := by
  unfold ReadLongValue
  rw [if_pos (by exact_mod_cast hk)]

theorem ReadLongValue_long (s s1 s2 : DecoderStrategy) (k : Nat) (hi lo : Int) (hk : 24 < k)
    (h1 : ReadValue 8 s ((k - 24 : Nat) : Int) = .ok (hi, s1))
    (h2 : ReadValue 8 s1 ((24 : Nat) : Int) = .ok (lo, s2)) :
    ReadLongValue 8 s k = .ok (toInt32 (hi * 2 ^ 24) + lo, s2) := by
  have hcast : (k : Int) - 24 = ((k - 24 : Nat) : Int) := by omega
  simp only [Nat.cast_ofNat] at h2
  unfold ReadLongValue
  rw [if_neg (by omega), hcast, h1]
  simp only [h2]

theorem bitsValue_take_lt (l : List Bool) (k : Nat) : bitsValue (l.take k) < 2 ^ k := by
  have := bitsValue_lt (l.take k)
  exact lt_of_lt_of_le this (Nat.pow_le_pow_right (by norm_num) (List.length_take_le _ _))

/-- C5 (as amended): for `1 ≤ k ≤ 32` and every reachable reader state with at least `k` bits
remaining, `ReadLongValue(k)` consumes exactly `k` bits and returns the `int32_t` whose low `k`
bits are those bits, MSB first: for `k ≤ 31` the unsigned integer in `[0, 2 ^ k)`, for `k = 32`
the two's-complement reading of the 32 bits, which is negative when the first bit is 1.  For
`k ≤ 24` it equals `ReadValue(k)`; for `24 < k ≤ 32` it is obtained from `ReadValue(k - 24)` and
then `ReadValue(24)` as `(hi << 24) + lo` in `int32_t`, which is `hi * 2 ^ 24 + lo` for
`k ≤ 31`. -/
theorem C5_readLongValue (info : ByteStreamInfo) (n : Nat) (s : DecoderStrategy) (k : Nat)
    (hraw : RawInput info) (hreach : Reach info n s) (hk1 : 1 ≤ k) (hk32 : k ≤ 32)
    (hrem : k ≤ (destuffed info.rawData).length - n) :
    ∃ x s', ReadLongValue 8 s k = .ok (x, s') ∧ Reach info (n + k) s' ∧
      remaining s' = (destuffed info.rawData).drop (n + k) ∧
      x = toInt32 (bitsValue (((destuffed info.rawData).drop n).take k) : Int) ∧
      (k ≤ 31 → x = (bitsValue (((destuffed info.rawData).drop n).take k) : Int) ∧
        0 ≤ x ∧ x < 2 ^ k) ∧
      (k ≤ 24 → ReadValue 8 s k = .ok (x, s')) ∧
      (24 < k → ∃ hi s1 lo, ReadValue 8 s ((k - 24 : Nat) : Int) = .ok (hi, s1) ∧
        ReadValue 8 s1 24 = .ok (lo, s') ∧ x = toInt32 (hi * 2 ^ 24) + lo ∧
        (k ≤ 31 → x = hi * 2 ^ 24 + lo)) := by
  have ht := Reach_tracks info hraw n s hreach
  have hlen : k ≤ (remaining s).length := by rw [ht.rem, List.length_drop]; exact hrem
  obtain ⟨s', a, _⟩ := (ReadLongValue_spec s ht.inv k hk1 hk32).1 hlen
  have hr := Reach.readLongValue n s s' k _ hreach hk1 hk32 a
  have hlt := bitsValue_take_lt (remaining s) k
  have h31 : k ≤ 31 → toInt32 (bitsValue ((remaining s).take k) : Int) =
      (bitsValue ((remaining s).take k) : Int) := fun hk =>
    toInt32_of_lt _ (lt_of_lt_of_le hlt (Nat.pow_le_pow_right (by norm_num) hk))
  refine ⟨_, s', a, hr, (Reach_tracks info hraw _ s' hr).rem, by rw [ht.rem], ?_, ?_, ?_⟩
  · intro hk
    rw [h31 hk, ht.rem]
    refine ⟨rfl, Int.ofNat_nonneg _, ?_⟩
    rw [← ht.rem]
    exact_mod_cast hlt
  · intro hk
    rw [← ReadLongValue_short s k hk]
    exact a
  · intro hk
    obtain ⟨s1, a1, b1⟩ := (ReadValue_spec s ht.inv (k - 24) (by omega) (by omega)).1 (by omega)
    obtain ⟨s2, a2, _⟩ := (ReadValue_spec s1 b1.inv 24 (by norm_num) (by norm_num)).1
      (by rw [b1.rem, List.length_drop]; omega)
    have hL := ReadLongValue_long s s1 s2 k _ _ hk a1 a2
    rw [a] at hL
    simp only [Except.ok.injEq, Prod.mk.injEq] at hL
    obtain ⟨hx, hs⟩ := hL
    subst hs
    simp only [Nat.cast_ofNat] at a2
    refine ⟨_, s1, _, a1, a2, hx, ?_⟩
    intro hk31
    rw [hx]
    have hhi := bitsValue_take_lt (remaining s) (k - 24)
    have h7 : (2 : Nat) ^ (k - 24) ≤ 2 ^ 7 := Nat.pow_le_pow_right (by norm_num) (by omega)
    have hhi' : ((bitsValue ((remaining s).take (k - 24)) : Nat) : Int) < 128 := by
      have : bitsValue ((remaining s).take (k - 24)) < 128 := by omega
      exact_mod_cast this
    have h0 : (0 : Int) ≤ (bitsValue ((remaining s).take (k - 24)) : Nat) := Int.ofNat_nonneg _
    have e : toInt32 ((bitsValue ((remaining s).take (k - 24)) : Int) * 2 ^ 24) =
        (bitsValue ((remaining s).take (k - 24)) : Int) * 2 ^ 24 := by
      unfold toInt32
      omega
    rw [e]

theorem C5_readLongValue_witness :
    ∃ s, Reach (rawInput [0x12, 0x34, 0x56, 0x78, 0x9A]) 0 s ∧
      ∃ x s', ReadLongValue 8 s (30 : Nat) = .ok (x, s') ∧
        Reach (rawInput [0x12, 0x34, 0x56, 0x78, 0x9A]) (0 + 30) s' ∧
        remaining s' = (destuffed (rawInput [0x12, 0x34, 0x56, 0x78, 0x9A]).rawData).drop (0 + 30) ∧
        x = toInt32 (bitsValue (((destuffed
          (rawInput [0x12, 0x34, 0x56, 0x78, 0x9A]).rawData).drop 0).take 30) : Int) ∧
        (30 ≤ 31 → x = (bitsValue (((destuffed
          (rawInput [0x12, 0x34, 0x56, 0x78, 0x9A]).rawData).drop 0).take 30) : Int) ∧
          0 ≤ x ∧ x < 2 ^ 30) ∧
        (30 ≤ 24 → ReadValue 8 s (30 : Nat) = .ok (x, s')) ∧
        (24 < 30 → ∃ hi s1 lo, ReadValue 8 s ((30 - 24 : Nat) : Int) = .ok (hi, s1) ∧
          ReadValue 8 s1 24 = .ok (lo, s') ∧ x = toInt32 (hi * 2 ^ 24) + lo ∧
          (30 ≤ 31 → x = hi * 2 ^ 24 + lo)) :=
  ⟨_, Reach.init fresh _ rfl,
    C5_readLongValue (rawInput [0x12, 0x34, 0x56, 0x78, 0x9A]) 0 _ 30 ⟨rfl, by decide⟩
      (Reach.init fresh _ rfl) (by decide) (by decide) (by decide)⟩

/-- C5 fails as stated for `k = 32`: on the input `80 00 00 00 00 00 00 00`, `ReadLongValue(32)`
after `Init` returns `-2 ^ 31`, which is not in `[0, 2 ^ 32)` and is not
`ReadValue(8) * 2 ^ 24 + ReadValue(24) = 128 * 2 ^ 24 + 0`. -/
theorem C5_counterexample :
    ∃ s s' s1 s2, Init 8 fresh (rawInput [0x80, 0, 0, 0, 0, 0, 0, 0]) = .ok s ∧
      ReadLongValue 8 s 32 = .ok (-2147483648, s') ∧
      ReadValue 8 s 8 = .ok (128, s1) ∧ ReadValue 8 s1 24 = .ok (0, s2) :=
  ⟨_, _, _, _, rfl, rfl, rfl, rfl⟩

/-- C6: `PeekByte` does not consume.  In every reachable reader state with at least 8 bits
remaining, `PeekByte` returns the value `v` of the next 8 bits and leaves all bits unconsumed;
a `ReadValue(8)` performed immediately after it returns the same `v`, and so does a second
`PeekByte`. -/
theorem C6_peekByte (info : ByteStreamInfo) (n : Nat) (s : DecoderStrategy)
    (hraw : RawInput info) (hreach : Reach info n s)
    (h8 : 8 ≤ (destuffed info.rawData).length - n) :
    ∃ s1, PeekByte 8 s =
        .ok ((bitsValue (((destuffed info.rawData).drop n).take 8) : Int), s1) ∧
      Reach info n s1 ∧ remaining s1 = (destuffed info.rawData).drop n ∧
      (∃ s2, ReadValue 8 s1 8 =
        .ok ((bitsValue (((destuffed info.rawData).drop n).take 8) : Int), s2)) ∧
      (∃ s3, PeekByte 8 s1 =
        .ok ((bitsValue (((destuffed info.rawData).drop n).take 8) : Int), s3)) := by
  have ht := Reach_tracks info hraw n s hreach
  have hlen : 8 ≤ (remaining s).length := by rw [ht.rem, List.length_drop]; exact h8
  have hne : remaining s ≠ [] := by
    intro h0; rw [h0] at hlen; simp at hlen
  obtain ⟨x, s1, a, b, c⟩ := (PeekByte_spec s ht.inv).2 hne
  have hx := c hlen
  subst hx
  have hr := Reach.peekByte n s s1 _ hreach a
  have ht1 := Reach_tracks info hraw n s1 hr
  have hrem1 : remaining s1 = remaining s := by rw [b.rem]; rfl
  have hlen1 : 8 ≤ (remaining s1).length := by rw [hrem1]; exact hlen
  refine ⟨s1, by rw [a, ht.rem], hr, ht1.rem, ?_, ?_⟩
  · obtain ⟨s2, a2, _⟩ := (ReadValue_spec s1 ht1.inv 8 (by norm_num) (by norm_num)).1 hlen1
    simp only [Nat.cast_ofNat] at a2
    exact ⟨s2, by rw [a2, ht1.rem]⟩
  · obtain ⟨x3, s3, a3, _, c3⟩ := (PeekByte_spec s1 ht1.inv).2 (by rw [hrem1]; exact hne)
    have hx3 := c3 hlen1
    subst hx3
    exact ⟨s3, by rw [a3, ht1.rem]⟩

theorem C6_peekByte_witness :
    ∃ s, Reach (rawInput [0xA5, 0x5A]) 0 s ∧
      ∃ s1, PeekByte 8 s = .ok (((0xA5 : Nat) : Int), s1) ∧
        (∃ s2, ReadValue 8 s1 8 = .ok (((0xA5 : Nat) : Int), s2)) ∧
        (∃ s3, PeekByte 8 s1 = .ok (((0xA5 : Nat) : Int), s3)) := by
  obtain ⟨s, hs⟩ : ∃ s, Init 8 fresh (rawInput [0xA5, 0x5A]) = .ok s := ⟨_, rfl⟩
  have hr := Reach.init fresh s hs
  have h := C6_peekByte (rawInput [0xA5, 0x5A]) 0 s ⟨rfl, by decide⟩ hr (by decide)
  have e : bitsValue (((destuffed (rawInput [0xA5, 0x5A]).rawData).drop 0).take 8) = 0xA5 := by
    decide
  rw [e] at h
  obtain ⟨s1, a, _, _, b, c⟩ := h
  exact ⟨s, hr, s1, a, b, c⟩

theorem shiftRight_63 (c : Nat) (hc : c < 2 ^ 64) : c >>> 63 = (c.testBit 63).toNat := by
  have h := bitsValue_topBits 64 c 1 (by norm_num) hc
  rw [show 64 - 1 = 63 by norm_num] at h
  rw [← h]
  simp [topBits, bitsValue, List.range_succ]

/-- Functions `ReadBit` and `ReadValue(1)` when the cache holds a bit. -/
theorem ReadBit_ReadValue_tail (s1 : DecoderStrategy) (hc : s1.readCache < 2 ^ 64)
    (hv : 1 ≤ s1.validBits) :
    ∃ s2, ReadBit 8 s1 = .ok (s1.readCache.testBit 63, s2) ∧
      ReadValue 8 s1 1 = .ok ((if s1.readCache.testBit 63 then 1 else 0), s2) := by
  have hS' := Skip_eq s1 1 (by norm_num)
  simp only [Nat.cast_one] at hS'
  obtain ⟨s2, hS⟩ : ∃ s2, Skip 8 s1 1 = .ok s2 := ⟨_, hS'⟩
  refine ⟨s2, ?_, ?_⟩
  · unfold ReadBit
    simp only [if_neg (show ¬ s1.validBits ≤ 0 by omega), shiftLeft_one_top, hS, and_top_ne_zero]
  · have hsz : sizeT 8 ((bufType_bit_count 8 : Int) - 1) = ((63 : Nat) : Int) := by
      simp only [sizeT, bufType_bit_count]
      norm_num
    have hsh : shiftRight 8 s1.readCache ((63 : Nat) : Int) = .ok (s1.readCache >>> 63) := by
      unfold shiftRight bufType_bit_count
      rw [if_pos (by constructor <;> norm_num)]
      simp
    unfold ReadValue
    simp only [if_neg (show ¬ s1.validBits < 1 by omega), hsz, hsh, hS]
    rw [shiftRight_63 _ hc]
    cases s1.readCache.testBit 63 <;> rfl

/-- C7: `ReadBit` consumes exactly one bit and agrees with `ReadValue(1)`.  In every reachable
reader state either both raise `InvalidCompressedData`, or both return normally with the same
resulting state (cache, `validBits`, position and all), one more bit being consumed, and
`ReadBit` returns true exactly when `ReadValue(1)` returns 1. -/
theorem C7_readBit (info : ByteStreamInfo) (n : Nat) (s : DecoderStrategy)
    (hraw : RawInput info) (hreach : Reach info n s) :
    (ReadBit 8 s = .error .InvalidCompressedData ∧
      ReadValue 8 s 1 = .error .InvalidCompressedData) ∨
    (∃ b s', ReadBit 8 s = .ok (b, s') ∧ ReadValue 8 s 1 = .ok ((if b then 1 else 0), s') ∧
      Reach info (n + 1) s' ∧ remaining s' = (destuffed info.rawData).drop (n + 1)) := by
  have ht := Reach_tracks info hraw n s hreach
  by_cases hnil : remaining s = []
  · left
    refine ⟨(ReadBit_spec s ht.inv).1 hnil, ?_⟩
    have := (ReadValue_spec s ht.inv 1 (le_refl _) (by norm_num)).2 (by rw [hnil]; simp)
    simpa using this
  · right
    have key : ∃ b s', ReadBit 8 s = .ok (b, s') ∧
        ReadValue 8 s 1 = .ok ((if b then 1 else 0), s') := by
      by_cases hlt : s.validBits ≤ 0
      · obtain ⟨s1, hMV, hR, hI⟩ := (MakeValid_spec s ht.inv (by omega)).2 hnil
        obtain ⟨s2, a, b⟩ := ReadBit_ReadValue_tail s1 hI.core.cache_lt hR.pos
        refine ⟨s1.readCache.testBit 63, s2, ?_, ?_⟩
        · rw [ReadBit_refill s s1 hlt hMV hR.pos]; exact a
        · rw [ReadValue_refill s s1 1 (by omega) hMV hR.pos]; exact b
      · obtain ⟨s2, a, b⟩ := ReadBit_ReadValue_tail s ht.inv.core.cache_lt (by omega)
        exact ⟨s.readCache.testBit 63, s2, a, b⟩
    obtain ⟨b, s', a1, a2⟩ := key
    have hr := Reach.readBit n s s' b hreach a1
    exact ⟨b, s', a1, a2, hr, (Reach_tracks info hraw _ s' hr).rem⟩

theorem C7_readBit_witness :
    ∃ s, Reach (rawInput [0x80]) 0 s ∧
      ((ReadBit 8 s = .error .InvalidCompressedData ∧
        ReadValue 8 s 1 = .error .InvalidCompressedData) ∨
      (∃ b s', ReadBit 8 s = .ok (b, s') ∧ ReadValue 8 s 1 = .ok ((if b then 1 else 0), s') ∧
        Reach (rawInput [0x80]) (0 + 1) s' ∧
        remaining s' = (destuffed (rawInput [0x80]).rawData).drop (0 + 1))) :=
  ⟨_, Reach.init fresh _ rfl,
    C7_readBit (rawInput [0x80]) 0 _ ⟨rfl, by decide⟩ (Reach.init fresh _ rfl)⟩

theorem remaining_ne_nil_of_plain (s : DecoderStrategy) (h : Core s)
    (hp : s.position < s.rawData.length) (hb : s.rawData.getD s.position 0 ≠ 0xFF) :
    remaining s ≠ [] := by
  intro h0
  have := ((remaining_eq_nil s h).mp h0).1
  exact not_stopped_of_plain s h hp hb ((stopped_iff s h).mpr this)

/-- C8: in every reachable reader state whose remaining input still contains a marker (a
`0xFF` followed by a byte with bit 7 set, or a `0xFF` that is the last byte), `EndScan` returns
normally if and only if the byte at `_position` is `0xFF` (or is `0xFF` after the one `ReadBit`
that `EndScan` performs when it is not) and the cache is then entirely zero; in every other
case it raises `TooMuchCompressedData`, never another error. -/
theorem C8_endScan (info : ByteStreamInfo) (n : Nat) (s : DecoderStrategy)
    (hraw : RawInput info) (hreach : Reach info n s)
    (hmarker : ∃ i, s.position ≤ i ∧ markerAt s.rawData i) :
    ((∃ s', EndScan 8 s = .ok s') ↔
      ((byteAt s s.position = 0xFF ∧ s.readCache = 0) ∨
        (byteAt s s.position ≠ 0xFF ∧ ∃ b s1, ReadBit 8 s = .ok (b, s1) ∧
          byteAt s1 s1.position = 0xFF ∧ s1.readCache = 0))) ∧
    ((¬ ∃ s', EndScan 8 s = .ok s') → EndScan 8 s = .error .TooMuchCompressedData) := by
  have ht := Reach_tracks info hraw n s hreach
  obtain ⟨i, hi, hm⟩ := hmarker
  have hp : s.position < s.rawData.length := lt_of_le_of_lt hi hm.1
  have hbyte := byteAt_raw s ht.inv.core.raw _ hp
  by_cases hFF : byteAt s s.position = 0xFF
  · have hE := EndScan_at_marker s hFF
    by_cases hc : s.readCache = 0
    · rw [if_neg (by simpa using hc)] at hE
      refine ⟨⟨fun _ => Or.inl ⟨hFF, hc⟩, fun _ => ⟨s, hE⟩⟩, fun hn => absurd ⟨s, hE⟩ hn⟩
    · rw [if_pos hc] at hE
      refine ⟨⟨fun ⟨s', hs'⟩ => ?_, fun hh => ?_⟩, fun _ => hE⟩
      · rw [hE] at hs'; simp at hs'
      · rcases hh with ⟨_, h0⟩ | ⟨h1, _⟩
        · exact absurd h0 hc
        · exact absurd hFF h1
  · have hne : remaining s ≠ [] :=
      remaining_ne_nil_of_plain s ht.inv.core hp (by rw [← hbyte]; exact hFF)
    obtain ⟨b, rest, hrem⟩ : ∃ b rest, remaining s = b :: rest := by
      cases hR : remaining s with
      | nil => exact absurd hR hne
      | cons b rest => exact ⟨b, rest, rfl⟩
    obtain ⟨s1, hRB, _, _⟩ := (ReadBit_spec s ht.inv).2 b rest hrem
    have hE := EndScan_readBit_ok s s1 b hFF hRB
    by_cases h1 : byteAt s1 s1.position = 0xFF
    · rw [if_neg (show ¬ byteAt s1 s1.position ≠ JpegMarkerCode_Start from not_not.mpr h1)] at hE
      by_cases hc : s1.readCache = 0
      · rw [if_neg (by simpa using hc)] at hE
        refine ⟨⟨fun _ => Or.inr ⟨hFF, b, s1, hRB, h1, hc⟩, fun _ => ⟨s1, hE⟩⟩,
          fun hn => absurd ⟨s1, hE⟩ hn⟩
      · rw [if_pos hc] at hE
        refine ⟨⟨fun ⟨s', hs'⟩ => ?_, fun hh => ?_⟩, fun _ => hE⟩
        · rw [hE] at hs'; simp at hs'
        · rcases hh with ⟨h0, _⟩ | ⟨_, b', s1', hRB', _, hc'⟩
          · exact absurd h0 hFF
          · rw [hRB] at hRB'
            simp only [Except.ok.injEq, Prod.mk.injEq] at hRB'
            rw [← hRB'.2] at hc'
            exact absurd hc' hc
    · rw [if_pos (show byteAt s1 s1.position ≠ JpegMarkerCode_Start from h1)] at hE
      refine ⟨⟨fun ⟨s', hs'⟩ => ?_, fun hh => ?_⟩, fun _ => hE⟩
      · rw [hE] at hs'; simp at hs'
      · rcases hh with ⟨h0, _⟩ | ⟨_, b', s1', hRB', h1', _⟩
        · exact absurd h0 hFF
        · rw [hRB] at hRB'
          simp only [Except.ok.injEq, Prod.mk.injEq] at hRB'
          rw [← hRB'.2] at h1'
          exact absurd h1' h1

theorem C8_endScan_witness :
    ∃ s, Reach (rawInput [0x00, 0xFF, 0xD9]) 8 s ∧ (∃ i, s.position ≤ i ∧ markerAt s.rawData i) ∧
      (((∃ s', EndScan 8 s = .ok s') ↔
        ((byteAt s s.position = 0xFF ∧ s.readCache = 0) ∨
          (byteAt s s.position ≠ 0xFF ∧ ∃ b s1, ReadBit 8 s = .ok (b, s1) ∧
            byteAt s1 s1.position = 0xFF ∧ s1.readCache = 0))) ∧
      ((¬ ∃ s', EndScan 8 s = .ok s') → EndScan 8 s = .error .TooMuchCompressedData)) ∧
      ∃ s', EndScan 8 s = .ok s' := by
  obtain ⟨s0, hs0⟩ : ∃ s, Init 8 fresh (rawInput [0x00, 0xFF, 0xD9]) = .ok s := ⟨_, rfl⟩
  obtain ⟨s, hs, hpos, hE⟩ : ∃ s, ReadValue 8 s0 ((8 : Nat) : Int) = .ok (0, s) ∧
      s.position = 1 ∧ ∃ s', EndScan 8 s = .ok s' := by
    have h0 : Init 8 fresh (rawInput [0x00, 0xFF, 0xD9]) = .ok s0 := hs0
    rw [show Init 8 fresh (rawInput [0x00, 0xFF, 0xD9]) = .ok _ from rfl] at h0
    simp only [Except.ok.injEq] at h0
    subst h0
    exact ⟨_, rfl, rfl, _, rfl⟩
  have hr : Reach (rawInput [0x00, 0xFF, 0xD9]) (0 + 8) s :=
    Reach.readValue 0 s0 s 8 0 (Reach.init fresh s0 hs0) (by norm_num) (by norm_num) hs
  have hd : s.rawData = [0x00, 0xFF, 0xD9] :=
    (Reach_tracks (rawInput [0x00, 0xFF, 0xD9]) ⟨rfl, by decide⟩ _ s hr).data
  have hm : ∃ i, s.position ≤ i ∧ markerAt s.rawData i := by
    refine ⟨1, by omega, ?_⟩
    rw [hd]
    refine ⟨by decide, by decide, Or.inr (by decide)⟩
  exact ⟨s, hr, hm, C8_endScan (rawInput [0x00, 0xFF, 0xD9]) 8 s ⟨rfl, by decide⟩ hr hm, hE⟩

theorem markerAt_cons_succ (b : Nat) (rest : List Nat) (i : Nat) :
    markerAt (b :: rest) (i + 1) ↔ markerAt rest i := by
  unfold markerAt
  simp only [List.length_cons, List.getD_cons_succ, Nat.add_lt_add_iff_right,
    Nat.add_right_cancel_iff]

theorem markerAt_zero (b : Nat) (rest : List Nat) :
    markerAt (b :: rest) 0 ↔ b = 0xFF ∧ (rest = [] ∨ rest.getD 0 0 &&& 0x80 ≠ 0) := by
  unfold markerAt
  simp only [List.length_cons, Nat.zero_lt_succ, List.getD_cons_zero, true_and, Nat.zero_add,
    List.getD_cons_succ]
  constructor
  · rintro ⟨h1, h2 | h2⟩
    · exact ⟨h1, Or.inl (List.length_eq_zero.mp (by omega))⟩
    · exact ⟨h1, Or.inr h2⟩
  · rintro ⟨h1, h2 | h2⟩
    · exact ⟨h1, Or.inl (by rw [h2]; rfl)⟩
    · exact ⟨h1, Or.inr h2⟩

theorem destuffed_take_marker (data : List Nat) : ∀ m, markerAt data m →
    (∀ i, i < m → ¬ markerAt data i) → destuffed (data.take m) = destuffed data := by
  induction data using destuffed.induct with
  | case1 => intro m hm; exact absurd hm.1 (by simp)
  | case2 =>
    intro m hm _
    have : m = 0 := by have := hm.1; simp at this; omega
    subst this
    rfl
  | case3 b hb =>
    intro m hm _
    have : m = 0 := by have := hm.1; simp at this; omega
    subst this
    exact absurd ((markerAt_zero b []).mp hm).1 hb
  | case4 c rest hc =>
    intro m _ hfirst
    have h0 : markerAt (0xFF :: c :: rest) 0 :=
      (markerAt_zero _ _).mpr ⟨rfl, Or.inr (by simpa using hc)⟩
    have : m = 0 := by
      by_contra hne
      exact hfirst 0 (by omega) h0
    subst this
    have e : destuffed (0xFF :: c :: rest) = [] := by
      rw [destuffed]
      simp [hc]
    rw [e]
    rfl
  | case5 c rest hc ih =>
    intro m hm hfirst
    have hc0 : c &&& 0x80 = 0 := by simpa using hc
    have hm0 : m ≠ 0 := by
      intro h0
      subst h0
      rcases ((markerAt_zero _ _).mp hm).2 with h | h
      · exact absurd h (by simp)
      · exact hc (by simpa using h)
    have hm1 : m ≠ 1 := by
      intro h1
      subst h1
      have := ((markerAt_cons_succ _ _ 0).mp hm)
      have hc255 := ((markerAt_zero _ _).mp this).1
      subst hc255
      exact absurd hc0 (by decide)
    obtain ⟨m', rfl⟩ : ∃ m', m = m' + 2 := ⟨m - 2, by omega⟩
    have hm' : markerAt rest m' :=
      (markerAt_cons_succ _ _ _).mp ((markerAt_cons_succ _ _ _).mp hm)
    have hfirst' : ∀ i, i < m' → ¬ markerAt rest i := by
      intro i hi h
      exact hfirst (i + 2) (by omega)
        ((markerAt_cons_succ _ _ _).mpr ((markerAt_cons_succ _ _ _).mpr h))
    rw [show m' + 2 = m' + 1 + 1 by ring, List.take_succ_cons, List.take_succ_cons, destuffed,
      destuffed]
    simp only [if_true, if_neg hc]
    rw [ih m' hm' hfirst']
  | case6 b c rest hb ih =>
    intro m hm hfirst
    have hm0 : m ≠ 0 := by
      intro h0
      subst h0
      exact hb ((markerAt_zero _ _).mp hm).1
    obtain ⟨m', rfl⟩ : ∃ m', m = m' + 1 := ⟨m - 1, by omega⟩
    have hm' : markerAt (c :: rest) m' := (markerAt_cons_succ _ _ _).mp hm
    have hfirst' : ∀ i, i < m' → ¬ markerAt (c :: rest) i := by
      intro i hi h
      exact hfirst (i + 1) (by omega) ((markerAt_cons_succ _ _ _).mpr h)
    rw [List.take_succ_cons, destuffed_cons_plain b _ hb, destuffed_cons_plain b _ hb,
      ih m' hm' hfirst']

/-- C9: the reader never consumes a marker.  After every sequence of operations (`Init`, then
`MakeValid`, `ReadValue`, `ReadBit`, `PeekByte`, `ReadHighbits`, `ReadLongValue`, `EndScan`) on a
raw byte range whose first marker (a `0xFF` followed by a byte with bit 7 set, or a `0xFF` that
is the last byte) is at index `m`, `_position` is at most `m`, and the `validBits` valid bits of
the cache are bits of the bytes before index `m`: they are the de-stuffed bits of these bytes
from the number of bits consumed on, so no bit of that `0xFF` or of a later byte is counted in
`validBits`. -/
theorem C9_never_consumes_marker (info : ByteStreamInfo) (n : Nat) (s : DecoderStrategy)
    (m : Nat) (hraw : RawInput info) (hreach : Reach info n s)
    (hm : markerAt info.rawData m) (hfirst : ∀ i, i < m → ¬ markerAt info.rawData i) :
    s.position ≤ m ∧
    n + s.validBits.toNat ≤ (destuffed (info.rawData.take m)).length ∧
    topBits 64 s.readCache s.validBits.toNat =
      ((destuffed (info.rawData.take m)).drop n).take s.validBits.toNat := by
  have ht := Reach_tracks info hraw n s hreach
  have hd := destuffed_take_marker info.rawData m hm hfirst
  rw [hd]
  have hrem := ht.rem
  unfold remaining at hrem
  refine ⟨?_, ?_, ?_⟩
  · by_contra hlt
    exact ht.inv.core.nomark m (by omega) (by rw [ht.data]; exact hm)
  · have := congrArg List.length hrem
    rw [List.length_append, topBits_length, List.length_drop] at this
    have := ht.le
    omega
  · rw [← hrem, List.take_left' (topBits_length _ _ _)]

theorem C9_never_consumes_marker_witness :
    ∃ s, Reach (rawInput [0x12, 0xFF, 0x00, 0x34, 0xFF, 0xD9, 0x77]) 20 s ∧
      s.position ≤ 4 ∧
      20 + s.validBits.toNat ≤
        (destuffed ((rawInput [0x12, 0xFF, 0x00, 0x34, 0xFF, 0xD9, 0x77]).rawData.take 4)).length ∧
      topBits 64 s.readCache s.validBits.toNat =
        ((destuffed ((rawInput [0x12, 0xFF, 0x00, 0x34, 0xFF, 0xD9, 0x77]).rawData.take 4)).drop
          20).take s.validBits.toNat := by
  obtain ⟨s0, hs0⟩ : ∃ s, Init 8 fresh (rawInput [0x12, 0xFF, 0x00, 0x34, 0xFF, 0xD9, 0x77]) = .ok s :=
    ⟨_, rfl⟩
  obtain ⟨x, s, hs⟩ : ∃ x s, ReadValue 8 s0 ((20 : Nat) : Int) = .ok (x, s) := by
    have h0 := hs0
    rw [show Init 8 fresh (rawInput [0x12, 0xFF, 0x00, 0x34, 0xFF, 0xD9, 0x77]) = .ok _ from rfl] at h0
    simp only [Except.ok.injEq] at h0
    subst h0
    exact ⟨_, _, rfl⟩
  have hr : Reach (rawInput [0x12, 0xFF, 0x00, 0x34, 0xFF, 0xD9, 0x77]) (0 + 20) s :=
    Reach.readValue 0 s0 s 20 x (Reach.init fresh s0 hs0) (by norm_num) (by norm_num) hs
  exact ⟨s, hr, C9_never_consumes_marker (rawInput [0x12, 0xFF, 0x00, 0x34, 0xFF, 0xD9, 0x77]) 20 s 4
    ⟨rfl, by decide⟩ hr ⟨by decide, by decide, Or.inr (by decide)⟩ (by
      intro i hi
      have hcases : i = 0 ∨ i = 1 ∨ i = 2 ∨ i = 3 := by omega
      rcases hcases with h | h | h | h <;> subst h <;> intro hmk
      · exact absurd hmk.2.1 (by decide)
      · rcases hmk.2.2 with h | h
        · exact absurd h (by decide)
        · exact absurd h (by decide)
      · exact absurd hmk.2.1 (by decide)
      · exact absurd hmk.2.1 (by decide))⟩

theorem GetCurBytePosLoop_plain (s : DecoderStrategy) (hraw : s.byteStream = none)
    (hff : ∀ b ∈ s.rawData, b ≠ 0xFF) (fuel : Nat) : ∀ (v : Nat) (cb : Nat),
    cb ≤ s.rawData.length → v ≤ 8 * cb → v / 8 < fuel →
    GetCurBytePosLoop s fuel (v : Int) (cb : Int) = (cb : Int) - ((v / 8 : Nat) : Int) := by
  induction fuel with
  | zero => intro v cb _ _ hf; omega
  | succ fuel ih =>
    intro v cb hcb hv hf
    rw [GetCurBytePosLoop]
    by_cases hlt : v < 8
    · have h7 : v < 7 ∨ byteAt s ((cb : Int) - 1) ≠ JpegMarkerCode_Start := by
        by_cases hcb0 : cb = 0
        · left; omega
        · right
          have e : (cb : Int) - 1 = ((cb - 1 : Nat) : Int) := by omega
          rw [e, byteAt_raw s hraw _ (by omega), List.getD_eq_getElem _ _ (by omega)]
          exact hff _ (List.getElem_mem _)
      have hv8 : v / 8 = 0 := by omega
      rw [if_pos, hv8]
      · simp
      · split <;> omega
    · have hcb0 : 1 ≤ cb := by omega
      have e : (cb : Int) - 1 = ((cb - 1 : Nat) : Int) := by omega
      have hne : byteAt s ((cb : Int) - 1) ≠ JpegMarkerCode_Start := by
        rw [e, byteAt_raw s hraw _ (by omega), List.getD_eq_getElem _ _ (by omega)]
        exact hff _ (List.getElem_mem _)
      simp only [hne, if_false]
      rw [if_neg (by omega), e, show (v : Int) - 8 = ((v - 8 : Nat) : Int) by omega,
        ih (v - 8) (cb - 1) (by omega) (by omega) (by omega)]
      omega

theorem upcoming_length_plain (s : DecoderStrategy) (h : Core s)
    (hff : ∀ b ∈ s.rawData, b ≠ 0xFF) :
    (upcoming s).length = 8 * (s.rawData.length - s.position) := by
  have hpf : prevFF s = false := by
    by_contra hp
    have hp' : prevFF s = true := by simpa using hp
    unfold prevFF at hp'
    simp only [decide_eq_true_eq] at hp'
    have hlt : s.position - 1 < s.rawData.length := by have := h.pos_le; omega
    rw [List.getD_eq_getElem _ _ hlt] at hp'
    exact hff _ (List.getElem_mem _) hp'.2
  have hmem : ∀ b ∈ s.rawData.drop s.position, b ∈ s.rawData :=
    fun b hb => List.mem_of_mem_drop hb
  rw [upcoming, hpf, upcomingBits_eq_destuffed _ (fun b hb => h.bytes b (hmem b hb)),
    destuffed_plain _ (fun b hb => h.bytes b (hmem b hb)) (fun b hb => hff b (hmem b hb)),
    topBits_length, List.length_drop]

/-- C10: position recovery without stuffing.  For an input without `0xFF`, after `Init` and any
sequence of successful operations that consumed `n` bits in total, `GetCurBytePos` returns the
start of the input plus `ceil(n / 8)`, whatever the byte before the input is; in particular it
returns the start of the input immediately after `Init`.  (`GetCurBytePos` is a function of
the reader state that returns a pointer only: it does not modify the state.) -/
theorem C10_getCurBytePos (info : ByteStreamInfo) (n : Nat) (s : DecoderStrategy)
    (hraw : RawInput info) (hff : ∀ b ∈ info.rawData, b ≠ 0xFF) (hreach : Reach info n s) :
    GetCurBytePos s = (((n + 7) / 8 : Nat) : Int) ∧
    ∀ s0 s1, Init 8 s0 info = .ok s1 → GetCurBytePos s1 = 0 := by
  have main : ∀ (k : Nat) (t : DecoderStrategy), Reach info k t →
      GetCurBytePos t = (((k + 7) / 8 : Nat) : Int) := by
    intro k t hr
    have ht := Reach_tracks info hraw k t hr
    have hff' : ∀ b ∈ t.rawData, b ≠ 0xFF := by rw [ht.data]; exact hff
    obtain ⟨v, hv⟩ := Int.eq_ofNat_of_zero_le ht.inv.core.vlo
    have hlen := remaining_length t
    rw [ht.rem, List.length_drop, upcoming_length_plain t ht.inv.core hff', hv,
      destuffed_plain _ hraw.2 hff, topBits_length, ← ht.data] at hlen
    simp only [Int.toNat_ofNat] at hlen
    have hle := ht.le
    rw [destuffed_plain _ hraw.2 hff, topBits_length, ← ht.data] at hle
    have hpos := ht.inv.core.pos_le
    unfold GetCurBytePos
    rw [hv]
    simp only [Int.toNat_ofNat]
    rw [GetCurBytePosLoop_plain t ht.inv.core.raw hff' (v + 1) v t.position hpos (by omega)
      (by omega)]
    omega
  refine ⟨main n s hreach, fun s0 s1 h1 => ?_⟩
  have := main 0 s1 (Reach.init s0 s1 h1)
  simpa using this

theorem C10_getCurBytePos_witness :
    ∃ s, Reach (rawInput [1, 2, 3, 4, 5, 6, 7, 8, 9]) 13 s ∧
      GetCurBytePos s = (2 : Int) ∧
      ∀ s0 s1, Init 8 s0 (rawInput [1, 2, 3, 4, 5, 6, 7, 8, 9]) = .ok s1 → GetCurBytePos s1 = 0 := by
  obtain ⟨s0, hs0⟩ : ∃ s, Init 8 fresh (rawInput [1, 2, 3, 4, 5, 6, 7, 8, 9]) = .ok s := ⟨_, rfl⟩
  obtain ⟨x, s, hs⟩ : ∃ x s, ReadValue 8 s0 ((13 : Nat) : Int) = .ok (x, s) := by
    have h0 := hs0
    rw [show Init 8 fresh (rawInput [1, 2, 3, 4, 5, 6, 7, 8, 9]) = .ok _ from rfl] at h0
    simp only [Except.ok.injEq] at h0
    subst h0
    exact ⟨_, _, rfl⟩
  have hr : Reach (rawInput [1, 2, 3, 4, 5, 6, 7, 8, 9]) (0 + 13) s :=
    Reach.readValue 0 s0 s 13 x (Reach.init fresh s0 hs0) (by norm_num) (by norm_num) hs
  have h := C10_getCurBytePos (rawInput [1, 2, 3, 4, 5, 6, 7, 8, 9]) 13 s ⟨rfl, by decide⟩
    (by decide) hr
  exact ⟨s, hr, h.1, h.2⟩

theorem loadedBits_take_succ (l : List Nat) (i : Nat) (hi : i < l.length) :
    loadedBits (l.take (i + 1)) = loadedBits (l.take i) + loadedUnit (l.getD i 0) := by
  unfold loadedBits
  rw [List.take_succ, List.map_append, List.sum_append]
  simp [List.getElem?_eq_getElem hi, List.getD_eq_getElem l 0 hi]

theorem loadedUnit_pos (b : Nat) : 7 ≤ loadedUnit b ∧ loadedUnit b ≤ 8 := by
  unfold loadedUnit
  split <;> omega

theorem cachePos_zero (data : List Nat) : cachePos data 0 = 0 := by
  cases data <;> simp [cachePos]

theorem cachePos_eq (data : List Nat) : ∀ (i n : Nat), i ≤ data.length →
    n ≤ loadedBits (data.take i) → (i = 0 ∨ loadedBits (data.take (i - 1)) < n) →
    cachePos data n = i := by
  induction data with
  | nil =>
    intro i n hi _ _
    simp at hi
    subst hi
    rfl
  | cons b rest ih =>
    intro i n hi hn hlow
    cases i with
    | zero =>
      have : n = 0 := by simpa [loadedBits] using hn
      subst this
      rfl
    | succ i =>
      have hn0 : n ≠ 0 := by
        rcases hlow with h | h
        · omega
        · omega
      rw [cachePos, if_neg hn0]
      have hlen : i ≤ rest.length := by simpa using hi
      have e1 : loadedBits ((b :: rest).take (i + 1)) = loadedUnit b + loadedBits (rest.take i) := by
        simp [loadedBits]
      rw [e1] at hn
      rw [ih i (n - loadedUnit b) hlen (by omega) ?_]
      · omega
      · rcases hlow with h | h
        · omega
        · simp only [Nat.add_sub_cancel] at h
          cases i with
          | zero => left; rfl
          | succ j =>
            right
            have e2 : loadedBits ((b :: rest).take (j + 1)) =
                loadedUnit b + loadedBits (rest.take j) := by simp [loadedBits]
            rw [e2] at h
            simp only [Nat.add_sub_cancel]
            omega

theorem GetCurBytePosLoop_eq (s : DecoderStrategy) (hraw : s.byteStream = none) (fuel : Nat) :
    ∀ (v cb : Nat), cb ≤ s.rawData.length → v ≤ loadedBits (s.rawData.take cb) → v < fuel →
    GetCurBytePosLoop s fuel (v : Int) (cb : Int) =
      (cachePos s.rawData (loadedBits (s.rawData.take cb) - v) : Int) := by
  induction fuel with
  | zero => intro v cb _ _ hf; omega
  | succ fuel ih =>
    intro v cb hcb hv hf
    rw [GetCurBytePosLoop]
    cases cb with
    | zero =>
      have hv0 : v = 0 := by simpa [loadedBits] using hv
      subst hv0
      rw [if_pos (by split <;> norm_num)]
      simp [loadedBits, cachePos_zero]
    | succ c =>
      have hc : c < s.rawData.length := by omega
      have e : ((c + 1 : Nat) : Int) - 1 = (c : Int) := by omega
      have hL := loadedBits_take_succ s.rawData c hc
      have hu := loadedUnit_pos (s.rawData.getD c 0)
      have hcb : (if byteAt s (((c + 1 : Nat) : Int) - 1) = JpegMarkerCode_Start then (7 : Int)
          else 8) = (loadedUnit (s.rawData.getD c 0) : Int) := by
        rw [e, byteAt_raw s hraw c hc]
        unfold loadedUnit JpegMarkerCode_Start
        split <;> rfl
      simp only [hcb]
      by_cases hlt : v < loadedUnit (s.rawData.getD c 0)
      · rw [if_pos (by exact_mod_cast hlt)]
        rw [cachePos_eq s.rawData (c + 1) _ (by omega) (by omega) (by
          right
          simp only [Nat.add_sub_cancel]
          omega)]
      · rw [if_neg (by exact_mod_cast hlt)]
        have e2 : (v : Int) - (loadedUnit (s.rawData.getD c 0) : Int) =
            ((v - loadedUnit (s.rawData.getD c 0) : Nat) : Int) := by omega
        rw [e2, e, ih (v - loadedUnit (s.rawData.getD c 0)) c (by omega) (by omega) (by omega)]
        congr 2
        omega

theorem upcomingBits_step (pf : Bool) (b : Nat) (rest : List Nat)
    (h : ¬ markerAt (b :: rest) 0) :
    (upcomingBits pf (b :: rest)).length =
      loadedUnit b + (upcomingBits (decide (b = 0xFF)) rest).length := by
  rw [markerAt_zero] at h
  by_cases hb : b = 0xFF
  · subst hb
    cases rest with
    | nil => exact absurd ⟨rfl, Or.inl rfl⟩ h
    | cons c r =>
      have hc : ¬ (c &&& 0x80 ≠ 0) := fun hc => h ⟨rfl, Or.inr (by simpa using hc)⟩
      rw [upcomingBits_ff_cons, if_neg hc]
      simp [loadedUnit]
      omega
  · rw [upcomingBits_cons _ _ _ hb]
    simp [loadedUnit, hb, topBits_length]

theorem upcomingBits_split (data : List Nat) : ∀ (pf : Bool) (p : Nat), p ≤ data.length →
    (∀ i, i < p → ¬ markerAt data i) →
    (upcomingBits pf data).length = loadedBits (data.take p) +
      (upcomingBits (if p = 0 then pf else decide (data.getD (p - 1) 0 = 0xFF))
        (data.drop p)).length := by
  induction data with
  | nil =>
    intro pf p hp _
    simp at hp
    subst hp
    simp [loadedBits]
  | cons b rest ih =>
    intro pf p hp hno
    cases p with
    | zero => simp [loadedBits]
    | succ p =>
      rw [upcomingBits_step pf b rest (hno 0 (by omega)),
        ih (decide (b = 0xFF)) p (by simpa using hp)
          (fun i hi hm => hno (i + 1) (by omega) ((markerAt_cons_succ b rest i).mpr hm))]
      have e1 : loadedBits ((b :: rest).take (p + 1)) = loadedUnit b + loadedBits (rest.take p) := by
        simp [loadedBits]
      rw [e1, List.drop_succ_cons]
      simp only [Nat.add_sub_cancel, Nat.add_one_ne_zero, if_false]
      cases p with
      | zero => simp; omega
      | succ q => simp; omega

theorem loaded_eq (info : ByteStreamInfo) (n : Nat) (s : DecoderStrategy) (h : Tracks info n s)
    (hb : ∀ b ∈ info.rawData, b < 256) :
    n + s.validBits.toNat = loadedBits (s.rawData.take s.position) := by
  have h1 := remaining_length s
  rw [h.rem, List.length_drop] at h1
  have h2 := upcomingBits_split s.rawData false s.position h.inv.core.pos_le h.inv.core.nomark
  rw [upcomingBits_eq_destuffed _ (by rw [h.data]; exact hb), h.data] at h2
  have h3 : (upcoming s) = upcomingBits (if s.position = 0 then false
      else decide (s.rawData.getD (s.position - 1) 0 = 0xFF)) (s.rawData.drop s.position) := by
    unfold upcoming prevFF
    congr 1
    by_cases hp : s.position = 0
    · simp [hp]
    · simp [hp, Nat.pos_of_ne_zero hp]
  rw [h3, h.data] at h1
  have := h.le
  rw [h.data]
  omega

/-- C11 (as amended): position recovery with stuffing, 64-bit cache.  For every raw input and
every sequence of successful operations after `Init` that consumed `n` bits, `GetCurBytePos`
returns the start of the input plus the number of leading bytes of which a bit has been
consumed, where bits are attributed to bytes as `MakeValid` counts them: 7 bits for a `0xFF`
and 8 for every other byte, so that the lowest bit of a stuffed `0xFF` goes with the byte that
follows it. -/
theorem C11_getCurBytePos_stuffing (info : ByteStreamInfo) (n : Nat) (s : DecoderStrategy)
    (hraw : RawInput info) (hreach : Reach info n s) :
    GetCurBytePos s = (cachePos info.rawData n : Int) := by
  have ht := Reach_tracks info hraw n s hreach
  have hl := loaded_eq info n s ht hraw.2
  obtain ⟨v, hv⟩ := Int.eq_ofNat_of_zero_le ht.inv.core.vlo
  rw [hv, Int.toNat_ofNat] at hl
  unfold GetCurBytePos
  rw [hv, Int.toNat_ofNat,
    GetCurBytePosLoop_eq s ht.inv.core.raw (v + 1) v s.position ht.inv.core.pos_le (by omega)
      (by omega), ht.data]
  rw [ht.data] at hl
  congr 2
  omega

theorem C11_getCurBytePos_stuffing_witness :
    ∃ s, Reach (rawInput [0x12, 0xFF, 0x7F, 0x34, 0x56]) 17 s ∧ GetCurBytePos s = (3 : Nat) := by
  obtain ⟨s0, hs0⟩ : ∃ s, Init 8 fresh (rawInput [0x12, 0xFF, 0x7F, 0x34, 0x56]) = .ok s := ⟨_, rfl⟩
  obtain ⟨x, s, hs⟩ : ∃ x s, ReadValue 8 s0 ((17 : Nat) : Int) = .ok (x, s) := by
    have h0 := hs0
    rw [show Init 8 fresh (rawInput [0x12, 0xFF, 0x7F, 0x34, 0x56]) = .ok _ from rfl] at h0
    simp only [Except.ok.injEq] at h0
    subst h0
    exact ⟨_, _, rfl⟩
  have hr : Reach (rawInput [0x12, 0xFF, 0x7F, 0x34, 0x56]) (0 + 17) s :=
    Reach.readValue 0 s0 s 17 x (Reach.init fresh s0 hs0) (by norm_num) (by norm_num) hs
  have h := C11_getCurBytePos_stuffing (rawInput [0x12, 0xFF, 0x7F, 0x34, 0x56]) 17 s
    ⟨rfl, by decide⟩ hr
  have e : cachePos (rawInput [0x12, 0xFF, 0x7F, 0x34, 0x56]).rawData 17 = 3 := by decide
  rw [e] at h
  exact ⟨s, hr, h⟩

/-- C11 fails as stated: on the input `FF 7F 00 00 00 00 00 00 00 00`, after `Init` and
`ReadValue(8)` (which returns the whole `0xFF`), no data bit of the byte at index 1 has been
consumed, so the position the claim describes is 1, yet `GetCurBytePos` returns 2. -/
theorem C11_counterexample : ∃ s0 s,
    Init 8 fresh (rawInput [0xFF, 0x7F, 0, 0, 0, 0, 0, 0, 0, 0]) = .ok s0 ∧
    ReadValue 8 s0 8 = .ok (0xFF, s) ∧ GetCurBytePos s = 2 ∧
    firstUntouched false [0xFF, 0x7F, 0, 0, 0, 0, 0, 0, 0, 0] 8 = 1 :=
  ⟨_, _, rfl, rfl, rfl, rfl⟩

theorem sizeT_of_le (sz : Nat) (x : Int) (h0 : 0 ≤ x) (h1 : x ≤ (bufType_bit_count sz : Int)) :
    sizeT sz x = x := by
  unfold sizeT
  apply Int.emod_eq_of_lt h0
  have h2 : bufType_bit_count sz < 2 ^ bufType_bit_count sz := Nat.lt_two_pow _
  have h3 : ((bufType_bit_count sz : Nat) : Int) < ((2 ^ bufType_bit_count sz : Nat) : Int) :=
    Int.ofNat_lt.mpr h2
  push_cast at h3
  omega

theorem stopped_raw (s : DecoderStrategy) (hraw : s.byteStream = none)
    (hend : s.endPosition = s.rawData.length) :
    stopped s ↔ (s.position ≥ s.rawData.length ∨ markerAt s.rawData s.position) := by
  unfold stopped markerAt
  rw [hend]
  by_cases hp : s.position ≥ s.rawData.length
  · simp [hp]
  · have hp' : s.position < s.rawData.length := by omega
    rw [byteAt_raw s hraw _ hp']
    simp only [hp, false_or, hp', true_and, JpegMarkerCode_Start]
    by_cases hlast : s.position + 1 < s.rawData.length
    · rw [byteAt_raw_succ s hraw _ hlast]
      have h1 : ¬ ((s.position : Int) = (s.rawData.length : Int) - 1) := by omega
      have h2 : ¬ (s.position + 1 = s.rawData.length) := by omega
      simp only [h1, h2, false_or]
    · have h1 : (s.position : Int) = (s.rawData.length : Int) - 1 := by omega
      have h2 : s.position + 1 = s.rawData.length := by omega
      simp only [h1, h2, true_or]

/-- The control flow of the loop of `MakeValid` for a cache of any width, entered with
`0 ≤ validBits ≤ W - 8`. -/
theorem MakeValidLoop_flow (sz : Nat) (fuel : Nat) : ∀ s : DecoderStrategy,
    s.endPosition - s.position < fuel → 0 ≤ s.validBits →
    s.validBits ≤ (bufType_bit_count sz : Int) - 8 →
    (stopped s → s.validBits ≤ 0 → MakeValidLoop sz fuel s = .error .InvalidCompressedData) ∧
    (stopped s → 0 < s.validBits → MakeValidLoop sz fuel s = .ok (false, s)) ∧
    (¬ stopped s → ∃ fin s', MakeValidLoop sz fuel s = .ok (fin, s') ∧
      s.validBits + 7 ≤ s'.validBits ∧ s'.validBits ≤ (bufType_bit_count sz : Int) ∧
      s.position < s'.position ∧
      (fin = true → (bufType_bit_count sz : Int) - 8 ≤ s'.validBits) ∧
      (fin = false → stopped s')) := by
  induction fuel with
  | zero => intro s hf; omega
  | succ fuel ih =>
    intro s hf hv0 hv
    have hst : stopped s ↔ (s.position ≥ s.endPosition ∨
        (byteAt s s.position = JpegMarkerCode_Start ∧
          ((s.position : Int) = (s.endPosition : Int) - 1 ∨
            (byteAt s ((s.position : Int) + 1)) &&& 0x80 ≠ 0))) := Iff.rfl
    refine ⟨?_, ?_, ?_⟩
    · intro h1 h2
      rw [MakeValidLoop]
      by_cases hp : s.position ≥ s.endPosition
      · rw [if_pos hp, if_pos h2]
      · rw [if_neg hp]
        have := (hst.mp h1).resolve_left hp
        simp only [this, and_self, if_true, h2]
    · intro h1 h2
      rw [MakeValidLoop]
      by_cases hp : s.position ≥ s.endPosition
      · rw [if_pos hp, if_neg (by omega)]
      · rw [if_neg hp]
        have := (hst.mp h1).resolve_left hp
        simp only [this, and_self, if_true]
        rw [if_neg (by omega)]
    · intro h1
      rw [hst] at h1
      push_neg at h1
      obtain ⟨hp, hm⟩ := h1
      have hcond : ¬ (byteAt s s.position = JpegMarkerCode_Start ∧
          ((s.position : Int) = (s.endPosition : Int) - 1 ∨
            (byteAt s ((s.position : Int) + 1)) &&& 0x80 ≠ 0)) := by
        intro ⟨a, b⟩
        have := hm a
        rcases b with b | b
        · exact this.1 b
        · exact b this.2
      have hsh : sizeT sz ((bufType_bit_count sz : Int) - 8 - s.validBits) =
          (bufType_bit_count sz : Int) - 8 - s.validBits := sizeT_of_le sz _ (by omega) (by omega)
      obtain ⟨w, hw⟩ : ∃ w, shiftLeft sz (byteAt s s.position)
          (sizeT sz ((bufType_bit_count sz : Int) - 8 - s.validBits)) = .ok w := by
        rw [hsh]
        unfold shiftLeft
        rw [if_pos (by constructor <;> omega)]
        exact ⟨_, rfl⟩
      rw [MakeValidLoop, if_neg (by omega), if_neg hcond]
      simp only [hw]
      by_cases hFF : byteAt s s.position = JpegMarkerCode_Start
      · simp only [hFF, if_true]
        have hs2 : sizeT sz (s.validBits + 8 - 1) = s.validBits + 8 - 1 :=
          sizeT_of_le sz _ (by omega) (by omega)
        rw [hs2]
        by_cases hcont : s.validBits + 8 - 1 < (bufType_bit_count sz : Int) - 8
        · rw [if_pos hcont]
          obtain ⟨a, b, c⟩ := ih { s with
            readCache := s.readCache ||| w
            position := s.position + 1
            validBits := s.validBits + 8 - 1 } (by simp only; omega) (by simp only; omega)
            (by simp only; omega)
          by_cases hst2 : stopped { s with
            readCache := s.readCache ||| w
            position := s.position + 1
            validBits := s.validBits + 8 - 1 }
          · refine ⟨false, _, b hst2 (by simp only; omega), by simp only; omega,
              by simp only; omega, by simp only; omega, fun h => absurd h (by simp),
              fun _ => hst2⟩
          · obtain ⟨fin, s', e1, e2, e3, e4, e5, e6⟩ := c hst2
            simp only at e2 e4
            exact ⟨fin, s', e1, by omega, e3, by omega, e5, e6⟩
        · rw [if_neg hcont]
          exact ⟨true, _, rfl, by simp only; omega, by simp only; omega, by simp only; omega,
            fun _ => by simp only; omega, fun h => absurd h (by simp)⟩
      · simp only [hFF, if_false]
        have hs2 : sizeT sz (s.validBits + 8) = s.validBits + 8 :=
          sizeT_of_le sz _ (by omega) (by omega)
        rw [hs2]
        by_cases hcont : s.validBits + 8 < (bufType_bit_count sz : Int) - 8
        · rw [if_pos hcont]
          obtain ⟨a, b, c⟩ := ih { s with
            readCache := s.readCache ||| w
            position := s.position + 1
            validBits := s.validBits + 8 } (by simp only; omega) (by simp only; omega)
            (by simp only; omega)
          by_cases hst2 : stopped { s with
            readCache := s.readCache ||| w
            position := s.position + 1
            validBits := s.validBits + 8 }
          · refine ⟨false, _, b hst2 (by simp only; omega), by simp only; omega,
              by simp only; omega, by simp only; omega, fun h => absurd h (by simp),
              fun _ => hst2⟩
          · obtain ⟨fin, s', e1, e2, e3, e4, e5, e6⟩ := c hst2
            simp only at e2 e4
            exact ⟨fin, s', e1, by omega, e3, by omega, e5, e6⟩
        · rw [if_neg hcont]
          exact ⟨true, _, rfl, by simp only; omega, by simp only; omega, by simp only; omega,
            fun _ => by simp only; omega, fun h => absurd h (by simp)⟩

theorem OptimizedRead_false (sz : Nat) (s : DecoderStrategy)
    (h : ¬ (s.position : Int) < s.nextFFPosition - ((sz : Int) - 1)) :
    OptimizedRead sz s = .ok (false, s) := by
  unfold OptimizedRead
  rw [if_neg h]

theorem OptimizedRead_true (sz : Nat) (s : DecoderStrategy)
    (h : (s.position : Int) < s.nextFFPosition - ((sz : Int) - 1))
    (hv0 : 0 ≤ s.validBits) (hv : s.validBits < (bufType_bit_count sz : Int)) :
    OptimizedRead sz s = .ok (true, { s with
      readCache := s.readCache ||| (FromBigEndianRead sz s s.position >>> s.validBits.toNat)
      position := s.position + (((bufType_bit_count sz : Int) - s.validBits) / 8).toNat
      validBits := s.validBits + ((bufType_bit_count sz : Int) - s.validBits) / 8 * 8 }) := by
  unfold OptimizedRead
  rw [if_pos h]
  have h1 : shiftRight sz (FromBigEndianRead sz s s.position) s.validBits =
      .ok (FromBigEndianRead sz s s.position >>> s.validBits.toNat) := by
    unfold shiftRight
    rw [if_pos ⟨hv0, hv⟩]
  rw [h1]
  simp only [sizeT_of_le sz _ (show 0 ≤ (bufType_bit_count sz : Int) - s.validBits by omega)
    (by omega)]

theorem MakeValidLoop_stops (sz : Nat) (fuel : Nat) (s : DecoderStrategy) (h : stopped s) :
    MakeValidLoop sz (fuel + 1) s =
      if s.validBits ≤ 0 then .error .InvalidCompressedData else .ok (false, s) := by
  rw [MakeValidLoop]
  by_cases hp : s.position ≥ s.endPosition
  · rw [if_pos hp]
  · rw [if_neg hp]
    have := h.resolve_left hp
    simp only [this, and_self, if_true]

theorem not_stopped_of_fast (sz : Nat) (s : DecoderStrategy) (hsz : 1 ≤ sz)
    (hraw : s.byteStream = none) (hend : s.endPosition = s.rawData.length)
    (hnff_le : s.nextFFPosition ≤ s.endPosition)
    (hnff : ∀ i : Nat, s.position ≤ i → (i : Int) < s.nextFFPosition →
      s.rawData.getD i 0 ≠ 0xFF)
    (hfast : (s.position : Int) < s.nextFFPosition - ((sz : Int) - 1)) : ¬ stopped s := by
  rw [stopped_raw s hraw hend]
  intro h
  rcases h with h | h
  · omega
  · exact hnff s.position (le_refl _) (by omega) h.2.1

/-- C12: for every reader state on a raw byte range with `0 ≤ validBits ≤ W - 8` (`W` the
width of the cache; `_nextFFPosition` as the reader maintains it: at most `_endPosition`, with
no `0xFF` from `_position` up to it), `MakeValid` raises `InvalidCompressedData` if and only if
`validBits = 0` and no byte can be loaded, that is `_position` is at or past the end of the
input or at a `0xFF` that is the last byte or is followed by a byte with bit 7 set.  In every
other case, in particular when at least one bit is valid, it returns normally.  When it
raises, nothing has been assigned: `OptimizedRead` returned false leaving the state as it
was, `AddBytesFromStream` did nothing, and the exception is thrown by a test of the first
iteration of the loop, before that iteration changes cache, `validBits` or position. -/
theorem C12_makeValid_raises (sz : Nat) (s : DecoderStrategy)
    (hraw : s.byteStream = none) (hend : s.endPosition = s.rawData.length)
    (hv0 : 0 ≤ s.validBits) (hv : s.validBits ≤ (bufType_bit_count sz : Int) - 8)
    (hnff_le : s.nextFFPosition ≤ s.endPosition)
    (hnff : ∀ i : Nat, s.position ≤ i → (i : Int) < s.nextFFPosition →
      s.rawData.getD i 0 ≠ 0xFF) :
    (MakeValid sz s = .error .InvalidCompressedData ↔
      (s.validBits = 0 ∧
        (s.position ≥ s.rawData.length ∨ markerAt s.rawData s.position))) ∧
    (¬ (s.validBits = 0 ∧ (s.position ≥ s.rawData.length ∨ markerAt s.rawData s.position)) →
      ∃ s', MakeValid sz s = .ok s') ∧
    (1 ≤ s.validBits → ∃ s', MakeValid sz s = .ok s') ∧
    (MakeValid sz s = .error .InvalidCompressedData →
      OptimizedRead sz s = .ok (false, s) ∧ AddBytesFromStream s = s ∧
      MakeValidLoop sz 1 s = .error .InvalidCompressedData) := by
  have hsz : 1 ≤ sz := by
    unfold bufType_bit_count at hv
    omega
  have hA := AddBytesFromStream_raw s hraw
  have key : (s.validBits = 0 ∧ stopped s →
        MakeValid sz s = .error .InvalidCompressedData ∧ OptimizedRead sz s = .ok (false, s) ∧
        MakeValidLoop sz 1 s = .error .InvalidCompressedData) ∧
      (¬ (s.validBits = 0 ∧ stopped s) → ∃ s', MakeValid sz s = .ok s') := by
    by_cases hfast : (s.position : Int) < s.nextFFPosition - ((sz : Int) - 1)
    · have hns := not_stopped_of_fast sz s hsz hraw hend hnff_le hnff hfast
      refine ⟨fun h => absurd h.2 hns, fun _ => ?_⟩
      have hOR := OptimizedRead_true sz s hfast hv0 (by omega)
      unfold MakeValid
      rw [hOR]
      exact ⟨_, rfl⟩
    · have hOR := OptimizedRead_false sz s hfast
      obtain ⟨f1, f2, f3⟩ := MakeValidLoop_flow sz (s.endPosition - s.position + 1) s
        (by omega) hv0 hv
      constructor
      · intro ⟨h0, hst⟩
        refine ⟨?_, hOR, ?_⟩
        · unfold MakeValid
          rw [hOR]
          simp only [hA]
          rw [f1 hst (by omega)]
        · rw [MakeValidLoop_stops sz 0 s hst, if_pos (by omega)]
      · intro hn
        unfold MakeValid
        rw [hOR]
        simp only [hA]
        by_cases hst : stopped s
        · rw [f2 hst (by
            by_contra h0
            exact hn ⟨by omega, hst⟩)]
          exact ⟨_, rfl⟩
        · obtain ⟨fin, s', e, _⟩ := f3 hst
          rw [e]
          cases fin
          · exact ⟨_, rfl⟩
          · exact ⟨_, rfl⟩
  rw [← stopped_raw s hraw hend]
  refine ⟨⟨fun h => ?_, fun h => (key.1 h).1⟩, key.2, fun h1 => key.2 (fun h => by omega), fun h => ?_⟩
  · by_contra hn
    obtain ⟨s', hs'⟩ := key.2 hn
    rw [hs'] at h
    simp at h
  · have hc : s.validBits = 0 ∧ stopped s := by
      by_contra hn
      obtain ⟨s', hs'⟩ := key.2 hn
      rw [hs'] at h
      simp at h
    exact ⟨(key.1 hc).2.1, hA, (key.1 hc).2.2⟩

theorem C12_makeValid_raises_witness :
    ∃ s, Init 4 fresh (rawInput [0x01, 0xFF, 0xD9]) = .ok s ∧
      ∃ x s1, ReadValue 4 s 8 = .ok (x, s1) ∧ s1.validBits = 0 ∧ s1.position = 1 ∧
        MakeValid 4 s1 = .error .InvalidCompressedData := by
  obtain ⟨s, hs⟩ : ∃ s, Init 4 fresh (rawInput [0x01, 0xFF, 0xD9]) = .ok s := ⟨_, rfl⟩
  obtain ⟨x, s1, h1, h2, h3, h4, h5, h6, h7, h8⟩ : ∃ x s1, ReadValue 4 s 8 = .ok (x, s1) ∧
      s1.validBits = 0 ∧ s1.position = 1 ∧ s1.byteStream = none ∧ s1.endPosition = 3 ∧
      s1.rawData = [0x01, 0xFF, 0xD9] ∧ s1.nextFFPosition = 1 ∧
      bufType_bit_count 4 = 32 := by
    have h0 := hs
    rw [show Init 4 fresh (rawInput [0x01, 0xFF, 0xD9]) = .ok _ from rfl] at h0
    simp only [Except.ok.injEq] at h0
    subst h0
    exact ⟨_, _, rfl, rfl, rfl, rfl, rfl, rfl, rfl, rfl⟩
  have h := C12_makeValid_raises 4 s1 h4 (by rw [h5, h6]; rfl) (by omega) (by rw [h2, h8]; norm_num)
    (by rw [h7, h5]; norm_num) (by
      intro i hi1 hi2
      rw [h3] at hi1
      rw [h7] at hi2
      omega)
  refine ⟨s, hs, x, s1, h1, h2, h3, h.1.mpr ⟨h2, Or.inr ?_⟩⟩
  rw [h3, h6]
  exact ⟨by decide, by decide, Or.inr (by decide)⟩

theorem MakeValid_at_stop (sz : Nat) (s : DecoderStrategy) (hraw : s.byteStream = none)
    (hst : stopped s) (hslow : ¬ (s.position : Int) < s.nextFFPosition - ((sz : Int) - 1))
    (hv : 0 < s.validBits) : MakeValid sz s = .ok s := by
  unfold MakeValid
  rw [OptimizedRead_false sz s hslow]
  simp only [AddBytesFromStream_raw s hraw]
  rw [MakeValidLoop_stops sz _ s hst, if_neg (by omega)]

/-- C13: refill stops at a marker and retests it (64-bit cache).  In every reachable reader
state on a raw byte range in which `_position` is at a `0xFF` that is the last byte or is
followed by a byte with bit 7 set, and `validBits > 0`, `MakeValid` returns normally and leaves
the reader as it was (cache, `validBits`, position and all), and so does a further call of
`MakeValid`. -/
theorem C13_refill_stops_at_marker (info : ByteStreamInfo) (n : Nat) (s : DecoderStrategy)
    (hraw : RawInput info) (hreach : Reach info n s)
    (hm : markerAt s.rawData s.position) (hv : 0 < s.validBits) :
    ∃ s1, MakeValid 8 s = .ok s1 ∧ s1 = s ∧ s1.readCache = s.readCache ∧
      s1.validBits = s.validBits ∧ s1.position = s.position ∧
      ∃ s2, MakeValid 8 s1 = .ok s2 ∧ s2.readCache = s.readCache ∧
        s2.validBits = s.validBits ∧ s2.position = s.position := by
  have ht := Reach_tracks info hraw n s hreach
  have hst : stopped s := (stopped_raw s ht.inv.core.raw ht.inv.core.endp).mpr (Or.inr hm)
  have hslow : ¬ (s.position : Int) < s.nextFFPosition - (((8 : Nat) : Int) - 1) := by
    have := stopped_not_fast s ht.inv hst
    norm_num
    omega
  have h := MakeValid_at_stop 8 s ht.inv.core.raw hst hslow hv
  exact ⟨s, h, rfl, rfl, rfl, rfl, s, h, rfl, rfl, rfl⟩

theorem C13_refill_stops_at_marker_witness :
    ∃ s, Reach (rawInput [0x5A, 0xFF, 0xD9]) 0 s ∧ s.position = 1 ∧ s.validBits = 8 ∧
      ∃ s1, MakeValid 8 s = .ok s1 ∧ s1 = s ∧ s1.readCache = s.readCache ∧
        s1.validBits = s.validBits ∧ s1.position = s.position ∧
        ∃ s2, MakeValid 8 s1 = .ok s2 ∧ s2.readCache = s.readCache ∧
          s2.validBits = s.validBits ∧ s2.position = s.position := by
  obtain ⟨s, hs, hp, hv, hd⟩ : ∃ s, Init 8 fresh (rawInput [0x5A, 0xFF, 0xD9]) = .ok s ∧
      s.position = 1 ∧ s.validBits = 8 ∧ s.rawData = [0x5A, 0xFF, 0xD9] :=
    ⟨_, rfl, rfl, rfl, rfl⟩
  have hr := Reach.init fresh s hs
  exact ⟨s, hr, hp, hv, C13_refill_stops_at_marker (rawInput [0x5A, 0xFF, 0xD9]) 0 s
    ⟨rfl, by decide⟩ hr (by
      rw [hp, hd]
      exact ⟨by decide, by decide, Or.inr (by decide)⟩) (by omega)⟩

theorem destuffed_eq_nil (data : List Nat) :
    destuffed data = [] ↔ (data = [] ∨ data = [0xFF] ∨
      ∃ c rest, data = 0xFF :: c :: rest ∧ c &&& 0x80 ≠ 0) := by
  have hne : ∀ b : Nat, topBits 8 b 8 ≠ [] := by
    intro b h
    have := congrArg List.length h
    simp [topBits_length] at this
  match data with
  | [] => simp [destuffed]
  | [b] =>
    by_cases hb : b = 0xFF
    · simp [destuffed, hb]
    · simp [destuffed, hb, hne]
  | b :: c :: rest =>
    by_cases hb : b = 0xFF
    · by_cases hc : c &&& 0x80 ≠ 0
      · have hc' : ¬ c &&& 128 = 0 := hc
        simp [destuffed, hb, hc']
      · have hc' : c &&& 128 = 0 := by simpa using hc
        simp [destuffed, hb, hc', hne]
    · simp [destuffed, hb, hne]

/-- C14: `Init` on a raw byte range (64-bit cache) raises `InvalidCompressedData` when the
range is empty, when it consists of a single `0xFF`, or when it begins with a `0xFF` followed
by a byte with bit 7 set; for every other range `Init` returns normally with
`validBits ≥ 1`, and the top `validBits` bits of the cache are the first `validBits` bits of
the de-stuffed input. -/
theorem C14_init (s0 : DecoderStrategy) (info : ByteStreamInfo) (hraw : RawInput info) :
    ((info.rawData = [] ∨ info.rawData = [0xFF] ∨
        ∃ c rest, info.rawData = 0xFF :: c :: rest ∧ c &&& 0x80 ≠ 0) →
      Init 8 s0 info = .error .InvalidCompressedData) ∧
    (¬ (info.rawData = [] ∨ info.rawData = [0xFF] ∨
        ∃ c rest, info.rawData = 0xFF :: c :: rest ∧ c &&& 0x80 ≠ 0) →
      ∃ s, Init 8 s0 info = .ok s ∧ 1 ≤ s.validBits ∧ s.validBits ≤ 64 ∧
        topBits 64 s.readCache s.validBits.toNat =
          (destuffed info.rawData).take s.validBits.toNat) := by
  rw [← destuffed_eq_nil]
  have hinv := Inv_findNextFF _ (initState_core s0 info hraw.2)
  have hrem : remaining { initState s0 info with
      nextFFPosition := (FindNextFF (initState s0 info) : Nat) } = destuffed info.rawData := by
    rw [← upcomingBits_eq_destuffed _ hraw.2]
    simp [remaining, upcoming, prevFF, topBits, initState]
  obtain ⟨h1, h2⟩ := MakeValid_spec _ hinv (by norm_num [initState])
  rw [hrem] at h1 h2
  rw [Init_raw s0 info hraw.1]
  refine ⟨h1, fun hne => ?_⟩
  obtain ⟨s, a, b, c⟩ := h2 hne
  refine ⟨s, a, b.pos, c.core.vhi, ?_⟩
  have hr : remaining s = destuffed info.rawData := b.rem.trans hrem
  rw [← hr]
  unfold remaining
  rw [List.take_left' (topBits_length _ _ _)]

theorem C14_init_witness :
    (Init 8 fresh (rawInput [0xFF, 0x80, 0x12]) = .error .InvalidCompressedData) ∧
    (∃ s, Init 8 fresh (rawInput [0xFF, 0x7F, 0x12]) = .ok s ∧ 1 ≤ s.validBits ∧
      s.validBits ≤ 64 ∧
      topBits 64 s.readCache s.validBits.toNat =
        (destuffed (rawInput [0xFF, 0x7F, 0x12]).rawData).take s.validBits.toNat) :=
  ⟨(C14_init fresh (rawInput [0xFF, 0x80, 0x12]) ⟨rfl, by decide⟩).1
      (Or.inr (Or.inr ⟨0x80, [0x12], rfl, by decide⟩)),
    (C14_init fresh (rawInput [0xFF, 0x7F, 0x12]) ⟨rfl, by decide⟩).2 (by
      intro h
      rcases h with h | h | ⟨c, rest, h, hc⟩
      · exact absurd h (by decide)
      · exact absurd h (by decide)
      · have h' : [0xFF, 0x7F, 0x12] = 0xFF :: c :: rest := h
        simp only [List.cons.injEq] at h'
        obtain ⟨_, h2, _⟩ := h'
        subst h2
        exact hc (by decide))⟩

theorem range_map_getD_eq (l : List Nat) (p n : Nat) (h : p + n ≤ l.length) :
    (List.range n).map (fun i => l.getD (p + i) 0) = (l.drop p).take n := by
  apply List.ext_getElem
  · simp
    omega
  · intro i h1 h2
    simp only [List.length_map, List.length_range] at h1
    have hpi : p + i < l.length := by omega
    simp [List.getElem?_eq_getElem hpi]

theorem byteAt_stream (s : DecoderStrategy) (st : List Nat) (hs : s.byteStream = some st)
    (p : Nat) (hp : p < s.buffer.length) : byteAt s (p : Int) = s.buffer.getD p 0 := by
  unfold byteAt memory
  rw [hs]
  simp only [Int.toNat_ofNat]
  rw [if_pos]
  exact ⟨Int.ofNat_nonneg p, by exact_mod_cast hp⟩

/-- C15: stream refill preserves unread data.  When `AddBytesFromStream` is called with a
stream that is not at its end and fewer than 64 unread bytes lie between `_position` and
`_endPosition` (both inside `_buffer`), the unread bytes are moved, in order and unchanged, to
the front of the buffer; `_position` becomes the buffer start; `_endPosition` and
`_nextFFPosition` are shifted by the same offset as `_position`; and the `readbytes` bytes
newly obtained from the stream (at most the buffer size minus the preserved count) are put
directly after the preserved bytes, `_endPosition` advancing over them.  The size of the
buffer, the cache and `validBits` do not change. -/
theorem C15_addBytesFromStream (s : DecoderStrategy) (c : Nat) (cs : List Nat)
    (hs : s.byteStream = some (c :: cs)) (hpe : s.position ≤ s.endPosition)
    (hcount : s.endPosition - s.position < 64) (hbuf : s.endPosition ≤ s.buffer.length) :
    ∃ readbytes, readbytes ≤ s.buffer.length - (s.endPosition - s.position) ∧
      readbytes ≤ (c :: cs).length ∧
      (AddBytesFromStream s).buffer.take (s.endPosition - s.position) =
        (s.buffer.drop s.position).take (s.endPosition - s.position) ∧
      (AddBytesFromStream s).position = 0 ∧
      (AddBytesFromStream s).endPosition = (s.endPosition - s.position) + readbytes ∧
      (AddBytesFromStream s).nextFFPosition = s.nextFFPosition - s.position ∧
      ((AddBytesFromStream s).buffer.drop (s.endPosition - s.position)).take readbytes =
        (c :: cs).take readbytes ∧
      (AddBytesFromStream s).byteStream = some ((c :: cs).drop readbytes) ∧
      (AddBytesFromStream s).buffer.length = s.buffer.length ∧
      (AddBytesFromStream s).readCache = s.readCache ∧
      (AddBytesFromStream s).validBits = s.validBits := by
  have hcnt : ¬ ((s.endPosition : Int) - s.position < 0 ∨ (s.endPosition : Int) - s.position > 64) := by
    omega
  have hn : ((s.endPosition : Int) - s.position).toNat = s.endPosition - s.position := by omega
  have hkept : (List.range (s.endPosition - s.position)).map
      (fun i => byteAt s ((s.position + i : Nat) : Int)) =
      (s.buffer.drop s.position).take (s.endPosition - s.position) := by
    rw [← range_map_getD_eq s.buffer s.position _ (by omega)]
    apply range_map_congr
    intro i hi
    exact byteAt_stream s _ hs _ (by omega)
  have hA : AddBytesFromStream s = { s with
      buffer := (s.buffer.drop s.position).take (s.endPosition - s.position) ++
        (c :: cs).take (min (s.buffer.length - (s.endPosition - s.position)) (c :: cs).length) ++
        s.buffer.drop ((s.endPosition - s.position) +
          min (s.buffer.length - (s.endPosition - s.position)) (c :: cs).length)
      byteStream := some ((c :: cs).drop
        (min (s.buffer.length - (s.endPosition - s.position)) (c :: cs).length))
      position := 0
      endPosition := (s.endPosition - s.position) +
        min (s.buffer.length - (s.endPosition - s.position)) (c :: cs).length
      nextFFPosition := s.nextFFPosition - s.position } := by
    unfold AddBytesFromStream
    rw [hs]
    simp only [if_neg hcnt, hn, hkept]
  have hlen1 : ((s.buffer.drop s.position).take (s.endPosition - s.position)).length =
      s.endPosition - s.position := by
    rw [List.length_take, List.length_drop]
    omega
  have hlen2 : ((c :: cs).take
      (min (s.buffer.length - (s.endPosition - s.position)) (c :: cs).length)).length =
      min (s.buffer.length - (s.endPosition - s.position)) (c :: cs).length := by
    rw [List.length_take]
    omega
  rw [hA]
  refine ⟨min (s.buffer.length - (s.endPosition - s.position)) (c :: cs).length,
    Nat.min_le_left _ _, Nat.min_le_right _ _, ?_, rfl, rfl, rfl, ?_, rfl, ?_, rfl, rfl⟩
  · simp only
    rw [List.append_assoc, List.take_left' hlen1]
  · simp only
    rw [List.append_assoc, List.drop_left' hlen1, List.take_left' hlen2]
  · simp only
    rw [List.length_append, List.length_append, hlen1, hlen2, List.length_drop]
    omega

theorem C15_addBytesFromStream_witness :
    ∃ readbytes, readbytes ≤ 6 - (5 - 3) ∧ readbytes ≤ [7, 8, 9, 10, 11, 12].length ∧
      (AddBytesFromStream { fresh with
        buffer := [1, 2, 3, 4, 5, 6]
        byteStream := some [7, 8, 9, 10, 11, 12]
        position := 3
        nextFFPosition := 4
        endPosition := 5 }).buffer = [4, 5, 7, 8, 9, 10] := by
  obtain ⟨r, h1, h2, h3, h4, h5, h6, h7, h8, h9, _⟩ := C15_addBytesFromStream { fresh with
        buffer := [1, 2, 3, 4, 5, 6]
        byteStream := some [7, 8, 9, 10, 11, 12]
        position := 3
        nextFFPosition := 4
        endPosition := 5 } 7 [8, 9, 10, 11, 12] rfl (by decide) (by decide) (by decide)
  exact ⟨r, h1, h2, rfl⟩

theorem byteAt_setBuffer (b : List Nat) (s : DecoderStrategy) (h : s.byteStream = none)
    (p : Int) : byteAt (setBuffer b s) p = byteAt s p := by
  unfold byteAt memory setBuffer
  simp only [h]

theorem FromBigEndianRead_setBuffer (sz : Nat) (b : List Nat) (s : DecoderStrategy)
    (h : s.byteStream = none) (p : Nat) :
    FromBigEndianRead sz (setBuffer b s) p = FromBigEndianRead sz s p := by
  unfold FromBigEndianRead
  simp only [byteAt_setBuffer b s h]

theorem FindNextFFLoop_setBuffer (b : List Nat) (s : DecoderStrategy) (h : s.byteStream = none)
    (fuel : Nat) : ∀ p, FindNextFFLoop (setBuffer b s) fuel p = FindNextFFLoop s fuel p := by
  induction fuel with
  | zero => intro p; rfl
  | succ fuel ih =>
    intro p
    rw [FindNextFFLoop, FindNextFFLoop, byteAt_setBuffer b s h, ih]
    rfl

theorem FindNextFF_setBuffer (b : List Nat) (s : DecoderStrategy) (h : s.byteStream = none) :
    FindNextFF (setBuffer b s) = FindNextFF s := by
  unfold FindNextFF
  exact FindNextFFLoop_setBuffer b s h _ _

theorem Skip_setBuffer (sz : Nat) (b : List Nat) (s : DecoderStrategy) (k : Int) :
    Skip sz (setBuffer b s) k = (Skip sz s k).map (setBuffer b) := by
  unfold Skip setBuffer
  cases shiftLeft sz s.readCache k <;> rfl

theorem Skip_byteStream (sz : Nat) (s s' : DecoderStrategy) (k : Int)
    (h : Skip sz s k = .ok s') : s'.byteStream = s.byteStream := by
  unfold Skip at h
  cases hc : shiftLeft sz s.readCache k with
  | error e => rw [hc] at h; simp at h
  | ok c =>
    rw [hc] at h
    simp only [Except.ok.injEq] at h
    rw [← h]

theorem OptimizedRead_setBuffer (sz : Nat) (b : List Nat) (s : DecoderStrategy)
    (h : s.byteStream = none) :
    OptimizedRead sz (setBuffer b s) = resBuffer b (OptimizedRead sz s) := by
  unfold OptimizedRead
  rw [FromBigEndianRead_setBuffer sz b s h]
  show (if (s.position : Int) < s.nextFFPosition - ((sz : Int) - 1) then _ else _) = _
  by_cases hf : (s.position : Int) < s.nextFFPosition - ((sz : Int) - 1)
  · rw [if_pos hf, if_pos hf]
    show (match shiftRight sz (FromBigEndianRead sz s s.position) s.validBits with
      | .error e => _ | .ok w => _) = _
    cases shiftRight sz (FromBigEndianRead sz s s.position) s.validBits <;> rfl
  · rw [if_neg hf, if_neg hf]
    rfl

theorem OptimizedRead_byteStream (sz : Nat) (s s' : DecoderStrategy) (r : Bool)
    (h : OptimizedRead sz s = .ok (r, s')) : s'.byteStream = s.byteStream := by
  unfold OptimizedRead at h
  by_cases hf : (s.position : Int) < s.nextFFPosition - ((sz : Int) - 1)
  · rw [if_pos hf] at h
    cases hc : shiftRight sz (FromBigEndianRead sz s s.position) s.validBits with
    | error e => rw [hc] at h; simp at h
    | ok w =>
      rw [hc] at h
      simp only [Except.ok.injEq, Prod.mk.injEq] at h
      rw [← h.2]
  · rw [if_neg hf] at h
    simp only [Except.ok.injEq, Prod.mk.injEq] at h
    rw [← h.2]

theorem MakeValidLoop_setBuffer (sz : Nat) (b : List Nat) (fuel : Nat) :
    ∀ s : DecoderStrategy, s.byteStream = none →
    MakeValidLoop sz fuel (setBuffer b s) = resBuffer b (MakeValidLoop sz fuel s) := by
  induction fuel with
  | zero => intro s _; rfl
  | succ fuel ih =>
    intro s h
    rw [MakeValidLoop, MakeValidLoop]
    simp only [byteAt_setBuffer b s h]
    simp only [setBuffer]
    by_cases h1 : s.position ≥ s.endPosition
    · simp only [if_pos h1]
      by_cases h2 : s.validBits ≤ 0
      · simp only [if_pos h2]; rfl
      · simp only [if_neg h2]; rfl
    · simp only [if_neg h1]
      by_cases h3 : byteAt s s.position = JpegMarkerCode_Start ∧
          ((s.position : Int) = (s.endPosition : Int) - 1 ∨
            (byteAt s ((s.position : Int) + 1)) &&& 0x80 ≠ 0)
      · simp only [if_pos h3]
        by_cases h2 : s.validBits ≤ 0
        · simp only [if_pos h2]; rfl
        · simp only [if_neg h2]; rfl
      · simp only [if_neg h3]
        cases shiftLeft sz (byteAt s s.position)
            (sizeT sz ((bufType_bit_count sz : Int) - 8 - s.validBits)) with
        | error e => rfl
        | ok w =>
          simp only
          by_cases h4 : byteAt s s.position = JpegMarkerCode_Start
          · simp only [h4, if_true]
            by_cases h5 : sizeT sz (s.validBits + 8 - 1) < (bufType_bit_count sz : Int) - 8
            · simp only [if_pos h5]
              exact ih { s with
                readCache := s.readCache ||| w
                position := s.position + 1
                validBits := s.validBits + 8 - 1 } h
            · simp only [if_neg h5]
              rfl
          · simp only [h4, if_false]
            by_cases h5 : sizeT sz (s.validBits + 8) < (bufType_bit_count sz : Int) - 8
            · simp only [if_pos h5]
              exact ih { s with
                readCache := s.readCache ||| w
                position := s.position + 1
                validBits := s.validBits + 8 } h
            · simp only [if_neg h5]
              rfl

theorem MakeValidLoop_byteStream (sz : Nat) (fuel : Nat) :
    ∀ (s s' : DecoderStrategy) (r : Bool), MakeValidLoop sz fuel s = .ok (r, s') →
    s'.byteStream = s.byteStream := by
  induction fuel with
  | zero => intro s s' r h; simp [MakeValidLoop] at h
  | succ fuel ih =>
    intro s s' r h
    rw [MakeValidLoop] at h
    by_cases h1 : s.position ≥ s.endPosition
    · simp only [if_pos h1] at h
      by_cases h2 : s.validBits ≤ 0
      · simp [if_pos h2] at h
      · simp only [if_neg h2, Except.ok.injEq, Prod.mk.injEq] at h
        rw [← h.2]
    · simp only [if_neg h1] at h
      by_cases h3 : byteAt s s.position = JpegMarkerCode_Start ∧
          ((s.position : Int) = (s.endPosition : Int) - 1 ∨
            (byteAt s ((s.position : Int) + 1)) &&& 0x80 ≠ 0)
      · simp only [if_pos h3] at h
        by_cases h2 : s.validBits ≤ 0
        · simp [if_pos h2] at h
        · simp only [if_neg h2, Except.ok.injEq, Prod.mk.injEq] at h
          rw [← h.2]
      · simp only [if_neg h3] at h
        cases hc : shiftLeft sz (byteAt s s.position)
            (sizeT sz ((bufType_bit_count sz : Int) - 8 - s.validBits)) with
        | error e => rw [hc] at h; simp at h
        | ok w =>
          rw [hc] at h
          simp only at h
          by_cases h4 : byteAt s s.position = JpegMarkerCode_Start
          · simp only [h4, if_true] at h
            by_cases h5 : sizeT sz (s.validBits + 8 - 1) < (bufType_bit_count sz : Int) - 8
            · simp only [if_pos h5] at h
              have := ih _ s' r h
              exact this
            · simp only [if_neg h5, Except.ok.injEq, Prod.mk.injEq] at h
              rw [← h.2]
          · simp only [h4, if_false] at h
            by_cases h5 : sizeT sz (s.validBits + 8) < (bufType_bit_count sz : Int) - 8
            · simp only [if_pos h5] at h
              have := ih _ s' r h
              exact this
            · simp only [if_neg h5, Except.ok.injEq, Prod.mk.injEq] at h
              rw [← h.2]

theorem AddBytesFromStream_setBuffer (b : List Nat) (s : DecoderStrategy)
    (h : s.byteStream = none) : AddBytesFromStream (setBuffer b s) = setBuffer b s :=
  AddBytesFromStream_raw _ h

theorem MakeValid_setBuffer (sz : Nat) (b : List Nat) (s : DecoderStrategy)
    (h : s.byteStream = none) :
    MakeValid sz (setBuffer b s) = (MakeValid sz s).map (setBuffer b) := by
  unfold MakeValid
  rw [OptimizedRead_setBuffer sz b s h]
  cases hO : OptimizedRead sz s with
  | error e => rfl
  | ok p =>
    obtain ⟨r, s1⟩ := p
    have h1 : s1.byteStream = none := (OptimizedRead_byteStream sz s s1 r hO).trans h
    cases r with
    | true => rfl
    | false =>
      simp only [resBuffer, AddBytesFromStream_setBuffer b s1 h1, AddBytesFromStream_raw s1 h1]
      have hL := MakeValidLoop_setBuffer sz b (s1.endPosition - s1.position + 1) s1 h1
      have e : (setBuffer b s1).endPosition - (setBuffer b s1).position + 1 =
          s1.endPosition - s1.position + 1 := rfl
      rw [e, hL]
      cases hM : MakeValidLoop sz (s1.endPosition - s1.position + 1) s1 with
      | error e => rfl
      | ok q =>
        obtain ⟨r2, s3⟩ := q
        have h3 : s3.byteStream = none := (MakeValidLoop_byteStream sz _ s1 s3 r2 hM).trans h1
        cases r2 with
        | false => rfl
        | true =>
          simp only [resBuffer, FindNextFF_setBuffer b s3 h3]
          rfl

theorem MakeValid_byteStream (sz : Nat) (s s' : DecoderStrategy) (h : s.byteStream = none)
    (hok : MakeValid sz s = .ok s') : s'.byteStream = none := by
  unfold MakeValid at hok
  cases hO : OptimizedRead sz s with
  | error e => rw [hO] at hok; simp at hok
  | ok p =>
    obtain ⟨r, s1⟩ := p
    have h1 : s1.byteStream = none := (OptimizedRead_byteStream sz s s1 r hO).trans h
    rw [hO] at hok
    cases r with
    | true =>
      simp only [Except.ok.injEq] at hok
      rw [← hok]; exact h1
    | false =>
      simp only [AddBytesFromStream_raw s1 h1] at hok
      cases hM : MakeValidLoop sz (s1.endPosition - s1.position + 1) s1 with
      | error e => rw [hM] at hok; simp at hok
      | ok q =>
        obtain ⟨r2, s3⟩ := q
        have h3 : s3.byteStream = none := (MakeValidLoop_byteStream sz _ s1 s3 r2 hM).trans h1
        rw [hM] at hok
        cases r2 with
        | false =>
          simp only [Except.ok.injEq] at hok
          rw [← hok]; exact h3
        | true =>
          simp only [Except.ok.injEq] at hok
          rw [← hok]; exact h3

theorem ReadValue_setBuffer (sz : Nat) (b : List Nat) (s : DecoderStrategy)
    (h : s.byteStream = none) (length : Int) :
    ReadValue sz (setBuffer b s) length = resBuffer b (ReadValue sz s length) ∧
    ∀ x s', ReadValue sz s length = .ok (x, s') → s'.byteStream = none := by
  have tail : ∀ s1 : DecoderStrategy, s1.byteStream = none →
      (match shiftRight sz (setBuffer b s1).readCache
          (sizeT sz ((bufType_bit_count sz : Int) - length)) with
        | .error e => (.error e : Except Fault (Int × DecoderStrategy))
        | .ok result =>
          match Skip sz (setBuffer b s1) length with
          | .error e => .error e
          | .ok s2 => .ok (toInt32 result, s2)) =
      resBuffer b (match shiftRight sz s1.readCache
          (sizeT sz ((bufType_bit_count sz : Int) - length)) with
        | .error e => (.error e : Except Fault (Int × DecoderStrategy))
        | .ok result =>
          match Skip sz s1 length with
          | .error e => .error e
          | .ok s2 => .ok (toInt32 result, s2)) ∧
      ∀ x s', (match shiftRight sz s1.readCache
          (sizeT sz ((bufType_bit_count sz : Int) - length)) with
        | .error e => (.error e : Except Fault (Int × DecoderStrategy))
        | .ok result =>
          match Skip sz s1 length with
          | .error e => .error e
          | .ok s2 => .ok (toInt32 result, s2)) = .ok (x, s') → s'.byteStream = none := by
    intro s1 h1
    have e : (setBuffer b s1).readCache = s1.readCache := rfl
    rw [e, Skip_setBuffer]
    cases shiftRight sz s1.readCache (sizeT sz ((bufType_bit_count sz : Int) - length)) with
    | error e => exact ⟨rfl, fun x s' hh => by simp at hh⟩
    | ok result =>
      cases hS : Skip sz s1 length with
      | error e => exact ⟨rfl, fun x s' hh => by simp at hh⟩
      | ok s2 =>
        refine ⟨rfl, fun x s' hh => ?_⟩
        simp only [Except.ok.injEq, Prod.mk.injEq] at hh
        rw [← hh.2, Skip_byteStream sz s1 s2 length hS]
        exact h1
  unfold ReadValue
  have ev : (setBuffer b s).validBits = s.validBits := rfl
  rw [ev]
  by_cases hv : s.validBits < length
  · simp only [if_pos hv]
    rw [MakeValid_setBuffer sz b s h]
    cases hM : MakeValid sz s with
    | error e => exact ⟨rfl, fun x s' hh => by simp at hh⟩
    | ok s1 =>
      have h1 := MakeValid_byteStream sz s s1 h hM
      simp only [Except.map]
      have ev1 : (setBuffer b s1).validBits = s1.validBits := rfl
      rw [ev1]
      by_cases hv1 : s1.validBits < length
      · simp only [if_pos hv1]
        exact ⟨rfl, fun x s' hh => by simp at hh⟩
      · simp only [if_neg hv1]
        exact tail s1 h1
  · simp only [if_neg hv]
    exact tail s h

theorem PeekByte_setBuffer (sz : Nat) (b : List Nat) (s : DecoderStrategy)
    (h : s.byteStream = none) :
    PeekByte sz (setBuffer b s) = resBuffer b (PeekByte sz s) ∧
    ∀ x s', PeekByte sz s = .ok (x, s') → s'.byteStream = none := by
  have tail : ∀ s1 : DecoderStrategy, s1.byteStream = none →
      (match shiftRight sz (setBuffer b s1).readCache
          (sizeT sz ((bufType_bit_count sz : Int) - 8)) with
        | .error e => (.error e : Except Fault (Int × DecoderStrategy))
        | .ok result => .ok (toInt32 result, setBuffer b s1)) =
      resBuffer b (match shiftRight sz s1.readCache
          (sizeT sz ((bufType_bit_count sz : Int) - 8)) with
        | .error e => (.error e : Except Fault (Int × DecoderStrategy))
        | .ok result => .ok (toInt32 result, s1)) ∧
      ∀ x s', (match shiftRight sz s1.readCache
          (sizeT sz ((bufType_bit_count sz : Int) - 8)) with
        | .error e => (.error e : Except Fault (Int × DecoderStrategy))
        | .ok result => .ok (toInt32 result, s1)) = .ok (x, s') → s'.byteStream = none := by
    intro s1 h1
    have e : (setBuffer b s1).readCache = s1.readCache := rfl
    rw [e]
    cases shiftRight sz s1.readCache (sizeT sz ((bufType_bit_count sz : Int) - 8)) with
    | error e => exact ⟨rfl, fun x s' hh => by simp at hh⟩
    | ok result =>
      refine ⟨rfl, fun x s' hh => ?_⟩
      simp only [Except.ok.injEq, Prod.mk.injEq] at hh
      rw [← hh.2]
      exact h1
  unfold PeekByte
  have ev : (setBuffer b s).validBits = s.validBits := rfl
  rw [ev]
  by_cases hv : s.validBits < 8
  · simp only [if_pos hv]
    rw [MakeValid_setBuffer sz b s h]
    cases hM : MakeValid sz s with
    | error e => exact ⟨rfl, fun x s' hh => by simp at hh⟩
    | ok s1 => exact tail s1 (MakeValid_byteStream sz s s1 h hM)
  · simp only [if_neg hv]
    exact tail s h

theorem ReadBit_setBuffer (sz : Nat) (b : List Nat) (s : DecoderStrategy)
    (h : s.byteStream = none) :
    ReadBit sz (setBuffer b s) = resBuffer b (ReadBit sz s) ∧
    ∀ x s', ReadBit sz s = .ok (x, s') → s'.byteStream = none := by
  have tail : ∀ s1 : DecoderStrategy, s1.byteStream = none →
      (match shiftLeft sz 1 ((bufType_bit_count sz : Int) - 1) with
        | .error e => (.error e : Except Fault (Bool × DecoderStrategy))
        | .ok mask =>
          match Skip sz (setBuffer b s1) 1 with
          | .error e => .error e
          | .ok s2 => .ok (decide ((setBuffer b s1).readCache &&& mask ≠ 0), s2)) =
      resBuffer b (match shiftLeft sz 1 ((bufType_bit_count sz : Int) - 1) with
        | .error e => (.error e : Except Fault (Bool × DecoderStrategy))
        | .ok mask =>
          match Skip sz s1 1 with
          | .error e => .error e
          | .ok s2 => .ok (decide (s1.readCache &&& mask ≠ 0), s2)) ∧
      ∀ x s', (match shiftLeft sz 1 ((bufType_bit_count sz : Int) - 1) with
        | .error e => (.error e : Except Fault (Bool × DecoderStrategy))
        | .ok mask =>
          match Skip sz s1 1 with
          | .error e => .error e
          | .ok s2 => .ok (decide (s1.readCache &&& mask ≠ 0), s2)) = .ok (x, s') →
        s'.byteStream = none := by
    intro s1 h1
    have e : (setBuffer b s1).readCache = s1.readCache := rfl
    rw [e, Skip_setBuffer]
    cases shiftLeft sz 1 ((bufType_bit_count sz : Int) - 1) with
    | error e => exact ⟨rfl, fun x s' hh => by simp at hh⟩
    | ok mask =>
      cases hS : Skip sz s1 1 with
      | error e => exact ⟨rfl, fun x s' hh => by simp at hh⟩
      | ok s2 =>
        refine ⟨rfl, fun x s' hh => ?_⟩
        simp only [Except.ok.injEq, Prod.mk.injEq] at hh
        rw [← hh.2, Skip_byteStream sz s1 s2 1 hS]
        exact h1
  unfold ReadBit
  have ev : (setBuffer b s).validBits = s.validBits := rfl
  rw [ev]
  by_cases hv : s.validBits ≤ 0
  · simp only [if_pos hv]
    rw [MakeValid_setBuffer sz b s h]
    cases hM : MakeValid sz s with
    | error e => exact ⟨rfl, fun x s' hh => by simp at hh⟩
    | ok s1 => exact tail s1 (MakeValid_byteStream sz s s1 h hM)
  · simp only [if_neg hv]
    exact tail s h

theorem Peek0Bits_setBuffer (sz : Nat) (b : List Nat) (s : DecoderStrategy)
    (h : s.byteStream = none) :
    Peek0Bits sz (setBuffer b s) = resBuffer b (Peek0Bits sz s) ∧
    ∀ x s', Peek0Bits sz s = .ok (x, s') → s'.byteStream = none := by
  unfold Peek0Bits
  have ev : (setBuffer b s).validBits = s.validBits := rfl
  rw [ev]
  by_cases hv : s.validBits < 16
  · simp only [if_pos hv]
    rw [MakeValid_setBuffer sz b s h]
    cases hM : MakeValid sz s with
    | error e => exact ⟨rfl, fun x s' hh => by simp at hh⟩
    | ok s1 =>
      refine ⟨rfl, fun x s' hh => ?_⟩
      simp only [Except.ok.injEq, Prod.mk.injEq] at hh
      rw [← hh.2]
      exact MakeValid_byteStream sz s s1 h hM
  · simp only [if_neg hv]
    refine ⟨rfl, fun x s' hh => ?_⟩
    simp only [Except.ok.injEq, Prod.mk.injEq] at hh
    rw [← hh.2]
    exact h

theorem ReadHighbitsLoop_setBuffer (sz : Nat) (b : List Nat) (fuel : Nat) :
    ∀ (s : DecoderStrategy) (highbits : Int), s.byteStream = none →
    ReadHighbitsLoop sz fuel (setBuffer b s) highbits =
      resBuffer b (ReadHighbitsLoop sz fuel s highbits) ∧
    ∀ x s', ReadHighbitsLoop sz fuel s highbits = .ok (x, s') → s'.byteStream = none := by
  induction fuel with
  | zero => intro s hb h; exact ⟨rfl, fun x s' hh => by simp [ReadHighbitsLoop] at hh⟩
  | succ fuel ih =>
    intro s hb h
    rw [ReadHighbitsLoop, ReadHighbitsLoop, (ReadBit_setBuffer sz b s h).1]
    cases hR : ReadBit sz s with
    | error e => exact ⟨rfl, fun x s' hh => by simp at hh⟩
    | ok p =>
      obtain ⟨bit, s1⟩ := p
      have h1 := (ReadBit_setBuffer sz b s h).2 bit s1 hR
      cases bit with
      | true =>
        refine ⟨rfl, fun x s' hh => ?_⟩
        simp only [Except.ok.injEq, Prod.mk.injEq] at hh
        rw [← hh.2]
        exact h1
      | false =>
        simp only [resBuffer]
        by_cases hh : hb + 1 < 2 ^ 31
        · simp only [if_pos hh]
          exact ih s1 (hb + 1) h1
        · simp only [if_neg hh]
          exact ⟨trivial, fun x s' hh => by simp at hh⟩

theorem ReadHighbits_setBuffer (sz : Nat) (b : List Nat) (fuel : Nat) (s : DecoderStrategy)
    (h : s.byteStream = none) :
    ReadHighbits sz fuel (setBuffer b s) = resBuffer b (ReadHighbits sz fuel s) ∧
    ∀ x s', ReadHighbits sz fuel s = .ok (x, s') → s'.byteStream = none := by
  unfold ReadHighbits
  rw [(Peek0Bits_setBuffer sz b s h).1]
  cases hP : Peek0Bits sz s with
  | error e => exact ⟨rfl, fun x s' hh => by simp at hh⟩
  | ok p =>
    obtain ⟨count, s1⟩ := p
    have h1 := (Peek0Bits_setBuffer sz b s h).2 count s1 hP
    simp only [resBuffer]
    by_cases hc : count ≥ 0
    · simp only [if_pos hc]
      rw [Skip_setBuffer]
      cases hS : Skip sz s1 (count + 1) with
      | error e => exact ⟨rfl, fun x s' hh => by simp at hh⟩
      | ok s2 =>
        refine ⟨rfl, fun x s' hh => ?_⟩
        simp only [Except.ok.injEq, Prod.mk.injEq] at hh
        rw [← hh.2, Skip_byteStream sz s1 s2 _ hS]
        exact h1
    · simp only [if_neg hc]
      rw [Skip_setBuffer]
      cases hS : Skip sz s1 15 with
      | error e => exact ⟨rfl, fun x s' hh => by simp at hh⟩
      | ok s2 =>
        have h2 : s2.byteStream = none := (Skip_byteStream sz s1 s2 _ hS).trans h1
        exact ReadHighbitsLoop_setBuffer sz b fuel s2 15 h2

theorem ReadLongValue_setBuffer (sz : Nat) (b : List Nat) (s : DecoderStrategy)
    (h : s.byteStream = none) (length : Int) :
    ReadLongValue sz (setBuffer b s) length = resBuffer b (ReadLongValue sz s length) ∧
    ∀ x s', ReadLongValue sz s length = .ok (x, s') → s'.byteStream = none := by
  unfold ReadLongValue
  by_cases hl : length ≤ 24
  · simp only [if_pos hl]
    exact ReadValue_setBuffer sz b s h length
  · simp only [if_neg hl]
    rw [(ReadValue_setBuffer sz b s h (length - 24)).1]
    cases hR : ReadValue sz s (length - 24) with
    | error e => exact ⟨rfl, fun x s' hh => by simp at hh⟩
    | ok p =>
      obtain ⟨hi, s1⟩ := p
      have h1 := (ReadValue_setBuffer sz b s h (length - 24)).2 hi s1 hR
      simp only [resBuffer]
      rw [(ReadValue_setBuffer sz b s1 h1 24).1]
      cases hR2 : ReadValue sz s1 24 with
      | error e => exact ⟨rfl, fun x s' hh => by simp at hh⟩
      | ok q =>
        obtain ⟨lo, s2⟩ := q
        refine ⟨rfl, fun x s' hh => ?_⟩
        simp only [Except.ok.injEq, Prod.mk.injEq] at hh
        rw [← hh.2]
        exact (ReadValue_setBuffer sz b s1 h1 24).2 lo s2 hR2

theorem EndScan_setBuffer (sz : Nat) (b : List Nat) (s : DecoderStrategy)
    (h : s.byteStream = none) :
    EndScan sz (setBuffer b s) = (EndScan sz s).map (setBuffer b) ∧
    ∀ s', EndScan sz s = .ok s' → s'.byteStream = none := by
  have tail : ∀ s1 : DecoderStrategy, s1.byteStream = none →
      (if (setBuffer b s1).readCache ≠ 0 then (.error .TooMuchCompressedData : Except Fault _)
        else .ok (setBuffer b s1)) =
      (if s1.readCache ≠ 0 then (.error .TooMuchCompressedData : Except Fault _)
        else .ok s1).map (setBuffer b) ∧
      ∀ s', (if s1.readCache ≠ 0 then (.error .TooMuchCompressedData : Except Fault _)
        else .ok s1) = .ok s' → s'.byteStream = none := by
    intro s1 h1
    have e : (setBuffer b s1).readCache = s1.readCache := rfl
    rw [e]
    by_cases hc : s1.readCache ≠ 0
    · simp only [if_pos hc]
      exact ⟨rfl, fun s' hh => by simp at hh⟩
    · simp only [if_neg hc]
      refine ⟨rfl, fun s' hh => ?_⟩
      simp only [Except.ok.injEq] at hh
      rw [← hh]
      exact h1
  unfold EndScan
  have ep : (setBuffer b s).position = s.position := rfl
  rw [ep, byteAt_setBuffer b s h]
  by_cases hm : byteAt s s.position ≠ JpegMarkerCode_Start
  · simp only [if_pos hm]
    rw [(ReadBit_setBuffer sz b s h).1]
    cases hR : ReadBit sz s with
    | error e => exact ⟨rfl, fun s' hh => by simp at hh⟩
    | ok p =>
      obtain ⟨bit, s1⟩ := p
      have h1 := (ReadBit_setBuffer sz b s h).2 bit s1 hR
      simp only [resBuffer]
      have ep1 : (setBuffer b s1).position = s1.position := rfl
      rw [ep1, byteAt_setBuffer b s1 h1]
      by_cases hm1 : byteAt s1 s1.position ≠ JpegMarkerCode_Start
      · simp only [if_pos hm1]
        exact ⟨rfl, fun s' hh => by simp at hh⟩
      · simp only [if_neg hm1]
        exact tail s1 h1
  · simp only [if_neg hm]
    exact tail s h

theorem GetCurBytePosLoop_setBuffer (b : List Nat) (s : DecoderStrategy)
    (h : s.byteStream = none) (fuel : Nat) : ∀ v cb : Int,
    GetCurBytePosLoop (setBuffer b s) fuel v cb = GetCurBytePosLoop s fuel v cb := by
  induction fuel with
  | zero => intro v cb; rfl
  | succ fuel ih =>
    intro v cb
    rw [GetCurBytePosLoop, GetCurBytePosLoop, byteAt_setBuffer b s h]
    simp only [ih]

theorem runOp_setBuffer (sz : Nat) (b : List Nat) (s : DecoderStrategy)
    (h : s.byteStream = none) (op : ReaderOp) :
    runOp sz (setBuffer b s) op = resBuffer b (runOp sz s op) ∧
    ∀ x s', runOp sz s op = .ok (x, s') → s'.byteStream = none := by
  cases op with
  | makeValid =>
    unfold runOp
    rw [MakeValid_setBuffer sz b s h]
    cases hM : MakeValid sz s with
    | error e => exact ⟨rfl, fun x s' hh => by simp at hh⟩
    | ok s1 =>
      refine ⟨rfl, fun x s' hh => ?_⟩
      simp only [Except.ok.injEq, Prod.mk.injEq] at hh
      rw [← hh.2]
      exact MakeValid_byteStream sz s s1 h hM
  | readValue length => exact ReadValue_setBuffer sz b s h length
  | peekByte => exact PeekByte_setBuffer sz b s h
  | readBit =>
    unfold runOp
    rw [(ReadBit_setBuffer sz b s h).1]
    cases hR : ReadBit sz s with
    | error e => exact ⟨rfl, fun x s' hh => by simp at hh⟩
    | ok p =>
      obtain ⟨bit, s1⟩ := p
      refine ⟨rfl, fun x s' hh => ?_⟩
      simp only [Except.ok.injEq, Prod.mk.injEq] at hh
      rw [← hh.2]
      exact (ReadBit_setBuffer sz b s h).2 bit s1 hR
  | readHighbits fuel => exact ReadHighbits_setBuffer sz b fuel s h
  | readLongValue length => exact ReadLongValue_setBuffer sz b s h length
  | endScan =>
    unfold runOp
    rw [(EndScan_setBuffer sz b s h).1]
    cases hE : EndScan sz s with
    | error e => exact ⟨rfl, fun x s' hh => by simp at hh⟩
    | ok s1 =>
      refine ⟨rfl, fun x s' hh => ?_⟩
      simp only [Except.ok.injEq, Prod.mk.injEq] at hh
      rw [← hh.2]
      exact (EndScan_setBuffer sz b s h).2 s1 hE
  | getCurBytePos =>
    unfold runOp
    refine ⟨?_, fun x s' hh => ?_⟩
    · unfold GetCurBytePos
      rw [GetCurBytePosLoop_setBuffer b s h]
      rfl
    · simp only [Except.ok.injEq, Prod.mk.injEq] at hh
      rw [← hh.2]
      exact h

theorem runOps_setBuffer (sz : Nat) (b : List Nat) (ops : List ReaderOp) :
    ∀ s : DecoderStrategy, s.byteStream = none →
    runOps sz (setBuffer b s) ops = resBuffer b (runOps sz s ops) := by
  induction ops with
  | nil => intro s _; rfl
  | cons op ops ih =>
    intro s h
    rw [runOps, runOps, (runOp_setBuffer sz b s h op).1]
    cases hR : runOp sz s op with
    | error e => rfl
    | ok p =>
      obtain ⟨x, s1⟩ := p
      have h1 := (runOp_setBuffer sz b s h op).2 x s1 hR
      simp only [resBuffer]
      rw [ih s1 h1]
      cases runOps sz s1 ops with
      | error e => rfl
      | ok q => rfl

theorem FindNextFFLoop_congr (s t : DecoderStrategy) (hb : ∀ p, byteAt s p = byteAt t p)
    (he : s.endPosition = t.endPosition) (fuel : Nat) :
    ∀ p, FindNextFFLoop s fuel p = FindNextFFLoop t fuel p := by
  induction fuel with
  | zero => intro p; rfl
  | succ fuel ih =>
    intro p
    rw [FindNextFFLoop, FindNextFFLoop, hb, he, ih]

theorem Init_setBuffer (sz : Nat) (s0 : DecoderStrategy) (info : ByteStreamInfo)
    (hraw : info.rawStream = none) :
    Init sz s0 info = (Init sz fresh info).map (setBuffer s0.buffer) ∧
    ∀ s, Init sz fresh info = .ok s → s.byteStream = none := by
  have hF : FindNextFF (initState s0 info) = FindNextFF (initState fresh info) := by
    unfold FindNextFF
    exact FindNextFFLoop_congr (initState s0 info) (initState fresh info) (fun p => rfl) rfl _ _
  have h1 : Init sz s0 info = MakeValid sz (setBuffer s0.buffer { initState fresh info with
      nextFFPosition := (FindNextFF (initState fresh info) : Nat) }) := by
    rw [← hF]
    unfold Init
    simp only [hraw]
    congr 1
  have h2 : Init sz fresh info = MakeValid sz { initState fresh info with
      nextFFPosition := (FindNextFF (initState fresh info) : Nat) } := by
    unfold Init
    simp only [hraw]
    congr 1
  rw [h1, h2, MakeValid_setBuffer sz _ _ rfl]
  exact ⟨rfl, fun s hs => MakeValid_byteStream sz _ s rfl hs⟩

/-- C17: no bit-reader state persists across scans.  For a cache of any width, every two
reader states `s1` and `s2` and every raw byte range, `Init` from `s1` and `Init` from `s2`
have the same outcome (both raise, with the same error, or both return), and on return the
two readers have identical cache, `validBits`, position, `_nextFFPosition` and
`_endPosition` (and input); hence every subsequent sequence of calls (`MakeValid`,
`ReadValue`, `PeekByte`, `ReadBit`, `ReadHighbits`, `ReadLongValue`, `EndScan`,
`GetCurBytePos`) returns the same values, or raises the same error at the same call. -/
theorem C17_init_independent (sz : Nat) (s1 s2 : DecoderStrategy) (info : ByteStreamInfo)
    (hraw : info.rawStream = none) :
    (∀ e, Init sz s1 info = .error e ↔ Init sz s2 info = .error e) ∧
    (∀ t1, Init sz s1 info = .ok t1 → ∃ t2, Init sz s2 info = .ok t2 ∧
      t1.readCache = t2.readCache ∧ t1.validBits = t2.validBits ∧
      t1.position = t2.position ∧ t1.nextFFPosition = t2.nextFFPosition ∧
      t1.endPosition = t2.endPosition ∧ t1.byteStream = t2.byteStream ∧
      t1.rawData = t2.rawData ∧ t1.around = t2.around ∧
      ∀ ops, (runOps sz t1 ops).map Prod.fst = (runOps sz t2 ops).map Prod.fst) := by
  obtain ⟨e1, hb⟩ := Init_setBuffer sz s1 info hraw
  obtain ⟨e2, _⟩ := Init_setBuffer sz s2 info hraw
  rw [e1, e2]
  cases hI : Init sz fresh info with
  | error e => exact ⟨fun _ => Iff.rfl, fun t1 h => by simp [Except.map] at h⟩
  | ok t =>
    refine ⟨fun e => ⟨fun h => by simp [Except.map] at h, fun h => by simp [Except.map] at h⟩,
      fun t1 h => ?_⟩
    simp only [Except.map, Except.ok.injEq] at h
    subst h
    refine ⟨setBuffer s2.buffer t, rfl, rfl, rfl, rfl, rfl, rfl, rfl, rfl, rfl, fun ops => ?_⟩
    rw [runOps_setBuffer sz _ ops t (hb t hI), runOps_setBuffer sz _ ops t (hb t hI)]
    cases runOps sz t ops with
    | error e => rfl
    | ok q => rfl

theorem C17_init_independent_witness :
    (∀ e, Init 8 fresh (rawInput [0x12, 0xFF, 0x7F, 0x34]) = .error e ↔
      Init 8 { fresh with
        buffer := [9, 9]
        readCache := 77
        validBits := 13
        position := 5
        nextFFPosition := 2
        endPosition := 6 } (rawInput [0x12, 0xFF, 0x7F, 0x34]) = .error e) ∧
    (∀ t1, Init 8 fresh (rawInput [0x12, 0xFF, 0x7F, 0x34]) = .ok t1 →
      ∃ t2, Init 8 { fresh with
        buffer := [9, 9]
        readCache := 77
        validBits := 13
        position := 5
        nextFFPosition := 2
        endPosition := 6 } (rawInput [0x12, 0xFF, 0x7F, 0x34]) = .ok t2 ∧
      t1.readCache = t2.readCache ∧ t1.validBits = t2.validBits ∧
      t1.position = t2.position ∧ t1.nextFFPosition = t2.nextFFPosition ∧
      t1.endPosition = t2.endPosition ∧ t1.byteStream = t2.byteStream ∧
      t1.rawData = t2.rawData ∧ t1.around = t2.around ∧
      ∀ ops, (runOps 8 t1 ops).map Prod.fst = (runOps 8 t2 ops).map Prod.fst) :=
  C17_init_independent 8 fresh _ (rawInput [0x12, 0xFF, 0x7F, 0x34]) rfl

/-- The bits of the cache after a byte was or-ed into it. -/
theorem testBit_or_byte32 (c b v i : Nat) (hb : b < 256) (hv : v ≤ 24) (hi : i < 32) :
    (c ||| ((b <<< (24 - v)) % 2 ^ 32)).testBit (31 - i) =
      (c.testBit (31 - i) || (decide (v ≤ i ∧ i < v + 8) && b.testBit (7 - (i - v)))) := by
  have hlt : b <<< (24 - v) < 2 ^ 32 := by
    rw [Nat.shiftLeft_eq]
    calc b * 2 ^ (24 - v) < 2 ^ 8 * 2 ^ (24 - v) := by
          apply Nat.mul_lt_mul_of_pos_right (by simpa using hb) (Nat.two_pow_pos _)
      _ = 2 ^ (8 + (24 - v)) := by rw [Nat.pow_add]
      _ ≤ 2 ^ 32 := Nat.pow_le_pow_right (by norm_num) (by omega)
  rw [Nat.mod_eq_of_lt hlt, Nat.testBit_lor, Nat.testBit_shiftLeft]
  congr 1
  by_cases h1 : v ≤ i
  · by_cases h2 : i < v + 8
    · have e : 31 - i - (24 - v) = 7 - (i - v) := by omega
      have : 31 - i ≥ 24 - v := by omega
      simp [h1, h2, this, e]
    · have : ¬ (31 - i ≥ 24 - v) := by omega
      simp [h2, this]
  · have h3 : 31 - i ≥ 24 - v := by omega
    have : b.testBit (31 - i - (24 - v)) = false := by
      apply Nat.testBit_lt_two_pow
      calc b < 2 ^ 8 := by simpa using hb
        _ ≤ 2 ^ (31 - i - (24 - v)) := Nat.pow_le_pow_right (by norm_num) (by omega)
    simp [h1, this]

theorem or_byte_lt32 (c b v : Nat) (hc : c < 2 ^ 32) : c ||| ((b <<< (24 - v)) % 2 ^ 32) < 2 ^ 32 :=
  Nat.or_lt_two_pow hc (Nat.mod_lt _ (Nat.two_pow_pos _))

theorem MakeValidLoop_succ32 (fuel : Nat) (s : DecoderStrategy) (hlo : 0 ≤ s.validBits)
    (hhi : s.validBits ≤ 24) :
    MakeValidLoop 4 (fuel + 1) s =
      if stopped s then
        (if s.validBits ≤ 0 then .error .InvalidCompressedData else .ok (false, s))
      else if (loadByte32 s).validBits < 24 then MakeValidLoop 4 fuel (loadByte32 s)
      else .ok (true, loadByte32 s) := by
  obtain ⟨v, hv⟩ := Int.eq_ofNat_of_zero_le hlo
  have hv24 : v ≤ 24 := by omega
  have hsz : sizeT 4 ((bufType_bit_count 4 : Int) - 8 - s.validBits) = ((24 - v : Nat) : Int) := by
    simp only [sizeT, bufType_bit_count, hv]
    norm_num
    rw [Int.emod_eq_of_lt] <;> omega
  rw [MakeValidLoop]
  unfold stopped
  by_cases h1 : s.position ≥ s.endPosition
  · simp [h1]
  · simp only [h1, if_false, false_or]
    by_cases h2 : (byteAt s s.position = JpegMarkerCode_Start ∧
      ((s.position : Int) = (s.endPosition : Int) - 1 ∨ (byteAt s ((s.position : Int) + 1)) &&& 0x80 ≠ 0))
    · rw [if_pos h2, if_pos h2]
    · rw [if_neg h2, if_neg h2, hsz]
      have hsh : shiftLeft 4 (byteAt s s.position) ((24 - v : Nat) : Int) =
          .ok ((byteAt s s.position <<< (24 - v)) % 2 ^ 32) := by
        unfold shiftLeft bufType_bit_count
        rw [if_pos]
        · simp
        · constructor <;> omega
      rw [hsh]
      simp only [loadByte32, JpegMarkerCode_Start, bufType_bit_count, hv, Int.toNat_ofNat]
      by_cases h3 : byteAt s s.position = 255
      · have e : sizeT 4 ((v : Int) + 8 - 1) = (v : Int) + 7 := by
          simp only [sizeT, bufType_bit_count]; rw [Int.emod_eq_of_lt] <;> omega
        have e2 : (v : Int) + 8 - 1 = (v : Int) + 7 := by omega
        rw [e2] at e
        simp only [h3, if_true, e, e2]
        norm_num
      · have e : sizeT 4 ((v : Int) + 8) = (v : Int) + 8 := by
          simp only [sizeT, bufType_bit_count]; rw [Int.emod_eq_of_lt] <;> omega
        simp only [h3, if_false, e]
        norm_num

theorem stopped_iff32 (s : DecoderStrategy) (h : Core32 s) : stopped s ↔ upcoming s = [] := by
  unfold stopped upcoming
  rw [h.endp]
  by_cases hp : s.position ≥ s.rawData.length
  · simp [hp, List.drop_eq_nil_of_le hp, upcomingBits_nil]
  · have hp' : s.position < s.rawData.length := by omega
    rw [drop_eq_getD_cons _ _ hp', byteAt_raw s h.raw _ hp']
    simp only [hp, false_or, JpegMarkerCode_Start]
    by_cases hb : s.rawData.getD s.position 0 = 255
    · rw [hb]
      by_cases hlast : s.position + 1 < s.rawData.length
      · rw [byteAt_raw_succ s h.raw _ hlast, drop_eq_getD_cons _ _ hlast, upcomingBits_ff_cons]
        have hne : ¬ ((s.position : Int) = (s.rawData.length : Int) - 1) := by omega
        simp only [true_and, hne, false_or]
        by_cases hc : s.rawData.getD (s.position + 1) 0 &&& 128 ≠ 0
        · rw [if_pos hc]
          exact ⟨fun _ => rfl, fun _ => hc⟩
        · rw [if_neg hc]
          constructor
          · intro h'; exact absurd h' hc
          · intro h'; simp at h'
      · have he : (s.position : Int) = (s.rawData.length : Int) - 1 := by omega
        have hd : s.rawData.drop (s.position + 1) = [] := List.drop_eq_nil_of_le (by omega)
        rw [hd, upcomingBits_ff_last]
        simp [he]
    · simp only [hb, false_and, false_iff]
      exact upcomingBits_cons_ne_nil _ _ _ hb

theorem topBits_or_byte32 (c b v k : Nat) (X : Nat → Bool) (hb : b < 256) (hv : v ≤ 24)
    (hk : k ≤ 8)
    (hX : ∀ j, j < k → (c.testBit (31 - (v + j)) || b.testBit (7 - j)) = X j) :
    topBits 32 (c ||| ((b <<< (24 - v)) % 2 ^ 32)) (v + k) =
      topBits 32 c v ++ (List.range k).map X := by
  rw [topBits_add]
  congr 1
  · apply range_map_congr
    intro i hi
    rw [show 32 - 1 - i = 31 - i by omega, testBit_or_byte32 c b v i hb hv (by omega)]
    have : ¬ (v ≤ i ∧ i < v + 8) := by omega
    simp [this]
  · apply range_map_congr
    intro j hj
    rw [show 32 - 1 - (v + j) = 31 - (v + j) by omega,
      testBit_or_byte32 c b v (v + j) hb hv (by omega), ← hX j hj]
    have : (v ≤ v + j ∧ v + j < v + 8) := by omega
    simp [this]

theorem prevFF_loadByte32 (s : DecoderStrategy) :
    prevFF (loadByte32 s) = decide (s.rawData.getD s.position 0 = 0xFF) := by
  simp [prevFF, loadByte32, -List.getD_eq_getElem?_getD]

theorem upcoming_loadByte32 (s : DecoderStrategy) :
    upcoming (loadByte32 s) =
      upcomingBits (decide (s.rawData.getD s.position 0 = 0xFF)) (s.rawData.drop (s.position + 1)) := by
  rw [upcoming, prevFF_loadByte32]
  rfl

theorem upcoming_plain32 (s : DecoderStrategy) (hp : s.position < s.rawData.length)
    (hb : s.rawData.getD s.position 0 ≠ 0xFF) :
    upcoming s = topBits 8 (if prevFF s then s.rawData.getD s.position 0 ||| 0x80
        else s.rawData.getD s.position 0) 8 ++ upcoming (loadByte32 s) := by
  rw [upcoming_loadByte32, upcoming, drop_eq_getD_cons _ _ hp, upcomingBits_cons _ _ _ hb]
  simp [hb, -List.getD_eq_getElem?_getD]

theorem upcoming_stuffed32 (s : DecoderStrategy) (h : Core32 s) (hns : ¬ stopped s)
    (hb : s.rawData.getD s.position 0 = 0xFF) :
    s.position + 1 < s.rawData.length ∧ s.rawData.getD (s.position + 1) 0 < 128 ∧
    upcoming s = List.replicate 7 true ++ upcoming (loadByte32 s) ∧
    (upcoming (loadByte32 s)).getD 0 false = true := by
  have hp : s.position < s.rawData.length := by
    by_contra hp
    exact hns (Or.inl (by rw [h.endp]; omega))
  have hst : ¬ (byteAt s s.position = JpegMarkerCode_Start ∧
      ((s.position : Int) = (s.endPosition : Int) - 1 ∨
        (byteAt s ((s.position : Int) + 1)) &&& 0x80 ≠ 0)) := fun hh => hns (Or.inr hh)
  rw [byteAt_raw s h.raw _ hp, h.endp] at hst
  have hst2 : ¬ ((s.position : Int) = (s.rawData.length : Int) - 1 ∨
        (byteAt s ((s.position : Int) + 1)) &&& 0x80 ≠ 0) := fun hh => hst ⟨hb, hh⟩
  have hlast : s.position + 1 < s.rawData.length := by
    by_contra hl
    exact hst2 (Or.inl (by omega))
  have hc : ¬ (s.rawData.getD (s.position + 1) 0 &&& 0x80 ≠ 0) := by
    intro hc
    apply hst2
    right
    rw [byteAt_raw_succ s h.raw _ hlast]
    exact hc
  have hc256 := getD_mem_lt _ h.bytes _ hlast
  have hc128 : s.rawData.getD (s.position + 1) 0 < 128 := by
    by_contra hge
    apply hc
    exact fun h0 => hge ((and_128_eq_zero_iff _ hc256).mp h0)
  have hcne : s.rawData.getD (s.position + 1) 0 ≠ 0xFF := by omega
  refine ⟨hlast, hc128, ?_, ?_⟩
  · rw [upcoming_loadByte32, upcoming, drop_eq_getD_cons _ _ hp, hb, drop_eq_getD_cons _ _ hlast,
      upcomingBits_ff_cons, if_neg hc]
    simp
  · rw [upcoming_loadByte32, drop_eq_getD_cons _ _ hlast, upcomingBits_cons _ _ _ hcne]
    rw [List.getD_append _ _ _ _ (by simp [topBits_length])]
    rw [getD_topBits _ _ _ _ (by norm_num), hb]
    simp only [decide_True, if_true]
    exact testBit_7_or_128 _

theorem loadByte_nomark32 (s : DecoderStrategy) (h : Core32 s) (hns : ¬ stopped s) :
    ∀ i, i < (loadByte32 s).position → ¬ markerAt (loadByte32 s).rawData i := by
  intro i hi hm
  have hi' : i < s.position + 1 := hi
  by_cases hip : i = s.position
  · subst hip
    exact hns (stopped_of_markerAt s h.raw h.endp hm)
  · exact h.nomark i (by omega) hm

theorem loadByte_core32 (s : DecoderStrategy) (h : Core32 s) (hns : ¬ stopped s)
    (hv24 : s.validBits ≤ 24) :
    Core32 (loadByte32 s) ∧ remaining32 (loadByte32 s) = remaining32 s := by
  have hp : s.position < s.rawData.length := by
    by_contra hp
    exact hns (Or.inl (by rw [h.endp]; omega))
  obtain ⟨v, hv⟩ := Int.eq_ofNat_of_zero_le h.vlo
  have hvle : v ≤ 24 := by omega
  have hbyte := byteAt_raw s h.raw _ hp
  have hb256 := getD_mem_lt _ h.bytes _ hp
  have hg := h.garbage
  have hprev := h.prev
  rw [hv] at hg hprev
  simp only [Int.toNat_ofNat] at hg hprev
  by_cases hb : s.rawData.getD s.position 0 = 0xFF
  · -- a stuffed 0xFF
    obtain ⟨hlast, hc128, hup, hup0⟩ := upcoming_stuffed32 s h hns hb
    have hvb : (loadByte32 s).validBits = ((v + 7 : Nat) : Int) := by
      simp [loadByte32, hbyte, hb, hv, -List.getD_eq_getElem?_getD]
    have hcache : (loadByte32 s).readCache = s.readCache ||| ((255 <<< (24 - v)) % 2 ^ 32) := by
      simp [loadByte32, hbyte, hb, hv, -List.getD_eq_getElem?_getD]
    constructor
    · refine ⟨h.raw, h.bytes, h.endp, ?_, loadByte_nomark32 s h hns, ?_, ?_, ?_, ?_, ?_⟩
      · show s.position + 1 ≤ s.rawData.length
        omega
      · rw [hvb]; omega
      · rw [hvb]; omega
      · rw [hcache]; exact or_byte_lt32 _ _ _ h.cache_lt
      · intro _
        rw [hvb, hcache]
        refine ⟨hlast, hc128, by omega, ?_⟩
        simp only [Int.toNat_ofNat]
        rw [testBit_or_byte32 _ 255 v (v + 7) (by norm_num) hvle (by omega)]
        have : (v ≤ v + 7 ∧ v + 7 < v + 8) := by omega
        simp [this, testBit_255]
      · intro j hj
        rw [hvb, hcache] at *
        simp only [Int.toNat_ofNat] at *
        intro hbit
        by_cases hj0 : j = 0
        · subst hj0; exact hup0
        · rw [testBit_or_byte32 _ 255 v (v + 7 + j) (by norm_num) hvle (by omega)] at hbit
          have hn : ¬ (v ≤ v + 7 + j ∧ v + 7 + j < v + 8) := by omega
          simp only [hn, decide_False, Bool.false_and, Bool.or_false] at hbit
          have := hg (7 + j) (by omega) (by rw [← hbit]; congr 2; omega)
          rw [hup, List.getD_append_right _ _ _ _ (by simp)] at this
          simpa using this
    · unfold remaining32
      rw [hup, hvb, hcache, hv]
      simp only [Int.toNat_ofNat]
      rw [topBits_or_byte32 _ 255 v 7 (fun _ => true) (by norm_num) hvle (by norm_num)]
      · rw [List.append_assoc]
        congr 2
      · intro j hj
        rw [testBit_255 _ (by omega)]
        simp
  · -- an ordinary byte
    have hup := upcoming_plain32 s hp hb
    have hvb : (loadByte32 s).validBits = ((v + 8 : Nat) : Int) := by
      simp [loadByte32, hbyte, hb, hv, -List.getD_eq_getElem?_getD]
    have hcache : (loadByte32 s).readCache =
        s.readCache ||| ((s.rawData.getD s.position 0 <<< (24 - v)) % 2 ^ 32) := by
      simp [loadByte32, hbyte, hv, -List.getD_eq_getElem?_getD]
    have hpf : prevFF (loadByte32 s) = false := by
      rw [prevFF_loadByte32]; simpa using hb
    constructor
    · refine ⟨h.raw, h.bytes, h.endp, ?_, loadByte_nomark32 s h hns, ?_, ?_, ?_, ?_, ?_⟩
      · show s.position + 1 ≤ s.rawData.length
        omega
      · rw [hvb]; omega
      · rw [hvb]; omega
      · rw [hcache]; exact or_byte_lt32 _ _ _ h.cache_lt
      · intro hpf'
        rw [hpf] at hpf'
        exact absurd hpf' (by simp)
      · intro j hj
        rw [hvb, hcache] at *
        simp only [Int.toNat_ofNat] at *
        intro hbit
        rw [testBit_or_byte32 _ _ v (v + 8 + j) hb256 hvle (by omega)] at hbit
        have hn : ¬ (v ≤ v + 8 + j ∧ v + 8 + j < v + 8) := by omega
        simp only [hn, decide_False, Bool.false_and, Bool.or_false] at hbit
        have := hg (8 + j) (by omega) (by rw [← hbit]; congr 2; omega)
        rw [hup, List.getD_append_right _ _ _ _ (by simp [topBits_length])] at this
        simpa [topBits_length] using this
    · unfold remaining32
      rw [hup, hvb, hcache, hv]
      simp only [Int.toNat_ofNat]
      rw [topBits_or_byte32 _ _ v 8 (fun j => (if prevFF s then s.rawData.getD s.position 0 ||| 0x80
        else s.rawData.getD s.position 0).testBit (8 - 1 - j)) hb256 hvle (by norm_num)]
      · rw [List.append_assoc]
        rfl
      · intro j hj
        by_cases hcb : s.readCache.testBit (31 - (v + j)) = true
        · have := hg j (by omega) hcb
          rw [hup, List.getD_append _ _ _ _ (by simpa [topBits_length] using hj),
            getD_topBits _ _ _ _ hj] at this
          rw [hcb, this]
          simp
        · have hcb' : s.readCache.testBit (31 - (v + j)) = false := by simpa using hcb
          rw [hcb']
          by_cases hpfs : prevFF s = true
          · have hj0 : j ≠ 0 := by
              intro hj0
              subst hj0
              have := (hprev hpfs).2.2.2
              simp only [Nat.add_zero] at hcb'
              rw [this] at hcb'
              exact absurd hcb' (by simp)
            simp only [hpfs, if_true, Bool.false_or, Nat.testBit_lor, testBit_128]
            have : ¬ (8 - 1 - j = 7) := by omega
            simp only [this, decide_False, Bool.or_false]
          · simp only [hpfs, Bool.false_or]
            simp

theorem loadByte_validBits_ge32 (s : DecoderStrategy) : s.validBits + 7 ≤ (loadByte32 s).validBits := by
  unfold loadByte32
  simp only
  split <;> omega

theorem MakeValidLoop_spec32 (fuel : Nat) : ∀ (s : DecoderStrategy), Core32 s → s.validBits ≤ 24 →
    s.rawData.length - s.position + 1 ≤ fuel →
    (upcoming s = [] ∧ s.validBits = 0 → MakeValidLoop 4 fuel s = .error .InvalidCompressedData) ∧
    (¬ (upcoming s = [] ∧ s.validBits = 0) → ∃ fin s', MakeValidLoop 4 fuel s = .ok (fin, s') ∧
      Refilled32 s s' ∧ s'.nextFFPosition = s.nextFFPosition ∧ (fin = true → 24 ≤ s'.validBits) ∧
      (fin = false → upcoming s' = [])) := by
  induction fuel with
  | zero => intro s _ _ hf; omega
  | succ fuel ih =>
    intro s h hv hf
    rw [MakeValidLoop_succ32 fuel s h.vlo hv]
    by_cases hst : stopped s
    · have hup := (stopped_iff32 s h).mp hst
      rw [if_pos hst]
      constructor
      · intro ⟨_, h0⟩
        rw [if_pos (by omega)]
      · intro hn
        have hv0 : ¬ s.validBits ≤ 0 := by
          intro h0
          exact hn ⟨hup, by have := h.vlo; omega⟩
        rw [if_neg hv0]
        exact ⟨false, s, rfl, ⟨h, rfl, by omega, Or.inr hup, rfl, rfl, rfl, le_refl _⟩, rfl,
          by simp, fun _ => hup⟩
    · have hup : upcoming s ≠ [] := fun hh => hst ((stopped_iff32 s h).mpr hh)
      rw [if_neg hst]
      obtain ⟨hc, hr⟩ := loadByte_core32 s h hst hv
      have hge := loadByte_validBits_ge32 s
      have hvlo := h.vlo
      constructor
      · intro ⟨h1, _⟩; exact absurd h1 hup
      · intro _
        by_cases hlt : (loadByte32 s).validBits < 24
        · rw [if_pos hlt]
          have hp : s.position < s.rawData.length := by
            by_contra hp
            exact hst (Or.inl (by rw [h.endp]; omega))
          obtain ⟨fin, s', he, hR, hnf, hfin, hfin'⟩ :=
            (ih (loadByte32 s) hc (by omega) (by
              show s.rawData.length - (s.position + 1) + 1 ≤ fuel
              omega)).2 (by intro ⟨_, h0⟩; omega)
          refine ⟨fin, s', he, ⟨hR.core, hR.rem.trans hr, hR.pos, hR.full, hR.data, hR.around,
            hR.buffer, ?_⟩, hnf, hfin, hfin'⟩
          have := hR.posle
          have e : (loadByte32 s).position = s.position + 1 := rfl
          omega
        · rw [if_neg hlt]
          exact ⟨true, loadByte32 s, rfl, ⟨hc, hr, by omega, Or.inl (by omega), rfl, rfl, rfl,
            Nat.le_succ _⟩, rfl, fun _ => by omega, by simp⟩

theorem FromBigEndianRead_eq32 (s : DecoderStrategy) (p : Nat) :
    FromBigEndianRead 4 s p =
      bigEndian ((List.range 4).map (fun i => byteAt s ((p + i : Nat) : Int))) := by
  simp [FromBigEndianRead, bigEndian, List.foldl_map]

theorem testBit_FromBigEndianRead32 (s : DecoderStrategy) (hraw : s.byteStream = none)
    (hb : ∀ b ∈ s.rawData, b < 256) (p : Nat) (hp : p + 4 ≤ s.rawData.length) (i : Nat)
    (hi : i < 32) :
    (FromBigEndianRead 4 s p).testBit (31 - i) =
      (s.rawData.getD (p + i / 8) 0).testBit (7 - i % 8) := by
  rw [FromBigEndianRead_eq32]
  have hmem : ∀ b ∈ (List.range 4).map (fun i => byteAt s ((p + i : Nat) : Int)), b < 256 := by
    intro b hb'
    rw [List.mem_map] at hb'
    obtain ⟨j, hj, rfl⟩ := hb'
    rw [List.mem_range] at hj
    rw [byteAt_raw s hraw _ (by omega)]
    exact getD_mem_lt _ hb _ (by omega)
  have := testBit_bigEndian _ hmem i (by simpa using hi)
  rw [List.length_map, List.length_range] at this
  rw [show 31 - i = 8 * 4 - 1 - i by omega, this]
  rw [List.getD_eq_getElem _ _ (by simp; omega)]
  simp only [List.getElem_map, List.getElem_range]
  rw [byteAt_raw s hraw _ (by omega)]

theorem FromBigEndianRead_lt32 (s : DecoderStrategy) (hraw : s.byteStream = none)
    (hb : ∀ b ∈ s.rawData, b < 256) (p : Nat) (hp : p + 4 ≤ s.rawData.length) :
    FromBigEndianRead 4 s p < 2 ^ 32 := by
  rw [FromBigEndianRead_eq32]
  have hmem : ∀ b ∈ (List.range 4).map (fun i => byteAt s ((p + i : Nat) : Int)), b < 256 := by
    intro b hb'
    rw [List.mem_map] at hb'
    obtain ⟨j, hj, rfl⟩ := hb'
    rw [List.mem_range] at hj
    rw [byteAt_raw s hraw _ (by omega)]
    exact getD_mem_lt _ hb _ (by omega)
  have := bigEndian_lt _ hmem
  simpa using this

theorem Core_transfer32 (t s' : DecoderStrategy) (ht : Core32 t)
    (e1 : s'.byteStream = t.byteStream) (e2 : s'.rawData = t.rawData)
    (e3 : s'.endPosition = t.endPosition) (e4 : s'.position = t.position)
    (e5 : s'.validBits = t.validBits) (hc : s'.readCache < 2 ^ 32)
    (hsame : ∀ i, i < t.validBits.toNat →
      s'.readCache.testBit (31 - i) = t.readCache.testBit (31 - i))
    (hg : ∀ j, t.validBits.toNat + j < 32 →
      s'.readCache.testBit (31 - (t.validBits.toNat + j)) = true →
      (upcoming t).getD j false = true)
    (hprev : prevFF t = true → s'.readCache.testBit (31 - t.validBits.toNat) = true) :
    Core32 s' ∧ remaining32 s' = remaining32 t := by
  have hup := upcoming_congr s' t e2 e4
  have hpf := prevFF_congr s' t e2 e4
  constructor
  · refine ⟨e1 ▸ ht.raw, e2 ▸ ht.bytes, by rw [e3, e2]; exact ht.endp, by rw [e4, e2]; exact ht.pos_le,
      by rw [e4, e2]; exact ht.nomark, e5 ▸ ht.vlo, e5 ▸ ht.vhi, hc, ?_, ?_⟩
    · intro hp
      rw [hpf] at hp
      obtain ⟨a, b, c, _⟩ := ht.prev hp
      rw [e4, e2, e5]
      exact ⟨a, b, c, hprev hp⟩
    · rw [e5, hup]; exact hg
  · unfold remaining32
    rw [hup, e5]
    congr 1
    apply topBits_congr
    intro i hi
    exact hsame i hi

theorem not_stopped_of_plain32 (s : DecoderStrategy) (h : Core32 s)
    (hp : s.position < s.rawData.length) (hb : s.rawData.getD s.position 0 ≠ 0xFF) :
    ¬ stopped s := by
  intro hst
  rcases hst with h1 | ⟨h2, _⟩
  · rw [h.endp] at h1; omega
  · rw [byteAt_raw s h.raw _ hp] at h2
    exact hb h2

theorem loadBytes_spec32 (k : Nat) : ∀ (s : DecoderStrategy) (v : Nat), Core32 s →
    s.validBits = (v : Int) → v + 8 * k ≤ 32 → s.position + k ≤ s.rawData.length →
    (∀ i, s.position ≤ i → i < s.position + k → s.rawData.getD i 0 ≠ 0xFF) →
    Core32 (loadBytes32 k s) ∧ remaining32 (loadBytes32 k s) = remaining32 s ∧
    (loadBytes32 k s).validBits = ((v + 8 * k : Nat) : Int) ∧
    (loadBytes32 k s).position = s.position + k ∧
    (loadBytes32 k s).rawData = s.rawData ∧
    (loadBytes32 k s).byteStream = s.byteStream ∧
    (loadBytes32 k s).endPosition = s.endPosition ∧
    (1 ≤ k → prevFF (loadBytes32 k s) = false) ∧
    ∀ i, i < 32 → (loadBytes32 k s).readCache.testBit (31 - i) =
      (s.readCache.testBit (31 - i) || (decide (v ≤ i ∧ i < v + 8 * k) &&
        (s.rawData.getD (s.position + (i - v) / 8) 0).testBit (7 - (i - v) % 8))) := by
  induction k with
  | zero =>
    intro s v h hv _ _ _
    refine ⟨h, rfl, by simpa using hv, rfl, rfl, rfl, rfl, by omega, ?_⟩
    intro i _
    have : ¬ (v ≤ i ∧ i < v + 8 * 0) := by omega
    simp [loadBytes32, this]
  | succ k ih =>
    intro s v h hv hk hp hff
    have hp0 : s.position < s.rawData.length := by omega
    have hb0 := hff s.position (le_refl _) (by omega)
    have hns := not_stopped_of_plain32 s h hp0 hb0
    obtain ⟨hc1, hr1⟩ := loadByte_core32 s h hns (by omega)
    have hbyte := byteAt_raw s h.raw _ hp0
    have hv1 : (loadByte32 s).validBits = ((v + 8 : Nat) : Int) := by
      simp [loadByte32, hbyte, hb0, hv, -List.getD_eq_getElem?_getD]
    have hp1 : (loadByte32 s).position = s.position + 1 := rfl
    have hd1 : (loadByte32 s).rawData = s.rawData := rfl
    obtain ⟨a1, a2, a3, a4, a5, a6, a7, a8, a9⟩ := ih (loadByte32 s) (v + 8) hc1 hv1 (by omega)
      (by rw [hp1, hd1]; omega)
      (by intro i hi1 hi2; rw [hd1]; rw [hp1] at hi1 hi2; exact hff i (by omega) (by omega))
    refine ⟨a1, a2.trans hr1, ?_, ?_, a5.trans hd1, a6, a7, ?_, ?_⟩
    · rw [loadBytes32, a3]; congr 1; omega
    · rw [loadBytes32, a4, hp1]; omega
    · intro _
      rw [loadBytes32]
      by_cases hk1 : 1 ≤ k
      · exact a8 hk1
      · have : k = 0 := by omega
        subst this
        rw [loadBytes32, prevFF_loadByte32]
        simpa using hb0
    · intro i hi
      rw [loadBytes32, a9 i hi]
      have hcache : (loadByte32 s).readCache =
          s.readCache ||| ((s.rawData.getD s.position 0 <<< (24 - v)) % 2 ^ 32) := by
        simp [loadByte32, hbyte, hv, -List.getD_eq_getElem?_getD]
      rw [hcache, testBit_or_byte32 _ _ v i (getD_mem_lt _ h.bytes _ hp0) (by omega) hi, hd1, hp1]
      by_cases c1 : v ≤ i ∧ i < v + 8
      · have c2 : ¬ (v + 8 ≤ i ∧ i < v + 8 + 8 * k) := by omega
        have c3 : v ≤ i ∧ i < v + 8 * (k + 1) := by omega
        have e1 : (i - v) / 8 = 0 := by omega
        have e2 : (i - v) % 8 = i - v := by omega
        simp [c1, c2, c3, e1, e2, -List.getD_eq_getElem?_getD]
      · by_cases c2 : v + 8 ≤ i ∧ i < v + 8 + 8 * k
        · have c3 : v ≤ i ∧ i < v + 8 * (k + 1) := by omega
          have e1 : s.position + 1 + (i - (v + 8)) / 8 = s.position + (i - v) / 8 := by omega
          have e2 : (i - (v + 8)) % 8 = (i - v) % 8 := by omega
          have c4 : ¬ i < v + 8 := by omega
          simp [c2, c3, c4, e1, e2, -List.getD_eq_getElem?_getD]
        · have c3 : ¬ (v ≤ i ∧ i < v + 8 * (k + 1)) := by omega
          simp [c1, c2, c3, -List.getD_eq_getElem?_getD]

theorem Inv_of_refilled32 (s s' : DecoderStrategy) (h : Inv32 s) (hr : Refilled32 s s')
    (hn : s'.nextFFPosition = s.nextFFPosition) : Inv32 s' := by
  refine ⟨hr.core, by rw [hn, hr.data]; exact h.nff_le, ?_⟩
  intro i hi1 hi2
  rw [hr.data]
  rw [hn] at hi2
  exact h.nff i (le_trans hr.posle hi1) hi2

theorem OptimizedRead_slow32 (s : DecoderStrategy)
    (hslow : ¬ (s.position : Int) < s.nextFFPosition - 3) :
    OptimizedRead 4 s = .ok (false, s) := by
  unfold OptimizedRead
  rw [if_neg]
  simpa using hslow

theorem OptimizedRead_fast32 (s : DecoderStrategy) (h : Inv32 s) (hv24 : s.validBits ≤ 24)
    (hfast : (s.position : Int) < s.nextFFPosition - 3) :
    ∃ s', OptimizedRead 4 s = .ok (true, s') ∧ Refilled32 s s' ∧
      s'.nextFFPosition = s.nextFFPosition ∧ 25 ≤ s'.validBits := by
  obtain ⟨v, hv⟩ := Int.eq_ofNat_of_zero_le h.core.vlo
  have hvle : v ≤ 24 := by omega
  have hnle := h.nff_le
  have hp4 : s.position + 4 ≤ s.rawData.length := by omega
  have hff : ∀ i, s.position ≤ i → i < s.position + 4 → s.rawData.getD i 0 ≠ 0xFF :=
    fun i h1 h2 => h.nff i h1 (by omega)
  have hk1 : 1 ≤ (32 - v) / 8 := by omega
  have hk4 : (32 - v) / 8 ≤ 4 := by omega
  obtain ⟨a1, a2, a3, a4, a5, a6, a7, a8, a9⟩ := loadBytes_spec32 ((32 - v) / 8) s v h.core hv
    (by omega) (by omega) (fun i h1 h2 => hff i h1 (by omega))
  have hB := FromBigEndianRead_lt32 s h.core.raw h.core.bytes s.position hp4
  have hsize : sizeT 4 ((bufType_bit_count 4 : Int) - s.validBits) / 8 = (((32 - v) / 8 : Nat) : Int) := by
    simp only [sizeT, bufType_bit_count, hv]
    norm_num
    rw [Int.emod_eq_of_lt (by omega) (by omega)]
    omega
  have hOR : OptimizedRead 4 s = .ok (true, { s with
      readCache := s.readCache ||| (FromBigEndianRead 4 s s.position >>> v)
      position := s.position + (32 - v) / 8
      validBits := ((v + 8 * ((32 - v) / 8) : Nat) : Int) }) := by
    unfold OptimizedRead
    rw [if_pos (by simpa using hfast)]
    have hsh : shiftRight 4 (FromBigEndianRead 4 s s.position) s.validBits =
        .ok (FromBigEndianRead 4 s s.position >>> v) := by
      unfold shiftRight bufType_bit_count
      rw [if_pos (by constructor <;> omega), hv]
      simp
    rw [hsh]
    simp only [hsize, Int.toNat_ofNat]
    congr 3
    rw [hv]
    push_cast
    ring
  refine ⟨_, hOR, ?_, rfl, ?_⟩
  swap
  · show (25 : Int) ≤ ((v + 8 * ((32 - v) / 8) : Nat) : Int)
    omega
  have hbit : ∀ i, i < 32 →
      (s.readCache ||| (FromBigEndianRead 4 s s.position >>> v)).testBit (31 - i) =
      (s.readCache.testBit (31 - i) || (decide (v ≤ i) &&
        (s.rawData.getD (s.position + (i - v) / 8) 0).testBit (7 - (i - v) % 8))) := by
    intro i hi
    rw [Nat.testBit_lor, Nat.testBit_shiftRight]
    congr 1
    by_cases hvi : v ≤ i
    · rw [show v + (31 - i) = 31 - (i - v) by omega,
        testBit_FromBigEndianRead32 s h.core.raw h.core.bytes _ hp4 _ (by omega)]
      simp [hvi]
    · rw [Nat.testBit_lt_two_pow (lt_of_lt_of_le hB (Nat.pow_le_pow_right (by norm_num) (by omega)))]
      simp [hvi]
  have ht := Core_transfer32 (loadBytes32 ((32 - v) / 8) s) { s with
      readCache := s.readCache ||| (FromBigEndianRead 4 s s.position >>> v)
      position := s.position + (32 - v) / 8
      validBits := ((v + 8 * ((32 - v) / 8) : Nat) : Int) } a1 a6.symm a5.symm a7.symm a4.symm a3.symm
    (Nat.or_lt_two_pow h.core.cache_lt (lt_of_le_of_lt (by rw [Nat.shiftRight_eq_div_pow]; exact Nat.div_le_self _ _) hB))
    (by
      intro i hi
      rw [a3] at hi
      simp only [Int.toNat_ofNat] at hi
      show (s.readCache ||| (FromBigEndianRead 4 s s.position >>> v)).testBit (31 - i) = _
      rw [hbit i (by omega), a9 i (by omega)]
      by_cases hvi : v ≤ i
      · have : v ≤ i ∧ i < v + 8 * ((32 - v) / 8) := ⟨hvi, hi⟩
        simp [hvi, this, -List.getD_eq_getElem?_getD]
      · have : ¬ (v ≤ i ∧ i < v + 8 * ((32 - v) / 8)) := fun hh => hvi hh.1
        simp [hvi, this, -List.getD_eq_getElem?_getD])
    (by
      intro j hj
      rw [a3] at hj ⊢
      simp only [Int.toNat_ofNat] at hj ⊢
      show (s.readCache ||| (FromBigEndianRead 4 s s.position >>> v)).testBit _ = true → _
      rw [hbit _ (by omega)]
      intro hb
      have hi9 := a9 (v + 8 * ((32 - v) / 8) + j) hj
      have hn : ¬ (v ≤ v + 8 * ((32 - v) / 8) + j ∧
          v + 8 * ((32 - v) / 8) + j < v + 8 * ((32 - v) / 8)) := by omega
      simp only [hn, decide_False, Bool.false_and, Bool.or_false] at hi9
      by_cases hcb : s.readCache.testBit (31 - (v + 8 * ((32 - v) / 8) + j)) = true
      · have hg := a1.garbage j (by rw [a3]; simpa using hj)
        rw [a3] at hg
        simp only [Int.toNat_ofNat] at hg
        exact hg (by rw [hi9]; exact hcb)
      · have hcb' : s.readCache.testBit (31 - (v + 8 * ((32 - v) / 8) + j)) = false := by
          simpa using hcb
        rw [hcb'] at hb
        have hvi : v ≤ v + 8 * ((32 - v) / 8) + j := by omega
        simp only [hvi, decide_True, Bool.true_and, Bool.false_or] at hb
        have e1 : (v + 8 * ((32 - v) / 8) + j - v) / 8 = (32 - v) / 8 := by omega
        have e2 : (v + 8 * ((32 - v) / 8) + j - v) % 8 = j := by omega
        rw [e1, e2] at hb
        have hpt : (loadBytes32 ((32 - v) / 8) s).position < (loadBytes32 ((32 - v) / 8) s).rawData.length := by
          rw [a4, a5]; omega
        have hbt : (loadBytes32 ((32 - v) / 8) s).rawData.getD (loadBytes32 ((32 - v) / 8) s).position 0 ≠ 0xFF := by
          rw [a4, a5]; exact hff _ (by omega) (by omega)
        rw [upcoming_plain32 _ hpt hbt, a8 hk1,
          List.getD_append _ _ _ _ (by simp [topBits_length]; omega),
          getD_topBits _ _ _ _ (by omega)]
        simp only [Bool.false_eq_true, if_false]
        rw [a4, a5]
        exact hb)
    (by
      intro hpf
      rw [a8 hk1] at hpf
      exact absurd hpf (by simp))
  exact ⟨ht.1, ht.2.trans a2, by show (1 : Int) ≤ ((v + 8 * ((32 - v) / 8) : Nat) : Int); omega,
    Or.inl (by show (24 : Int) ≤ ((v + 8 * ((32 - v) / 8) : Nat) : Int); omega), rfl, rfl, rfl,
    Nat.le_add_right _ _⟩

theorem Core_set_nextFF32 (s : DecoderStrategy) (h : Core32 s) (x : Int) :
    Core32 { s with nextFFPosition := x } :=
  ⟨h.raw, h.bytes, h.endp, h.pos_le, h.nomark, h.vlo, h.vhi, h.cache_lt, h.prev, h.garbage⟩

theorem remaining_eq_nil32 (s : DecoderStrategy) (h : Core32 s) :
    remaining32 s = [] ↔ upcoming s = [] ∧ s.validBits = 0 := by
  unfold remaining32
  rw [List.append_eq_nil]
  constructor
  · intro ⟨h1, h2⟩
    have := congrArg List.length h1
    rw [topBits_length] at this
    have := h.vlo
    exact ⟨h2, by simp at *; omega⟩
  · intro ⟨h1, h2⟩
    exact ⟨by rw [h2]; rfl, h1⟩

theorem MakeValid_spec32 (s : DecoderStrategy) (h : Inv32 s) (hv : s.validBits ≤ 24) :
    (remaining32 s = [] → MakeValid 4 s = .error .InvalidCompressedData) ∧
    (remaining32 s ≠ [] → ∃ s', MakeValid 4 s = .ok s' ∧ Refilled32 s s' ∧ Inv32 s') := by
  rw [remaining_eq_nil32 s h.core]
  by_cases hfast : (s.position : Int) < s.nextFFPosition - 3
  · obtain ⟨s', h1, h2, h3, _⟩ := OptimizedRead_fast32 s h hv hfast
    have hne : ¬ (upcoming s = [] ∧ s.validBits = 0) := by
      intro ⟨hu, _⟩
      have hst := (stopped_iff32 s h.core).mpr hu
      have hnle := h.nff_le
      have hp : s.position < s.rawData.length := by omega
      have := h.nff s.position (le_refl _) (by omega)
      exact not_stopped_of_plain32 s h.core hp this hst
    constructor
    · intro hh; exact absurd hh hne
    · intro _
      refine ⟨s', ?_, h2, Inv_of_refilled32 s s' h h2 h3⟩
      unfold MakeValid
      rw [h1]
  · have hOR := OptimizedRead_slow32 s hfast
    have hloop := MakeValidLoop_spec32 (s.endPosition - s.position + 1) s h.core hv
      (by rw [h.core.endp])
    constructor
    · intro hh
      unfold MakeValid
      rw [hOR]
      simp only [AddBytesFromStream_raw s h.core.raw]
      rw [hloop.1 hh]
    · intro hh
      obtain ⟨fin, s', h1, h2, h3, h4, h5⟩ :=
        hloop.2 (fun x => hh ((remaining_eq_nil32 s h.core).mpr x))
      unfold MakeValid
      rw [hOR]
      simp only [AddBytesFromStream_raw s h.core.raw]
      rw [h1]
      cases fin with
      | false => exact ⟨s', rfl, h2, Inv_of_refilled32 s s' h h2 h3⟩
      | true =>
        refine ⟨_, rfl, ⟨Core_set_nextFF32 s' h2.core _, h2.rem, h2.pos, h2.full, h2.data, h2.around,
          h2.buffer, h2.posle⟩, Core_set_nextFF32 s' h2.core _, ?_, ?_⟩
        · have := (FindNextFF_spec s' h2.core.raw h2.core.endp h2.core.pos_le).2.1
          show ((FindNextFF s' : Nat) : Int) ≤ (s'.rawData.length : Int)
          exact_mod_cast this
        · intro i hi1 hi2
          have := (FindNextFF_spec s' h2.core.raw h2.core.endp h2.core.pos_le).2.2
          have hi3 : (i : Int) < ((FindNextFF s' : Nat) : Int) := hi2
          exact this i hi1 (by exact_mod_cast hi3)

theorem remaining_length32 (s : DecoderStrategy) :
    (remaining32 s).length = s.validBits.toNat + (upcoming s).length := by
  simp [remaining32, topBits_length]

theorem Skip_eq32 (s : DecoderStrategy) (k : Nat) (hk : k < 32) :
    Skip 4 s (k : Int) = .ok { s with
      validBits := s.validBits - k
      readCache := (s.readCache <<< k) % 2 ^ 32 } := by
  unfold Skip shiftLeft bufType_bit_count
  rw [if_pos (by constructor <;> omega)]
  simp

theorem testBit_skip32 (c k i : Nat) (hi : i < 32) :
    ((c <<< k) % 2 ^ 32).testBit (31 - i) = (decide (i + k < 32) && c.testBit (31 - (i + k))) := by
  rw [Nat.testBit_mod_two_pow, Nat.testBit_shiftLeft]
  have h1 : 31 - i < 32 := by omega
  by_cases h2 : i + k < 32
  · have h3 : 31 - i ≥ k := by omega
    have e : 31 - i - k = 31 - (i + k) := by omega
    simp [h1, h2, h3, e]
  · have h3 : ¬ (31 - i ≥ k) := by omega
    simp [h1, h2, h3]

theorem Skip_spec32 (s : DecoderStrategy) (h : Inv32 s) (k : Nat) (hk : (k : Int) ≤ s.validBits)
    (hk32 : k < 32) :
    ∃ s', Skip 4 s (k : Int) = .ok s' ∧ Consumed32 k s s' ∧ s'.validBits = s.validBits - k ∧
      s'.position = s.position ∧ s'.nextFFPosition = s.nextFFPosition := by
  obtain ⟨v, hv⟩ := Int.eq_ofNat_of_zero_le h.core.vlo
  have hkv : k ≤ v := by omega
  have hv32 : v ≤ 32 := by have := h.core.vhi; omega
  refine ⟨_, Skip_eq32 s k hk32, ?_, rfl, rfl, rfl⟩
  have hvb : s.validBits - (k : Int) = ((v - k : Nat) : Int) := by omega
  have hg := h.core.garbage
  have hprev := h.core.prev
  rw [hv] at hg hprev
  simp only [Int.toNat_ofNat] at hg hprev
  have hcore : Core32 { s with
      validBits := s.validBits - k
      readCache := (s.readCache <<< k) % 2 ^ 32 } := by
    refine ⟨h.core.raw, h.core.bytes, h.core.endp, h.core.pos_le, h.core.nomark, ?_, ?_,
      Nat.mod_lt _ (Nat.two_pow_pos _), ?_, ?_⟩
    · show 0 ≤ s.validBits - (k : Int); omega
    · show s.validBits - (k : Int) ≤ 32
      have := h.core.vhi; omega
    · intro hp
      obtain ⟨a, b, c, d⟩ := hprev hp
      refine ⟨a, b, ?_, ?_⟩
      · show s.validBits - (k : Int) < 32; omega
      · show ((s.readCache <<< k) % 2 ^ 32).testBit (31 - (s.validBits - (k : Int)).toNat) = true
        rw [hvb]
        simp only [Int.toNat_ofNat]
        rw [testBit_skip32 _ _ _ (by omega)]
        have : v - k + k < 32 := by omega
        simp only [this, decide_True, Bool.true_and]
        rw [show v - k + k = v by omega]
        exact d
    · intro j
      show (s.validBits - (k : Int)).toNat + j < 32 →
        ((s.readCache <<< k) % 2 ^ 32).testBit (31 - ((s.validBits - (k : Int)).toNat + j)) = true →
        (upcoming s).getD j false = true
      rw [hvb]
      simp only [Int.toNat_ofNat]
      intro hj hbit
      rw [testBit_skip32 _ _ _ hj] at hbit
      simp only [Bool.and_eq_true, decide_eq_true_eq] at hbit
      apply hg j (by omega)
      rw [← hbit.2]
      congr 2
      omega
  refine ⟨⟨hcore, h.nff_le, h.nff⟩, ?_, rfl, rfl, rfl, le_refl _⟩
  show topBits 32 ((s.readCache <<< k) % 2 ^ 32) (s.validBits - (k : Int)).toNat ++ upcoming s = _
  unfold remaining32
  rw [List.drop_append_of_le_length (by rw [topBits_length, hv]; simpa using hkv), hvb, hv]
  simp only [Int.toNat_ofNat]
  rw [topBits_drop _ _ _ _ hkv]
  congr 1
  apply range_map_congr
  intro i hi
  rw [show 32 - 1 - i = 31 - i by omega, testBit_skip32 _ _ _ (by omega)]
  have : i + k < 32 := by omega
  simp only [this, decide_True, Bool.true_and]
  congr 1
  omega

theorem refill_spec32 (s : DecoderStrategy) (h : Inv32 s) (n : Nat) (hn : n ≤ 24)
    (hlt : s.validBits < n) :
    (remaining32 s = [] → MakeValid 4 s = .error .InvalidCompressedData) ∧
    (remaining32 s ≠ [] → ∃ s', MakeValid 4 s = .ok s' ∧ Refilled32 s s' ∧ Inv32 s' ∧
      ((n : Int) ≤ s'.validBits ↔ n ≤ (remaining32 s).length) ∧
      (s'.validBits < n → upcoming s' = [])) := by
  obtain ⟨h1, h2⟩ := MakeValid_spec32 s h (by omega)
  refine ⟨h1, fun hne => ?_⟩
  obtain ⟨s', a, b, c⟩ := h2 hne
  refine ⟨s', a, b, c, ?_, ?_⟩
  · rw [← b.rem, remaining_length32]
    have hvlo := b.core.vlo
    rcases b.full with hf | hf
    · constructor
      · intro _; omega
      · intro _; omega
    · rw [hf]
      simp only [List.length_nil, Nat.add_zero]
      omega
  · intro hlt'
    rcases b.full with hf | hf
    · omega
    · exact hf

theorem shiftRight_lt32 (c k : Nat) (hc : c < 2 ^ 32) (hk : k ≤ 32) : c >>> (32 - k) < 2 ^ k := by
  rw [Nat.shiftRight_eq_div_pow, Nat.div_lt_iff_lt_mul (Nat.two_pow_pos _), ← Nat.pow_add]
  rw [show k + (32 - k) = 32 by omega]
  exact hc

/-- Function `ReadValue` when the cache holds enough bits. -/
theorem ReadValue_tail32 (s1 : DecoderStrategy) (h : Inv32 s1) (k : Nat) (hk1 : 1 ≤ k) (hk : k ≤ 31)
    (hkv : (k : Int) ≤ s1.validBits) :
    ∃ s2, ReadValue 4 s1 k = .ok ((bitsValue ((remaining32 s1).take k) : Int), s2) ∧
      Consumed32 k s1 s2 ∧ s2.validBits = s1.validBits - k ∧ s2.position = s1.position ∧
        s2.nextFFPosition = s1.nextFFPosition := by
  obtain ⟨s2, e1, e2, e3⟩ := Skip_spec32 s1 h k hkv (by omega)
  refine ⟨s2, ?_, e2, e3⟩
  have hsz : sizeT 4 ((bufType_bit_count 4 : Int) - (k : Int)) = ((32 - k : Nat) : Int) := by
    simp only [sizeT, bufType_bit_count]
    norm_num
    rw [Int.emod_eq_of_lt (by omega) (by omega)]
    omega
  have hsh : shiftRight 4 s1.readCache ((32 - k : Nat) : Int) = .ok (s1.readCache >>> (32 - k)) := by
    unfold shiftRight bufType_bit_count
    rw [if_pos (by constructor <;> omega)]
    simp
  unfold ReadValue
  simp only [if_neg (not_lt.mpr hkv)]
  rw [hsz, hsh, e1]
  simp only
  have hlt := shiftRight_lt32 s1.readCache k h.core.cache_lt (by omega)
  rw [toInt32_of_lt _ (lt_of_lt_of_le hlt (Nat.pow_le_pow_right (by norm_num) hk))]
  obtain ⟨v, hv⟩ := Int.eq_ofNat_of_zero_le h.core.vlo
  unfold remaining32
  rw [List.take_append_of_le_length (by rw [topBits_length, hv]; simp; omega), hv]
  simp only [Int.toNat_ofNat]
  rw [topBits_take _ _ _ _ (by omega), bitsValue_topBits _ _ _ (by omega) h.core.cache_lt]

theorem ReadValue_refill32 (s s1 : DecoderStrategy) (k : Int) (hlt : s.validBits < k)
    (hMV : MakeValid 4 s = .ok s1) (hkv : k ≤ s1.validBits) :
    ReadValue 4 s k = ReadValue 4 s1 k := by
  unfold ReadValue
  simp only [hlt, if_true, hMV, if_neg (not_lt.mpr hkv)]

theorem Consumed_of_refilled32 (k : Nat) (s s1 s2 : DecoderStrategy) (hr : Refilled32 s s1)
    (hc : Consumed32 k s1 s2) : Consumed32 k s s2 :=
  ⟨hc.inv, by rw [hc.rem, hr.rem], hc.data.trans hr.data, hc.around.trans hr.around,
    hc.buffer.trans hr.buffer, le_trans hr.posle hc.posle⟩

theorem ReadValue_spec32 (s : DecoderStrategy) (h : Inv32 s) (k : Nat) (hk1 : 1 ≤ k) (hk : k ≤ 24) :
    (k ≤ (remaining32 s).length → ∃ s', ReadValue 4 s k =
      .ok ((bitsValue ((remaining32 s).take k) : Int), s') ∧ Consumed32 k s s') ∧
    ((remaining32 s).length < k → ReadValue 4 s k = .error .InvalidCompressedData) := by
  by_cases hlt : s.validBits < (k : Int)
  · obtain ⟨r1, r2⟩ := refill_spec32 s h k (by omega) hlt
    by_cases hnil : remaining32 s = []
    · have hMV := r1 hnil
      constructor
      · intro hle; rw [hnil] at hle; simp at hle; omega
      · intro _
        unfold ReadValue
        simp only [hlt, if_true, hMV]
    · obtain ⟨s1, hMV, hR, hI, hiff, _⟩ := r2 hnil
      constructor
      · intro hle
        have hkv := hiff.mpr hle
        obtain ⟨s2, e1, e2, _⟩ := ReadValue_tail32 s1 hI k hk1 (by omega) hkv
        refine ⟨s2, ?_, Consumed_of_refilled32 k s s1 s2 hR e2⟩
        rw [ReadValue_refill32 s s1 k hlt hMV hkv, e1, hR.rem]
      · intro hgt
        have hkv : s1.validBits < (k : Int) := by
          by_contra hh
          have := hiff.mp (not_lt.mp hh)
          omega
        unfold ReadValue
        simp only [hlt, if_true, hMV, if_pos hkv]
  · have hkv : (k : Int) ≤ s.validBits := not_lt.mp hlt
    obtain ⟨s2, e1, e2, _⟩ := ReadValue_tail32 s h k hk1 (by omega) hkv
    have hlen : k ≤ (remaining32 s).length := by
      rw [remaining_length32]; omega
    constructor
    · intro _
      exact ⟨s2, e1, e2⟩
    · intro hgt; omega

theorem and_top_ne_zero32 (c : Nat) : decide (c &&& 2 ^ 31 ≠ 0) = c.testBit 31 := by
  rw [Nat.and_two_pow]
  cases c.testBit 31 <;> simp

theorem shiftLeft_one_top32 : shiftLeft 4 1 ((bufType_bit_count 4 : Int) - 1) = .ok (2 ^ 31) := by
  unfold shiftLeft bufType_bit_count
  rw [if_pos (by constructor <;> norm_num)]
  rfl

theorem remaining_head32 (s : DecoderStrategy) (h : 1 ≤ s.validBits) :
    ∃ rest, remaining32 s = s.readCache.testBit 31 :: rest := by
  obtain ⟨v, hv⟩ := Int.eq_ofNat_of_zero_le (show 0 ≤ s.validBits by omega)
  unfold remaining32
  rw [hv]
  simp only [Int.toNat_ofNat]
  have e : v = 1 + (v - 1) := by omega
  rw [e, topBits_add]
  refine ⟨(List.range (v - 1)).map (fun j => s.readCache.testBit (32 - 1 - (1 + j))) ++ upcoming s, ?_⟩
  simp [topBits, List.range_succ]

theorem ReadBit_tail32 (s1 : DecoderStrategy) (h : Inv32 s1) (hv : 1 ≤ s1.validBits) :
    ∃ s2, ReadBit 4 s1 = .ok (s1.readCache.testBit 31, s2) ∧ Consumed32 1 s1 s2 ∧
      s2.validBits = s1.validBits - 1 ∧ s2.position = s1.position ∧
      s2.nextFFPosition = s1.nextFFPosition := by
  obtain ⟨s2, e1, e2, e3⟩ := Skip_spec32 s1 h 1 (by simpa using hv) (by norm_num)
  refine ⟨s2, ?_, e2, e3⟩
  unfold ReadBit
  simp only [if_neg (show ¬ s1.validBits ≤ 0 by omega), shiftLeft_one_top32]
  simp only [Nat.cast_one] at e1
  rw [e1]
  simp only [and_top_ne_zero32]

theorem ReadBit_refill32 (s s1 : DecoderStrategy) (hlt : s.validBits ≤ 0)
    (hMV : MakeValid 4 s = .ok s1) (hkv : 1 ≤ s1.validBits) :
    ReadBit 4 s = ReadBit 4 s1 := by
  unfold ReadBit
  simp only [hlt, if_true, hMV, if_neg (show ¬ s1.validBits ≤ 0 by omega)]

theorem ReadBit_spec32 (s : DecoderStrategy) (h : Inv32 s) :
    (remaining32 s = [] → ReadBit 4 s = .error .InvalidCompressedData) ∧
    (∀ b rest, remaining32 s = b :: rest →
      ∃ s', ReadBit 4 s = .ok (b, s') ∧ Consumed32 1 s s' ∧ remaining32 s' = rest) := by
  by_cases hlt : s.validBits ≤ 0
  · obtain ⟨r1, r2⟩ := refill_spec32 s h 1 (by omega) (by simpa using (show s.validBits < 1 by omega))
    constructor
    · intro hnil
      unfold ReadBit
      simp only [hlt, if_true, r1 hnil]
    · intro b rest hrem
      obtain ⟨s1, hMV, hR, hI, _, _⟩ := r2 (by rw [hrem]; simp)
      obtain ⟨s2, e1, e2, _⟩ := ReadBit_tail32 s1 hI hR.pos
      obtain ⟨rest', hrest'⟩ := remaining_head32 s1 hR.pos
      rw [hR.rem, hrem] at hrest'
      have hb : s1.readCache.testBit 31 = b := by
        injection hrest' with a _
        exact a.symm
      refine ⟨s2, ?_, Consumed_of_refilled32 1 s s1 s2 hR e2, ?_⟩
      · rw [ReadBit_refill32 s s1 hlt hMV hR.pos, e1, hb]
      · rw [e2.rem, hR.rem, hrem]
        rfl
  · have hv : 1 ≤ s.validBits := by omega
    obtain ⟨s2, e1, e2, _⟩ := ReadBit_tail32 s h hv
    obtain ⟨rest', hrest'⟩ := remaining_head32 s hv
    constructor
    · intro hnil
      rw [hnil] at hrest'
      exact absurd hrest' (by simp)
    · intro b rest hrem
      rw [hrem] at hrest'
      have hb : s.readCache.testBit 31 = b := by
        injection hrest' with a _
        exact a.symm
      refine ⟨s2, by rw [e1, hb], e2, ?_⟩
      rw [e2.rem, hrem]
      rfl

theorem PeekByte_spec32 (s : DecoderStrategy) (h : Inv32 s) :
    (remaining32 s = [] → PeekByte 4 s = .error .InvalidCompressedData) ∧
    (remaining32 s ≠ [] → ∃ x s', PeekByte 4 s = .ok (x, s') ∧ Consumed32 0 s s' ∧
      (8 ≤ (remaining32 s).length → x = (bitsValue ((remaining32 s).take 8) : Int))) := by
  have hsz : sizeT 4 ((bufType_bit_count 4 : Int) - 8) = ((24 : Nat) : Int) := by
    simp only [sizeT, bufType_bit_count]
    norm_num
  have hsh : ∀ c, shiftRight 4 c ((24 : Nat) : Int) = .ok (c >>> 24) := by
    intro c
    unfold shiftRight bufType_bit_count
    rw [if_pos (by constructor <;> norm_num)]
    simp
  have hval : ∀ s1 : DecoderStrategy, Inv32 s1 → (8 : Int) ≤ s1.validBits →
      toInt32 ((s1.readCache >>> 24 : Nat) : Int) = (bitsValue ((remaining32 s1).take 8) : Int) := by
    intro s1 h1 h8
    have hlt := shiftRight_lt32 s1.readCache 8 h1.core.cache_lt (by omega)
    rw [toInt32_of_lt _ (lt_of_lt_of_le hlt (Nat.pow_le_pow_right (by norm_num) (by norm_num)))]
    obtain ⟨v, hv⟩ := Int.eq_ofNat_of_zero_le h1.core.vlo
    unfold remaining32
    rw [List.take_append_of_le_length (by rw [topBits_length, hv]; simp; omega), hv]
    simp only [Int.toNat_ofNat]
    rw [topBits_take _ _ _ _ (by omega), bitsValue_topBits _ _ _ (by omega) h1.core.cache_lt]
  by_cases hlt : s.validBits < 8
  · obtain ⟨r1, r2⟩ := refill_spec32 s h 8 (by omega) (by simpa using hlt)
    constructor
    · intro hnil
      unfold PeekByte
      simp only [hlt, if_true, r1 hnil]
    · intro hne
      obtain ⟨s1, hMV, hR, hI, hiff, _⟩ := r2 hne
      refine ⟨toInt32 ((s1.readCache >>> 24 : Nat) : Int), s1, ?_,
        ⟨hI, by rw [hR.rem]; rfl, hR.data, hR.around, hR.buffer, hR.posle⟩, ?_⟩
      · unfold PeekByte
        simp only [hlt, if_true, hMV, hsz, hsh]
      · intro h8
        rw [hval s1 hI (by simpa using hiff.mpr h8), hR.rem]
  · constructor
    · intro hnil
      have := remaining_length32 s
      rw [hnil] at this
      simp at this
      omega
    · intro _
      refine ⟨toInt32 ((s.readCache >>> 24 : Nat) : Int), s, ?_,
        ⟨h, rfl, rfl, rfl, rfl, le_refl _⟩, ?_⟩
      · unfold PeekByte
        simp only [hlt, if_false, hsz, hsh]
      · intro _
        exact hval s h (by omega)

theorem Inv_findNextFF32 (t : DecoderStrategy) (h : Core32 t) :
    Inv32 { t with nextFFPosition := (FindNextFF t : Nat) } := by
  have hI := FindNextFF_spec t h.raw h.endp h.pos_le
  refine ⟨Core_set_nextFF32 t h _, Int.ofNat_le.mpr hI.2.1, ?_⟩
  intro i hi1 hi2
  exact hI.2.2 i hi1 (Int.ofNat_lt.mp hi2)

theorem Init_raw32 (s0 : DecoderStrategy) (info : ByteStreamInfo) (hraw : info.rawStream = none) :
    Init 4 s0 info = MakeValid 4 { initState s0 info with
      nextFFPosition := (FindNextFF (initState s0 info) : Nat) } := by
  unfold Init initState
  simp only [hraw]

theorem initState_core32 (s0 : DecoderStrategy) (info : ByteStreamInfo)
    (hb : ∀ b ∈ info.rawData, b < 256) : Core32 (initState s0 info) := by
  refine ⟨rfl, hb, rfl, Nat.zero_le _, fun i hi => absurd hi (Nat.not_lt_zero i), le_refl _,
    by norm_num [initState], by norm_num [initState],
    ?_, ?_⟩
  · intro hp
    simp [prevFF, initState] at hp
  · intro j _ hbit
    simp [initState] at hbit

theorem Init_spec32 (s0 : DecoderStrategy) (info : ByteStreamInfo) (hraw : info.rawStream = none)
    (hb : ∀ b ∈ info.rawData, b < 256) :
    (destuffed info.rawData = [] → Init 4 s0 info = .error .InvalidCompressedData) ∧
    (destuffed info.rawData ≠ [] → ∃ s, Init 4 s0 info = .ok s ∧ Inv32 s ∧
      remaining32 s = destuffed info.rawData ∧ s.rawData = info.rawData ∧
      s.around = info.around ∧ s.buffer = s0.buffer) := by
  have hinv := Inv_findNextFF32 _ (initState_core32 s0 info hb)
  have hrem : remaining32 { initState s0 info with
      nextFFPosition := (FindNextFF (initState s0 info) : Nat) } = destuffed info.rawData := by
    rw [← upcomingBits_eq_destuffed _ hb]
    simp [remaining32, upcoming, prevFF, topBits, initState]
  obtain ⟨h1, h2⟩ := MakeValid_spec32 _ hinv (by norm_num [initState])
  rw [hrem] at h1 h2
  rw [Init_raw32 s0 info hraw]
  refine ⟨h1, fun hne => ?_⟩
  obtain ⟨s, a, b, c⟩ := h2 hne
  exact ⟨s, a, c, b.rem.trans hrem, b.data, b.around, b.buffer⟩

theorem Consumed_trans32 (a b : Nat) (s s1 s2 : DecoderStrategy) (h1 : Consumed32 a s s1)
    (h2 : Consumed32 b s1 s2) : Consumed32 (a + b) s s2 :=
  ⟨h2.inv, by rw [h2.rem, h1.rem, List.drop_drop], h2.data.trans h1.data,
    h2.around.trans h1.around, h2.buffer.trans h1.buffer, le_trans h1.posle h2.posle⟩

theorem ReadLongValue_spec32 (s : DecoderStrategy) (h : Inv32 s) (k : Nat) (hk1 : 1 ≤ k)
    (hk : k ≤ 32) :
    (k ≤ (remaining32 s).length → ∃ s', ReadLongValue 4 s k =
      .ok (toInt32 (bitsValue ((remaining32 s).take k) : Int), s') ∧ Consumed32 k s s') ∧
    ((remaining32 s).length < k → ReadLongValue 4 s k = .error .InvalidCompressedData) := by
  by_cases h24 : k ≤ 24
  · have e : ReadLongValue 4 s k = ReadValue 4 s k := by
      unfold ReadLongValue
      rw [if_pos (by exact_mod_cast h24)]
    rw [e]
    obtain ⟨r1, r2⟩ := ReadValue_spec32 s h k hk1 (by omega)
    refine ⟨fun hle => ?_, r2⟩
    obtain ⟨s', a, b⟩ := r1 hle
    refine ⟨s', ?_, b⟩
    rw [a, toInt32_of_lt]
    have := bitsValue_lt ((remaining32 s).take k)
    rw [List.length_take, Nat.min_eq_left hle] at this
    exact lt_of_lt_of_le this (Nat.pow_le_pow_right (by norm_num) (by omega))
  · have hcast : (k : Int) - 24 = ((k - 24 : Nat) : Int) := by omega
    obtain ⟨r1, r2⟩ := ReadValue_spec32 s h (k - 24) (by omega) (by omega)
    constructor
    · intro hle
      obtain ⟨s1, a1, b1⟩ := r1 (by omega)
      obtain ⟨q1, _⟩ := ReadValue_spec32 s1 b1.inv 24 (by norm_num) (by norm_num)
      have hlen1 : 24 ≤ (remaining32 s1).length := by
        rw [b1.rem, List.length_drop]; omega
      obtain ⟨s2, a2, b2⟩ := q1 hlen1
      refine ⟨s2, ?_, ?_⟩
      · unfold ReadLongValue
        rw [if_neg (by omega), hcast, a1]
        simp only [Nat.cast_ofNat] at a2
        simp only [a2]
        have hhi := bitsValue_lt ((remaining32 s).take (k - 24))
        rw [List.length_take, Nat.min_eq_left (by omega)] at hhi
        have hlo := bitsValue_lt ((remaining32 s1).take 24)
        rw [List.length_take, Nat.min_eq_left hlen1] at hlo
        have e : (remaining32 s).take k =
            (remaining32 s).take (k - 24) ++ ((remaining32 s).drop (k - 24)).take 24 := by
          rw [← List.take_add]; congr 1; omega
        have e2 : bitsValue ((remaining32 s).take k) =
            bitsValue ((remaining32 s).take (k - 24)) * 2 ^ 24 + bitsValue ((remaining32 s1).take 24) := by
          rw [e, bitsValue_append, b1.rem, List.length_take, List.length_drop,
            Nat.min_eq_left (by omega)]
        rw [toInt32_shift_add _ _ (lt_of_lt_of_le hhi (Nat.pow_le_pow_right (by norm_num) (by omega))) hlo,
          e2]
      · have := Consumed_trans32 _ _ s s1 s2 b1 b2
        rwa [show k - 24 + 24 = k by omega] at this
    · intro hlt
      unfold ReadLongValue
      rw [if_neg (by omega), hcast]
      by_cases hlt1 : (remaining32 s).length < k - 24
      · rw [r2 hlt1]
      · obtain ⟨s1, a1, b1⟩ := r1 (by omega)
        obtain ⟨_, q2⟩ := ReadValue_spec32 s1 b1.inv 24 (by norm_num) (by norm_num)
        have hlen1 : (remaining32 s1).length < 24 := by
          rw [b1.rem, List.length_drop]; omega
        have := q2 hlen1
        simp only [Nat.cast_ofNat] at this
        rw [a1]
        simp only [this]

theorem MakeValidLoop_stopped32 (fuel : Nat) (s : DecoderStrategy) (hst : stopped s) :
    MakeValidLoop 4 (fuel + 1) s =
      if s.validBits ≤ 0 then .error .InvalidCompressedData else .ok (false, s) := by
  rw [MakeValidLoop]
  rcases hst with h1 | h2
  · rw [if_pos h1]
  · by_cases h1 : s.position ≥ s.endPosition
    · rw [if_pos h1]
    · rw [if_neg h1]
      simp only
      rw [if_pos h2]

theorem MakeValidLoop_overfull32 (fuel : Nat) (s : DecoderStrategy) (hns : ¬ stopped s)
    (hv : 24 < s.validBits) (hv32 : s.validBits ≤ 32) :
    MakeValidLoop 4 (fuel + 1) s = .error .UndefinedBehaviour := by
  rw [MakeValidLoop]
  have h1 : ¬ s.position ≥ s.endPosition := fun h => hns (Or.inl h)
  have h2 : ¬ (byteAt s s.position = JpegMarkerCode_Start ∧
      ((s.position : Int) = (s.endPosition : Int) - 1 ∨
        (byteAt s ((s.position : Int) + 1)) &&& 0x80 ≠ 0)) := fun h => hns (Or.inr h)
  rw [if_neg h1]
  simp only
  rw [if_neg h2]
  have hsh : shiftLeft 4 (byteAt s s.position)
      (sizeT 4 ((bufType_bit_count 4 : Int) - 8 - s.validBits)) = .error .UndefinedBehaviour := by
    unfold shiftLeft
    rw [if_neg]
    intro ⟨_, hh⟩
    simp only [sizeT, bufType_bit_count] at hh
    norm_num at hh
    omega
  rw [hsh]

theorem stopped_not_fast32 (s : DecoderStrategy) (h : Inv32 s) (hst : stopped s) :
    ¬ (s.position : Int) < s.nextFFPosition - 3 := by
  intro hfast
  have hnle := h.nff_le
  have hp : s.position < s.rawData.length := by omega
  have := h.nff s.position (le_refl _) (by omega)
  exact not_stopped_of_plain32 s h.core hp this hst

theorem MakeValid_stopped_empty32 (s : DecoderStrategy) (hraw : s.byteStream = none)
    (hst : stopped s) (hslow : ¬ (s.position : Int) < s.nextFFPosition - 3)
    (hv : s.validBits ≤ 0) : MakeValid 4 s = .error .InvalidCompressedData := by
  unfold MakeValid
  rw [OptimizedRead_slow32 s hslow]
  simp only [AddBytesFromStream_raw s hraw]
  rw [MakeValidLoop_stopped32 _ s hst, if_pos hv]

theorem testBit_or_read32 (s : DecoderStrategy) (hraw : s.byteStream = none)
    (hb : ∀ b ∈ s.rawData, b < 256) (hp4 : s.position + 4 ≤ s.rawData.length) (v i : Nat)
    (hi : i < 32) :
    (s.readCache ||| (FromBigEndianRead 4 s s.position >>> v)).testBit (31 - i) =
      (s.readCache.testBit (31 - i) || (decide (v ≤ i) &&
        (s.rawData.getD (s.position + (i - v) / 8) 0).testBit (7 - (i - v) % 8))) := by
  have hB := FromBigEndianRead_lt32 s hraw hb s.position hp4
  rw [Nat.testBit_lor, Nat.testBit_shiftRight]
  congr 1
  by_cases hvi : v ≤ i
  · rw [show v + (31 - i) = 31 - (i - v) by omega,
      testBit_FromBigEndianRead32 s hraw hb _ hp4 _ (by omega)]
    simp [hvi]
  · rw [Nat.testBit_lt_two_pow (lt_of_lt_of_le hB (Nat.pow_le_pow_right (by norm_num) (by omega)))]
    simp [hvi]

theorem MakeValid_overfull32 (s s' : DecoderStrategy) (h : Inv32 s) (hv : 24 < s.validBits)
    (hok : MakeValid 4 s = .ok s') : Consumed32 0 s s' := by
  have hv32 := h.core.vhi
  obtain ⟨v, hv'⟩ := Int.eq_ofNat_of_zero_le h.core.vlo
  by_cases hfast : (s.position : Int) < s.nextFFPosition - 3
  · have hnle := h.nff_le
    have hp4 : s.position + 4 ≤ s.rawData.length := by omega
    by_cases h32 : s.validBits = 32
    · exfalso
      unfold MakeValid OptimizedRead at hok
      rw [if_pos (by simpa using hfast)] at hok
      have : shiftRight 4 (FromBigEndianRead 4 s s.position) s.validBits =
          .error .UndefinedBehaviour := by
        unfold shiftRight bufType_bit_count
        rw [if_neg (by omega)]
      rw [this] at hok
      simp at hok
    · have hsize : sizeT 4 ((bufType_bit_count 4 : Int) - s.validBits) / 8 = 0 := by
        simp only [sizeT, bufType_bit_count, hv']
        norm_num
        rw [Int.emod_eq_of_lt (by omega) (by omega)]
        omega
      have hOR : OptimizedRead 4 s = .ok (true, { s with
          readCache := s.readCache ||| (FromBigEndianRead 4 s s.position >>> v) }) := by
        unfold OptimizedRead
        rw [if_pos (by simpa using hfast)]
        have hsh : shiftRight 4 (FromBigEndianRead 4 s s.position) s.validBits =
            .ok (FromBigEndianRead 4 s s.position >>> v) := by
          unfold shiftRight bufType_bit_count
          rw [if_pos (by constructor <;> omega), hv']
          simp
        rw [hsh]
        simp only [hsize]
        simp
      unfold MakeValid at hok
      rw [hOR] at hok
      simp only [Except.ok.injEq] at hok
      subst hok
      have hB := FromBigEndianRead_lt32 s h.core.raw h.core.bytes s.position hp4
      have ht := Core_transfer32 s { s with
          readCache := s.readCache ||| (FromBigEndianRead 4 s s.position >>> v) } h.core
        rfl rfl rfl rfl rfl
        (Nat.or_lt_two_pow h.core.cache_lt (lt_of_le_of_lt
          (by rw [Nat.shiftRight_eq_div_pow]; exact Nat.div_le_self _ _) hB))
        (by
          intro i hi
          rw [hv'] at hi
          simp only [Int.toNat_ofNat] at hi
          show (s.readCache ||| (FromBigEndianRead 4 s s.position >>> v)).testBit (31 - i) = _
          rw [testBit_or_read32 s h.core.raw h.core.bytes hp4 v i (by omega)]
          have : ¬ v ≤ i := by omega
          simp [this])
        (by
          intro j hj
          rw [hv'] at hj ⊢
          simp only [Int.toNat_ofNat] at hj ⊢
          show (s.readCache ||| (FromBigEndianRead 4 s s.position >>> v)).testBit _ = true → _
          rw [testBit_or_read32 s h.core.raw h.core.bytes hp4 v _ hj]
          intro hbit
          by_cases hcb : s.readCache.testBit (31 - (v + j)) = true
          · have hg := h.core.garbage j (by rw [hv']; simpa using hj)
            rw [hv'] at hg
            exact hg hcb
          · have hcb' : s.readCache.testBit (31 - (v + j)) = false := by simpa using hcb
            rw [hcb'] at hbit
            have hvi : v ≤ v + j := by omega
            simp only [hvi, decide_True, Bool.true_and, Bool.false_or] at hbit
            have e1 : (v + j - v) / 8 = 0 := by omega
            have e2 : (v + j - v) % 8 = j := by omega
            rw [e1, e2, Nat.add_zero] at hbit
            have hp : s.position < s.rawData.length := by omega
            have hne := h.nff s.position (le_refl _) (by omega)
            rw [upcoming_plain32 s hp hne, List.getD_append _ _ _ _ (by simp [topBits_length]; omega),
              getD_topBits _ _ _ _ (by omega)]
            by_cases hpf : prevFF s = true
            · simp only [hpf, if_true, Nat.testBit_lor]
              rw [show 8 - 1 - j = 7 - j by omega, hbit]
              simp
            · simp only [hpf]
              rw [show 8 - 1 - j = 7 - j by omega]
              simpa using hbit)
        (by
          intro hpf
          show (s.readCache ||| (FromBigEndianRead 4 s s.position >>> v)).testBit _ = true
          rw [Nat.testBit_lor, (h.core.prev hpf).2.2.2]
          simp)
      exact ⟨⟨ht.1, h.nff_le, h.nff⟩, ht.2, rfl, rfl, rfl, le_refl _⟩
  · unfold MakeValid at hok
    rw [OptimizedRead_slow32 s hfast] at hok
    simp only [AddBytesFromStream_raw s h.core.raw] at hok
    by_cases hst : stopped s
    · rw [MakeValidLoop_stopped32 _ s hst, if_neg (by omega)] at hok
      simp only [Except.ok.injEq] at hok
      subst hok
      exact ⟨h, rfl, rfl, rfl, rfl, le_refl _⟩
    · rw [MakeValidLoop_overfull32 _ s hst hv hv32] at hok
      simp at hok

theorem MakeValid_ok32 (s s' : DecoderStrategy) (h : Inv32 s) (hok : MakeValid 4 s = .ok s') :
    Consumed32 0 s s' := by
  by_cases hv : s.validBits ≤ 24
  · obtain ⟨h1, h2⟩ := MakeValid_spec32 s h hv
    by_cases hnil : remaining32 s = []
    · rw [h1 hnil] at hok
      simp at hok
    · obtain ⟨s'', a, b, c⟩ := h2 hnil
      rw [a] at hok
      simp only [Except.ok.injEq] at hok
      subst hok
      exact ⟨c, by rw [b.rem]; rfl, b.data, b.around, b.buffer, b.posle⟩
  · exact MakeValid_overfull32 s s' h (by omega) hok

theorem ReadBit_ok32 (s s' : DecoderStrategy) (b : Bool) (h : Inv32 s)
    (hok : ReadBit 4 s = .ok (b, s')) : remaining32 s = b :: remaining32 s' ∧ Consumed32 1 s s' := by
  obtain ⟨r1, r2⟩ := ReadBit_spec32 s h
  cases hrem : remaining32 s with
  | nil =>
    rw [r1 hrem] at hok
    simp at hok
  | cons b0 rest =>
    obtain ⟨s'', a, c, d⟩ := r2 b0 rest hrem
    rw [a] at hok
    simp only [Except.ok.injEq, Prod.mk.injEq] at hok
    obtain ⟨hb, hs⟩ := hok
    subst hb hs
    exact ⟨by rw [d], c⟩

theorem testBit_shl132 (c i : Nat) (hi : i + 1 < 32) :
    ((c <<< 1) % 2 ^ 32).testBit (31 - i) = c.testBit (31 - (i + 1)) := by
  rw [testBit_skip32 c 1 i (by omega)]
  simp [hi]

theorem and_top_eq_zero_iff32 (c : Nat) : c &&& 2 ^ 31 ≠ 0 ↔ c.testBit 31 = true := by
  have := and_top_ne_zero32 c
  rw [← this]
  simp

theorem Peek0BitsLoop_found32 (fuel : Nat) : ∀ (c : Nat) (count : Int) (j : Nat), j < fuel →
    fuel ≤ 32 → (∀ i, i < j → c.testBit (31 - i) = false) → c.testBit (31 - j) = true →
    Peek0BitsLoop 4 fuel c count = count + j := by
  induction fuel with
  | zero => intro c count j hj; omega
  | succ fuel ih =>
    intro c count j hj hf hz ht
    rw [Peek0BitsLoop]
    simp only [bufType_bit_count]
    cases j with
    | zero =>
      rw [if_pos ((and_top_eq_zero_iff32 c).mpr ht)]
      simp
    | succ j =>
      have h0 : c.testBit 31 = false := hz 0 (by omega)
      rw [if_neg (by rw [and_top_eq_zero_iff32]; simp [h0])]
      rw [ih _ (count + 1) j (by omega) (by omega)]
      · push_cast; ring
      · intro i hi
        rw [testBit_shl132 c i (by omega)]
        exact hz (i + 1) (by omega)
      · rw [testBit_shl132 c j (by omega)]
        exact ht

theorem Peek0BitsLoop_none32 (fuel : Nat) : ∀ (c : Nat) (count : Int), fuel ≤ 32 →
    (∀ i, i < fuel → c.testBit (31 - i) = false) → Peek0BitsLoop 4 fuel c count = -1 := by
  induction fuel with
  | zero => intro c count _ _; rfl
  | succ fuel ih =>
    intro c count hf hz
    rw [Peek0BitsLoop]
    simp only [bufType_bit_count]
    have h0 : c.testBit 31 = false := hz 0 (by omega)
    rw [if_neg (by rw [and_top_eq_zero_iff32]; simp [h0])]
    apply ih _ _ (by omega)
    intro i hi
    rw [testBit_shl132 c i (by omega)]
    exact hz (i + 1) (by omega)

/-- The result of the loop of `Peek0Bits` on the 16 top bits of the cache. -/
theorem Peek0BitsLoop_cases32 (c : Nat) :
    (Peek0BitsLoop 4 16 c 0 = -1 ∧ ∀ i, i < 16 → c.testBit (31 - i) = false) ∨
    ∃ j : Nat, j < 16 ∧ Peek0BitsLoop 4 16 c 0 = (j : Int) ∧
      (∀ i, i < j → c.testBit (31 - i) = false) ∧ c.testBit (31 - j) = true := by
  by_cases hall : ∀ i, i < 16 → c.testBit (31 - i) = false
  · exact Or.inl ⟨Peek0BitsLoop_none32 16 c 0 (by norm_num) hall, hall⟩
  · right
    push_neg at hall
    have hex : ∃ i, i < 16 ∧ c.testBit (31 - i) = true := by
      obtain ⟨i, hi, hne⟩ := hall
      exact ⟨i, hi, by simpa using hne⟩
    classical
    refine ⟨Nat.find hex, (Nat.find_spec hex).1, ?_, ?_, (Nat.find_spec hex).2⟩
    · have := Peek0BitsLoop_found32 16 c 0 (Nat.find hex) (Nat.find_spec hex).1 (by norm_num)
        (fun i hi => by
          have := Nat.find_min hex hi
          have hi16 : i < 16 := lt_trans hi (Nat.find_spec hex).1
          simpa [hi16] using this)
        (Nat.find_spec hex).2
      simpa using this
    · intro i hi
      have := Nat.find_min hex hi
      have hi16 : i < 16 := lt_trans hi (Nat.find_spec hex).1
      simpa [hi16] using this

theorem remaining_take32 (s : DecoderStrategy) (k : Nat) (hk : (k : Int) ≤ s.validBits) :
    (remaining32 s).take k = topBits 32 s.readCache k := by
  obtain ⟨v, hv⟩ := Int.eq_ofNat_of_zero_le (show 0 ≤ s.validBits by omega)
  unfold remaining32
  rw [List.take_append_of_le_length (by rw [topBits_length, hv]; simp; omega), hv]
  simp only [Int.toNat_ofNat]
  rw [topBits_take _ _ _ _ (by omega)]

theorem zero_beyond32 (s : DecoderStrategy) (h : Core32 s) (hup : upcoming s = []) (i : Nat)
    (hv : s.validBits ≤ (i : Int)) (hi : i < 32) : s.readCache.testBit (31 - i) = false := by
  obtain ⟨v, hv'⟩ := Int.eq_ofNat_of_zero_le h.vlo
  by_contra hne
  have ht : s.readCache.testBit (31 - i) = true := by simpa using hne
  have := h.garbage (i - v) (by rw [hv']; simp; omega)
    (by rw [hv']; simp only [Int.toNat_ofNat]; rw [show v + (i - v) = i by omega]; exact ht)
  rw [hup] at this
  simp at this

theorem Peek0Bits_spec32 (s : DecoderStrategy) (h : Inv32 s) :
    (remaining32 s = [] → Peek0Bits 4 s = .error .InvalidCompressedData) ∧
    (remaining32 s ≠ [] → ∃ s1, Peek0Bits 4 s = .ok (Peek0BitsLoop 4 16 s1.readCache 0, s1) ∧
      Consumed32 0 s s1 ∧ 1 ≤ s1.validBits ∧ (16 ≤ s1.validBits ∨ upcoming s1 = [])) := by
  by_cases hlt : s.validBits < 16
  · obtain ⟨r1, r2⟩ := refill_spec32 s h 16 (by omega) (by simpa using hlt)
    constructor
    · intro hnil
      unfold Peek0Bits
      simp only [hlt, if_true, r1 hnil]
    · intro hne
      obtain ⟨s1, hMV, hR, hI, _, hup⟩ := r2 hne
      refine ⟨s1, ?_, ⟨hI, by rw [hR.rem]; rfl, hR.data, hR.around, hR.buffer, hR.posle⟩, hR.pos, ?_⟩
      · unfold Peek0Bits
        simp only [hlt, if_true, hMV]
      · by_cases h16 : (16 : Int) ≤ s1.validBits
        · exact Or.inl h16
        · exact Or.inr (hup (by simpa using (not_le.mp h16)))
  · constructor
    · intro hnil
      have := remaining_length32 s
      rw [hnil] at this
      simp at this
      omega
    · intro _
      refine ⟨s, ?_, ⟨h, rfl, rfl, rfl, rfl, le_refl _⟩, by omega, Or.inl (by omega)⟩
      unfold Peek0Bits
      simp only [hlt, if_false]

theorem ReadHighbitsLoop_total32 (fuel : Nat) :
    ∀ (s : DecoderStrategy) (hb : Int) (m : Nat) (rest : List Bool), Inv32 s →
    remaining32 s = List.replicate m false ++ true :: rest → hb + m < 2 ^ 31 → m < fuel →
    ∃ s', ReadHighbitsLoop 4 fuel s hb = .ok (hb + m, s') ∧ Consumed32 (m + 1) s s' ∧
      remaining32 s' = rest := by
  induction fuel with
  | zero => intro s hb m rest _ _ _ hf; omega
  | succ fuel ih =>
    intro s hb m rest h hrem hlt hf
    rw [ReadHighbitsLoop]
    cases m with
    | zero =>
      simp only [List.replicate_zero, List.nil_append] at hrem
      obtain ⟨s', a, b, c⟩ := (ReadBit_spec32 s h).2 true rest hrem
      rw [a]
      exact ⟨s', by simp, b, c⟩
    | succ m =>
      rw [List.replicate_succ, List.cons_append] at hrem
      obtain ⟨s1, a, b, c⟩ := (ReadBit_spec32 s h).2 false _ hrem
      rw [a]
      simp only
      have hlt' : hb + 1 + (m : Int) < 2 ^ 31 := by push_cast at hlt; omega
      have hm0 : (0 : Int) ≤ m := Int.ofNat_nonneg _
      rw [if_pos (by omega)]
      obtain ⟨s', a', b', c'⟩ := ih s1 (hb + 1) m rest b.inv c hlt' (by omega)
      refine ⟨s', ?_, ?_, c'⟩
      · rw [a']; congr 2; push_cast; ring
      · have := Consumed_trans32 _ _ s s1 s' b b'
        rwa [show 1 + (m + 1) = m + 1 + 1 by ring] at this

theorem ReadHighbitsLoop_ok32 (fuel : Nat) :
    ∀ (s s' : DecoderStrategy) (hb r : Int), Inv32 s → hb < 2 ^ 31 →
    ReadHighbitsLoop 4 fuel s hb = .ok (r, s') →
    ∃ m : Nat, r = hb + m ∧ r < 2 ^ 31 ∧
      remaining32 s = List.replicate m false ++ true :: remaining32 s' ∧ Consumed32 (m + 1) s s' := by
  induction fuel with
  | zero =>
    intro s s' hb r _ _ hok
    simp [ReadHighbitsLoop] at hok
  | succ fuel ih =>
    intro s s' hb r h hhb hok
    rw [ReadHighbitsLoop] at hok
    cases hRB : ReadBit 4 s with
    | error e => rw [hRB] at hok; simp at hok
    | ok p =>
      obtain ⟨b, s1⟩ := p
      rw [hRB] at hok
      obtain ⟨hrem, hc⟩ := ReadBit_ok32 s s1 b h hRB
      cases b with
      | true =>
        simp only [Except.ok.injEq, Prod.mk.injEq] at hok
        obtain ⟨e1, e2⟩ := hok
        subst e1 e2
        exact ⟨0, by simp, hhb, by simpa using hrem, hc⟩
      | false =>
        simp only at hok
        by_cases hov : hb + 1 < 2 ^ 31
        · rw [if_pos hov] at hok
          obtain ⟨m, e1, e2, e3, e4⟩ := ih s1 s' (hb + 1) r hc.inv hov hok
          refine ⟨m + 1, by rw [e1]; push_cast; ring, e2, ?_, ?_⟩
          · rw [hrem, e3, List.replicate_succ, List.cons_append]
          · have := Consumed_trans32 _ _ s s1 s' hc e4
            rwa [show 1 + (m + 1) = m + 1 + 1 by ring] at this
        · rw [if_neg hov] at hok
          simp at hok

theorem remaining_getD32 (s : DecoderStrategy) (i : Nat) (hi : (i : Int) < s.validBits) :
    (remaining32 s).getD i false = s.readCache.testBit (31 - i) := by
  obtain ⟨v, hv⟩ := Int.eq_ofNat_of_zero_le (show 0 ≤ s.validBits by omega)
  unfold remaining32
  rw [hv]
  simp only [Int.toNat_ofNat]
  rw [List.getD_append _ _ _ _ (by rw [topBits_length]; omega), getD_topBits _ _ _ _ (by omega)]

theorem ReadHighbitsLoop_dead32 (s : DecoderStrategy) (hraw : s.byteStream = none)
    (hst : stopped s) (hslow : ¬ (s.position : Int) < s.nextFFPosition - 3)
    (hv : s.validBits ≤ 0) (fuel : Nat) (hb : Int) :
    ReadHighbitsLoop 4 fuel s hb = .error .OutOfFuel ∨
    ReadHighbitsLoop 4 fuel s hb = .error .InvalidCompressedData := by
  cases fuel with
  | zero => left; rfl
  | succ fuel =>
    right
    rw [ReadHighbitsLoop]
    have : ReadBit 4 s = .error .InvalidCompressedData := by
      unfold ReadBit
      simp only [hv, if_true, MakeValid_stopped_empty32 s hraw hst hslow hv]
    rw [this]

theorem peek_getD32 (s1 : DecoderStrategy) (h : Inv32 s1)
    (hfull : 16 ≤ s1.validBits ∨ upcoming s1 = []) (i : Nat) (hi : i < 16) :
    (remaining32 s1).getD i false = s1.readCache.testBit (31 - i) := by
  by_cases hiv : (i : Int) < s1.validBits
  · exact remaining_getD32 s1 i hiv
  · have hup : upcoming s1 = [] := by
      rcases hfull with h16 | hup
      · omega
      · exact hup
    rw [zero_beyond32 s1 h.core hup i (by omega) (by omega)]
    apply List.getD_eq_default
    rw [remaining_length32, hup]
    have := h.core.vlo
    simp only [List.length_nil, Nat.add_zero]
    omega

theorem ReadHighbits_short32 (fuel : Nat) (s s1 s2 : DecoderStrategy) (count : Int)
    (hP : Peek0Bits 4 s = .ok (count, s1)) (hc : count ≥ 0)
    (hS : Skip 4 s1 (count + 1) = .ok s2) : ReadHighbits 4 fuel s = .ok (count, s2) := by
  unfold ReadHighbits
  rw [hP]
  simp only [hc, if_true, hS]

theorem ReadHighbits_long32 (fuel : Nat) (s s1 s2 : DecoderStrategy) (count : Int)
    (hP : Peek0Bits 4 s = .ok (count, s1)) (hc : ¬ count ≥ 0)
    (hS : Skip 4 s1 15 = .ok s2) : ReadHighbits 4 fuel s = ReadHighbitsLoop 4 fuel s2 15 := by
  unfold ReadHighbits
  rw [hP]
  simp only [hc, if_false, hS]

theorem ReadHighbits_total32 (fuel : Nat) (s : DecoderStrategy) (n : Nat) (rest : List Bool)
    (h : Inv32 s) (hrem : remaining32 s = List.replicate n false ++ true :: rest)
    (hn : n < 2 ^ 31) (hfuel : n < 16 ∨ n < fuel + 15) :
    ∃ s', ReadHighbits 4 fuel s = .ok ((n : Int), s') ∧ Consumed32 (n + 1) s s' ∧
      remaining32 s' = rest := by
  obtain ⟨s1, hP, hC, hv1, hfull⟩ := (Peek0Bits_spec32 s h).2 (by rw [hrem]; simp)
  have hR : remaining32 s1 = List.replicate n false ++ true :: rest := by
    rw [hC.rem, hrem]; rfl
  rcases Peek0BitsLoop_cases32 s1.readCache with ⟨hm1, hz⟩ | ⟨j, hj, hcnt, hz, ht⟩
  · -- more than 15 zeros: the loop
    have hn16 : 16 ≤ n := by
      by_contra hlt
      have := hz n (by omega)
      rw [← peek_getD32 s1 hC.inv hfull n (by omega), hR, lz_getD_eq] at this
      exact absurd this (by simp)
    have hv16 : (16 : Int) ≤ s1.validBits := by
      rcases hfull with h16 | hup
      · exact h16
      · have := remaining_length32 s1
        rw [hup, hR] at this
        simp at this
        have := hC.inv.core.vlo
        omega
    obtain ⟨s2, e1, e2, _⟩ := Skip_spec32 s1 hC.inv 15 (by simpa using (show (15 : Int) ≤ s1.validBits by omega))
      (by norm_num)
    simp only [Nat.cast_ofNat] at e1
    rw [hm1] at hP
    rw [ReadHighbits_long32 fuel s s1 s2 _ hP (by norm_num) e1]
    have hR2 : remaining32 s2 = List.replicate (n - 15) false ++ true :: rest := by
      rw [e2.rem, hR, List.drop_append_of_le_length (by simp; omega), List.drop_replicate]
    obtain ⟨s', a, b, c⟩ := ReadHighbitsLoop_total32 fuel s2 15 (n - 15) rest e2.inv hR2
      (by push_cast; omega) (by omega)
    refine ⟨s', ?_, ?_, c⟩
    · rw [a]; congr 2; omega
    · have := Consumed_trans32 _ _ s1 s2 s' e2 b
      rw [show 15 + (n - 15 + 1) = n + 1 by omega] at this
      exact ⟨this.inv, by rw [this.rem, hC.rem]; rfl, this.data.trans hC.data,
        this.around.trans hC.around, this.buffer.trans hC.buffer, le_trans hC.posle this.posle⟩
  · -- at most 15 zeros
    have hjn : j = n := by
      apply lz_unique n j rest (remaining32 s1) hR
      · rw [peek_getD32 s1 hC.inv hfull j hj]; exact ht
      · intro i hi
        rw [peek_getD32 s1 hC.inv hfull i (by omega)]; exact hz i hi
    subst hjn
    have hjv : (j : Int) < s1.validBits := by
      by_contra hge
      have hup : upcoming s1 = [] := by
        rcases hfull with h16 | hup
        · omega
        · exact hup
      rw [zero_beyond32 s1 hC.inv.core hup j (by omega) (by omega)] at ht
      exact absurd ht (by simp)
    obtain ⟨s2, e1, e2, _⟩ := Skip_spec32 s1 hC.inv (j + 1) (by push_cast; omega) (by omega)
    simp only [Nat.cast_add, Nat.cast_one] at e1
    rw [hcnt] at hP
    refine ⟨s2, ReadHighbits_short32 fuel s s1 s2 _ hP (Int.ofNat_nonneg _) e1, ?_, ?_⟩
    · exact ⟨e2.inv, by rw [e2.rem, hC.rem]; rfl, e2.data.trans hC.data,
        e2.around.trans hC.around, e2.buffer.trans hC.buffer, le_trans hC.posle e2.posle⟩
    · rw [e2.rem, hR]
      rw [show List.replicate j false ++ true :: rest = (List.replicate j false ++ [true]) ++ rest by simp]
      exact List.drop_left' (by simp)

theorem ReadHighbits_peek_error32 (fuel : Nat) (s : DecoderStrategy) (e : Fault)
    (hP : Peek0Bits 4 s = .error e) : ReadHighbits 4 fuel s = .error e := by
  unfold ReadHighbits
  rw [hP]

theorem remaining_split_zeros32 (s1 s2 : DecoderStrategy) (k : Nat)
    (hk : (k : Int) ≤ s1.validBits) (hz : ∀ i, i < k → s1.readCache.testBit (31 - i) = false)
    (hrem : remaining32 s2 = (remaining32 s1).drop k) :
    remaining32 s1 = List.replicate k false ++ remaining32 s2 := by
  rw [hrem, ← topBits_eq_replicate 32 s1.readCache k (fun i hi => by
    rw [show 32 - 1 - i = 31 - i by omega]; exact hz i hi), ← remaining_take32 s1 k hk,
    List.take_append_drop]

theorem Skip_fields32 (s : DecoderStrategy) (k : Nat) (hk : k < 32) :
    ∃ s2, Skip 4 s (k : Int) = .ok s2 ∧ s2.validBits = s.validBits - k ∧
      s2.position = s.position ∧ s2.nextFFPosition = s.nextFFPosition ∧
      s2.byteStream = s.byteStream ∧ s2.rawData = s.rawData ∧ s2.endPosition = s.endPosition ∧
      s2.around = s.around ∧ s2.buffer = s.buffer :=
  ⟨_, Skip_eq32 s k hk, rfl, rfl, rfl, rfl, rfl, rfl, rfl, rfl⟩

theorem ReadHighbits_ok32 (fuel : Nat) (s s' : DecoderStrategy) (r : Int) (h : Inv32 s)
    (hok : ReadHighbits 4 fuel s = .ok (r, s')) :
    ∃ n : Nat, r = n ∧ n < 2 ^ 31 ∧
      remaining32 s = List.replicate n false ++ true :: remaining32 s' ∧ Consumed32 (n + 1) s s' := by
  by_cases hnil : remaining32 s = []
  · rw [ReadHighbits_peek_error32 fuel s _ ((Peek0Bits_spec32 s h).1 hnil)] at hok
    simp at hok
  obtain ⟨s1, hP, hC, hv1, hfull⟩ := (Peek0Bits_spec32 s h).2 hnil
  have hrem1 : remaining32 s1 = remaining32 s := by rw [hC.rem]; rfl
  rcases Peek0BitsLoop_cases32 s1.readCache with ⟨hm1, hz⟩ | ⟨j, hj, hcnt, hz, ht⟩
  · rw [hm1] at hP
    by_cases h15 : (15 : Int) ≤ s1.validBits
    · obtain ⟨s2, e1, e2, _⟩ := Skip_spec32 s1 hC.inv 15 (by simpa using h15) (by norm_num)
      simp only [Nat.cast_ofNat] at e1
      rw [ReadHighbits_long32 fuel s s1 s2 _ hP (by norm_num) e1] at hok
      obtain ⟨m, a1, a2, a3, a4⟩ := ReadHighbitsLoop_ok32 fuel s2 s' 15 r e2.inv (by norm_num) hok
      refine ⟨15 + m, by rw [a1]; push_cast; ring, ?_, ?_, ?_⟩
      · have : (0 : Int) ≤ m := Int.ofNat_nonneg _
        have h2 : ((15 + m : Nat) : Int) < 2 ^ 31 := by push_cast; omega
        exact_mod_cast h2
      · rw [← hrem1, remaining_split_zeros32 s1 s2 15 (by simpa using h15)
          (fun i hi => hz i (by omega)) e2.rem, a3, ← List.append_assoc, ← List.replicate_add]
      · have := Consumed_trans32 _ _ s1 s2 s' e2 a4
        rw [show 15 + (m + 1) = 15 + m + 1 by ring] at this
        exact ⟨this.inv, by rw [this.rem, hC.rem]; rfl, this.data.trans hC.data,
          this.around.trans hC.around, this.buffer.trans hC.buffer, le_trans hC.posle this.posle⟩
    · exfalso
      have hup : upcoming s1 = [] := by
        rcases hfull with h16 | hup
        · omega
        · exact hup
      have hst : stopped s1 := (stopped_iff32 s1 hC.inv.core).mpr hup
      have hslow := stopped_not_fast32 s1 hC.inv hst
      obtain ⟨s2, e1, f1, f2, f3, f4, f5, f6, f7, f8⟩ := Skip_fields32 s1 15 (by norm_num)
      simp only [Nat.cast_ofNat] at e1 f1
      rw [ReadHighbits_long32 fuel s s1 s2 _ hP (by norm_num) e1] at hok
      rcases ReadHighbitsLoop_dead32 s2 (f4.trans hC.inv.core.raw)
          (stopped_congr s1 s2 f4 f5 f6 f2 f7 f8 hst) (by rw [f2, f3]; exact hslow)
          (by rw [f1]; omega) fuel 15 with hd | hd
      · rw [hd] at hok; simp at hok
      · rw [hd] at hok; simp at hok
  · rw [hcnt] at hP
    have hjv : (j : Int) < s1.validBits := by
      by_contra hge
      have hup : upcoming s1 = [] := by
        rcases hfull with h16 | hup
        · omega
        · exact hup
      rw [zero_beyond32 s1 hC.inv.core hup j (by omega) (by omega)] at ht
      exact absurd ht (by simp)
    obtain ⟨s2, e1, e2, _⟩ := Skip_spec32 s1 hC.inv (j + 1) (by push_cast; omega) (by omega)
    simp only [Nat.cast_add, Nat.cast_one] at e1
    rw [ReadHighbits_short32 fuel s s1 s2 _ hP (Int.ofNat_nonneg _) e1] at hok
    simp only [Except.ok.injEq, Prod.mk.injEq] at hok
    obtain ⟨hr, hs⟩ := hok
    subst hs
    refine ⟨j, hr.symm, by omega, ?_, ?_⟩
    · rw [← hrem1, ← List.take_append_drop (j + 1) (remaining32 s1), ← e2.rem,
        remaining_take32 s1 (j + 1) (by push_cast; omega), topBits_succ,
        topBits_eq_replicate 32 _ j (fun i hi => by
          rw [show 32 - 1 - i = 31 - i by omega]; exact hz i hi),
        show 32 - 1 - j = 31 - j by omega, ht]
      simp
    · exact ⟨e2.inv, by rw [e2.rem, hC.rem]; rfl, e2.data.trans hC.data,
        e2.around.trans hC.around, e2.buffer.trans hC.buffer, le_trans hC.posle e2.posle⟩

theorem EndScan_at_marker32 (s : DecoderStrategy)
    (h : byteAt s s.position = JpegMarkerCode_Start) :
    EndScan 4 s = if s.readCache ≠ 0 then .error .TooMuchCompressedData else .ok s := by
  unfold EndScan
  simp only [h, ne_eq, not_true_eq_false, if_false]

theorem EndScan_readBit_error32 (s : DecoderStrategy) (e : Fault)
    (h : byteAt s s.position ≠ JpegMarkerCode_Start) (hRB : ReadBit 4 s = .error e) :
    EndScan 4 s = .error e := by
  unfold EndScan
  simp only [h, ne_eq, not_false_eq_true, if_true, hRB]

theorem EndScan_readBit_ok32 (s s1 : DecoderStrategy) (b : Bool)
    (h : byteAt s s.position ≠ JpegMarkerCode_Start) (hRB : ReadBit 4 s = .ok (b, s1)) :
    EndScan 4 s =
      if byteAt s1 s1.position ≠ JpegMarkerCode_Start then .error .TooMuchCompressedData
      else if s1.readCache ≠ 0 then .error .TooMuchCompressedData else .ok s1 := by
  unfold EndScan
  simp only [h, ne_eq, not_false_eq_true, if_true, hRB]
  by_cases h1 : byteAt s1 s1.position = JpegMarkerCode_Start
  · simp only [h1, not_true_eq_false, if_false]
  · simp only [h1, not_false_eq_true, if_true]

theorem EndScan_ok32 (s s' : DecoderStrategy) (h : Inv32 s) (hok : EndScan 4 s = .ok s') :
    Consumed32 (endScanBits s) s s' := by
  unfold endScanBits
  by_cases hm : byteAt s s.position = JpegMarkerCode_Start
  · rw [EndScan_at_marker32 s hm] at hok
    rw [if_pos hm]
    by_cases hc : s.readCache ≠ 0
    · rw [if_pos hc] at hok; simp at hok
    · rw [if_neg hc] at hok
      simp only [Except.ok.injEq] at hok
      subst hok
      exact ⟨h, rfl, rfl, rfl, rfl, le_refl _⟩
  · rw [if_neg hm]
    cases hRB : ReadBit 4 s with
    | error e => rw [EndScan_readBit_error32 s e hm hRB] at hok; simp at hok
    | ok p =>
      obtain ⟨b, s1⟩ := p
      rw [EndScan_readBit_ok32 s s1 b hm hRB] at hok
      by_cases h1 : byteAt s1 s1.position ≠ JpegMarkerCode_Start
      · rw [if_pos h1] at hok; simp at hok
      · rw [if_neg h1] at hok
        by_cases hc : s1.readCache ≠ 0
        · rw [if_pos hc] at hok; simp at hok
        · rw [if_neg hc] at hok
          simp only [Except.ok.injEq] at hok
          subst hok
          exact (ReadBit_ok32 s s1 b h hRB).2

theorem ReadValue_ok32 (s s' : DecoderStrategy) (k : Nat) (x : Int) (h : Inv32 s) (hk1 : 1 ≤ k)
    (hk : k ≤ 31) (hok : ReadValue 4 s k = .ok (x, s')) :
    k ≤ (remaining32 s).length ∧ x = (bitsValue ((remaining32 s).take k) : Int) ∧
      Consumed32 k s s' := by
  by_cases hlt : s.validBits < (k : Int)
  · cases hM : MakeValid 4 s with
    | error e =>
      unfold ReadValue at hok
      simp only [hlt, if_true, hM] at hok
      simp at hok
    | ok s1 =>
      have hc0 := MakeValid_ok32 s s1 h hM
      by_cases hkv : s1.validBits < (k : Int)
      · unfold ReadValue at hok
        simp only [hlt, if_true, hM, if_pos hkv] at hok
        simp at hok
      · have hkv' : (k : Int) ≤ s1.validBits := not_lt.mp hkv
        obtain ⟨s2, e1, e2, _⟩ := ReadValue_tail32 s1 hc0.inv k hk1 hk hkv'
        rw [ReadValue_refill32 s s1 k hlt hM hkv', e1] at hok
        simp only [Except.ok.injEq, Prod.mk.injEq] at hok
        obtain ⟨e3, e4⟩ := hok
        subst e3 e4
        have hrem : remaining32 s1 = remaining32 s := by rw [hc0.rem]; rfl
        have hlen := remaining_length32 s1
        have hct := Consumed_trans32 0 k s s1 s2 hc0 e2
        rw [Nat.zero_add] at hct
        rw [hrem] at hlen
        exact ⟨by omega, by rw [hrem], hct⟩
  · have hkv : (k : Int) ≤ s.validBits := not_lt.mp hlt
    obtain ⟨s2, e1, e2, _⟩ := ReadValue_tail32 s h k hk1 hk hkv
    rw [e1] at hok
    simp only [Except.ok.injEq, Prod.mk.injEq] at hok
    obtain ⟨e3, e4⟩ := hok
    subst e3 e4
    have hlen := remaining_length32 s
    exact ⟨by omega, rfl, e2⟩

theorem ReadLongValue_ok32 (s s' : DecoderStrategy) (k : Nat) (x : Int) (h : Inv32 s) (hk1 : 1 ≤ k)
    (hk : k ≤ 32) (hok : ReadLongValue 4 s k = .ok (x, s')) :
    k ≤ (remaining32 s).length ∧ x = toInt32 (bitsValue ((remaining32 s).take k) : Int) ∧
      Consumed32 k s s' := by
  obtain ⟨r1, r2⟩ := ReadLongValue_spec32 s h k hk1 hk
  by_cases hle : k ≤ (remaining32 s).length
  · obtain ⟨s'', a, b⟩ := r1 hle
    rw [a] at hok
    simp only [Except.ok.injEq, Prod.mk.injEq] at hok
    obtain ⟨e1, e2⟩ := hok
    subst e1 e2
    exact ⟨hle, rfl, b⟩
  · rw [r2 (by omega)] at hok
    simp at hok

theorem PeekByte_ok32 (s s' : DecoderStrategy) (x : Int) (h : Inv32 s)
    (hok : PeekByte 4 s = .ok (x, s')) : Consumed32 0 s s' := by
  obtain ⟨r1, r2⟩ := PeekByte_spec32 s h
  by_cases hnil : remaining32 s = []
  · rw [r1 hnil] at hok; simp at hok
  · obtain ⟨x', s'', a, b, _⟩ := r2 hnil
    rw [a] at hok
    simp only [Except.ok.injEq, Prod.mk.injEq] at hok
    obtain ⟨_, e2⟩ := hok
    subst e2
    exact b

theorem Tracks_step32 (info : ByteStreamInfo) (n k : Nat) (s s' : DecoderStrategy)
    (h : Tracks32 info n s) (hc : Consumed32 k s s') (hk : k ≤ (remaining32 s).length) :
    Tracks32 info (n + k) s' := by
  refine ⟨hc.inv, by rw [hc.rem, h.rem, List.drop_drop], ?_, hc.data.trans h.data,
    hc.around.trans h.around⟩
  have := h.rem ▸ hk
  rw [List.length_drop] at this
  have := h.le
  omega

theorem Reach_tracks32 (info : ByteStreamInfo) (hraw : RawInput info) (n : Nat)
    (s : DecoderStrategy) (hr : Reach32 info n s) : Tracks32 info n s := by
  induction hr with
  | init s0 s hInit =>
    obtain ⟨r1, r2⟩ := Init_spec32 s0 info hraw.1 hraw.2
    by_cases hnil : destuffed info.rawData = []
    · rw [r1 hnil] at hInit; simp at hInit
    · obtain ⟨s', a, b, c, d, e, _⟩ := r2 hnil
      rw [a] at hInit
      simp only [Except.ok.injEq] at hInit
      subst hInit
      exact ⟨b, by rw [c]; rfl, Nat.zero_le _, d, e⟩
  | makeValid n s s' _ hok ih =>
    exact Tracks_step32 info n 0 s s' ih (MakeValid_ok32 s s' ih.inv hok) (Nat.zero_le _)
  | readValue n s s' k x _ hk1 hk hok ih =>
    obtain ⟨a, _, c⟩ := ReadValue_ok32 s s' k x ih.inv hk1 hk hok
    exact Tracks_step32 info n k s s' ih c a
  | peekByte n s s' x _ hok ih =>
    exact Tracks_step32 info n 0 s s' ih (PeekByte_ok32 s s' x ih.inv hok) (Nat.zero_le _)
  | readBit n s s' b _ hok ih =>
    obtain ⟨a, c⟩ := ReadBit_ok32 s s' b ih.inv hok
    exact Tracks_step32 info n 1 s s' ih c (by rw [a]; simp)
  | readHighbits n s s' fuel x _ hok ih =>
    obtain ⟨m, a, _, c, d⟩ := ReadHighbits_ok32 fuel s s' x ih.inv hok
    subst a
    simp only [Int.toNat_ofNat]
    exact Tracks_step32 info n (m + 1) s s' ih d (by rw [c]; simp)
  | readLongValue n s s' k x _ hk1 hk hok ih =>
    obtain ⟨a, _, c⟩ := ReadLongValue_ok32 s s' k x ih.inv hk1 hk hok
    exact Tracks_step32 info n k s s' ih c a
  | endScan n s s' _ hok ih =>
    have hc := EndScan_ok32 s s' ih.inv hok
    refine Tracks_step32 info n _ s s' ih hc ?_
    unfold endScanBits at *
    by_cases hm : byteAt s s.position = JpegMarkerCode_Start
    · rw [if_pos hm]; exact Nat.zero_le _
    · rw [if_neg hm]
      rw [if_neg hm] at hc
      cases hRB : ReadBit 4 s with
      | error e => rw [EndScan_readBit_error32 s e hm hRB] at hok; simp at hok
      | ok p =>
        obtain ⟨b, s1⟩ := p
        rw [(ReadBit_ok32 s s1 b ih.inv hRB).1]
        simp

theorem readValues_spec32 (ks : List Nat) : ∀ (s : DecoderStrategy), Inv32 s →
    (∀ k ∈ ks, 1 ≤ k ∧ k ≤ 24) → ks.sum ≤ (remaining32 s).length →
    ∃ s', readValues 4 s ks = .ok (chunkValues (remaining32 s) ks, s') ∧
      Consumed32 ks.sum s s' := by
  induction ks with
  | nil =>
    intro s h _ _
    exact ⟨s, rfl, ⟨h, rfl, rfl, rfl, rfl, le_refl _⟩⟩
  | cons k ks ih =>
    intro s h hk hsum
    rw [List.sum_cons] at hsum
    obtain ⟨hk1, hk31⟩ := hk k (List.mem_cons_self _ _)
    obtain ⟨s1, a, b⟩ := (ReadValue_spec32 s h k hk1 hk31).1 (by omega)
    obtain ⟨s2, a2, b2⟩ := ih s1 b.inv (fun x hx => hk x (List.mem_cons_of_mem _ hx))
      (by rw [b.rem, List.length_drop]; omega)
    refine ⟨s2, ?_, ?_⟩
    · rw [readValues, a]
      simp only [a2]
      rw [chunkValues, b.rem]
    · rw [List.sum_cons]
      exact Consumed_trans32 _ _ s s1 s2 b b2

theorem MakeValid_bytewise (sz : Nat) (s : DecoderStrategy) :
    MakeValid sz s =
      match OptimizedRead sz s with
      | .error e => .error e
      | .ok (true, s1) => .ok s1
      | .ok (false, s1) => MakeValidBytewise sz s1 := by
  unfold MakeValid MakeValidBytewise
  rfl

theorem padded_getD (s : DecoderStrategy) (h : Inv s) (i : Nat) (hi : i < 64)
    (hfull : (i : Int) < s.validBits ∨ upcoming s = []) :
    (remaining s).getD i false = s.readCache.testBit (63 - i) := by
  by_cases hiv : (i : Int) < s.validBits
  · exact remaining_getD s i hiv
  · have hup : upcoming s = [] := by
      rcases hfull with h16 | hup
      · omega
      · exact hup
    rw [zero_beyond s h.core hup i (by omega) hi]
    apply List.getD_eq_default
    rw [remaining_length, hup]
    have := h.core.vlo
    simp only [List.length_nil, Nat.add_zero]
    omega

theorem ReadValue_agree (s t : DecoderStrategy) (h : SameStream s t) (k : Nat) (hk1 : 1 ≤ k)
    (hk : k ≤ 31) : Agree SameStream (ReadValue 8 s k) (ReadValue 8 t k) := by
  obtain ⟨hs, ht, hr⟩ := h
  obtain ⟨a1, a2⟩ := ReadValue_spec s hs k hk1 hk
  obtain ⟨b1, b2⟩ := ReadValue_spec t ht k hk1 hk
  by_cases hle : k ≤ (remaining s).length
  · obtain ⟨s', e1, c1⟩ := a1 hle
    obtain ⟨t', e2, c2⟩ := b1 (by rw [← hr]; exact hle)
    rw [e1, e2]
    exact ⟨by rw [hr], c1.inv, c2.inv, by rw [c1.rem, c2.rem, hr]⟩
  · rw [a2 (by omega), b2 (by rw [← hr]; omega)]
    exact rfl

theorem ReadBit_agree (s t : DecoderStrategy) (h : SameStream s t) :
    Agree SameStream (ReadBit 8 s) (ReadBit 8 t) := by
  obtain ⟨hs, ht, hr⟩ := h
  obtain ⟨a1, a2⟩ := ReadBit_spec s hs
  obtain ⟨b1, b2⟩ := ReadBit_spec t ht
  cases hrem : remaining s with
  | nil =>
    rw [a1 hrem, b1 (by rw [← hr]; exact hrem)]
    exact rfl
  | cons b rest =>
    obtain ⟨s', e1, c1, d1⟩ := a2 b rest hrem
    obtain ⟨t', e2, c2, d2⟩ := b2 b rest (by rw [← hr]; exact hrem)
    rw [e1, e2]
    exact ⟨rfl, c1.inv, c2.inv, by rw [d1, d2]⟩

theorem ReadLongValue_agree (s t : DecoderStrategy) (h : SameStream s t) (k : Nat)
    (hk1 : 1 ≤ k) (hk : k ≤ 32) :
    Agree SameStream (ReadLongValue 8 s k) (ReadLongValue 8 t k) := by
  obtain ⟨hs, ht, hr⟩ := h
  obtain ⟨a1, a2⟩ := ReadLongValue_spec s hs k hk1 hk
  obtain ⟨b1, b2⟩ := ReadLongValue_spec t ht k hk1 hk
  by_cases hle : k ≤ (remaining s).length
  · obtain ⟨s', e1, c1⟩ := a1 hle
    obtain ⟨t', e2, c2⟩ := b1 (by rw [← hr]; exact hle)
    rw [e1, e2]
    exact ⟨by rw [hr], c1.inv, c2.inv, by rw [c1.rem, c2.rem, hr]⟩
  · rw [a2 (by omega), b2 (by rw [← hr]; omega)]
    exact rfl

theorem PeekByte_eq (s : DecoderStrategy) (h : Inv s) (hne : remaining s ≠ []) :
    ∃ s1, PeekByte 8 s = .ok (toInt32 ((s1.readCache >>> 56 : Nat) : Int), s1) ∧
      Consumed 0 s s1 ∧ (8 ≤ s1.validBits ∨ upcoming s1 = []) := by
  have hsz : sizeT 8 ((bufType_bit_count 8 : Int) - 8) = ((56 : Nat) : Int) := by
    simp only [sizeT, bufType_bit_count]
    norm_num
  have hsh : ∀ c, shiftRight 8 c ((56 : Nat) : Int) = .ok (c >>> 56) := by
    intro c
    unfold shiftRight bufType_bit_count
    rw [if_pos (by constructor <;> norm_num)]
    simp
  by_cases hlt : s.validBits < 8
  · obtain ⟨_, r2⟩ := refill_spec s h 8 (by omega) (by simpa using hlt)
    obtain ⟨s1, hMV, hR, hI, _, hup⟩ := r2 hne
    refine ⟨s1, ?_, ⟨hI, by rw [hR.rem]; rfl, hR.data, hR.around, hR.buffer, hR.posle⟩, ?_⟩
    · unfold PeekByte
      simp only [hlt, if_true, hMV, hsz, hsh]
    · by_cases h8 : (8 : Int) ≤ s1.validBits
      · exact Or.inl h8
      · exact Or.inr (hup (by simpa using (not_le.mp h8)))
  · refine ⟨s, ?_, ⟨h, rfl, rfl, rfl, rfl, le_refl _⟩, Or.inl (by omega)⟩
    unfold PeekByte
    simp only [hlt, if_false, hsz, hsh]

theorem top_shift_congr (c1 c2 k : Nat) (hk : k ≤ 64) (h1 : c1 < 2 ^ 64) (h2 : c2 < 2 ^ 64)
    (h : ∀ i, i < k → c1.testBit (63 - i) = c2.testBit (63 - i)) :
    c1 >>> (64 - k) = c2 >>> (64 - k) := by
  rw [← bitsValue_topBits 64 c1 k hk h1, ← bitsValue_topBits 64 c2 k hk h2,
    topBits_congr 64 c1 c2 k (fun i hi => by
      rw [show 64 - 1 - i = 63 - i by omega]; exact h i hi)]

theorem PeekByte_agree (s t : DecoderStrategy) (h : SameStream s t) :
    Agree SameStream (PeekByte 8 s) (PeekByte 8 t) := by
  obtain ⟨hs, ht, hr⟩ := h
  by_cases hnil : remaining s = []
  · rw [(PeekByte_spec s hs).1 hnil, (PeekByte_spec t ht).1 (by rw [← hr]; exact hnil)]
    exact rfl
  · obtain ⟨s1, e1, c1, f1⟩ := PeekByte_eq s hs hnil
    obtain ⟨t1, e2, c2, f2⟩ := PeekByte_eq t ht (by rw [← hr]; exact hnil)
    have hr1 : remaining s1 = remaining t1 := by rw [c1.rem, c2.rem, hr]
    rw [e1, e2]
    refine ⟨?_, c1.inv, c2.inv, hr1⟩
    have := top_shift_congr s1.readCache t1.readCache 8 (by norm_num) c1.inv.core.cache_lt
      c2.inv.core.cache_lt (fun i hi => by
        rw [← padded_getD s1 c1.inv i (by omega) (by
            rcases f1 with f | f
            · left; omega
            · right; exact f),
          ← padded_getD t1 c2.inv i (by omega) (by
            rcases f2 with f | f
            · left; omega
            · right; exact f), hr1])
    rw [show 64 - 8 = 56 by norm_num] at this
    rw [this]

theorem Peek0BitsLoop_congr (c1 c2 : Nat)
    (h : ∀ i, i < 16 → c1.testBit (63 - i) = c2.testBit (63 - i)) :
    Peek0BitsLoop 8 16 c1 0 = Peek0BitsLoop 8 16 c2 0 := by
  rcases Peek0BitsLoop_cases c1 with ⟨a1, a2⟩ | ⟨j, hj, a1, a2, a3⟩
  · rcases Peek0BitsLoop_cases c2 with ⟨b1, _⟩ | ⟨j', hj', _, _, b3⟩
    · rw [a1, b1]
    · rw [← h j' hj', a2 j' hj'] at b3
      exact absurd b3 (by simp)
  · rcases Peek0BitsLoop_cases c2 with ⟨_, b2⟩ | ⟨j', hj', b1, b2, b3⟩
    · rw [h j hj, b2 j hj] at a3
      exact absurd a3 (by simp)
    · have : j = j' := by
        rcases Nat.lt_trichotomy j j' with hlt | heq | hgt
        · rw [h j hj, b2 j hlt] at a3
          exact absurd a3 (by simp)
        · exact heq
        · rw [← h j' hj', a2 j' hgt] at b3
          exact absurd b3 (by simp)
      rw [a1, b1, this]

theorem ReadHighbitsLoop_agree (fuel : Nat) : ∀ (s t : DecoderStrategy) (hb : Int),
    SameStream s t →
    Agree SameStream (ReadHighbitsLoop 8 fuel s hb) (ReadHighbitsLoop 8 fuel t hb) := by
  induction fuel with
  | zero => intro s t hb _; exact rfl
  | succ fuel ih =>
    intro s t hb h
    have hB := ReadBit_agree s t h
    rw [ReadHighbitsLoop, ReadHighbitsLoop]
    cases h1 : ReadBit 8 s with
    | error e1 =>
      cases h2 : ReadBit 8 t with
      | error e2 =>
        rw [h1, h2] at hB
        exact hB
      | ok q => rw [h1, h2] at hB; exact absurd hB (by simp [Agree])
    | ok p =>
      cases h2 : ReadBit 8 t with
      | error e2 => rw [h1, h2] at hB; exact absurd hB (by simp [Agree])
      | ok q =>
        obtain ⟨b1, s1⟩ := p
        obtain ⟨b2, t1⟩ := q
        rw [h1, h2] at hB
        obtain ⟨hb12, hS⟩ := hB
        subst hb12
        cases b1 with
        | true => exact ⟨rfl, hS⟩
        | false =>
          simp only
          by_cases hov : hb + 1 < 2 ^ 31
          · rw [if_pos hov, if_pos hov]
            exact ih s1 t1 (hb + 1) hS
          · rw [if_neg hov, if_neg hov]
            exact rfl

theorem ReadHighbitsLoop_dead_eq (s : DecoderStrategy) (hraw : s.byteStream = none)
    (hst : stopped s) (hslow : ¬ (s.position : Int) < s.nextFFPosition - 7)
    (hv : s.validBits ≤ 0) (fuel : Nat) (hb : Int) :
    ReadHighbitsLoop 8 fuel s hb =
      if fuel = 0 then .error .OutOfFuel else .error .InvalidCompressedData := by
  cases fuel with
  | zero => rfl
  | succ fuel =>
    rw [if_neg (by omega), ReadHighbitsLoop]
    have : ReadBit 8 s = .error .InvalidCompressedData := by
      unfold ReadBit
      simp only [hv, if_true, MakeValid_stopped_empty s hraw hst hslow hv]
    rw [this]

theorem ReadHighbits_dead (fuel : Nat) (s s1 : DecoderStrategy) (hI : Inv s1)
    (hP : Peek0Bits 8 s = .ok (-1, s1)) (hup : upcoming s1 = []) (hv : s1.validBits < 15) :
    ReadHighbits 8 fuel s =
      if fuel = 0 then .error .OutOfFuel else .error .InvalidCompressedData := by
  have hst : stopped s1 := (stopped_iff s1 hI.core).mpr hup
  have hslow := stopped_not_fast s1 hI hst
  obtain ⟨s2, e1, f1, f2, f3, f4, f5, f6, f7, f8⟩ := Skip_fields s1 15 (by norm_num)
  simp only [Nat.cast_ofNat] at e1 f1
  rw [ReadHighbits_long fuel s s1 s2 _ hP (by norm_num) e1]
  exact ReadHighbitsLoop_dead_eq s2 (f4.trans hI.core.raw)
    (stopped_congr s1 s2 f4 f5 f6 f2 f7 f8 hst) (by rw [f2, f3]; exact hslow)
    (by rw [f1]; omega) fuel 15

theorem ReadHighbits_agree (fuel : Nat) (s t : DecoderStrategy) (h : SameStream s t) :
    Agree SameStream (ReadHighbits 8 fuel s) (ReadHighbits 8 fuel t) := by
  obtain ⟨hs, ht, hr⟩ := h
  by_cases hnil : remaining s = []
  · rw [ReadHighbits_peek_error fuel s _ ((Peek0Bits_spec s hs).1 hnil),
      ReadHighbits_peek_error fuel t _ ((Peek0Bits_spec t ht).1 (by rw [← hr]; exact hnil))]
    exact rfl
  obtain ⟨s1, hP, hC, _, hfull⟩ := (Peek0Bits_spec s hs).2 hnil
  obtain ⟨t1, hP', hC', _, hfull'⟩ := (Peek0Bits_spec t ht).2 (by rw [← hr]; exact hnil)
  have hr1 : remaining s1 = remaining t1 := by rw [hC.rem, hC'.rem, hr]
  have hbits : ∀ i, i < 16 → s1.readCache.testBit (63 - i) = t1.readCache.testBit (63 - i) := by
    intro i hi
    rw [← peek_getD s1 hC.inv hfull i hi, ← peek_getD t1 hC'.inv hfull' i hi, hr1]
  have hcnt := Peek0BitsLoop_congr s1.readCache t1.readCache hbits
  rw [← hcnt] at hP'
  have hlen1 := remaining_length s1
  have hlen2 := remaining_length t1
  have hv1 := hC.inv.core.vlo
  have hv2 := hC'.inv.core.vlo
  rcases Peek0BitsLoop_cases s1.readCache with ⟨hm1, hz⟩ | ⟨j, hj, hc, hz, hone⟩
  · rw [hm1] at hP hP'
    by_cases h15 : 15 ≤ (remaining s1).length
    · have hv15 : (15 : Int) ≤ s1.validBits := by
        rcases hfull with hf | hf
        · omega
        · rw [hf] at hlen1
          simp only [List.length_nil, Nat.add_zero] at hlen1
          omega
      have hv15' : (15 : Int) ≤ t1.validBits := by
        rcases hfull' with hf | hf
        · omega
        · rw [hf] at hlen2
          simp only [List.length_nil, Nat.add_zero] at hlen2
          rw [hr1] at h15
          omega
      obtain ⟨s2, e1, e2, _⟩ := Skip_spec s1 hC.inv 15 (by simpa using hv15) (by norm_num)
      obtain ⟨t2, e1', e2', _⟩ := Skip_spec t1 hC'.inv 15 (by simpa using hv15') (by norm_num)
      simp only [Nat.cast_ofNat] at e1 e1'
      rw [ReadHighbits_long fuel s s1 s2 _ hP (by norm_num) e1,
        ReadHighbits_long fuel t t1 t2 _ hP' (by norm_num) e1']
      exact ReadHighbitsLoop_agree fuel s2 t2 15 ⟨e2.inv, e2'.inv, by rw [e2.rem, e2'.rem, hr1]⟩
    · have hup : upcoming s1 = [] := by
        rcases hfull with hf | hf
        · omega
        · exact hf
      have hup' : upcoming t1 = [] := by
        rcases hfull' with hf | hf
        · rw [hr1] at h15; omega
        · exact hf
      rw [ReadHighbits_dead fuel s s1 hC.inv hP hup (by omega),
        ReadHighbits_dead fuel t t1 hC'.inv hP' hup' (by rw [hr1] at h15; omega)]
      by_cases hf : fuel = 0
      · rw [if_pos hf]; exact rfl
      · rw [if_neg hf]; exact rfl
  · rw [hc] at hP hP'
    have hjv : (j : Int) < s1.validBits := by
      by_contra hge
      have hup : upcoming s1 = [] := by
        rcases hfull with h16 | hup
        · omega
        · exact hup
      rw [zero_beyond s1 hC.inv.core hup j (by omega) (by omega)] at hone
      exact absurd hone (by simp)
    have hjv' : (j : Int) < t1.validBits := by
      by_contra hge
      have hup : upcoming t1 = [] := by
        rcases hfull' with h16 | hup
        · omega
        · exact hup
      rw [hbits j hj, zero_beyond t1 hC'.inv.core hup j (by omega) (by omega)] at hone
      exact absurd hone (by simp)
    obtain ⟨s2, e1, e2, _⟩ := Skip_spec s1 hC.inv (j + 1) (by push_cast; omega) (by omega)
    obtain ⟨t2, e1', e2', _⟩ := Skip_spec t1 hC'.inv (j + 1) (by push_cast; omega) (by omega)
    simp only [Nat.cast_add, Nat.cast_one] at e1 e1'
    rw [ReadHighbits_short fuel s s1 s2 _ hP (Int.ofNat_nonneg _) e1,
      ReadHighbits_short fuel t t1 t2 _ hP' (Int.ofNat_nonneg _) e1']
    exact ⟨rfl, e2.inv, e2'.inv, by rw [e2.rem, e2'.rem, hr1]⟩

theorem runOp_agree (s t : DecoderStrategy) (h : SameStream s t) (op : ReaderOp)
    (hop : isRead 8 op = true) : Agree SameStream (runOp 8 s op) (runOp 8 t op) := by
  cases op with
  | makeValid => simp [isRead] at hop
  | endScan => simp [isRead] at hop
  | getCurBytePos => simp [isRead] at hop
  | readValue length =>
    simp only [isRead, maxReadLength, bufType_bit_count, decide_eq_true_eq] at hop
    obtain ⟨k, hk⟩ := Int.eq_ofNat_of_zero_le (show 0 ≤ length by omega)
    subst hk
    have h31 : (k : Int) ≤ 31 := le_trans hop.2 (min_le_left _ _)
    exact ReadValue_agree s t h k (by omega) (by omega)
  | peekByte => exact PeekByte_agree s t h
  | readBit =>
    have hB := ReadBit_agree s t h
    unfold runOp
    cases h1 : ReadBit 8 s with
    | error e1 =>
      cases h2 : ReadBit 8 t with
      | error e2 => rw [h1, h2] at hB; exact hB
      | ok q => rw [h1, h2] at hB; exact absurd hB (by simp [Agree])
    | ok p =>
      cases h2 : ReadBit 8 t with
      | error e2 => rw [h1, h2] at hB; exact absurd hB (by simp [Agree])
      | ok q =>
        obtain ⟨b1, s1⟩ := p
        obtain ⟨b2, t1⟩ := q
        rw [h1, h2] at hB
        obtain ⟨hb12, hS⟩ := hB
        subst hb12
        exact ⟨rfl, hS⟩
  | readHighbits fuel => exact ReadHighbits_agree fuel s t h
  | readLongValue length =>
    simp only [isRead, decide_eq_true_eq] at hop
    obtain ⟨k, hk⟩ := Int.eq_ofNat_of_zero_le (show 0 ≤ length by omega)
    subst hk
    exact ReadLongValue_agree s t h k (by omega) (by omega)

theorem runOps_agree (ops : List ReaderOp) : ∀ (s t : DecoderStrategy), SameStream s t →
    (∀ op ∈ ops, isRead 8 op = true) →
    (runOps 8 s ops).map Prod.fst = (runOps 8 t ops).map Prod.fst := by
  induction ops with
  | nil => intro s t _ _; rfl
  | cons op ops ih =>
    intro s t h hops
    have hA := runOp_agree s t h op (hops op (List.mem_cons_self _ _))
    rw [runOps, runOps]
    cases h1 : runOp 8 s op with
    | error e1 =>
      cases h2 : runOp 8 t op with
      | error e2 =>
        rw [h1, h2] at hA
        have : e1 = e2 := hA
        rw [this]
      | ok q => rw [h1, h2] at hA; exact absurd hA (by simp [Agree])
    | ok p =>
      cases h2 : runOp 8 t op with
      | error e2 => rw [h1, h2] at hA; exact absurd hA (by simp [Agree])
      | ok q =>
        obtain ⟨x, s1⟩ := p
        obtain ⟨y, t1⟩ := q
        rw [h1, h2] at hA
        obtain ⟨hxy, hS⟩ := hA
        subst hxy
        have := ih s1 t1 hS (fun o ho => hops o (List.mem_cons_of_mem _ ho))
        simp only
        cases h3 : runOps 8 s1 ops with
        | error e3 =>
          cases h4 : runOps 8 t1 ops with
          | error e4 =>
            rw [h3, h4] at this
            simp only [Except.map, Except.error.injEq] at this
            rw [this]
          | ok q4 => rw [h3, h4] at this; simp [Except.map] at this
        | ok p3 =>
          cases h4 : runOps 8 t1 ops with
          | error e4 => rw [h3, h4] at this; simp [Except.map] at this
          | ok q4 =>
            rw [h3, h4] at this
            simp only [Except.map, Except.ok.injEq] at this
            obtain ⟨xs, s2⟩ := p3
            obtain ⟨ys, t2⟩ := q4
            simp only at this
            simp only [Except.map, this]

theorem MakeValidBytewise_spec (s : DecoderStrategy) (h : Inv s) (hv : s.validBits ≤ 56)
    (hne : remaining s ≠ []) :
    ∃ s', MakeValidBytewise 8 s = .ok s' ∧ Refilled s s' ∧ Inv s' := by
  have hloop := MakeValidLoop_spec (s.endPosition - s.position + 1) s h.core hv
    (by rw [h.core.endp])
  obtain ⟨fin, s', h1, h2, h3, h4, h5⟩ :=
    hloop.2 (fun x => hne ((remaining_eq_nil s h.core).mpr x))
  unfold MakeValidBytewise
  simp only [AddBytesFromStream_raw s h.core.raw]
  rw [h1]
  cases fin with
  | false => exact ⟨s', rfl, h2, Inv_of_refilled s s' h h2 h3⟩
  | true =>
    exact ⟨_, rfl, ⟨Core_set_nextFF s' h2.core _, h2.rem, h2.pos, h2.full, h2.data, h2.around,
      h2.buffer, h2.posle⟩, Inv_findNextFF s' h2.core⟩

theorem loadByte_plain (s : DecoderStrategy) (h : Core s) (hp : s.position < s.rawData.length)
    (hb : s.rawData.getD s.position 0 ≠ 0xFF) :
    (loadByte s).validBits = s.validBits + 8 ∧ (loadByte s).position = s.position + 1 ∧
    (loadByte s).rawData = s.rawData := by
  have hbyte := byteAt_raw s h.raw _ hp
  refine ⟨?_, rfl, rfl⟩
  unfold loadByte
  simp only [hbyte, if_neg hb]

theorem MakeValidLoop_loadBytes (m : Nat) : ∀ (fuel : Nat) (s : DecoderStrategy) (v : Nat),
    Core s → s.validBits = (v : Int) → 1 ≤ m → v + 8 * m ≤ 64 → 56 ≤ v + 8 * m →
    (m = 1 ∨ v + 8 * (m - 1) < 56) → s.position + m ≤ s.rawData.length →
    (∀ i, s.position ≤ i → i < s.position + m → s.rawData.getD i 0 ≠ 0xFF) → m ≤ fuel →
    MakeValidLoop 8 fuel s = .ok (true, loadBytes m s) := by
  induction m with
  | zero => intro fuel s v _ _ h1; omega
  | succ m ih =>
    intro fuel s v h hv _ h64 h56 hmin hlen hff hfuel
    obtain ⟨fuel, rfl⟩ : ∃ f, fuel = f + 1 := ⟨fuel - 1, by omega⟩
    have hp : s.position < s.rawData.length := by omega
    have hb := hff s.position (le_refl _) (by omega)
    have hns := not_stopped_of_plain s h hp hb
    obtain ⟨l1, l2, l3⟩ := loadByte_plain s h hp hb
    rw [MakeValidLoop_succ fuel s h.vlo (by omega), if_neg hns]
    by_cases hm : m = 0
    · subst hm
      rw [if_neg (by rw [l1]; omega)]
      rfl
    · rw [if_pos (by rw [l1]; omega)]
      have hc := (loadByte_core s h hns (by omega)).1
      have := ih fuel (loadByte s) (v + 8) hc (by rw [l1, hv]; push_cast; ring) (by omega)
        (by omega) (by omega) (by
          rcases hmin with hm1 | hlt
          · omega
          · by_cases hm1 : m = 1
            · left; exact hm1
            · right
              have e : m + 1 - 1 = (m - 1) + 1 := by omega
              rw [e] at hlt
              omega)
        (by rw [l2, l3]; omega)
        (by
          intro i hi1 hi2
          rw [l3]
          rw [l2] at hi1 hi2
          exact hff i (by omega) (by omega))
        (by omega)
      rw [this]
      rfl

theorem fast_slow_agree (s : DecoderStrategy) (h : Inv s) (hv56 : s.validBits ≤ 56)
    (hfast : (s.position : Int) < s.nextFFPosition - 7) :
    ∃ sf ss, OptimizedRead 8 s = .ok (true, sf) ∧ MakeValidBytewise 8 s = .ok ss ∧
      8 * (sf.position : Int) - sf.validBits = 8 * (ss.position : Int) - ss.validBits ∧
      topBits 64 sf.readCache (min sf.validBits ss.validBits).toNat =
        topBits 64 ss.readCache (min sf.validBits ss.validBits).toNat ∧
      SameStream sf ss := by
  obtain ⟨v, hv⟩ := Int.eq_ofNat_of_zero_le h.core.vlo
  have hnle := h.nff_le
  have hp8 : s.position + 8 ≤ s.rawData.length := by omega
  have hff : ∀ i, s.position ≤ i → i < s.position + 8 → s.rawData.getD i 0 ≠ 0xFF :=
    fun i h1 h2 => h.nff i h1 (by omega)
  -- the fast path
  obtain ⟨sf, f1, f2, f3, _⟩ := OptimizedRead_fast s h hv56 hfast
  have hIf := Inv_of_refilled s sf h f2 f3
  have f1' := OptimizedRead_true 8 s (by push_cast; omega) h.core.vlo
    (by unfold bufType_bit_count; push_cast; omega)
  rw [f1] at f1'
  simp only [Except.ok.injEq, Prod.mk.injEq, true_and] at f1'
  -- the byte-at-a-time path
  obtain ⟨m, hm⟩ : ∃ m : Nat, m = if 56 ≤ v + 8 then 1 else (63 - v) / 8 := ⟨_, rfl⟩
  have hm1 : 1 ≤ m := by rw [hm]; split <;> omega
  have hm64 : v + 8 * m ≤ 64 := by rw [hm]; split <;> omega
  have hm56 : 56 ≤ v + 8 * m := by rw [hm]; split <;> omega
  have hmmin : m = 1 ∨ v + 8 * (m - 1) < 56 := by rw [hm]; split <;> omega
  have hL := MakeValidLoop_loadBytes m (s.endPosition - s.position + 1) s v h.core hv hm1 hm64
    hm56 hmmin (by omega) (fun i h1 h2 => hff i h1 (by omega)) (by rw [h.core.endp]; omega)
  obtain ⟨a1, a2, a3, a4, _, _, _, _, a9⟩ := loadBytes_spec m s v h.core hv hm64 (by omega)
    (fun i h1 h2 => hff i h1 (by omega))
  have hS : MakeValidBytewise 8 s = .ok { loadBytes m s with
      nextFFPosition := (FindNextFF (loadBytes m s) : Nat) } := by
    unfold MakeValidBytewise
    simp only [AddBytesFromStream_raw s h.core.raw]
    rw [hL]
  have hIs := Inv_findNextFF (loadBytes m s) a1
  have hvf : sf.validBits = (v : Int) + (64 - (v : Int)) / 8 * 8 := by
    rw [f1']
    simp only [bufType_bit_count, hv]
    norm_num
  have hpf : sf.position = s.position + ((64 - (v : Int)) / 8).toNat := by
    rw [f1']
    simp only [bufType_bit_count, hv]
    norm_num
  have hcf : sf.readCache = s.readCache ||| (FromBigEndianRead 8 s s.position >>> v) := by
    rw [f1']
    simp only [hv, Int.toNat_ofNat]
  refine ⟨sf, _, f1, hS, ?_, ?_, hIf, hIs, ?_⟩
  · show 8 * (sf.position : Int) - sf.validBits =
      8 * ((loadBytes m s).position : Int) - (loadBytes m s).validBits
    rw [hvf, hpf, a3, a4]
    push_cast
    omega
  · show topBits 64 sf.readCache (min sf.validBits (loadBytes m s).validBits).toNat =
      topBits 64 (loadBytes m s).readCache (min sf.validBits (loadBytes m s).validBits).toNat
    have hmin : (min sf.validBits (loadBytes m s).validBits).toNat ≤ v + 8 * m := by
      rw [a3]
      have := min_le_right sf.validBits ((v + 8 * m : Nat) : Int)
      omega
    apply topBits_congr
    intro i hi
    rw [show 64 - 1 - i = 63 - i by omega, hcf,
      testBit_or_read s h.core.raw h.core.bytes hp8 v i (by omega), a9 i (by omega)]
    have hlt : i < v + 8 * m := by omega
    simp [hlt]
  · show remaining sf = remaining (loadBytes m s)
    rw [f2.rem, a2]

theorem padded_getD32 (s : DecoderStrategy) (h : Inv32 s) (i : Nat) (hi : i < 32)
    (hfull : (i : Int) < s.validBits ∨ upcoming s = []) :
    (remaining32 s).getD i false = s.readCache.testBit (31 - i) := by
  by_cases hiv : (i : Int) < s.validBits
  · exact remaining_getD32 s i hiv
  · have hup : upcoming s = [] := by
      rcases hfull with h16 | hup
      · omega
      · exact hup
    rw [zero_beyond32 s h.core hup i (by omega) hi]
    apply List.getD_eq_default
    rw [remaining_length32, hup]
    have := h.core.vlo
    simp only [List.length_nil, Nat.add_zero]
    omega

theorem ReadValue_agree32 (s t : DecoderStrategy) (h : SameStream32 s t) (k : Nat) (hk1 : 1 ≤ k)
    (hk : k ≤ 24) : Agree SameStream32 (ReadValue 4 s k) (ReadValue 4 t k) := by
  obtain ⟨hs, ht, hr⟩ := h
  obtain ⟨a1, a2⟩ := ReadValue_spec32 s hs k hk1 hk
  obtain ⟨b1, b2⟩ := ReadValue_spec32 t ht k hk1 hk
  by_cases hle : k ≤ (remaining32 s).length
  · obtain ⟨s', e1, c1⟩ := a1 hle
    obtain ⟨t', e2, c2⟩ := b1 (by rw [← hr]; exact hle)
    rw [e1, e2]
    exact ⟨by rw [hr], c1.inv, c2.inv, by rw [c1.rem, c2.rem, hr]⟩
  · rw [a2 (by omega), b2 (by rw [← hr]; omega)]
    exact rfl

theorem ReadBit_agree32 (s t : DecoderStrategy) (h : SameStream32 s t) :
    Agree SameStream32 (ReadBit 4 s) (ReadBit 4 t) := by
  obtain ⟨hs, ht, hr⟩ := h
  obtain ⟨a1, a2⟩ := ReadBit_spec32 s hs
  obtain ⟨b1, b2⟩ := ReadBit_spec32 t ht
  cases hrem : remaining32 s with
  | nil =>
    rw [a1 hrem, b1 (by rw [← hr]; exact hrem)]
    exact rfl
  | cons b rest =>
    obtain ⟨s', e1, c1, d1⟩ := a2 b rest hrem
    obtain ⟨t', e2, c2, d2⟩ := b2 b rest (by rw [← hr]; exact hrem)
    rw [e1, e2]
    exact ⟨rfl, c1.inv, c2.inv, by rw [d1, d2]⟩

theorem ReadLongValue_agree32 (s t : DecoderStrategy) (h : SameStream32 s t) (k : Nat)
    (hk1 : 1 ≤ k) (hk : k ≤ 32) :
    Agree SameStream32 (ReadLongValue 4 s k) (ReadLongValue 4 t k) := by
  obtain ⟨hs, ht, hr⟩ := h
  obtain ⟨a1, a2⟩ := ReadLongValue_spec32 s hs k hk1 hk
  obtain ⟨b1, b2⟩ := ReadLongValue_spec32 t ht k hk1 hk
  by_cases hle : k ≤ (remaining32 s).length
  · obtain ⟨s', e1, c1⟩ := a1 hle
    obtain ⟨t', e2, c2⟩ := b1 (by rw [← hr]; exact hle)
    rw [e1, e2]
    exact ⟨by rw [hr], c1.inv, c2.inv, by rw [c1.rem, c2.rem, hr]⟩
  · rw [a2 (by omega), b2 (by rw [← hr]; omega)]
    exact rfl

theorem PeekByte_eq32 (s : DecoderStrategy) (h : Inv32 s) (hne : remaining32 s ≠ []) :
    ∃ s1, PeekByte 4 s = .ok (toInt32 ((s1.readCache >>> 24 : Nat) : Int), s1) ∧
      Consumed32 0 s s1 ∧ (8 ≤ s1.validBits ∨ upcoming s1 = []) := by
  have hsz : sizeT 4 ((bufType_bit_count 4 : Int) - 8) = ((24 : Nat) : Int) := by
    simp only [sizeT, bufType_bit_count]
    norm_num
  have hsh : ∀ c, shiftRight 4 c ((24 : Nat) : Int) = .ok (c >>> 24) := by
    intro c
    unfold shiftRight bufType_bit_count
    rw [if_pos (by constructor <;> norm_num)]
    simp
  by_cases hlt : s.validBits < 8
  · obtain ⟨_, r2⟩ := refill_spec32 s h 8 (by omega) (by simpa using hlt)
    obtain ⟨s1, hMV, hR, hI, _, hup⟩ := r2 hne
    refine ⟨s1, ?_, ⟨hI, by rw [hR.rem]; rfl, hR.data, hR.around, hR.buffer, hR.posle⟩, ?_⟩
    · unfold PeekByte
      simp only [hlt, if_true, hMV, hsz, hsh]
    · by_cases h8 : (8 : Int) ≤ s1.validBits
      · exact Or.inl h8
      · exact Or.inr (hup (by simpa using (not_le.mp h8)))
  · refine ⟨s, ?_, ⟨h, rfl, rfl, rfl, rfl, le_refl _⟩, Or.inl (by omega)⟩
    unfold PeekByte
    simp only [hlt, if_false, hsz, hsh]

theorem top_shift_congr32 (c1 c2 k : Nat) (hk : k ≤ 32) (h1 : c1 < 2 ^ 32) (h2 : c2 < 2 ^ 32)
    (h : ∀ i, i < k → c1.testBit (31 - i) = c2.testBit (31 - i)) :
    c1 >>> (32 - k) = c2 >>> (32 - k) := by
  rw [← bitsValue_topBits 32 c1 k hk h1, ← bitsValue_topBits 32 c2 k hk h2,
    topBits_congr 32 c1 c2 k (fun i hi => by
      rw [show 32 - 1 - i = 31 - i by omega]; exact h i hi)]

theorem PeekByte_agree32 (s t : DecoderStrategy) (h : SameStream32 s t) :
    Agree SameStream32 (PeekByte 4 s) (PeekByte 4 t) := by
  obtain ⟨hs, ht, hr⟩ := h
  by_cases hnil : remaining32 s = []
  · rw [(PeekByte_spec32 s hs).1 hnil, (PeekByte_spec32 t ht).1 (by rw [← hr]; exact hnil)]
    exact rfl
  · obtain ⟨s1, e1, c1, f1⟩ := PeekByte_eq32 s hs hnil
    obtain ⟨t1, e2, c2, f2⟩ := PeekByte_eq32 t ht (by rw [← hr]; exact hnil)
    have hr1 : remaining32 s1 = remaining32 t1 := by rw [c1.rem, c2.rem, hr]
    rw [e1, e2]
    refine ⟨?_, c1.inv, c2.inv, hr1⟩
    have := top_shift_congr32 s1.readCache t1.readCache 8 (by norm_num) c1.inv.core.cache_lt
      c2.inv.core.cache_lt (fun i hi => by
        rw [← padded_getD32 s1 c1.inv i (by omega) (by
            rcases f1 with f | f
            · left; omega
            · right; exact f),
          ← padded_getD32 t1 c2.inv i (by omega) (by
            rcases f2 with f | f
            · left; omega
            · right; exact f), hr1])
    rw [show 32 - 8 = 24 by norm_num] at this
    rw [this]

theorem Peek0BitsLoop_congr32 (c1 c2 : Nat)
    (h : ∀ i, i < 16 → c1.testBit (31 - i) = c2.testBit (31 - i)) :
    Peek0BitsLoop 4 16 c1 0 = Peek0BitsLoop 4 16 c2 0 := by
  rcases Peek0BitsLoop_cases32 c1 with ⟨a1, a2⟩ | ⟨j, hj, a1, a2, a3⟩
  · rcases Peek0BitsLoop_cases32 c2 with ⟨b1, _⟩ | ⟨j', hj', _, _, b3⟩
    · rw [a1, b1]
    · rw [← h j' hj', a2 j' hj'] at b3
      exact absurd b3 (by simp)
  · rcases Peek0BitsLoop_cases32 c2 with ⟨_, b2⟩ | ⟨j', hj', b1, b2, b3⟩
    · rw [h j hj, b2 j hj] at a3
      exact absurd a3 (by simp)
    · have : j = j' := by
        rcases Nat.lt_trichotomy j j' with hlt | heq | hgt
        · rw [h j hj, b2 j hlt] at a3
          exact absurd a3 (by simp)
        · exact heq
        · rw [← h j' hj', a2 j' hgt] at b3
          exact absurd b3 (by simp)
      rw [a1, b1, this]

theorem ReadHighbitsLoop_agree32 (fuel : Nat) : ∀ (s t : DecoderStrategy) (hb : Int),
    SameStream32 s t →
    Agree SameStream32 (ReadHighbitsLoop 4 fuel s hb) (ReadHighbitsLoop 4 fuel t hb) := by
  induction fuel with
  | zero => intro s t hb _; exact rfl
  | succ fuel ih =>
    intro s t hb h
    have hB := ReadBit_agree32 s t h
    rw [ReadHighbitsLoop, ReadHighbitsLoop]
    cases h1 : ReadBit 4 s with
    | error e1 =>
      cases h2 : ReadBit 4 t with
      | error e2 =>
        rw [h1, h2] at hB
        exact hB
      | ok q => rw [h1, h2] at hB; exact absurd hB (by simp [Agree])
    | ok p =>
      cases h2 : ReadBit 4 t with
      | error e2 => rw [h1, h2] at hB; exact absurd hB (by simp [Agree])
      | ok q =>
        obtain ⟨b1, s1⟩ := p
        obtain ⟨b2, t1⟩ := q
        rw [h1, h2] at hB
        obtain ⟨hb12, hS⟩ := hB
        subst hb12
        cases b1 with
        | true => exact ⟨rfl, hS⟩
        | false =>
          simp only
          by_cases hov : hb + 1 < 2 ^ 31
          · rw [if_pos hov, if_pos hov]
            exact ih s1 t1 (hb + 1) hS
          · rw [if_neg hov, if_neg hov]
            exact rfl

theorem ReadHighbitsLoop_dead_eq32 (s : DecoderStrategy) (hraw : s.byteStream = none)
    (hst : stopped s) (hslow : ¬ (s.position : Int) < s.nextFFPosition - 3)
    (hv : s.validBits ≤ 0) (fuel : Nat) (hb : Int) :
    ReadHighbitsLoop 4 fuel s hb =
      if fuel = 0 then .error .OutOfFuel else .error .InvalidCompressedData := by
  cases fuel with
  | zero => rfl
  | succ fuel =>
    rw [if_neg (by omega), ReadHighbitsLoop]
    have : ReadBit 4 s = .error .InvalidCompressedData := by
      unfold ReadBit
      simp only [hv, if_true, MakeValid_stopped_empty32 s hraw hst hslow hv]
    rw [this]

theorem ReadHighbits_dead32 (fuel : Nat) (s s1 : DecoderStrategy) (hI : Inv32 s1)
    (hP : Peek0Bits 4 s = .ok (-1, s1)) (hup : upcoming s1 = []) (hv : s1.validBits < 15) :
    ReadHighbits 4 fuel s =
      if fuel = 0 then .error .OutOfFuel else .error .InvalidCompressedData := by
  have hst : stopped s1 := (stopped_iff32 s1 hI.core).mpr hup
  have hslow := stopped_not_fast32 s1 hI hst
  obtain ⟨s2, e1, f1, f2, f3, f4, f5, f6, f7, f8⟩ := Skip_fields32 s1 15 (by norm_num)
  simp only [Nat.cast_ofNat] at e1 f1
  rw [ReadHighbits_long32 fuel s s1 s2 _ hP (by norm_num) e1]
  exact ReadHighbitsLoop_dead_eq32 s2 (f4.trans hI.core.raw)
    (stopped_congr s1 s2 f4 f5 f6 f2 f7 f8 hst) (by rw [f2, f3]; exact hslow)
    (by rw [f1]; omega) fuel 15

theorem ReadHighbits_agree32 (fuel : Nat) (s t : DecoderStrategy) (h : SameStream32 s t) :
    Agree SameStream32 (ReadHighbits 4 fuel s) (ReadHighbits 4 fuel t) := by
  obtain ⟨hs, ht, hr⟩ := h
  by_cases hnil : remaining32 s = []
  · rw [ReadHighbits_peek_error32 fuel s _ ((Peek0Bits_spec32 s hs).1 hnil),
      ReadHighbits_peek_error32 fuel t _ ((Peek0Bits_spec32 t ht).1 (by rw [← hr]; exact hnil))]
    exact rfl
  obtain ⟨s1, hP, hC, _, hfull⟩ := (Peek0Bits_spec32 s hs).2 hnil
  obtain ⟨t1, hP', hC', _, hfull'⟩ := (Peek0Bits_spec32 t ht).2 (by rw [← hr]; exact hnil)
  have hr1 : remaining32 s1 = remaining32 t1 := by rw [hC.rem, hC'.rem, hr]
  have hbits : ∀ i, i < 16 → s1.readCache.testBit (31 - i) = t1.readCache.testBit (31 - i) := by
    intro i hi
    rw [← peek_getD32 s1 hC.inv hfull i hi, ← peek_getD32 t1 hC'.inv hfull' i hi, hr1]
  have hcnt := Peek0BitsLoop_congr32 s1.readCache t1.readCache hbits
  rw [← hcnt] at hP'
  have hlen1 := remaining_length32 s1
  have hlen2 := remaining_length32 t1
  have hv1 := hC.inv.core.vlo
  have hv2 := hC'.inv.core.vlo
  rcases Peek0BitsLoop_cases32 s1.readCache with ⟨hm1, hz⟩ | ⟨j, hj, hc, hz, hone⟩
  · rw [hm1] at hP hP'
    by_cases h15 : 15 ≤ (remaining32 s1).length
    · have hv15 : (15 : Int) ≤ s1.validBits := by
        rcases hfull with hf | hf
        · omega
        · rw [hf] at hlen1
          simp only [List.length_nil, Nat.add_zero] at hlen1
          omega
      have hv15' : (15 : Int) ≤ t1.validBits := by
        rcases hfull' with hf | hf
        · omega
        · rw [hf] at hlen2
          simp only [List.length_nil, Nat.add_zero] at hlen2
          rw [hr1] at h15
          omega
      obtain ⟨s2, e1, e2, _⟩ := Skip_spec32 s1 hC.inv 15 (by simpa using hv15) (by norm_num)
      obtain ⟨t2, e1', e2', _⟩ := Skip_spec32 t1 hC'.inv 15 (by simpa using hv15') (by norm_num)
      simp only [Nat.cast_ofNat] at e1 e1'
      rw [ReadHighbits_long32 fuel s s1 s2 _ hP (by norm_num) e1,
        ReadHighbits_long32 fuel t t1 t2 _ hP' (by norm_num) e1']
      exact ReadHighbitsLoop_agree32 fuel s2 t2 15 ⟨e2.inv, e2'.inv, by rw [e2.rem, e2'.rem, hr1]⟩
    · have hup : upcoming s1 = [] := by
        rcases hfull with hf | hf
        · omega
        · exact hf
      have hup' : upcoming t1 = [] := by
        rcases hfull' with hf | hf
        · rw [hr1] at h15; omega
        · exact hf
      rw [ReadHighbits_dead32 fuel s s1 hC.inv hP hup (by omega),
        ReadHighbits_dead32 fuel t t1 hC'.inv hP' hup' (by rw [hr1] at h15; omega)]
      by_cases hf : fuel = 0
      · rw [if_pos hf]; exact rfl
      · rw [if_neg hf]; exact rfl
  · rw [hc] at hP hP'
    have hjv : (j : Int) < s1.validBits := by
      by_contra hge
      have hup : upcoming s1 = [] := by
        rcases hfull with h16 | hup
        · omega
        · exact hup
      rw [zero_beyond32 s1 hC.inv.core hup j (by omega) (by omega)] at hone
      exact absurd hone (by simp)
    have hjv' : (j : Int) < t1.validBits := by
      by_contra hge
      have hup : upcoming t1 = [] := by
        rcases hfull' with h16 | hup
        · omega
        · exact hup
      rw [hbits j hj, zero_beyond32 t1 hC'.inv.core hup j (by omega) (by omega)] at hone
      exact absurd hone (by simp)
    obtain ⟨s2, e1, e2, _⟩ := Skip_spec32 s1 hC.inv (j + 1) (by push_cast; omega) (by omega)
    obtain ⟨t2, e1', e2', _⟩ := Skip_spec32 t1 hC'.inv (j + 1) (by push_cast; omega) (by omega)
    simp only [Nat.cast_add, Nat.cast_one] at e1 e1'
    rw [ReadHighbits_short32 fuel s s1 s2 _ hP (Int.ofNat_nonneg _) e1,
      ReadHighbits_short32 fuel t t1 t2 _ hP' (Int.ofNat_nonneg _) e1']
    exact ⟨rfl, e2.inv, e2'.inv, by rw [e2.rem, e2'.rem, hr1]⟩

theorem runOp_agree32 (s t : DecoderStrategy) (h : SameStream32 s t) (op : ReaderOp)
    (hop : isRead 4 op = true) : Agree SameStream32 (runOp 4 s op) (runOp 4 t op) := by
  cases op with
  | makeValid => simp [isRead] at hop
  | endScan => simp [isRead] at hop
  | getCurBytePos => simp [isRead] at hop
  | readValue length =>
    simp only [isRead, maxReadLength, bufType_bit_count, decide_eq_true_eq] at hop
    obtain ⟨k, hk⟩ := Int.eq_ofNat_of_zero_le (show 0 ≤ length by omega)
    subst hk
    have h24 : (k : Int) ≤ 24 := by
      have := le_trans hop.2 (min_le_right _ _)
      norm_num at this
      exact_mod_cast this
    exact ReadValue_agree32 s t h k (by omega) (by omega)
  | peekByte => exact PeekByte_agree32 s t h
  | readBit =>
    have hB := ReadBit_agree32 s t h
    unfold runOp
    cases h1 : ReadBit 4 s with
    | error e1 =>
      cases h2 : ReadBit 4 t with
      | error e2 => rw [h1, h2] at hB; exact hB
      | ok q => rw [h1, h2] at hB; exact absurd hB (by simp [Agree])
    | ok p =>
      cases h2 : ReadBit 4 t with
      | error e2 => rw [h1, h2] at hB; exact absurd hB (by simp [Agree])
      | ok q =>
        obtain ⟨b1, s1⟩ := p
        obtain ⟨b2, t1⟩ := q
        rw [h1, h2] at hB
        obtain ⟨hb12, hS⟩ := hB
        subst hb12
        exact ⟨rfl, hS⟩
  | readHighbits fuel => exact ReadHighbits_agree32 fuel s t h
  | readLongValue length =>
    simp only [isRead, decide_eq_true_eq] at hop
    obtain ⟨k, hk⟩ := Int.eq_ofNat_of_zero_le (show 0 ≤ length by omega)
    subst hk
    exact ReadLongValue_agree32 s t h k (by omega) (by omega)

theorem runOps_agree32 (ops : List ReaderOp) : ∀ (s t : DecoderStrategy), SameStream32 s t →
    (∀ op ∈ ops, isRead 4 op = true) →
    (runOps 4 s ops).map Prod.fst = (runOps 4 t ops).map Prod.fst := by
  induction ops with
  | nil => intro s t _ _; rfl
  | cons op ops ih =>
    intro s t h hops
    have hA := runOp_agree32 s t h op (hops op (List.mem_cons_self _ _))
    rw [runOps, runOps]
    cases h1 : runOp 4 s op with
    | error e1 =>
      cases h2 : runOp 4 t op with
      | error e2 =>
        rw [h1, h2] at hA
        have : e1 = e2 := hA
        rw [this]
      | ok q => rw [h1, h2] at hA; exact absurd hA (by simp [Agree])
    | ok p =>
      cases h2 : runOp 4 t op with
      | error e2 => rw [h1, h2] at hA; exact absurd hA (by simp [Agree])
      | ok q =>
        obtain ⟨x, s1⟩ := p
        obtain ⟨y, t1⟩ := q
        rw [h1, h2] at hA
        obtain ⟨hxy, hS⟩ := hA
        subst hxy
        have := ih s1 t1 hS (fun o ho => hops o (List.mem_cons_of_mem _ ho))
        simp only
        cases h3 : runOps 4 s1 ops with
        | error e3 =>
          cases h4 : runOps 4 t1 ops with
          | error e4 =>
            rw [h3, h4] at this
            simp only [Except.map, Except.error.injEq] at this
            rw [this]
          | ok q4 => rw [h3, h4] at this; simp [Except.map] at this
        | ok p3 =>
          cases h4 : runOps 4 t1 ops with
          | error e4 => rw [h3, h4] at this; simp [Except.map] at this
          | ok q4 =>
            rw [h3, h4] at this
            simp only [Except.map, Except.ok.injEq] at this
            obtain ⟨xs, s2⟩ := p3
            obtain ⟨ys, t2⟩ := q4
            simp only at this
            simp only [Except.map, this]

theorem MakeValidBytewise_spec32 (s : DecoderStrategy) (h : Inv32 s) (hv : s.validBits ≤ 24)
    (hne : remaining32 s ≠ []) :
    ∃ s', MakeValidBytewise 4 s = .ok s' ∧ Refilled32 s s' ∧ Inv32 s' := by
  have hloop := MakeValidLoop_spec32 (s.endPosition - s.position + 1) s h.core hv
    (by rw [h.core.endp])
  obtain ⟨fin, s', h1, h2, h3, h4, h5⟩ :=
    hloop.2 (fun x => hne ((remaining_eq_nil32 s h.core).mpr x))
  unfold MakeValidBytewise
  simp only [AddBytesFromStream_raw s h.core.raw]
  rw [h1]
  cases fin with
  | false => exact ⟨s', rfl, h2, Inv_of_refilled32 s s' h h2 h3⟩
  | true =>
    exact ⟨_, rfl, ⟨Core_set_nextFF32 s' h2.core _, h2.rem, h2.pos, h2.full, h2.data, h2.around,
      h2.buffer, h2.posle⟩, Inv_findNextFF32 s' h2.core⟩

theorem loadByte_plain32 (s : DecoderStrategy) (h : Core32 s) (hp : s.position < s.rawData.length)
    (hb : s.rawData.getD s.position 0 ≠ 0xFF) :
    (loadByte32 s).validBits = s.validBits + 8 ∧ (loadByte32 s).position = s.position + 1 ∧
    (loadByte32 s).rawData = s.rawData := by
  have hbyte := byteAt_raw s h.raw _ hp
  refine ⟨?_, rfl, rfl⟩
  unfold loadByte32
  simp only [hbyte, if_neg hb]

theorem MakeValidLoop_loadBytes32 (m : Nat) : ∀ (fuel : Nat) (s : DecoderStrategy) (v : Nat),
    Core32 s → s.validBits = (v : Int) → 1 ≤ m → v + 8 * m ≤ 32 → 24 ≤ v + 8 * m →
    (m = 1 ∨ v + 8 * (m - 1) < 24) → s.position + m ≤ s.rawData.length →
    (∀ i, s.position ≤ i → i < s.position + m → s.rawData.getD i 0 ≠ 0xFF) → m ≤ fuel →
    MakeValidLoop 4 fuel s = .ok (true, loadBytes32 m s) := by
  induction m with
  | zero => intro fuel s v _ _ h1; omega
  | succ m ih =>
    intro fuel s v h hv _ h32 h24 hmin hlen hff hfuel
    obtain ⟨fuel, rfl⟩ : ∃ f, fuel = f + 1 := ⟨fuel - 1, by omega⟩
    have hp : s.position < s.rawData.length := by omega
    have hb := hff s.position (le_refl _) (by omega)
    have hns := not_stopped_of_plain32 s h hp hb
    obtain ⟨l1, l2, l3⟩ := loadByte_plain32 s h hp hb
    rw [MakeValidLoop_succ32 fuel s h.vlo (by omega), if_neg hns]
    by_cases hm : m = 0
    · subst hm
      rw [if_neg (by rw [l1]; omega)]
      rfl
    · rw [if_pos (by rw [l1]; omega)]
      have hc := (loadByte_core32 s h hns (by omega)).1
      have := ih fuel (loadByte32 s) (v + 8) hc (by rw [l1, hv]; push_cast; ring) (by omega)
        (by omega) (by omega) (by
          rcases hmin with hm1 | hlt
          · omega
          · by_cases hm1 : m = 1
            · left; exact hm1
            · right
              have e : m + 1 - 1 = (m - 1) + 1 := by omega
              rw [e] at hlt
              omega)
        (by rw [l2, l3]; omega)
        (by
          intro i hi1 hi2
          rw [l3]
          rw [l2] at hi1 hi2
          exact hff i (by omega) (by omega))
        (by omega)
      rw [this]
      rfl

theorem fast_slow_agree32 (s : DecoderStrategy) (h : Inv32 s) (hv24 : s.validBits ≤ 24)
    (hfast : (s.position : Int) < s.nextFFPosition - 3) :
    ∃ sf ss, OptimizedRead 4 s = .ok (true, sf) ∧ MakeValidBytewise 4 s = .ok ss ∧
      8 * (sf.position : Int) - sf.validBits = 8 * (ss.position : Int) - ss.validBits ∧
      topBits 32 sf.readCache (min sf.validBits ss.validBits).toNat =
        topBits 32 ss.readCache (min sf.validBits ss.validBits).toNat ∧
      SameStream32 sf ss := by
  obtain ⟨v, hv⟩ := Int.eq_ofNat_of_zero_le h.core.vlo
  have hnle := h.nff_le
  have hp4 : s.position + 4 ≤ s.rawData.length := by omega
  have hff : ∀ i, s.position ≤ i → i < s.position + 4 → s.rawData.getD i 0 ≠ 0xFF :=
    fun i h1 h2 => h.nff i h1 (by omega)
  -- the fast path
  obtain ⟨sf, f1, f2, f3, _⟩ := OptimizedRead_fast32 s h hv24 hfast
  have hIf := Inv_of_refilled32 s sf h f2 f3
  have f1' := OptimizedRead_true 4 s (by push_cast; omega) h.core.vlo
    (by unfold bufType_bit_count; push_cast; omega)
  rw [f1] at f1'
  simp only [Except.ok.injEq, Prod.mk.injEq, true_and] at f1'
  -- the byte-at-a-time path
  obtain ⟨m, hm⟩ : ∃ m : Nat, m = if 24 ≤ v + 8 then 1 else (31 - v) / 8 := ⟨_, rfl⟩
  have hm1 : 1 ≤ m := by rw [hm]; split <;> omega
  have hm32 : v + 8 * m ≤ 32 := by rw [hm]; split <;> omega
  have hm24 : 24 ≤ v + 8 * m := by rw [hm]; split <;> omega
  have hmmin : m = 1 ∨ v + 8 * (m - 1) < 24 := by rw [hm]; split <;> omega
  have hL := MakeValidLoop_loadBytes32 m (s.endPosition - s.position + 1) s v h.core hv hm1 hm32
    hm24 hmmin (by omega) (fun i h1 h2 => hff i h1 (by omega)) (by rw [h.core.endp]; omega)
  obtain ⟨a1, a2, a3, a4, _, _, _, _, a9⟩ := loadBytes_spec32 m s v h.core hv hm32 (by omega)
    (fun i h1 h2 => hff i h1 (by omega))
  have hS : MakeValidBytewise 4 s = .ok { loadBytes32 m s with
      nextFFPosition := (FindNextFF (loadBytes32 m s) : Nat) } := by
    unfold MakeValidBytewise
    simp only [AddBytesFromStream_raw s h.core.raw]
    rw [hL]
  have hIs := Inv_findNextFF32 (loadBytes32 m s) a1
  have hvf : sf.validBits = (v : Int) + (32 - (v : Int)) / 8 * 8 := by
    rw [f1']
    simp only [bufType_bit_count, hv]
    norm_num
  have hpf : sf.position = s.position + ((32 - (v : Int)) / 8).toNat := by
    rw [f1']
    simp only [bufType_bit_count, hv]
    norm_num
  have hcf : sf.readCache = s.readCache ||| (FromBigEndianRead 4 s s.position >>> v) := by
    rw [f1']
    simp only [hv, Int.toNat_ofNat]
  refine ⟨sf, _, f1, hS, ?_, ?_, hIf, hIs, ?_⟩
  · show 8 * (sf.position : Int) - sf.validBits =
      8 * ((loadBytes32 m s).position : Int) - (loadBytes32 m s).validBits
    rw [hvf, hpf, a3, a4]
    push_cast
    omega
  · show topBits 32 sf.readCache (min sf.validBits (loadBytes32 m s).validBits).toNat =
      topBits 32 (loadBytes32 m s).readCache (min sf.validBits (loadBytes32 m s).validBits).toNat
    have hmin : (min sf.validBits (loadBytes32 m s).validBits).toNat ≤ v + 8 * m := by
      rw [a3]
      have := min_le_right sf.validBits ((v + 8 * m : Nat) : Int)
      omega
    apply topBits_congr
    intro i hi
    rw [show 32 - 1 - i = 31 - i by omega, hcf,
      testBit_or_read32 s h.core.raw h.core.bytes hp4 v i (by omega), a9 i (by omega)]
    have hlt : i < v + 8 * m := by omega
    simp [hlt]
  · show remaining32 sf = remaining32 (loadBytes32 m s)
    rw [f2.rem, a2]

theorem runOps_agree_of (sz : Nat) (sf ss : DecoderStrategy)
    (h : (sz = 8 ∧ SameStream sf ss) ∨ (sz = 4 ∧ SameStream32 sf ss)) (ops : List ReaderOp)
    (hops : ∀ op ∈ ops, isRead sz op = true) :
    (runOps sz sf ops).map Prod.fst = (runOps sz ss ops).map Prod.fst := by
  rcases h with ⟨rfl, h⟩ | ⟨rfl, h⟩
  · exact runOps_agree ops sf ss h hops
  · exact runOps_agree32 ops sf ss h hops

/-- C20 (as amended): fast path and byte-at-a-time path agree.  For a cache of `W = 64` or
`W = 32` bits and every reader state that satisfies the invariant of the reader, with
`0 ≤ validBits ≤ W - 8`, in which the fast-path condition holds (`_position` is at least
`W / 8` bytes before `_nextFFPosition`, and no `0xFF` lies in between), refilling by
`OptimizedRead` and refilling by the byte-at-a-time part of `MakeValid` both return normally
and lead to the same logical stream: `8 * position - validBits` is identical, the caches
agree on their top `min(validBits_fast, validBits_slow)` bits, and every subsequent sequence
of reads (`ReadValue(k)` with `1 ≤ k ≤ min(31, W - 8)`, `PeekByte`, `ReadBit`, `ReadHighbits`,
`ReadLongValue(k)` with `1 ≤ k ≤ 32`) returns the same values, or raises the same error at
the same call. -/
theorem C20_fast_slow_agree (sz : Nat) (s : DecoderStrategy) (hinv : InvOf sz s)
    (hv : s.validBits ≤ (bufType_bit_count sz : Int) - 8)
    (hfast : (s.position : Int) < s.nextFFPosition - ((sz : Int) - 1)) :
    ∃ sf ss, OptimizedRead sz s = .ok (true, sf) ∧ MakeValidBytewise sz s = .ok ss ∧
      8 * (sf.position : Int) - sf.validBits = 8 * (ss.position : Int) - ss.validBits ∧
      topBits (bufType_bit_count sz) sf.readCache (min sf.validBits ss.validBits).toNat =
        topBits (bufType_bit_count sz) ss.readCache (min sf.validBits ss.validBits).toNat ∧
      ∀ ops : List ReaderOp, (∀ op ∈ ops, isRead sz op = true) →
        (runOps sz sf ops).map Prod.fst = (runOps sz ss ops).map Prod.fst := by
  rcases hinv with ⟨rfl, h⟩ | ⟨rfl, h⟩
  · obtain ⟨sf, ss, a, b, c, d, e⟩ := fast_slow_agree s h
      (by unfold bufType_bit_count at hv; push_cast at hv; omega)
      (by push_cast at hfast; omega)
    exact ⟨sf, ss, a, b, c, d, fun ops hops => runOps_agree_of 8 sf ss (Or.inl ⟨rfl, e⟩) ops hops⟩
  · obtain ⟨sf, ss, a, b, c, d, e⟩ := fast_slow_agree32 s h
      (by unfold bufType_bit_count at hv; push_cast at hv; omega)
      (by push_cast at hfast; omega)
    exact ⟨sf, ss, a, b, c, d, fun ops hops => runOps_agree_of 4 sf ss (Or.inr ⟨rfl, e⟩) ops hops⟩

theorem C20_fast_slow_agree_witness :
    ∃ s, Reach (rawInput [1, 2, 3, 4, 5, 6, 7, 8, 9, 10, 11, 12, 13, 14, 15, 16]) 16 s ∧
      s.validBits = 48 ∧
      ∃ sf ss, OptimizedRead 8 s = .ok (true, sf) ∧ MakeValidBytewise 8 s = .ok ss ∧
        8 * (sf.position : Int) - sf.validBits = 8 * (ss.position : Int) - ss.validBits ∧
        topBits (bufType_bit_count 8) sf.readCache (min sf.validBits ss.validBits).toNat =
          topBits (bufType_bit_count 8) ss.readCache (min sf.validBits ss.validBits).toNat ∧
        ∀ ops : List ReaderOp, (∀ op ∈ ops, isRead 8 op = true) →
          (runOps 8 sf ops).map Prod.fst = (runOps 8 ss ops).map Prod.fst := by
  obtain ⟨s0, x, s, hs0, hs, hv, hp, hn⟩ : ∃ s0 x s,
      Init 8 fresh (rawInput [1, 2, 3, 4, 5, 6, 7, 8, 9, 10, 11, 12, 13, 14, 15, 16]) = .ok s0 ∧
      ReadValue 8 s0 ((16 : Nat) : Int) = .ok (x, s) ∧ s.validBits = 48 ∧ s.position = 8 ∧
      s.nextFFPosition = 16 := ⟨_, _, _, rfl, rfl, rfl, rfl, rfl⟩
  have hr : Reach (rawInput [1, 2, 3, 4, 5, 6, 7, 8, 9, 10, 11, 12, 13, 14, 15, 16]) (0 + 16) s :=
    Reach.readValue 0 s0 s 16 x (Reach.init fresh s0 hs0) (by norm_num) (by norm_num) hs
  have ht := Reach_tracks _ ⟨rfl, by decide⟩ _ s hr
  exact ⟨s, hr, hv, C20_fast_slow_agree 8 s (Or.inl ⟨rfl, ht.inv⟩)
    (by rw [hv]; decide) (by rw [hp, hn]; decide)⟩

/-- C20 fails as stated for a 32-bit cache and reads of more than 24 bits: on the input
`11 22 33 44 55 66 77 88 99 FF 00 AA`, after `Init` and `ReadValue(24)` the reader has 8 valid
bits and the fast-path condition holds; after the fast refill, `ReadValue(8)` and
`ReadValue(25)` return normally, but after the byte-at-a-time refill the same `ReadValue(25)`
raises `InvalidCompressedData`. -/
theorem C20_counterexample : ∃ s0 x s sf ss,
    Init 4 fresh (rawInput [0x11, 0x22, 0x33, 0x44, 0x55, 0x66, 0x77, 0x88, 0x99, 0xFF, 0x00,
      0xAA]) = .ok s0 ∧
    ReadValue 4 s0 24 = .ok (x, s) ∧ s.validBits = 8 ∧
    (s.position : Int) < s.nextFFPosition - 3 ∧
    OptimizedRead 4 s = .ok (true, sf) ∧ MakeValidBytewise 4 s = .ok ss ∧
    (runOps 4 sf [.readValue 8, .readValue 25]).map Prod.fst = .ok [0x44, 0xAACCEF] ∧
    (runOps 4 ss [.readValue 8, .readValue 25]).map Prod.fst =
      .error .InvalidCompressedData :=
  ⟨_, _, _, _, _, rfl, rfl, rfl, by decide, rfl, rfl, rfl, rfl⟩

theorem FromBigEndianRead_lt_gen (sz : Nat) (s : DecoderStrategy) (p : Nat)
    (hb : ∀ i, i < sz → byteAt s ((p + i : Nat) : Int) < 256) :
    FromBigEndianRead sz s p < 2 ^ bufType_bit_count sz := by
  have e : FromBigEndianRead sz s p =
      bigEndian ((List.range sz).map (fun i => byteAt s ((p + i : Nat) : Int))) := by
    simp [FromBigEndianRead, bigEndian, List.foldl_map]
  rw [e]
  have hmem : ∀ b ∈ (List.range sz).map (fun i => byteAt s ((p + i : Nat) : Int)), b < 256 := by
    intro b hb'
    rw [List.mem_map] at hb'
    obtain ⟨j, hj, rfl⟩ := hb'
    rw [List.mem_range] at hj
    exact hb j hj
  have := bigEndian_lt _ hmem
  rw [List.length_map, List.length_range] at this
  unfold bufType_bit_count
  rwa [Nat.mul_comm]

theorem topBits_or_shiftRight (W c r v : Nat) (hr : r < 2 ^ W) :
    topBits W (c ||| (r >>> v)) v = topBits W c v := by
  unfold topBits
  apply List.map_congr_left
  intro i hi
  rw [List.mem_range] at hi
  rw [Nat.testBit_lor, Nat.testBit_shiftRight]
  by_cases hW : W - 1 - i + v < W
  · -- impossible unless the index wraps: then `W - 1 - i = 0`
    have h0 : W ≤ i := by omega
    omega
  · rw [Nat.testBit_lt_two_pow (lt_of_lt_of_le hr (Nat.pow_le_pow_right (by norm_num)
      (by omega)))]
    simp

/-- C21: assertion validity of the fast path.  For every reader state with
`0 ≤ validBits ≤ W - 8` (the bytes at `_position` being bytes, below 256) in which
`OptimizedRead` returns true: the fast-path condition held; the resulting `validBits` is at
least `W - 7` (so the assertion `validBits ≥ W - 8` holds) and at most `W`; `_position` has
advanced by exactly `floor((W - old validBits) / 8)` bytes and `validBits` by 8 times as
much, with `1 ≤` that count `≤ W / 8`; and the previously valid top bits of the cache are
unchanged. -/
theorem C21_optimizedRead_assertion (sz : Nat) (s s' : DecoderStrategy)
    (hb : ∀ i, i < sz → byteAt s ((s.position + i : Nat) : Int) < 256)
    (hv0 : 0 ≤ s.validBits) (hv : s.validBits ≤ (bufType_bit_count sz : Int) - 8)
    (hok : OptimizedRead sz s = .ok (true, s')) :
    (s.position : Int) < s.nextFFPosition - ((sz : Int) - 1) ∧
    (bufType_bit_count sz : Int) - 7 ≤ s'.validBits ∧
    s'.validBits ≤ (bufType_bit_count sz : Int) ∧
    s'.position = s.position + (((bufType_bit_count sz : Int) - s.validBits) / 8).toNat ∧
    s'.validBits = s.validBits + 8 * (((bufType_bit_count sz : Int) - s.validBits) / 8) ∧
    1 ≤ ((bufType_bit_count sz : Int) - s.validBits) / 8 ∧
    ((bufType_bit_count sz : Int) - s.validBits) / 8 ≤ (sz : Int) ∧
    topBits (bufType_bit_count sz) s'.readCache s.validBits.toNat =
      topBits (bufType_bit_count sz) s.readCache s.validBits.toNat := by
  by_cases hfast : (s.position : Int) < s.nextFFPosition - ((sz : Int) - 1)
  · rw [OptimizedRead_true sz s hfast hv0 (by omega)] at hok
    simp only [Except.ok.injEq, Prod.mk.injEq, true_and] at hok
    subst hok
    have hW : (bufType_bit_count sz : Int) = 8 * (sz : Int) := by
      unfold bufType_bit_count; push_cast; ring
    refine ⟨hfast, ?_, ?_, rfl, ?_, ?_, ?_, ?_⟩
    · show (bufType_bit_count sz : Int) - 7 ≤
        s.validBits + ((bufType_bit_count sz : Int) - s.validBits) / 8 * 8
      omega
    · show s.validBits + ((bufType_bit_count sz : Int) - s.validBits) / 8 * 8 ≤
        (bufType_bit_count sz : Int)
      omega
    · show s.validBits + ((bufType_bit_count sz : Int) - s.validBits) / 8 * 8 = _
      ring
    · omega
    · omega
    · exact topBits_or_shiftRight _ _ _ _ (FromBigEndianRead_lt_gen sz s s.position hb)
  · rw [OptimizedRead_false sz s hfast] at hok
    simp at hok

theorem C21_optimizedRead_assertion_witness :
    ∃ s0 x s s', Init 8 fresh (rawInput [1, 2, 3, 4, 5, 6, 7, 8, 9, 10, 11, 12, 13, 14, 15,
        16]) = .ok s0 ∧ ReadValue 8 s0 20 = .ok (x, s) ∧ s.validBits = 44 ∧
      OptimizedRead 8 s = .ok (true, s') ∧
      ((s.position : Int) < s.nextFFPosition - (((8 : Nat) : Int) - 1) ∧
      (bufType_bit_count 8 : Int) - 7 ≤ s'.validBits ∧
      s'.validBits ≤ (bufType_bit_count 8 : Int) ∧
      s'.position = s.position + (((bufType_bit_count 8 : Int) - s.validBits) / 8).toNat ∧
      s'.validBits = s.validBits + 8 * (((bufType_bit_count 8 : Int) - s.validBits) / 8) ∧
      1 ≤ ((bufType_bit_count 8 : Int) - s.validBits) / 8 ∧
      ((bufType_bit_count 8 : Int) - s.validBits) / 8 ≤ ((8 : Nat) : Int) ∧
      topBits (bufType_bit_count 8) s'.readCache s.validBits.toNat =
        topBits (bufType_bit_count 8) s.readCache s.validBits.toNat) := by
  obtain ⟨s0, x, s, s', hs0, hs, hv, hok, hraw, hdata, hpos⟩ : ∃ s0 x s s',
      Init 8 fresh (rawInput [1, 2, 3, 4, 5, 6, 7, 8, 9, 10, 11, 12, 13, 14, 15, 16]) = .ok s0 ∧
      ReadValue 8 s0 20 = .ok (x, s) ∧ s.validBits = 44 ∧
      OptimizedRead 8 s = .ok (true, s') ∧ s.byteStream = none ∧
      s.rawData = [1, 2, 3, 4, 5, 6, 7, 8, 9, 10, 11, 12, 13, 14, 15, 16] ∧ s.position = 8 :=
    ⟨_, _, _, _, rfl, rfl, rfl, rfl, rfl, rfl, rfl⟩
  refine ⟨s0, x, s, s', hs0, hs, hv, hok, C21_optimizedRead_assertion 8 s s' ?_
    (by rw [hv]; decide) (by rw [hv]; decide) hok⟩
  intro i hi
  rw [byteAt_raw s hraw _ (by rw [hdata, hpos]; simp; omega), hdata, hpos]
  interval_cases i <;> decide

theorem leadingZeros_zeros (n : Nat) : leadingZeros (List.replicate n false) = n := by
  induction n with
  | zero => rfl
  | succ n ih => rw [List.replicate_succ, leadingZeros, ih]

theorem leadingZeros_one (n : Nat) (rest : List Bool) :
    leadingZeros (List.replicate n false ++ true :: rest) = n := by
  induction n with
  | zero => rfl
  | succ n ih => rw [List.replicate_succ, List.cons_append, leadingZeros, ih]

theorem all_false_eq_replicate (R : List Bool) (h : ∀ b ∈ R, b = false) :
    R = List.replicate R.length false := by
  induction R with
  | nil => rfl
  | cons b R ih =>
    rw [List.length_cons, List.replicate_succ, h b (by simp),
      ← ih (fun x hx => h x (List.mem_cons_of_mem _ hx))]

theorem leadingZeros_split (R : List Bool) (h : ∃ b ∈ R, b = true) :
    R = List.replicate (leadingZeros R) false ++ true :: R.drop (leadingZeros R + 1) := by
  induction R with
  | nil => obtain ⟨b, hb, _⟩ := h; simp at hb
  | cons b R ih =>
    cases b with
    | true => simp [leadingZeros]
    | false =>
      have h' : ∃ b ∈ R, b = true := by
        obtain ⟨b, hb, hb'⟩ := h
        rw [List.mem_cons] at hb
        rcases hb with rfl | hb
        · simp at hb'
        · exact ⟨b, hb, hb'⟩
      have := ih h'
      rw [leadingZeros, List.replicate_succ, List.cons_append, List.drop_succ_cons, ← this]

theorem getD_all_false (l : List Bool) (h : ∀ b ∈ l, b = false) (i : Nat) :
    l.getD i false = false := by
  by_cases hi : i < l.length
  · rw [List.getD_eq_getElem _ _ hi]
    exact h _ (List.getElem_mem _)
  · exact List.getD_eq_default _ _ (by omega)

theorem topBits_eq_take_padded (W c k : Nat) (l : List Bool)
    (h : ∀ i, i < k → l.getD i false = c.testBit (W - 1 - i)) :
    topBits W c k = (l ++ List.replicate k false).take k := by
  apply List.ext_getElem
  · rw [topBits_length, List.length_take, List.length_append, List.length_replicate]
    omega
  · intro i h1 h2
    rw [topBits_length] at h1
    rw [List.getElem_take]
    have e1 : (topBits W c k)[i] = c.testBit (W - 1 - i) := by
      simp [topBits]
    rw [e1, ← h i h1]
    by_cases hi : i < l.length
    · rw [List.getElem_append_left hi, List.getD_eq_getElem _ _ hi]
    · rw [List.getElem_append_right (by omega), List.getElem_replicate,
        List.getD_eq_default _ _ (by omega)]

theorem leadingZeros_topBits_none (W c n : Nat)
    (hz : ∀ i, i < n → c.testBit (W - 1 - i) = false) : leadingZeros (topBits W c n) = n := by
  rw [topBits_eq_replicate W c n hz, leadingZeros_zeros]

theorem leadingZeros_topBits_found (W c n j : Nat) (hj : j < n)
    (hz : ∀ i, i < j → c.testBit (W - 1 - i) = false) (ht : c.testBit (W - 1 - j) = true) :
    leadingZeros (topBits W c n) = j := by
  have := lz_split (topBits W c n) j (by rw [topBits_length]; exact hj)
    (fun i hi => by rw [getD_topBits W c n i (by omega)]; exact hz i hi)
    (by rw [getD_topBits W c n j hj]; exact ht)
  rw [this, leadingZeros_one]

theorem getD_replicate_false (m i : Nat) : (List.replicate m false).getD i false = false :=
  getD_all_false _ (fun _ hb => (List.mem_replicate.mp hb).2) i

theorem ReadHighbitsLoop_zeros (fuel : Nat) :
    ∀ (s : DecoderStrategy) (hb : Int) (m : Nat), Inv s →
    remaining s = List.replicate m false → hb + m < 2 ^ 31 → m < fuel →
    ReadHighbitsLoop 8 fuel s hb = .error .InvalidCompressedData := by
  induction fuel with
  | zero => intro s hb m _ _ _ hf; omega
  | succ fuel ih =>
    intro s hb m h hrem hlt hf
    rw [ReadHighbitsLoop]
    cases m with
    | zero =>
      rw [(ReadBit_spec s h).1 (by rw [hrem]; rfl)]
    | succ m =>
      rw [List.replicate_succ] at hrem
      obtain ⟨s1, a, b, c⟩ := (ReadBit_spec s h).2 false _ hrem
      rw [a]
      simp only
      rw [if_pos (by push_cast at hlt; omega)]
      exact ih s1 (hb + 1) m b.inv c (by push_cast at hlt; omega) (by omega)

theorem ReadHighbitsLoop_overflow (fuel : Nat) :
    ∀ (s : DecoderStrategy) (hb : Int) (m : Nat), Inv s →
    remaining s = List.replicate m false → hb < 2 ^ 31 → 2 ^ 31 ≤ hb + m →
    ReadHighbitsLoop 8 fuel s hb = .error .OutOfFuel ∨
      ReadHighbitsLoop 8 fuel s hb = .error .UndefinedBehaviour := by
  induction fuel with
  | zero => intro s hb m _ _ _ _; left; rfl
  | succ fuel ih =>
    intro s hb m h hrem hlt hge
    rw [ReadHighbitsLoop]
    cases m with
    | zero => simp at hge; omega
    | succ m =>
      rw [List.replicate_succ] at hrem
      obtain ⟨s1, a, b, c⟩ := (ReadBit_spec s h).2 false _ hrem
      rw [a]
      simp only
      by_cases h1 : hb + 1 < 2 ^ 31
      · rw [if_pos h1]
        exact ih s1 (hb + 1) m b.inv c h1 (by push_cast at hge; omega)
      · rw [if_neg h1]
        right; rfl

theorem ReadHighbits_zeros_peek (s : DecoderStrategy) (m : Nat) (h : Inv s)
    (hrem : remaining s = List.replicate m false) (hm : m ≠ 0) :
    ∃ s1, Peek0Bits 8 s = .ok (-1, s1) ∧ Consumed 0 s s1 ∧
      remaining s1 = List.replicate m false ∧ (16 ≤ s1.validBits ∨ upcoming s1 = []) := by
  obtain ⟨s1, hP, hC, _, hfull⟩ := (Peek0Bits_spec s h).2 (by
    rw [hrem]
    cases m with
    | zero => exact absurd rfl hm
    | succ m => simp [List.replicate_succ])
  have hR : remaining s1 = List.replicate m false := by rw [hC.rem, hrem]; rfl
  have hz : ∀ i, i < 16 → s1.readCache.testBit (63 - i) = false := by
    intro i hi
    rw [← peek_getD s1 hC.inv hfull i hi, hR, getD_replicate_false]
  rw [Peek0BitsLoop_none 16 s1.readCache 0 (by norm_num) hz] at hP
  exact ⟨s1, hP, hC, hR, hfull⟩

theorem ReadHighbits_zeros (fuel : Nat) (s : DecoderStrategy) (m : Nat) (h : Inv s)
    (hrem : remaining s = List.replicate m false) (hm : m < 2 ^ 31) (hfuel : m < fuel) :
    ReadHighbits 8 fuel s = .error .InvalidCompressedData := by
  by_cases hm0 : m = 0
  · subst hm0
    exact ReadHighbits_peek_error fuel s _ ((Peek0Bits_spec s h).1 (by rw [hrem]; rfl))
  obtain ⟨s1, hP, hC, hR, hfull⟩ := ReadHighbits_zeros_peek s m h hrem hm0
  by_cases h15 : (15 : Int) ≤ s1.validBits
  · obtain ⟨s2, e1, e2, _⟩ := Skip_spec s1 hC.inv 15 (by simpa using h15) (by norm_num)
    simp only [Nat.cast_ofNat] at e1
    rw [ReadHighbits_long fuel s s1 s2 _ hP (by norm_num) e1]
    have hR2 : remaining s2 = List.replicate (m - 15) false := by
      rw [e2.rem, hR, List.drop_replicate]
    exact ReadHighbitsLoop_zeros fuel s2 15 (m - 15) e2.inv hR2 (by omega) (by omega)
  · have hup : upcoming s1 = [] := by
      rcases hfull with h16 | hup
      · omega
      · exact hup
    rw [ReadHighbits_dead fuel s s1 hC.inv hP hup (by omega), if_neg (by omega)]

theorem ReadHighbits_overflow (fuel : Nat) (s : DecoderStrategy) (m : Nat) (h : Inv s)
    (hrem : remaining s = List.replicate m false) (hm : 2 ^ 31 ≤ m) :
    ReadHighbits 8 fuel s = .error .OutOfFuel ∨
      ReadHighbits 8 fuel s = .error .UndefinedBehaviour := by
  obtain ⟨s1, hP, hC, hR, hfull⟩ := ReadHighbits_zeros_peek s m h hrem (by
    intro h0; rw [h0] at hm; norm_num at hm)
  have hv16 : (16 : Int) ≤ s1.validBits := by
    rcases hfull with h16 | hup
    · exact h16
    · have := remaining_length s1
      rw [hup, hR] at this
      simp at this
      have := hC.inv.core.vhi
      omega
  obtain ⟨s2, e1, e2, _⟩ := Skip_spec s1 hC.inv 15 (by
    simpa using (show (15 : Int) ≤ s1.validBits by omega)) (by norm_num)
  simp only [Nat.cast_ofNat] at e1
  rw [ReadHighbits_long fuel s s1 s2 _ hP (by norm_num) e1]
  have hR2 : remaining s2 = List.replicate (m - 15) false := by
    rw [e2.rem, hR, List.drop_replicate]
  exact ReadHighbitsLoop_overflow fuel s2 15 (m - 15) e2.inv hR2 (by norm_num) (by omega)

theorem ReadHighbits_outcome (fuel : Nat) (s : DecoderStrategy) (h : Inv s)
    (hz : leadingZeros (remaining s) < 2 ^ 31) (hfuel : leadingZeros (remaining s) < fuel) :
    ((∀ b ∈ remaining s, b = false) →
      ReadHighbits 8 fuel s = .error .InvalidCompressedData) ∧
    ((∃ b ∈ remaining s, b = true) →
      ∃ s', ReadHighbits 8 fuel s = .ok ((leadingZeros (remaining s) : Int), s') ∧
        Consumed (leadingZeros (remaining s) + 1) s s') := by
  constructor
  · intro hall
    have e := all_false_eq_replicate _ hall
    have hl : leadingZeros (remaining s) = (remaining s).length := by
      conv_lhs => rw [e]
      exact leadingZeros_zeros _
    exact ReadHighbits_zeros fuel s _ h e (by omega) (by omega)
  · intro hex
    have e := leadingZeros_split _ hex
    obtain ⟨s', a, b, _⟩ := ReadHighbits_total fuel s _ _ h e hz (Or.inr (by omega))
    exact ⟨s', a, b⟩

theorem stop_remaining (s : DecoderStrategy) (h : Inv s) (hst : stopped s) :
    topBits 64 s.readCache s.validBits.toNat = remaining s := by
  unfold remaining
  rw [(stopped_iff s h.core).mp hst, List.append_nil]

theorem stop_zero (s : DecoderStrategy) (h : Inv s) (hst : stopped s) (i : Nat)
    (hv : s.validBits ≤ (i : Int)) (hi : i < 64) : s.readCache.testBit (63 - i) = false :=
  zero_beyond s h.core ((stopped_iff s h.core).mp hst) i hv hi

theorem stop_cache_zero (s : DecoderStrategy) (h : Inv s) (hst : stopped s) :
    s.readCache = 0 ↔ ∀ b ∈ remaining s, b = false := by
  have hup := (stopped_iff s h.core).mp hst
  constructor
  · intro h0 b hb
    rw [← stop_remaining s h hst, h0] at hb
    unfold topBits at hb
    rw [List.mem_map] at hb
    obtain ⟨i, _, hi⟩ := hb
    rw [← hi, Nat.zero_testBit]
  · intro hall
    apply Nat.eq_of_testBit_eq
    intro j
    rw [Nat.zero_testBit]
    by_cases hj : j < 64
    · have := padded_getD s h (63 - j) (by omega) (Or.inr hup)
      rw [show 63 - (63 - j) = j by omega] at this
      rw [← this]
      exact getD_all_false _ hall _
    · exact Nat.testBit_lt_two_pow (lt_of_lt_of_le h.core.cache_lt
        (Nat.pow_le_pow_right (by norm_num) (by omega)))

theorem stop_endScan (s : DecoderStrategy) (h : Inv s) (hst : stopped s)
    (hff : byteAt s s.position = JpegMarkerCode_Start) :
    (EndScan 8 s = .ok s ↔ ∀ b ∈ remaining s, b = false) ∧
    (¬ (∀ b ∈ remaining s, b = false) → EndScan 8 s = .error .TooMuchCompressedData) := by
  rw [EndScan_at_marker s hff, ← stop_cache_zero s h hst]
  by_cases h0 : s.readCache = 0
  · simp [h0]
  · simp [h0]

theorem stop_makeValid (s : DecoderStrategy) (h : Inv s) (hst : stopped s)
    (hv : 1 ≤ s.validBits) : MakeValid 8 s = .ok s :=
  MakeValid_at_stop 8 s h.core.raw hst (by
    have := stopped_not_fast s h hst
    push_cast
    exact this) (by omega)

theorem stop_peekByte (s : DecoderStrategy) (h : Inv s) (hst : stopped s)
    (hv : 1 ≤ s.validBits) :
    PeekByte 8 s =
      .ok ((bitsValue ((remaining s ++ List.replicate 8 false).take 8) : Int), s) := by
  have hup := (stopped_iff s h.core).mp hst
  have hsz : sizeT 8 ((bufType_bit_count 8 : Int) - 8) = ((56 : Nat) : Int) := by
    simp only [sizeT, bufType_bit_count]
    norm_num
  have hsh : ∀ c, shiftRight 8 c ((56 : Nat) : Int) = .ok (c >>> 56) := by
    intro c
    unfold shiftRight bufType_bit_count
    rw [if_pos (by constructor <;> norm_num)]
    simp
  have hval : toInt32 ((s.readCache >>> 56 : Nat) : Int) =
      (bitsValue ((remaining s ++ List.replicate 8 false).take 8) : Int) := by
    rw [← topBits_eq_take_padded 64 s.readCache 8 (remaining s) (fun i hi => by
      rw [show 64 - 1 - i = 63 - i by omega]
      exact padded_getD s h i (by omega) (Or.inr hup)),
      bitsValue_topBits 64 s.readCache 8 (by norm_num) h.core.cache_lt]
    have := shiftRight_lt s.readCache 8 h.core.cache_lt (by norm_num)
    exact toInt32_of_lt _ (lt_trans this (by norm_num))
  unfold PeekByte
  by_cases hlt : s.validBits < 8
  · simp only [hlt, if_true, stop_makeValid s h hst hv, hsz, hsh, hval]
  · simp only [hlt, if_false, hsz, hsh, hval]

theorem stop_peek0Bits (s : DecoderStrategy) (h : Inv s) (hst : stopped s)
    (hv : 1 ≤ s.validBits) : Peek0Bits 8 s = .ok (peek0Padded (remaining s), s) := by
  have hup := (stopped_iff s h.core).mp hst
  have hP : (remaining s ++ List.replicate 16 false).take 16 = topBits 64 s.readCache 16 :=
    (topBits_eq_take_padded 64 s.readCache 16 (remaining s) (fun i hi => by
      rw [show 64 - 1 - i = 63 - i by omega]
      exact padded_getD s h i (by omega) (Or.inr hup))).symm
  have hval : Peek0BitsLoop 8 16 s.readCache 0 = peek0Padded (remaining s) := by
    unfold peek0Padded
    rw [hP]
    rcases Peek0BitsLoop_cases s.readCache with ⟨hm1, hz⟩ | ⟨j, hj, hcnt, hz, ht⟩
    · rw [hm1, leadingZeros_topBits_none 64 s.readCache 16 (fun i hi => by
        rw [show 64 - 1 - i = 63 - i by omega]; exact hz i hi)]
      simp
    · rw [hcnt, leadingZeros_topBits_found 64 s.readCache 16 j hj (fun i hi => by
        rw [show 64 - 1 - i = 63 - i by omega]; exact hz i hi)
        (by rw [show 64 - 1 - j = 63 - j by omega]; exact ht), if_pos hj]
  unfold Peek0Bits
  by_cases hlt : s.validBits < 16
  · simp only [hlt, if_true, stop_makeValid s h hst hv, hval]
  · simp only [hlt, if_false, hval]

theorem fast_bytes (s : DecoderStrategy) (h : Inv s)
    (hfast : (s.position : Int) < s.nextFFPosition - 7) (i : Nat) (hi : i < 8) :
    s.position + i < s.rawData.length ∧
      byteAt s ((s.position + i : Nat) : Int) = s.rawData.getD (s.position + i) 0 ∧
      s.rawData.getD (s.position + i) 0 ≠ 0xFF := by
  have h1 := h.nff_le
  have hlt : s.position + i < s.rawData.length := by omega
  exact ⟨hlt, byteAt_raw s h.core.raw _ hlt,
    h.nff (s.position + i) (by omega) (by push_cast; omega)⟩

theorem ReadHighbitsLoop_zeros32 (fuel : Nat) :
    ∀ (s : DecoderStrategy) (hb : Int) (m : Nat), Inv32 s →
    remaining32 s = List.replicate m false → hb + m < 2 ^ 31 → m < fuel →
    ReadHighbitsLoop 4 fuel s hb = .error .InvalidCompressedData := by
  induction fuel with
  | zero => intro s hb m _ _ _ hf; omega
  | succ fuel ih =>
    intro s hb m h hrem hlt hf
    rw [ReadHighbitsLoop]
    cases m with
    | zero =>
      rw [(ReadBit_spec32 s h).1 (by rw [hrem]; rfl)]
    | succ m =>
      rw [List.replicate_succ] at hrem
      obtain ⟨s1, a, b, c⟩ := (ReadBit_spec32 s h).2 false _ hrem
      rw [a]
      simp only
      rw [if_pos (by push_cast at hlt; omega)]
      exact ih s1 (hb + 1) m b.inv c (by push_cast at hlt; omega) (by omega)

theorem ReadHighbitsLoop_overflow32 (fuel : Nat) :
    ∀ (s : DecoderStrategy) (hb : Int) (m : Nat), Inv32 s →
    remaining32 s = List.replicate m false → hb < 2 ^ 31 → 2 ^ 31 ≤ hb + m →
    ReadHighbitsLoop 4 fuel s hb = .error .OutOfFuel ∨
      ReadHighbitsLoop 4 fuel s hb = .error .UndefinedBehaviour := by
  induction fuel with
  | zero => intro s hb m _ _ _ _; left; rfl
  | succ fuel ih =>
    intro s hb m h hrem hlt hge
    rw [ReadHighbitsLoop]
    cases m with
    | zero => simp at hge; omega
    | succ m =>
      rw [List.replicate_succ] at hrem
      obtain ⟨s1, a, b, c⟩ := (ReadBit_spec32 s h).2 false _ hrem
      rw [a]
      simp only
      by_cases h1 : hb + 1 < 2 ^ 31
      · rw [if_pos h1]
        exact ih s1 (hb + 1) m b.inv c h1 (by push_cast at hge; omega)
      · rw [if_neg h1]
        right; rfl

theorem ReadHighbits_zeros_peek32 (s : DecoderStrategy) (m : Nat) (h : Inv32 s)
    (hrem : remaining32 s = List.replicate m false) (hm : m ≠ 0) :
    ∃ s1, Peek0Bits 4 s = .ok (-1, s1) ∧ Consumed32 0 s s1 ∧
      remaining32 s1 = List.replicate m false ∧ (16 ≤ s1.validBits ∨ upcoming s1 = []) := by
  obtain ⟨s1, hP, hC, _, hfull⟩ := (Peek0Bits_spec32 s h).2 (by
    rw [hrem]
    cases m with
    | zero => exact absurd rfl hm
    | succ m => simp [List.replicate_succ])
  have hR : remaining32 s1 = List.replicate m false := by rw [hC.rem, hrem]; rfl
  have hz : ∀ i, i < 16 → s1.readCache.testBit (31 - i) = false := by
    intro i hi
    rw [← peek_getD32 s1 hC.inv hfull i hi, hR, getD_replicate_false]
  rw [Peek0BitsLoop_none32 16 s1.readCache 0 (by norm_num) hz] at hP
  exact ⟨s1, hP, hC, hR, hfull⟩

theorem ReadHighbits_zeros32 (fuel : Nat) (s : DecoderStrategy) (m : Nat) (h : Inv32 s)
    (hrem : remaining32 s = List.replicate m false) (hm : m < 2 ^ 31) (hfuel : m < fuel) :
    ReadHighbits 4 fuel s = .error .InvalidCompressedData := by
  by_cases hm0 : m = 0
  · subst hm0
    exact ReadHighbits_peek_error32 fuel s _ ((Peek0Bits_spec32 s h).1 (by rw [hrem]; rfl))
  obtain ⟨s1, hP, hC, hR, hfull⟩ := ReadHighbits_zeros_peek32 s m h hrem hm0
  by_cases h15 : (15 : Int) ≤ s1.validBits
  · obtain ⟨s2, e1, e2, _⟩ := Skip_spec32 s1 hC.inv 15 (by simpa using h15) (by norm_num)
    simp only [Nat.cast_ofNat] at e1
    rw [ReadHighbits_long32 fuel s s1 s2 _ hP (by norm_num) e1]
    have hR2 : remaining32 s2 = List.replicate (m - 15) false := by
      rw [e2.rem, hR, List.drop_replicate]
    exact ReadHighbitsLoop_zeros32 fuel s2 15 (m - 15) e2.inv hR2 (by omega) (by omega)
  · have hup : upcoming s1 = [] := by
      rcases hfull with h16 | hup
      · omega
      · exact hup
    rw [ReadHighbits_dead32 fuel s s1 hC.inv hP hup (by omega), if_neg (by omega)]

theorem ReadHighbits_overflow32 (fuel : Nat) (s : DecoderStrategy) (m : Nat) (h : Inv32 s)
    (hrem : remaining32 s = List.replicate m false) (hm : 2 ^ 31 ≤ m) :
    ReadHighbits 4 fuel s = .error .OutOfFuel ∨
      ReadHighbits 4 fuel s = .error .UndefinedBehaviour := by
  obtain ⟨s1, hP, hC, hR, hfull⟩ := ReadHighbits_zeros_peek32 s m h hrem (by
    intro h0; rw [h0] at hm; norm_num at hm)
  have hv16 : (16 : Int) ≤ s1.validBits := by
    rcases hfull with h16 | hup
    · exact h16
    · have := remaining_length32 s1
      rw [hup, hR] at this
      simp at this
      have := hC.inv.core.vhi
      omega
  obtain ⟨s2, e1, e2, _⟩ := Skip_spec32 s1 hC.inv 15 (by
    simpa using (show (15 : Int) ≤ s1.validBits by omega)) (by norm_num)
  simp only [Nat.cast_ofNat] at e1
  rw [ReadHighbits_long32 fuel s s1 s2 _ hP (by norm_num) e1]
  have hR2 : remaining32 s2 = List.replicate (m - 15) false := by
    rw [e2.rem, hR, List.drop_replicate]
  exact ReadHighbitsLoop_overflow32 fuel s2 15 (m - 15) e2.inv hR2 (by norm_num) (by omega)

theorem ReadHighbits_outcome32 (fuel : Nat) (s : DecoderStrategy) (h : Inv32 s)
    (hz : leadingZeros (remaining32 s) < 2 ^ 31) (hfuel : leadingZeros (remaining32 s) < fuel) :
    ((∀ b ∈ remaining32 s, b = false) →
      ReadHighbits 4 fuel s = .error .InvalidCompressedData) ∧
    ((∃ b ∈ remaining32 s, b = true) →
      ∃ s', ReadHighbits 4 fuel s = .ok ((leadingZeros (remaining32 s) : Int), s') ∧
        Consumed32 (leadingZeros (remaining32 s) + 1) s s') := by
  constructor
  · intro hall
    have e := all_false_eq_replicate _ hall
    have hl : leadingZeros (remaining32 s) = (remaining32 s).length := by
      conv_lhs => rw [e]
      exact leadingZeros_zeros _
    exact ReadHighbits_zeros32 fuel s _ h e (by omega) (by omega)
  · intro hex
    have e := leadingZeros_split _ hex
    obtain ⟨s', a, b, _⟩ := ReadHighbits_total32 fuel s _ _ h e hz (Or.inr (by omega))
    exact ⟨s', a, b⟩

theorem stop_remaining32 (s : DecoderStrategy) (h : Inv32 s) (hst : stopped s) :
    topBits 32 s.readCache s.validBits.toNat = remaining32 s := by
  unfold remaining32
  rw [(stopped_iff32 s h.core).mp hst, List.append_nil]

theorem stop_zero32 (s : DecoderStrategy) (h : Inv32 s) (hst : stopped s) (i : Nat)
    (hv : s.validBits ≤ (i : Int)) (hi : i < 32) : s.readCache.testBit (31 - i) = false :=
  zero_beyond32 s h.core ((stopped_iff32 s h.core).mp hst) i hv hi

theorem stop_cache_zero32 (s : DecoderStrategy) (h : Inv32 s) (hst : stopped s) :
    s.readCache = 0 ↔ ∀ b ∈ remaining32 s, b = false := by
  have hup := (stopped_iff32 s h.core).mp hst
  constructor
  · intro h0 b hb
    rw [← stop_remaining32 s h hst, h0] at hb
    unfold topBits at hb
    rw [List.mem_map] at hb
    obtain ⟨i, _, hi⟩ := hb
    rw [← hi, Nat.zero_testBit]
  · intro hall
    apply Nat.eq_of_testBit_eq
    intro j
    rw [Nat.zero_testBit]
    by_cases hj : j < 32
    · have := padded_getD32 s h (31 - j) (by omega) (Or.inr hup)
      rw [show 31 - (31 - j) = j by omega] at this
      rw [← this]
      exact getD_all_false _ hall _
    · exact Nat.testBit_lt_two_pow (lt_of_lt_of_le h.core.cache_lt
        (Nat.pow_le_pow_right (by norm_num) (by omega)))

theorem stop_endScan32 (s : DecoderStrategy) (h : Inv32 s) (hst : stopped s)
    (hff : byteAt s s.position = JpegMarkerCode_Start) :
    (EndScan 4 s = .ok s ↔ ∀ b ∈ remaining32 s, b = false) ∧
    (¬ (∀ b ∈ remaining32 s, b = false) → EndScan 4 s = .error .TooMuchCompressedData) := by
  rw [EndScan_at_marker32 s hff, ← stop_cache_zero32 s h hst]
  by_cases h0 : s.readCache = 0
  · simp [h0]
  · simp [h0]

theorem stop_makeValid32 (s : DecoderStrategy) (h : Inv32 s) (hst : stopped s)
    (hv : 1 ≤ s.validBits) : MakeValid 4 s = .ok s :=
  MakeValid_at_stop 4 s h.core.raw hst (by
    have := stopped_not_fast32 s h hst
    push_cast
    exact this) (by omega)

theorem stop_peekByte32 (s : DecoderStrategy) (h : Inv32 s) (hst : stopped s)
    (hv : 1 ≤ s.validBits) :
    PeekByte 4 s =
      .ok ((bitsValue ((remaining32 s ++ List.replicate 8 false).take 8) : Int), s) := by
  have hup := (stopped_iff32 s h.core).mp hst
  have hsz : sizeT 4 ((bufType_bit_count 4 : Int) - 8) = ((24 : Nat) : Int) := by
    simp only [sizeT, bufType_bit_count]
    norm_num
  have hsh : ∀ c, shiftRight 4 c ((24 : Nat) : Int) = .ok (c >>> 24) := by
    intro c
    unfold shiftRight bufType_bit_count
    rw [if_pos (by constructor <;> norm_num)]
    simp
  have hval : toInt32 ((s.readCache >>> 24 : Nat) : Int) =
      (bitsValue ((remaining32 s ++ List.replicate 8 false).take 8) : Int) := by
    rw [← topBits_eq_take_padded 32 s.readCache 8 (remaining32 s) (fun i hi => by
      rw [show 32 - 1 - i = 31 - i by omega]
      exact padded_getD32 s h i (by omega) (Or.inr hup)),
      bitsValue_topBits 32 s.readCache 8 (by norm_num) h.core.cache_lt]
    have := shiftRight_lt32 s.readCache 8 h.core.cache_lt (by norm_num)
    exact toInt32_of_lt _ (lt_trans this (by norm_num))
  unfold PeekByte
  by_cases hlt : s.validBits < 8
  · simp only [hlt, if_true, stop_makeValid32 s h hst hv, hsz, hsh, hval]
  · simp only [hlt, if_false, hsz, hsh, hval]

theorem stop_peek0Bits32 (s : DecoderStrategy) (h : Inv32 s) (hst : stopped s)
    (hv : 1 ≤ s.validBits) : Peek0Bits 4 s = .ok (peek0Padded (remaining32 s), s) := by
  have hup := (stopped_iff32 s h.core).mp hst
  have hP : (remaining32 s ++ List.replicate 16 false).take 16 = topBits 32 s.readCache 16 :=
    (topBits_eq_take_padded 32 s.readCache 16 (remaining32 s) (fun i hi => by
      rw [show 32 - 1 - i = 31 - i by omega]
      exact padded_getD32 s h i (by omega) (Or.inr hup))).symm
  have hval : Peek0BitsLoop 4 16 s.readCache 0 = peek0Padded (remaining32 s) := by
    unfold peek0Padded
    rw [hP]
    rcases Peek0BitsLoop_cases32 s.readCache with ⟨hm1, hz⟩ | ⟨j, hj, hcnt, hz, ht⟩
    · rw [hm1, leadingZeros_topBits_none 32 s.readCache 16 (fun i hi => by
        rw [show 32 - 1 - i = 31 - i by omega]; exact hz i hi)]
      simp
    · rw [hcnt, leadingZeros_topBits_found 32 s.readCache 16 j hj (fun i hi => by
        rw [show 32 - 1 - i = 31 - i by omega]; exact hz i hi)
        (by rw [show 32 - 1 - j = 31 - j by omega]; exact ht), if_pos hj]
  unfold Peek0Bits
  by_cases hlt : s.validBits < 16
  · simp only [hlt, if_true, stop_makeValid32 s h hst hv, hval]
  · simp only [hlt, if_false, hval]

theorem fast_bytes32 (s : DecoderStrategy) (h : Inv32 s)
    (hfast : (s.position : Int) < s.nextFFPosition - 3) (i : Nat) (hi : i < 4) :
    s.position + i < s.rawData.length ∧
      byteAt s ((s.position + i : Nat) : Int) = s.rawData.getD (s.position + i) 0 ∧
      s.rawData.getD (s.position + i) 0 ≠ 0xFF := by
  have h1 := h.nff_le
  have hlt : s.position + i < s.rawData.length := by omega
  exact ⟨hlt, byteAt_raw s h.core.raw _ hlt,
    h.nff (s.position + i) (by omega) (by push_cast; omega)⟩

theorem zeros_overflow (N : Nat) (hN : 2 ^ 31 ≤ 8 * N) :
    ∃ s, Init 8 fresh (rawInput (List.replicate N 0)) = .ok s ∧
      destuffed (List.replicate N 0) = List.replicate (8 * N) false ∧
      ∀ fuel, ReadHighbits 8 fuel s = .error .OutOfFuel ∨
        ReadHighbits 8 fuel s = .error .UndefinedBehaviour := by
  have hbytes : ∀ b ∈ (rawInput (List.replicate N 0)).rawData, b < 256 := by
    intro b hb
    have hb' : b ∈ List.replicate N 0 := hb
    rw [List.mem_replicate] at hb'
    omega
  obtain ⟨_, r2⟩ := Init_spec fresh (rawInput (List.replicate N 0)) rfl hbytes
  obtain ⟨s, a, hinv, hrem, _⟩ := r2 (by
    show destuffed (List.replicate N 0) ≠ []
    rw [destuffed_zeros]
    intro h
    have := congrArg List.length h
    simp at this
    omega)
  refine ⟨s, a, destuffed_zeros N, fun fuel => ?_⟩
  exact ReadHighbits_overflow fuel s (8 * N) hinv (by rw [hrem]; exact destuffed_zeros N) hN

/-- C22 (as amended): `ReadHighbits` terminates on a finite raw input whose run of zero bits
at the read position is shorter than `2 ^ 31`.  For a cache of 64 or 32 bits and every
reachable reader state (after `n` consumed bits) in which fewer than `2 ^ 31` zero bits
precede the next 1 bit or the end of the de-stuffed input, `ReadHighbits` (with more fuel
than that number of zero bits) either returns a count or raises `InvalidCompressedData`:
it raises `InvalidCompressedData` when all bits remaining before the end of the input or
the next marker are zero, and otherwise returns the number of zero bits before the next 1
bit and leaves a reachable state. -/
theorem C22_readHighbits_terminates (sz : Nat) (info : ByteStreamInfo) (n : Nat)
    (s : DecoderStrategy) (fuel : Nat) (hraw : RawInput info) (hreach : ReachOf sz info n s)
    (hz : leadingZeros ((destuffed info.rawData).drop n) < 2 ^ 31)
    (hfuel : leadingZeros ((destuffed info.rawData).drop n) < fuel) :
    ((∀ b ∈ (destuffed info.rawData).drop n, b = false) →
      ReadHighbits sz fuel s = .error .InvalidCompressedData) ∧
    ((∃ b ∈ (destuffed info.rawData).drop n, b = true) →
      ∃ s', ReadHighbits sz fuel s =
          .ok ((leadingZeros ((destuffed info.rawData).drop n) : Int), s') ∧
        ReachOf sz info (n + (leadingZeros ((destuffed info.rawData).drop n) + 1)) s') := by
  rcases hreach with ⟨rfl, hr⟩ | ⟨rfl, hr⟩
  · have ht := Reach_tracks info hraw n s hr
    rw [← ht.rem] at hz hfuel ⊢
    obtain ⟨r1, r2⟩ := ReadHighbits_outcome fuel s ht.inv hz hfuel
    refine ⟨r1, fun hex => ?_⟩
    obtain ⟨s', a, _⟩ := r2 hex
    have hr' := Reach.readHighbits n s s' fuel _ hr a
    simp only [Int.toNat_ofNat] at hr'
    exact ⟨s', a, Or.inl ⟨rfl, hr'⟩⟩
  · have ht := Reach_tracks32 info hraw n s hr
    rw [← ht.rem] at hz hfuel ⊢
    obtain ⟨r1, r2⟩ := ReadHighbits_outcome32 fuel s ht.inv hz hfuel
    refine ⟨r1, fun hex => ?_⟩
    obtain ⟨s', a, _⟩ := r2 hex
    have hr' := Reach32.readHighbits n s s' fuel _ hr a
    simp only [Int.toNat_ofNat] at hr'
    exact ⟨s', a, Or.inr ⟨rfl, hr'⟩⟩

theorem C22_readHighbits_terminates_witness :
    ∃ s, ReachOf 8 (rawInput [0, 0, 0x40, 0xAB]) 0 s ∧
      ((∀ b ∈ (destuffed (rawInput [0, 0, 0x40, 0xAB]).rawData).drop 0, b = false) →
        ReadHighbits 8 18 s = .error .InvalidCompressedData) ∧
      ((∃ b ∈ (destuffed (rawInput [0, 0, 0x40, 0xAB]).rawData).drop 0, b = true) →
        ∃ s', ReadHighbits 8 18 s =
            .ok ((leadingZeros ((destuffed (rawInput [0, 0, 0x40, 0xAB]).rawData).drop 0) :
              Int), s') ∧
          ReachOf 8 (rawInput [0, 0, 0x40, 0xAB])
            (0 + (leadingZeros ((destuffed (rawInput [0, 0, 0x40, 0xAB]).rawData).drop 0) + 1))
            s') :=
  ⟨_, Or.inl ⟨rfl, Reach.init fresh _ rfl⟩,
    C22_readHighbits_terminates 8 (rawInput [0, 0, 0x40, 0xAB]) 0 _ 18 ⟨rfl, by decide⟩
      (Or.inl ⟨rfl, Reach.init fresh _ rfl⟩) (by decide) (by decide)⟩

/-- C22 fails as stated on long runs of zeros: on an input of `2 ^ 28` zero bytes all
`2 ^ 31` bits of the stream are zero, and `ReadHighbits` after `Init` does not raise
`InvalidCompressedData`, whatever the fuel: the counter `highbits`, an `int32_t`, overflows
before the end of the input is reached. -/
theorem C22_counterexample :
    ∃ s, Init 8 fresh (rawInput (List.replicate (2 ^ 28) 0)) = .ok s ∧
      destuffed (List.replicate (2 ^ 28) 0) = List.replicate (2 ^ 31) false ∧
      ∀ fuel, ReadHighbits 8 fuel s = .error .OutOfFuel ∨
        ReadHighbits 8 fuel s = .error .UndefinedBehaviour := by
  have h := zeros_overflow (2 ^ 28) (by norm_num)
  rw [show 8 * 2 ^ 28 = 2 ^ 31 by norm_num] at h
  exact h

/-- C23: the valid-bit count invariant.  With a 64-bit cache, in every state that `Init` and
normally returning calls of `ReadValue(k)` (`1 ≤ k ≤ 31`), `ReadBit`, `PeekByte`,
`ReadHighbits` and `ReadLongValue(k)` (`1 ≤ k ≤ 32`) (and of `MakeValid` and `EndScan`) reach
on a raw byte range after `n` consumed bits: `0 ≤ validBits ≤ W`, and the top `validBits`
bits of the cache are exactly the next `validBits` unconsumed bits of the de-stuffed input
(of which at least `validBits` are left). -/
theorem C23_validBits_invariant (info : ByteStreamInfo) (n : Nat) (s : DecoderStrategy)
    (hraw : RawInput info) (hreach : Reach info n s) :
    0 ≤ s.validBits ∧ s.validBits ≤ (bufType_bit_count 8 : Int) ∧
    s.validBits.toNat ≤ (destuffed info.rawData).length - n ∧
    topBits (bufType_bit_count 8) s.readCache s.validBits.toNat =
      ((destuffed info.rawData).drop n).take s.validBits.toNat := by
  have ht := Reach_tracks info hraw n s hreach
  refine ⟨ht.inv.core.vlo, ?_, ?_, ?_⟩
  · have := ht.inv.core.vhi
    unfold bufType_bit_count
    push_cast
    omega
  · have h1 := remaining_length s
    rw [ht.rem, List.length_drop] at h1
    omega
  · rw [← ht.rem]
    exact (remaining_take s s.validBits.toNat (by
      rw [Int.toNat_of_nonneg ht.inv.core.vlo])).symm

theorem C23_validBits_invariant_witness :
    ∃ s, Reach (rawInput [0x12, 0xFF, 0x34, 0x56, 0x78]) 11 s ∧
      0 ≤ s.validBits ∧ s.validBits ≤ (bufType_bit_count 8 : Int) ∧
      s.validBits.toNat ≤ (destuffed (rawInput [0x12, 0xFF, 0x34, 0x56, 0x78]).rawData).length -
        11 ∧
      topBits (bufType_bit_count 8) s.readCache s.validBits.toNat =
        ((destuffed (rawInput [0x12, 0xFF, 0x34, 0x56, 0x78]).rawData).drop 11).take
          s.validBits.toNat := by
  obtain ⟨s0, x, s, hs0, hs⟩ : ∃ s0 x s,
      Init 8 fresh (rawInput [0x12, 0xFF, 0x34, 0x56, 0x78]) = .ok s0 ∧
      ReadValue 8 s0 ((11 : Nat) : Int) = .ok (x, s) := ⟨_, _, _, rfl, rfl⟩
  have hr : Reach (rawInput [0x12, 0xFF, 0x34, 0x56, 0x78]) (0 + 11) s :=
    Reach.readValue 0 s0 s 11 x (Reach.init fresh s0 hs0) (by norm_num) (by norm_num) hs
  exact ⟨s, hr, C23_validBits_invariant _ 11 s ⟨rfl, by decide⟩ hr⟩

/-- C24: fast-path read safety.  In every reader state reachable from `Init` on a raw byte
range (cache of 64 or 32 bits), `nextFFPosition ≤ endPosition` (the length of the input), and
no `0xFF` byte lies at any index in `[position, nextFFPosition)`; therefore, whenever the
fast-path condition of `OptimizedRead` holds (as it does whenever `OptimizedRead` returns
true), all `W / 8` bytes that it reads lie inside the input and none of them is `0xFF`. -/
theorem C24_fast_path_safety (sz : Nat) (info : ByteStreamInfo) (n : Nat) (s : DecoderStrategy)
    (hraw : RawInput info) (hreach : ReachOf sz info n s) :
    s.nextFFPosition ≤ (s.endPosition : Int) ∧ s.endPosition = info.rawData.length ∧
    (∀ i : Nat, s.position ≤ i → (i : Int) < s.nextFFPosition → byteAt s (i : Int) ≠ 0xFF) ∧
    ((s.position : Int) < s.nextFFPosition - ((sz : Int) - 1) →
      ∀ i : Nat, i < sz → s.position + i < info.rawData.length ∧
        byteAt s ((s.position + i : Nat) : Int) = info.rawData.getD (s.position + i) 0 ∧
        byteAt s ((s.position + i : Nat) : Int) ≠ 0xFF) ∧
    (∀ s', OptimizedRead sz s = .ok (true, s') →
      (s.position : Int) < s.nextFFPosition - ((sz : Int) - 1)) := by
  have hlast : ∀ s', OptimizedRead sz s = .ok (true, s') →
      (s.position : Int) < s.nextFFPosition - ((sz : Int) - 1) := by
    intro s' hok
    by_contra hc
    rw [OptimizedRead_false sz s hc] at hok
    simp at hok
  rcases hreach with ⟨rfl, hr⟩ | ⟨rfl, hr⟩
  · have ht := Reach_tracks info hraw n s hr
    have hle := ht.inv.nff_le
    refine ⟨by rw [ht.inv.core.endp]; exact hle, by rw [ht.inv.core.endp, ht.data], ?_, ?_,
      hlast⟩
    · intro i h1 h2
      rw [byteAt_raw s ht.inv.core.raw i (by omega)]
      exact ht.inv.nff i h1 h2
    · intro hfast i hi
      obtain ⟨a, b, c⟩ := fast_bytes s ht.inv (by push_cast at hfast; omega) i hi
      rw [ht.data] at a b
      exact ⟨a, b, by rw [b, ← ht.data]; exact c⟩
  · have ht := Reach_tracks32 info hraw n s hr
    have hle := ht.inv.nff_le
    refine ⟨by rw [ht.inv.core.endp]; exact hle, by rw [ht.inv.core.endp, ht.data], ?_, ?_,
      hlast⟩
    · intro i h1 h2
      rw [byteAt_raw s ht.inv.core.raw i (by omega)]
      exact ht.inv.nff i h1 h2
    · intro hfast i hi
      obtain ⟨a, b, c⟩ := fast_bytes32 s ht.inv (by push_cast at hfast; omega) i hi
      rw [ht.data] at a b
      exact ⟨a, b, by rw [b, ← ht.data]; exact c⟩

theorem C24_fast_path_safety_witness :
    ∃ s, ReachOf 4 (rawInput [1, 2, 3, 4, 5, 6, 7, 8, 9, 0xFF, 0x7F, 10]) 0 s ∧
      (s.position : Int) < s.nextFFPosition - (((4 : Nat) : Int) - 1) ∧
      s.nextFFPosition ≤ (s.endPosition : Int) ∧
      s.endPosition = (rawInput [1, 2, 3, 4, 5, 6, 7, 8, 9, 0xFF, 0x7F, 10]).rawData.length ∧
      (∀ i : Nat, s.position ≤ i → (i : Int) < s.nextFFPosition → byteAt s (i : Int) ≠ 0xFF) ∧
      ((s.position : Int) < s.nextFFPosition - (((4 : Nat) : Int) - 1) →
        ∀ i : Nat, i < 4 → s.position + i <
            (rawInput [1, 2, 3, 4, 5, 6, 7, 8, 9, 0xFF, 0x7F, 10]).rawData.length ∧
          byteAt s ((s.position + i : Nat) : Int) =
            (rawInput [1, 2, 3, 4, 5, 6, 7, 8, 9, 0xFF, 0x7F, 10]).rawData.getD
              (s.position + i) 0 ∧
          byteAt s ((s.position + i : Nat) : Int) ≠ 0xFF) ∧
      (∀ s', OptimizedRead 4 s = .ok (true, s') →
        (s.position : Int) < s.nextFFPosition - (((4 : Nat) : Int) - 1)) := by
  obtain ⟨s, hs, hfast⟩ : ∃ s,
      Init 4 fresh (rawInput [1, 2, 3, 4, 5, 6, 7, 8, 9, 0xFF, 0x7F, 10]) = .ok s ∧
      (s.position : Int) < s.nextFFPosition - (((4 : Nat) : Int) - 1) :=
    ⟨_, rfl, by decide⟩
  have hr : ReachOf 4 (rawInput [1, 2, 3, 4, 5, 6, 7, 8, 9, 0xFF, 0x7F, 10]) 0 s :=
    Or.inr ⟨rfl, Reach32.init fresh s hs⟩
  exact ⟨s, hr, hfast, C24_fast_path_safety 4 _ 0 s ⟨rfl, by decide⟩ hr⟩

/-- C27: zero padding beyond the valid bits at a stop.  In every reader state reachable from
`Init` on a raw byte range (cache of 64 or 32 bits, `n` bits consumed) in which the refill
stops (`_position` is at the end of the input or at a marker): every cache bit below the top
`validBits` bits is zero, and these top bits are all the unconsumed bits of the de-stuffed
input.  Consequently the cache is zero exactly when all unconsumed bits are zero, so that at
a marker `EndScan` returns normally exactly then (and raises `TooMuchCompressedData`
otherwise); and with at least one valid bit `MakeValid` returns at once, `PeekByte` returns
the first 8 and `Peek0Bits` counts the zeros among the first 16 of the remaining bits followed
by zeros. -/
theorem C27_zero_padding (sz : Nat) (info : ByteStreamInfo) (n : Nat) (s : DecoderStrategy)
    (hraw : RawInput info) (hreach : ReachOf sz info n s) (hst : stopped s) :
    (∀ i : Nat, s.validBits ≤ (i : Int) → i < bufType_bit_count sz →
      s.readCache.testBit (bufType_bit_count sz - 1 - i) = false) ∧
    topBits (bufType_bit_count sz) s.readCache s.validBits.toNat =
      (destuffed info.rawData).drop n ∧
    (s.readCache = 0 ↔ ∀ b ∈ (destuffed info.rawData).drop n, b = false) ∧
    (byteAt s s.position = JpegMarkerCode_Start →
      (EndScan sz s = .ok s ↔ ∀ b ∈ (destuffed info.rawData).drop n, b = false) ∧
      (¬ (∀ b ∈ (destuffed info.rawData).drop n, b = false) →
        EndScan sz s = .error .TooMuchCompressedData)) ∧
    (1 ≤ s.validBits → MakeValid sz s = .ok s) ∧
    (1 ≤ s.validBits → PeekByte sz s =
      .ok ((bitsValue (((destuffed info.rawData).drop n ++ List.replicate 8 false).take 8) :
        Int), s)) ∧
    (1 ≤ s.validBits → Peek0Bits sz s = .ok (peek0Padded ((destuffed info.rawData).drop n), s)) := by
  rcases hreach with ⟨rfl, hr⟩ | ⟨rfl, hr⟩
  · have ht := Reach_tracks info hraw n s hr
    rw [← ht.rem]
    exact ⟨fun i hv hi => stop_zero s ht.inv hst i hv hi, stop_remaining s ht.inv hst,
      stop_cache_zero s ht.inv hst, stop_endScan s ht.inv hst, stop_makeValid s ht.inv hst,
      stop_peekByte s ht.inv hst, stop_peek0Bits s ht.inv hst⟩
  · have ht := Reach_tracks32 info hraw n s hr
    rw [← ht.rem]
    exact ⟨fun i hv hi => stop_zero32 s ht.inv hst i hv hi, stop_remaining32 s ht.inv hst,
      stop_cache_zero32 s ht.inv hst, stop_endScan32 s ht.inv hst, stop_makeValid32 s ht.inv hst,
      stop_peekByte32 s ht.inv hst, stop_peek0Bits32 s ht.inv hst⟩

theorem C27_zero_padding_witness :
    ∃ s, ReachOf 8 (rawInput [0x12, 0x34, 0xFF, 0xD9]) 11 s ∧ stopped s ∧
      (∀ i : Nat, s.validBits ≤ (i : Int) → i < bufType_bit_count 8 →
        s.readCache.testBit (bufType_bit_count 8 - 1 - i) = false) ∧
      topBits (bufType_bit_count 8) s.readCache s.validBits.toNat =
        (destuffed (rawInput [0x12, 0x34, 0xFF, 0xD9]).rawData).drop 11 ∧
      (s.readCache = 0 ↔
        ∀ b ∈ (destuffed (rawInput [0x12, 0x34, 0xFF, 0xD9]).rawData).drop 11, b = false) ∧
      (byteAt s s.position = JpegMarkerCode_Start →
        (EndScan 8 s = .ok s ↔
          ∀ b ∈ (destuffed (rawInput [0x12, 0x34, 0xFF, 0xD9]).rawData).drop 11, b = false) ∧
        (¬ (∀ b ∈ (destuffed (rawInput [0x12, 0x34, 0xFF, 0xD9]).rawData).drop 11, b = false) →
          EndScan 8 s = .error .TooMuchCompressedData)) ∧
      (1 ≤ s.validBits → MakeValid 8 s = .ok s) ∧
      (1 ≤ s.validBits → PeekByte 8 s =
        .ok ((bitsValue (((destuffed (rawInput [0x12, 0x34, 0xFF, 0xD9]).rawData).drop 11 ++
          List.replicate 8 false).take 8) : Int), s)) ∧
      (1 ≤ s.validBits → Peek0Bits 8 s =
        .ok (peek0Padded ((destuffed (rawInput [0x12, 0x34, 0xFF, 0xD9]).rawData).drop 11),
          s)) := by
  obtain ⟨s0, x, s, hs0, hs, hst⟩ : ∃ s0 x s,
      Init 8 fresh (rawInput [0x12, 0x34, 0xFF, 0xD9]) = .ok s0 ∧
      ReadValue 8 s0 ((11 : Nat) : Int) = .ok (x, s) ∧ stopped s :=
    ⟨_, _, _, rfl, rfl, by decide⟩
  have hr : ReachOf 8 (rawInput [0x12, 0x34, 0xFF, 0xD9]) (0 + 11) s :=
    Or.inl ⟨rfl, Reach.readValue 0 s0 s 11 x (Reach.init fresh s0 hs0) (by norm_num)
      (by norm_num) hs⟩
  exact ⟨s, hr, hst, C27_zero_padding 8 _ 11 s ⟨rfl, by decide⟩ hr hst⟩

theorem read_line_values_inv (fuel : Nat) : ∀ (line : IStream) (read_values : List Int),
    (∀ v ∈ read_values, 0 < v) → read_values.length ≤ 4 →
    (∀ v ∈ read_line_values fuel line read_values, 0 < v) ∧
      (read_line_values fuel line read_values).length ≤ 4 := by
  induction fuel with
  | zero => intro line rv h1 h2; exact ⟨h1, h2⟩
  | succ fuel ih =>
    intro line rv h1 h2
    rw [read_line_values]
    by_cases hlt : rv.length < 4
    · rw [if_pos hlt]
      by_cases hv : (extract_int line (-1)).1 ≤ 0
      · simp only [hv, if_true]
        exact ⟨h1, h2⟩
      · simp only [hv, if_false]
        apply ih
        · intro v hmem
          rw [List.mem_append, List.mem_singleton] at hmem
          rcases hmem with hmem | rfl
          · exact h1 v hmem
          · omega
        · rw [List.length_append, List.length_singleton]
          omega
    · rw [if_neg hlt]
      exact ⟨h1, h2⟩

theorem read_pnm_header_loop_inv (fuel : Nat) :
    ∀ (f : IStream) (read_values r : List Int) (f' : IStream),
    read_pnm_header_loop fuel f read_values = .ok (r, f') →
    (∀ v ∈ read_values, 0 < v) → read_values.length ≤ 4 →
    r.length = 4 ∧ ∀ v ∈ r, 0 < v := by
  induction fuel with
  | zero =>
    intro f rv r f' hok
    rw [read_pnm_header_loop] at hok
    simp at hok
  | succ fuel ih =>
    intro f rv r f' hok h1 h2
    rw [read_pnm_header_loop] at hok
    by_cases hlt : rv.length < 4
    · rw [if_pos hlt] at hok
      obtain ⟨a, b⟩ := read_line_values_inv 4 (streamOf (getline f).1) rv h1 h2
      exact ih _ _ r f' hok a b
    · rw [if_neg hlt] at hok
      simp only [Except.ok.injEq, Prod.mk.injEq] at hok
      obtain ⟨rfl, _⟩ := hok
      exact ⟨by omega, h1⟩

theorem read_line_values_empty (read_values : List Int) :
    read_line_values 4 (streamOf []) read_values = read_values := by
  rw [read_line_values]
  by_cases hlt : read_values.length < 4
  · rw [if_pos hlt]
    rfl
  · rw [if_neg hlt]

theorem read_pnm_header_loop_dead (fuel : Nat) : ∀ (f : IStream) (read_values : List Int),
    f.good = false → read_values.length < 4 →
    read_pnm_header_loop fuel f read_values = .error .OutOfFuel := by
  induction fuel with
  | zero => intro f rv _ _; rfl
  | succ fuel ih =>
    intro f rv hg hlt
    rw [read_pnm_header_loop, if_pos hlt]
    have e : getline f = ([], { f with failbit := true }) := by
      unfold getline
      rw [hg]
      rfl
    rw [e]
    simp only
    rw [read_line_values_empty]
    exact ih _ rv (by simp [IStream.good]) hlt

/-- C25 (code bug): `compare_pnm` compares only the first `width * height` bytes of the pixel
data of the two files.  On two P5 files of 2 x 1 samples of 2 bytes (header `P5\n2 1\n65535\n`)
whose data `00 00 00 00` and `00 00 00 01` differ in the second sample, and on two P6 files of
1 x 1 pixels of 3 components (header `P6\n1 1\n255\n`) whose data `00 00 00` and `00 00 01`
differ in the third component, it returns true; a difference in the first sample (data
`00 00 00 00` and `00 01 00 00`) makes it return false. -/
theorem C25_compare_pnm_misses_difference :
    compare_pnm 4 (streamOf ([80, 53, 10, 50, 32, 49, 10, 54, 53, 53, 51, 53, 10] ++ [0, 0, 0, 0]))
      (streamOf ([80, 53, 10, 50, 32, 49, 10, 54, 53, 53, 51, 53, 10] ++ [0, 0, 0, 1])) =
        .ok true ∧
    compare_pnm 4 (streamOf ([80, 54, 10, 49, 32, 49, 10, 50, 53, 53, 10] ++ [0, 0, 0]))
      (streamOf ([80, 54, 10, 49, 32, 49, 10, 50, 53, 53, 10] ++ [0, 0, 1])) = .ok true ∧
    compare_pnm 4 (streamOf ([80, 53, 10, 50, 32, 49, 10, 54, 53, 53, 51, 53, 10] ++ [0, 0, 0, 0]))
      (streamOf ([80, 53, 10, 50, 32, 49, 10, 54, 53, 53, 51, 53, 10] ++ [0, 1, 0, 0])) =
        .ok false :=
  ⟨rfl, rfl, rfl⟩

/-- C26 (code bug): `read_pnm_header` does not terminate on a truncated header.  On the stream
`P5\n` the model runs out of fuel whatever the fuel, and so does the loop of `read_pnm_header`
from every stream that is no longer good while fewer than 4 values have been read: `getline`
then delivers an empty line again and again.  Whenever `read_pnm_header` does return, it
returns the empty list or exactly four strictly positive integers. -/
theorem C26_read_pnm_header_truncated :
    (∀ fuel, read_pnm_header fuel (streamOf [80, 53, 10]) = .error .OutOfFuel) ∧
    (∀ fuel f read_values, IStream.good f = false → List.length read_values < 4 →
      read_pnm_header_loop fuel f read_values = .error .OutOfFuel) ∧
    (∀ fuel f r f', read_pnm_header fuel f = .ok (r, f') →
      r = [] ∨ (r.length = 4 ∧ ∀ v ∈ r, 0 < v)) := by
  refine ⟨fun fuel => ?_, fun fuel f rv => read_pnm_header_loop_dead fuel f rv, ?_⟩
  · have e0 : read_pnm_header fuel (streamOf [80, 53, 10]) =
        read_pnm_header_loop fuel (streamOf [53, 10]) [] := rfl
    rw [e0]
    cases fuel with
    | zero => rfl
    | succ fuel =>
      have e1 : read_pnm_header_loop (fuel + 1) (streamOf [53, 10]) [] =
          read_pnm_header_loop fuel (streamOf []) [5] := rfl
      rw [e1]
      cases fuel with
      | zero => rfl
      | succ fuel =>
        have e2 : read_pnm_header_loop (fuel + 1) (streamOf []) [5] =
            read_pnm_header_loop fuel { chars := [], eofbit := true, failbit := true } [5] := rfl
        rw [e2]
        exact read_pnm_header_loop_dead fuel _ _ rfl (by decide)
  · intro fuel f r f' hok
    unfold read_pnm_header at hok
    generalize istream_get f = p at hok
    obtain ⟨first, f1⟩ := p
    simp only at hok
    by_cases hP : first % 256 ≠ 80
    · rw [if_pos hP] at hok
      simp only [Except.ok.injEq, Prod.mk.injEq] at hok
      exact Or.inl hok.1.symm
    · rw [if_neg hP] at hok
      exact Or.inr (read_pnm_header_loop_inv fuel _ [] r f' hok (by simp) (by simp))

end charls
